import Mathlib

/-! # A verification development for the staged pipeline core

Shallow embedding of `src/hpp/uniquebuffer.hpp`, `src/hpp/operator.hpp`,
`src/hpp/opsexecuter.hpp` and of the test operators in `test/classdefs.hpp`.

Conventions of the embedding.

* A `unique_ptr<T>` is the handle of the cell it owns.  `UniqueBuffer` is
  polymorphic in the handle type `α`, so that the same definitions serve when
  a handle is a heap address and when it is identified with its payload.
* A call that blocks on a condition variable is a partial function: `none`
  means that the wait predicate is false, so that the call does not complete
  in that state; `some` gives the state on return.
* Mutexes and the notification calls have no state of their own in the
  embedding of the stages: every member function is one atomic transition
  there, and a call that waits can return whenever its predicate holds.  What
  this leaves out, a notification that is issued without the mutex and that
  the waiting thread misses, is the subject of the section on the wait of
  `Step` mode further down, where the mutex, the suspension of the thread and
  the statements of `stop()` are state.
-/

namespace parallelOperators

/-! ## `uniquebuffer.hpp` -/

/-- State of a `UniqueBuffer<T>`: the owned cell `_buffer` and the three
atomic flags.  The diagnostic name, the mutex and the condition variable are
left out. -/
structure UniqueBuffer (α : Type) where
  _buffer : α
  _bufferAvailable : Bool
  _dataRefreshed : Bool
  _ending : Bool
deriving DecidableEq, Repr

namespace UniqueBuffer

variable {α : Type}

/-- The constructor `UniqueBuffer(bname)`: `c` is the cell made by
`make_unique<T>()`; the flags take their in-class initialisers. -/
def new (c : α) : UniqueBuffer α :=
  { _buffer := c, _bufferAvailable := true, _dataRefreshed := false, _ending := false }

/-- The wait predicate of `receive`: `_dataRefreshed || _ending`. -/
def receiveReady (b : UniqueBuffer α) : Bool := b._dataRefreshed || b._ending

/-- The wait predicate of `send`: `_bufferAvailable || _ending`. -/
def sendReady (b : UniqueBuffer α) : Bool := b._bufferAvailable || b._ending

/-- `receive(data_ptr)`: once the wait predicate holds, swap the cells when
`_dataRefreshed` is set, then set `_bufferAvailable` and clear
`_dataRefreshed`.  The result is the buffer and the caller's `data_ptr`. -/
def receive (b : UniqueBuffer α) (data_ptr : α) : Option (UniqueBuffer α × α) :=
  if b._dataRefreshed || b._ending then
    let swapped : α × α :=
      if b._dataRefreshed then (data_ptr, b._buffer) else (b._buffer, data_ptr)
    some ({ b with _buffer := swapped.1, _bufferAvailable := true, _dataRefreshed := false },
          swapped.2)
  else none

/-- `send(data_ptr)`: once the wait predicate holds, swap the cells when
`_bufferAvailable` is set, then clear `_bufferAvailable` and set
`_dataRefreshed`.  The result is the buffer and the caller's `data_ptr`. -/
def send (b : UniqueBuffer α) (data_ptr : α) : Option (UniqueBuffer α × α) :=
  if b._bufferAvailable || b._ending then
    let swapped : α × α :=
      if b._bufferAvailable then (data_ptr, b._buffer) else (b._buffer, data_ptr)
    some ({ b with _buffer := swapped.1, _bufferAvailable := false, _dataRefreshed := true },
          swapped.2)
  else none

/-- `releaseAll()`: set `_ending`. -/
def releaseAll (b : UniqueBuffer α) : UniqueBuffer α :=
  { b with _ending := true }

end UniqueBuffer

/-- One completed call on a buffer, with the cell the caller brings. -/
inductive BufferCall (α : Type) where
  | send (data_ptr : α)
  | receive (data_ptr : α)
  | releaseAll
deriving DecidableEq, Repr

/-- A buffer together with the history of one edge: the cells handed to the
completed `send` calls and the cells the completed `receive` calls returned
with, oldest first. -/
structure Edge (α : Type) where
  buffer : UniqueBuffer α
  deposited : List α
  obtained : List α
deriving DecidableEq, Repr

namespace Edge

variable {α : Type}

/-- The edge of a buffer with an empty history. -/
def start (b : UniqueBuffer α) : Edge α :=
  { buffer := b, deposited := [], obtained := [] }

/-- Perform one call; `none` when the call blocks. -/
def call (e : Edge α) : BufferCall α → Option (Edge α)
  | .send x =>
    match e.buffer.send x with
    | some (b, _) => some { e with buffer := b, deposited := e.deposited ++ [x] }
    | none => none
  | .receive y =>
    match e.buffer.receive y with
    | some (b, got) => some { e with buffer := b, obtained := e.obtained ++ [got] }
    | none => none
  | .releaseAll => some { e with buffer := e.buffer.releaseAll }

/-- Perform a sequence of calls, each of which has to complete. -/
def run (e : Edge α) : List (BufferCall α) → Option (Edge α)
  | [] => some e
  | c :: cs =>
    match e.call c with
    | some e1 => run e1 cs
    | none => none

end Edge

/-- Sends and receives alternate; the flag tells whether a send is due. -/
def alternates {α : Type} : Bool → List (BufferCall α) → Prop
  | _, [] => True
  | true, .send _ :: cs => alternates false cs
  | false, .receive _ :: cs => alternates true cs
  | _, _ => False

/-- Relation between the flags and the history of an edge whose buffer has
not been terminated: either the slot is available and everything deposited
has been obtained, or the slot is filled and the resident cell is the one
deposited last. -/
def Edge.Consistent {α : Type} (e : Edge α) : Prop :=
  e.buffer._ending = false ∧
  ((e.buffer._bufferAvailable = true ∧ e.buffer._dataRefreshed = false ∧
      e.deposited = e.obtained) ∨
   (e.buffer._bufferAvailable = false ∧ e.buffer._dataRefreshed = true ∧
      e.deposited = e.obtained ++ [e.buffer._buffer]))

/-! ## `operator.hpp` and `opsexecuter.hpp`: the stage executers

A cell of the free store is named by its address.  What the cells hold and
what the operator objects look like is the business of the operators; the
executers only hand addresses around.  They are therefore embedded over an
arbitrary type `W` of worlds (cell contents and operator objects) together
with the four ways in which executer code touches the world.
-/

/-- Address of a cell of the free store (the value of a `T*` or of a
`unique_ptr<T>`). -/
abbrev Addr := Nat

/-- `enum OperationStatus`. -/
inductive OperationStatus where
  | running
  | complete
  | error
deriving DecidableEq, Repr

/-- `enum ExecutionMode`. -/
inductive ExecutionMode where
  | Step
  | Continuous
deriving DecidableEq, Repr

/-- The executer-facing side of the operators.  An operator is named by its
index `op` (the value of a `BaseOperator*`).
* `operation op w` is the virtual call `op->operation()`; `none` stands for
  undefined behaviour such as reading through a null slot pointer.
* `writeInput op a w` is the assignment `*p = a` through the pointer
  `p = op->inputAddress()`, and `writeOutput` likewise for `outputAddress()`.
* `make_unique w` allocates a value-initialised cell. -/
structure OperatorTable (W : Type) where
  operation : Nat → W → Option (W × OperationStatus)
  writeInput : Nat → Addr → W → W
  writeOutput : Nat → Addr → W → W
  make_unique : W → Addr × W

/-- The three executer classes.  Their `_execute` bodies differ only in the
sides they have, so one embedding with this tag serves the three. -/
inductive ExecuterKind where
  | SourceExecuter
  | OperatorExecuter
  | SinkExecuter
deriving DecidableEq, Repr

/-- Whether the class has `_inputPort`, `_inputBuffer` and `_opInput`. -/
def ExecuterKind.hasInput : ExecuterKind → Bool
  | .SourceExecuter => false
  | .OperatorExecuter => true
  | .SinkExecuter => true

/-- Whether the class has `_outputPort`, `_outputBuffer` and `_opOutput`. -/
def ExecuterKind.hasOutput : ExecuterKind → Bool
  | .SourceExecuter => true
  | .OperatorExecuter => true
  | .SinkExecuter => false

/-- Where the thread of an executer stands in `_execute`. -/
inductive Location where
  /-- `startThread()` has not been called. -/
  | notStarted
  /-- At the loop condition `while (!_ending.load())`. -/
  | loopTest
  /-- Holding `uLock`, at `if ((_executionMode == Step) && (!_ending.load()))`. -/
  | locked
  /-- Inside `_condition.wait(uLock, ...)`. -/
  | waiting
  /-- After `uLock.unlock()`, at `if (!_ending.load())`. -/
  | endingTest
  /-- At `input()->receive(_inputBuffer)`. -/
  | receiving
  /-- At the slot assignments, the operator loop and the completion test. -/
  | operating
  /-- At `output()->send(_outputBuffer)`. -/
  | sending
  /-- After `exitPromise.set_value()`. -/
  | finished
deriving DecidableEq, Repr

/-- What the thread has done, for the record kept in `Executer.log`. -/
inductive Event where
  /-- A `receive` on the input port returned; `cell` is `_inputBuffer` after it. -/
  | receive (cell : Addr)
  /-- `op->operation()` was invoked and returned. -/
  | operation (op : Nat)
  /-- `send` was called on the output port with `_outputBuffer = cell` and returned. -/
  | send (cell : Addr)
deriving DecidableEq, Repr

/-- State of an executer: the members of `BaseExecuter` and of the derived
class (a port is the index of its buffer in `Shared.buffers`, `none` for
`nullptr`; `_opInput`/`_opOutput` name the operator whose slot pointer they
point to, `none` while unset), the location of the thread, and the record of
what the thread has done.  The record is not a member of the source class; no
transition reads it. -/
structure Executer where
  kind : ExecuterKind
  operators : List Nat
  _executionMode : ExecutionMode
  _message : Option ExecutionMode
  _ending : Bool
  _newMessage : Bool
  _opStatus : OperationStatus
  _opInput : Option Nat
  _opOutput : Option Nat
  _inputPort : Option Nat
  _outputPort : Option Nat
  _inputBuffer : Addr
  _outputBuffer : Addr
  pc : Location
  log : List Event
deriving DecidableEq, Repr

/-- What executers share: the world of cells and operator objects, and every
`UniqueBuffer` made so far (a `shared_ptr<UniqueBuffer<T>>` is an index into
this list). -/
structure Shared (W : Type) where
  world : W
  buffers : List (UniqueBuffer Addr)
deriving DecidableEq

namespace Shared

variable {W : Type}

/-- `make_shared<UniqueBuffer<T>>(name)`: a new buffer around a new cell; the
result is its handle. -/
def make_shared (ops : OperatorTable W) (s : Shared W) : Nat × Shared W :=
  (s.buffers.length,
   { world := (ops.make_unique s.world).2,
     buffers := s.buffers ++ [UniqueBuffer.new (ops.make_unique s.world).1] })

/-- `port->releaseAll()`. -/
def releaseAll (s : Shared W) (port : Nat) : Shared W :=
  match s.buffers[port]? with
  | some b => { s with buffers := s.buffers.set port b.releaseAll }
  | none => s

end Shared

namespace Executer

variable {W : Type}

/-- The constructors: `in_cell` and `out_cell` are the cells made for
`_inputBuffer` and `_outputBuffer`. -/
def new (kind : ExecuterKind) (in_cell out_cell : Addr) : Executer :=
  { kind := kind, operators := [], _executionMode := .Step, _message := none,
    _ending := false, _newMessage := false, _opStatus := .running,
    _opInput := none, _opOutput := none, _inputPort := none, _outputPort := none,
    _inputBuffer := in_cell, _outputBuffer := out_cell, pc := .notStarted, log := [] }

/-- `send(msg)`. -/
def send (e : Executer) (msg : ExecutionMode) : Executer :=
  { e with _message := some msg, _executionMode := msg, _newMessage := true }

/-- `addOperator(op)`. -/
def addOperator (e : Executer) (op : Nat) : Executer :=
  { e with operators := e.operators ++ [op] }

/-- `startThread()`. -/
def startThread (e : Executer) : Executer :=
  { e with pc := .loopTest }

/-- `opInput(inp)`. -/
def opInput (e : Executer) (inp : Nat) : Executer :=
  { e with _opInput := some inp }

/-- `opOutput(outp)`. -/
def opOutput (e : Executer) (outp : Nat) : Executer :=
  { e with _opOutput := some outp }

/-- `input()`: the input port, made on first use. -/
def input (ops : OperatorTable W) (s : Shared W) (e : Executer) :
    Nat × Shared W × Executer :=
  match e._inputPort with
  | some port => (port, s, e)
  | none => ((s.make_shared ops).1, (s.make_shared ops).2,
             { e with _inputPort := some (s.make_shared ops).1 })

/-- `output()`: the output port, made on first use. -/
def output (ops : OperatorTable W) (s : Shared W) (e : Executer) :
    Nat × Shared W × Executer :=
  match e._outputPort with
  | some port => (port, s, e)
  | none => ((s.make_shared ops).1, (s.make_shared ops).2,
             { e with _outputPort := some (s.make_shared ops).1 })

/-- `input(inp)`: adopt the neighbour's buffer unless `inp` is null. -/
def attachInput (e : Executer) (inp : Option Nat) : Executer :=
  match inp with
  | some port => { e with _inputPort := some port }
  | none => e

/-- `output(outp)`: adopt the neighbour's buffer unless `outp` is null. -/
def attachOutput (e : Executer) (outp : Option Nat) : Executer :=
  match outp with
  | some port => { e with _outputPort := some port }
  | none => e

/-- `_terminateInputOutput()` of the three classes. -/
def _terminateInputOutput (ops : OperatorTable W) (s : Shared W) (e : Executer) :
    Shared W × Executer :=
  match e.kind with
  | .OperatorExecuter =>
    let i := e.input ops s
    let o := i.2.2.output ops (i.2.1.releaseAll i.1)
    (o.2.1.releaseAll o.1, o.2.2)
  | .SourceExecuter =>
    let o := e.output ops s
    (o.2.1.releaseAll o.1, o.2.2)
  | .SinkExecuter =>
    let i := e.input ops s
    (i.2.1.releaseAll i.1, i.2.2)

/-- `stop()` as one transition: `_ending.store(true)` and
`_terminateInputOutput()`.  The two statements in between act on `_mutex` and
`_condition` only; `Monitor.stop` has the four of them one by one. -/
def stop (ops : OperatorTable W) (s : Shared W) (e : Executer) : Shared W × Executer :=
  _terminateInputOutput ops s { e with _ending := true }

/-- The loop `for (auto op : operators)` of `_execute`: invoke the operators
in order, setting `_opStatus` to `complete` whenever one returns `complete`.
The result is the world and `_opStatus` after the loop. -/
def runOperators (ops : OperatorTable W) :
    List Nat → W → OperationStatus → Option (W × OperationStatus)
  | [], w, opStatus => some (w, opStatus)
  | op :: rest, w, opStatus =>
    match ops.operation op w with
    | none => none
    | some (w1, opStat) =>
      runOperators ops rest w1 (if opStat = .complete then .complete else opStatus)

/-- The assignments `*_opInput = _inputBuffer.get()` and
`*_opOutput = _outputBuffer.get()`, each for the classes that have the side.
`none` when the pointer in question was never set. -/
def bindSlots (ops : OperatorTable W) (e : Executer) (w : W) : Option W :=
  let afterInput : Option W :=
    if e.kind.hasInput then
      match e._opInput with
      | some op => some (ops.writeInput op e._inputBuffer w)
      | none => none
    else some w
  match afterInput with
  | none => none
  | some w1 =>
    if e.kind.hasOutput then
      match e._opOutput with
      | some op => some (ops.writeOutput op e._outputBuffer w1)
      | none => none
    else some w1

/-- One transition of the thread running `_execute`.  `none`: the thread
cannot move (not started, finished, blocked in a wait, or undefined
behaviour).  The wait of `Step` mode is one transition, enabled whenever its
predicate holds; `Monitor.thread` has the steps inside it. -/
def _execute (ops : OperatorTable W) (s : Shared W) (e : Executer) :
    Option (Shared W × Executer) :=
  match e.pc with
  | .notStarted => none
  | .loopTest =>
    if e._ending then some (s, { e with pc := .finished })
    else some (s, { e with pc := .locked })
  | .locked =>
    if e._executionMode = .Step ∧ e._ending = false then some (s, { e with pc := .waiting })
    else some (s, { e with pc := .endingTest })
  | .waiting =>
    if e._newMessage || e._ending then
      some (s, { e with _newMessage := false, pc := .endingTest })
    else none
  | .endingTest =>
    if e._ending then some (s, { e with pc := .loopTest })
    else if e.kind.hasInput then some (s, { e with pc := .receiving })
    else some (s, { e with pc := .operating })
  | .receiving =>
    match e._inputPort with
    | none => some ((e.input ops s).2.1, (e.input ops s).2.2)
    | some port =>
      match s.buffers[port]? with
      | none => none
      | some b =>
        match b.receive e._inputBuffer with
        | none => none
        | some (b1, cell) =>
          some ({ s with buffers := s.buffers.set port b1 },
                { e with _inputBuffer := cell, pc := .operating,
                         log := e.log ++ [.receive cell] })
  | .operating =>
    match bindSlots ops e s.world with
    | none => none
    | some w =>
      match runOperators ops e.operators w e._opStatus with
      | none => none
      | some (w1, opStatus) =>
        some ({ s with world := w1 },
              { e with _opStatus := opStatus,
                       _ending := if opStatus = .complete then true else e._ending,
                       pc := if e.kind.hasOutput then .sending else .loopTest,
                       log := e.log ++ e.operators.map .operation })
  | .sending =>
    match e._outputPort with
    | none => some ((e.output ops s).2.1, (e.output ops s).2.2)
    | some port =>
      match s.buffers[port]? with
      | none => none
      | some b =>
        match b.send e._outputBuffer with
        | none => none
        | some (b1, cell) =>
          some ({ s with buffers := s.buffers.set port b1 },
                { e with _outputBuffer := cell, pc := .loopTest,
                         log := e.log ++ [.send e._outputBuffer] })
  | .finished => none

end Executer

/-- What can happen to a stage: a transition of its own thread, a call by
its owner, or a call by a neighbour (or the client) on one of the buffers or
on the cells that neighbour owns. -/
inductive Action (W : Type) where
  | thread
  | send (msg : ExecutionMode)
  | stop
  | startThread
  | peerSend (port : Nat) (cell : Addr)
  | peerReceive (port : Nat) (cell : Addr)
  | peerReleaseAll (port : Nat)
  | peerWrite (f : W → W)

/-- A stage: an executer and what it shares. -/
structure Stage (W : Type) where
  shared : Shared W
  executer : Executer
deriving DecidableEq

namespace Stage

variable {W : Type}

/-- Perform one action; `none` when the action cannot complete. -/
def act (ops : OperatorTable W) (st : Stage W) : Action W → Option (Stage W)
  | .thread =>
    match st.executer._execute ops st.shared with
    | some (s, e) => some ⟨s, e⟩
    | none => none
  | .send msg => some { st with executer := st.executer.send msg }
  | .stop => some ⟨(st.executer.stop ops st.shared).1, (st.executer.stop ops st.shared).2⟩
  | .startThread =>
    if st.executer.pc = .notStarted then some { st with executer := st.executer.startThread }
    else none
  | .peerSend port cell =>
    match st.shared.buffers[port]? with
    | none => none
    | some b =>
      match b.send cell with
      | none => none
      | some (b1, _) =>
        some { st with shared := { st.shared with buffers := st.shared.buffers.set port b1 } }
  | .peerReceive port cell =>
    match st.shared.buffers[port]? with
    | none => none
    | some b =>
      match b.receive cell with
      | none => none
      | some (b1, _) =>
        some { st with shared := { st.shared with buffers := st.shared.buffers.set port b1 } }
  | .peerReleaseAll port => some { st with shared := st.shared.releaseAll port }
  | .peerWrite f => some { st with shared := { st.shared with world := f st.shared.world } }

/-- Perform a sequence of actions, each of which has to complete. -/
def run (ops : OperatorTable W) (st : Stage W) : List (Action W) → Option (Stage W)
  | [] => some st
  | a :: as =>
    match st.act ops a with
    | some st1 => run ops st1 as
    | none => none

/-- The thread alone, for `n` transitions. -/
def threadRun (ops : OperatorTable W) (st : Stage W) (n : Nat) : Option (Stage W) :=
  st.run ops (List.replicate n .thread)

end Stage

/-! ## Numbers of the test operators

The test operators compute in `int`, `float` and `double`.  A finite value of
any of these types is a dyadic rational `num / 2 ^ shift`.  The arithmetic
below is IEEE 754 binary arithmetic with round-to-nearest, ties-to-even, for
a given precision; the exponent range is not modelled (the tests stay far
from overflow and from subnormal numbers), and neither are infinities and
NaN.
-/

/-- The number `num / 2 ^ shift`. -/
structure Dyadic where
  num : Int
  shift : Nat
deriving DecidableEq, Repr

namespace Dyadic

/-- An integer as a dyadic. -/
def ofInt (n : Int) : Dyadic := ⟨n, 0⟩

/-- The rational number that a dyadic stands for. -/
def toRat (d : Dyadic) : ℚ := (d.num : ℚ) / 2 ^ d.shift

/-- Cancel common factors of two, so that every number has one
representation. -/
def reduce : Int → Nat → Dyadic
  | n, 0 => ⟨n, 0⟩
  | n, k + 1 => if n % 2 = 0 then reduce (n / 2) k else ⟨n, k + 1⟩

/-- Binary logarithm, rounded down, by repeated halving. -/
def log2Fuel : Nat → Nat → Nat
  | 0, _ => 0
  | fuel + 1, n => if n < 2 then 0 else log2Fuel fuel (n / 2) + 1

/-- Binary logarithm of a positive number, rounded down. -/
def log2 (n : Nat) : Nat := log2Fuel n n

/-- The float with `p` significant bits that is nearest to `a / b`, for
positive `a` and `b`; ties go to the even significand.  `E` is the binary
exponent of `a / b`, `u` the exponent of the last bit kept, `N / D` the
quotient scaled to that bit. -/
def roundPos (p a b : Nat) : Dyadic :=
  let e0 : Int := (log2 a : Int) - (log2 b : Int)
  let ge : Bool :=
    if 0 ≤ e0 then decide (b * 2 ^ e0.toNat ≤ a) else decide (b ≤ a * 2 ^ (-e0).toNat)
  let E : Int := if ge then e0 else e0 - 1
  let u : Int := E - ((p : Int) - 1)
  let N : Nat := if 0 ≤ u then a else a * 2 ^ (-u).toNat
  let D : Nat := if 0 ≤ u then b * 2 ^ u.toNat else b
  let q := N / D
  let r := N % D
  let m := if 2 * r < D then q else if D < 2 * r then q + 1 else if q % 2 = 0 then q else q + 1
  if 0 ≤ u then ⟨((m * 2 ^ u.toNat : Nat) : Int), 0⟩ else reduce (m : Int) (-u).toNat

/-- The float with `p` significant bits nearest to `n / d`. -/
def round (p : Nat) (n : Int) (d : Nat) : Dyadic :=
  if n = 0 ∨ d = 0 then ⟨0, 0⟩
  else if 0 < n then roundPos p n.toNat d
  else ⟨-(roundPos p (-n).toNat d).num, (roundPos p (-n).toNat d).shift⟩

/-- Product, rounded to `p` bits. -/
def mulRound (p : Nat) (x y : Dyadic) : Dyadic :=
  round p (x.num * y.num) (2 ^ (x.shift + y.shift))

/-- Sum, rounded to `p` bits. -/
def addRound (p : Nat) (x y : Dyadic) : Dyadic :=
  round p (x.num * 2 ^ y.shift + y.num * 2 ^ x.shift) (2 ^ (x.shift + y.shift))

/-- Quotient by a positive integer, rounded to `p` bits. -/
def divRound (p : Nat) (x : Dyadic) (d : Nat) : Dyadic :=
  round p x.num (d * 2 ^ x.shift)

/-- Conversion to `float` (24 significant bits). -/
def toFloat (x : Dyadic) : Dyadic := round 24 x.num (2 ^ x.shift)

/-- `std::floor`. -/
def floor (x : Dyadic) : Dyadic := ⟨Int.fdiv x.num (2 ^ x.shift), 0⟩

end Dyadic

/-! ## `operator.hpp` and `classdefs.hpp`: the operators of the tests -/

/-- The classes of `classdefs.hpp` with their own data members. -/
inductive Members where
  | CounterSource (_counter _endLimit : Int)
  | CounterSink (_sinkVariable : Dyadic)
  | Mult2
  | Div2Round
  | Mult3
  | Div3Round
  | Add5
  | Div2
deriving DecidableEq, Repr

/-- An operator object: the members of `Operator<T_IN,T_OUT>` (null pointers
are `none`) and those of the derived class.  A `SourceOperator` has only the
output pair and a `SinkOperator` only the input pair; the other pair is then
never read. -/
structure Operator where
  _inputBuffer : Option Addr
  _outputBuffer : Option Addr
  _input : Option Addr
  _output : Option Addr
  members : Members
deriving DecidableEq, Repr

/-- The world of the tests: the cells of the free store, by address, and the
operator objects, by index. -/
structure World where
  heap : List Dyadic
  objects : List Operator
deriving DecidableEq, Repr

/-- `*_output = 2.1*(*_input)` of `Mult2`, from `int` to `float`: the product
is formed in `double` and converted. -/
def Mult2.value (x : Dyadic) : Dyadic :=
  (Dyadic.mulRound 53 (Dyadic.round 53 21 10) x).toFloat

/-- `*_output = std::floor((*_input)/2)` of `Div2Round`, in `float`. -/
def Div2Round.value (x : Dyadic) : Dyadic :=
  (Dyadic.divRound 24 x 2).floor

/-- `*_output = 3.1*(*_input)` of `Mult3`, from `int` to `float`: the product
is formed in `double` and converted. -/
def Mult3.value (x : Dyadic) : Dyadic :=
  (Dyadic.mulRound 53 (Dyadic.round 53 31 10) x).toFloat

/-- `*_output = std::floor((*_input)/3)` of `Div3Round`, in `float`. -/
def Div3Round.value (x : Dyadic) : Dyadic :=
  (Dyadic.divRound 24 x 3).floor

/-- `*_output = 5.0 + *_input` of `Add5`: the sum is formed in `double` and
converted to `float`. -/
def Add5.value (x : Dyadic) : Dyadic :=
  (Dyadic.addRound 53 (Dyadic.ofInt 5) x).toFloat

/-- `*_output = *_input/2.0` of `Div2`: the quotient is formed in `double`
and converted to `float`. -/
def Div2.value (x : Dyadic) : Dyadic :=
  (Dyadic.divRound 53 x 2).toFloat

namespace World

/-- An operation of the form `*_output = f(*_input); return running;`. -/
def assign (f : Dyadic → Dyadic) (ob : Operator) (w : World) :
    Option (World × OperationStatus) :=
  match ob._input, ob._output with
  | some a, some b =>
    match w.heap[a]? with
    | some x =>
      if b < w.heap.length then some ({ w with heap := w.heap.set b (f x) }, .running)
      else none
    | none => none
  | _, _ => none

/-- The virtual call `op->operation()` for the classes of `classdefs.hpp`. -/
def operation (op : Nat) (w : World) : Option (World × OperationStatus) :=
  match w.objects[op]? with
  | none => none
  | some ob =>
    match ob.members with
    | .CounterSource counter endLimit =>
      match ob._output with
      | none => none
      | some b =>
        if b < w.heap.length then
          if counter < endLimit then
            some ({ heap := w.heap.set b (.ofInt counter),
                    objects := w.objects.set op
                      { ob with members := .CounterSource (counter + 1) endLimit } },
                  .running)
          else some ({ w with heap := w.heap.set b (.ofInt counter) }, .complete)
        else none
    | .CounterSink _ =>
      match ob._input with
      | none => none
      | some a =>
        match w.heap[a]? with
        | some x =>
          some ({ w with objects := w.objects.set op { ob with members := .CounterSink x } },
                .running)
        | none => none
    | .Mult2 => assign Mult2.value ob w
    | .Div2Round => assign Div2Round.value ob w
    | .Mult3 => assign Mult3.value ob w
    | .Div3Round => assign Div3Round.value ob w
    | .Add5 => assign Add5.value ob w
    | .Div2 => assign Div2.value ob w

/-- The assignment `*p = a` through `p = op->inputAddress()`. -/
def writeInput (op : Nat) (a : Addr) (w : World) : World :=
  match w.objects[op]? with
  | some ob => { w with objects := w.objects.set op { ob with _input := some a } }
  | none => w

/-- The assignment `*p = a` through `p = op->outputAddress()`. -/
def writeOutput (op : Nat) (a : Addr) (w : World) : World :=
  match w.objects[op]? with
  | some ob => { w with objects := w.objects.set op { ob with _output := some a } }
  | none => w

/-- `make_unique<T>()` for `int` and `float`: a new cell holding zero. -/
def make_unique (w : World) : Addr × World :=
  (w.heap.length, { w with heap := w.heap ++ [Dyadic.ofInt 0] })

/-- `T_IN * input()`: the input slot of operator `op`; a fallback cell is made
when `_input` is null.  (`none` only for an index that names no operator.) -/
def input (op : Nat) (w : World) : Option Addr × World :=
  match w.objects[op]? with
  | none => (none, w)
  | some ob =>
    match ob._input with
    | some a => (some a, w)
    | none =>
      (some w.make_unique.1,
       { w.make_unique.2 with
         objects := w.objects.set op
           { ob with _inputBuffer := some w.make_unique.1, _input := some w.make_unique.1 } })

/-- `void input(T_IN * inp)`. -/
def setInput (op : Nat) (inp : Option Addr) (w : World) : World :=
  match w.objects[op]? with
  | some ob => { w with objects := w.objects.set op { ob with _input := inp } }
  | none => w

/-- `T_OUT * output()`: the output slot of operator `op`; a fallback cell is
made when `_output` is null. -/
def output (op : Nat) (w : World) : Option Addr × World :=
  match w.objects[op]? with
  | none => (none, w)
  | some ob =>
    match ob._output with
    | some a => (some a, w)
    | none =>
      (some w.make_unique.1,
       { w.make_unique.2 with
         objects := w.objects.set op
           { ob with _outputBuffer := some w.make_unique.1, _output := some w.make_unique.1 } })

/-- `void output(T_OUT * outp)`. -/
def setOutput (op : Nat) (outp : Option Addr) (w : World) : World :=
  match w.objects[op]? with
  | some ob => { w with objects := w.objects.set op { ob with _output := outp } }
  | none => w

/-- The operators of the tests as seen by an executer. -/
def table : OperatorTable World :=
  { operation := operation, writeInput := writeInput, writeOutput := writeOutput,
    make_unique := make_unique }

end World

/-- Operators that do nothing but report a status, for stating examples:
operator `1` returns `complete`, operator `2` returns `error`, every other
one `running`; the world counts the invocations. -/
def statusTable : OperatorTable Nat :=
  { operation := fun op w =>
      some (w + 1, if op = 1 then .complete else if op = 2 then .error else .running),
    writeInput := fun _ _ w => w,
    writeOutput := fun _ _ w => w,
    make_unique := fun w => (0, w) }

/-- The state of `ExecutionTest.OneThreadTest` when the client's first
`exec1.input()->send(input)` has returned, with `x` in the cell sent: `op1`
(`Mult3`) is operator `0` and `op2` (`Div3Round`) operator `1`; the thread has
been started and the mode set to `Continuous`; both ports have been asked
for. -/
def oneThreadTest (x : Int) : Stage World :=
  let w0 : World :=
    { heap := [],
      objects := [⟨none, none, none, none, .Mult3⟩, ⟨none, none, none, none, .Div3Round⟩] }
  -- `exec1`: `_inputBuffer(make_unique<T_IN>())`, `_outputBuffer(make_unique<T_OUT>())`
  let cin := w0.make_unique
  let cout := cin.2.make_unique
  -- `op2.input(op1.output());`
  let slot := cout.2.output 0
  let w1 := slot.2.setInput 1 slot.1
  -- `exec1.opInput(..); exec1.opOutput(..); exec1.addOperator(&op1); exec1.addOperator(&op2);`
  let e1 := ((((Executer.new .OperatorExecuter cin.1 cout.1).opInput 0).opOutput 1).addOperator
    0).addOperator 1
  -- `auto input = make_unique<int>(); auto output = make_unique<float>();`
  let input := w1.make_unique
  let output := input.2.make_unique
  -- `exec1.startThread(); exec1.send(ExecutionMode::Continuous);`
  let e2 := e1.startThread.send .Continuous
  -- `*input = x;`
  let w2 : World := { output.2 with heap := output.2.heap.set input.1 (.ofInt x) }
  -- `exec1.input()` and `exec1.output()`
  let pin := e2.input World.table ⟨w2, []⟩
  let pout := pin.2.2.output World.table pin.2.1
  -- `->send(input)`
  match (Stage.mk pout.2.1 pout.2.2).act World.table (.peerSend pin.1 input.1) with
  | some st => st
  | none => ⟨pout.2.1, pout.2.2⟩

/-- The statuses that the operators return in the loop of `_execute`, in the
order of invocation. -/
def Executer.returned {W : Type} (ops : OperatorTable W) :
    List Nat → W → Option (List OperationStatus)
  | [], _ => some []
  | op :: rest, w =>
    match ops.operation op w with
    | none => none
    | some (w1, opStat) =>
      match Executer.returned ops rest w1 with
      | none => none
      | some statuses => some (opStat :: statuses)

/-- A source stage hosting the single operator `op` of `statusTable`, with
its output port made and the slot available, the thread standing at `pc`. -/
def statusStage (op : Nat) (mode : ExecutionMode) (pc : Location) : Stage Nat :=
  { shared := { world := 0, buffers := [UniqueBuffer.new 1] },
    executer := { (((Executer.new .SourceExecuter 0 0).addOperator op).opOutput op).startThread
      with _executionMode := mode, _outputPort := some 0, pc := pc } }

/-- The record of one whole iteration of an executer: the `receive` that
returned with `received` (classes with an input side), the operators in
order, and the `send` of `sent` (classes with an output side). -/
def Executer.iterationLog (e : Executer) (received sent : Addr) : List Event :=
  (if e.kind.hasInput then [.receive received] else []) ++
    (e.operators.map .operation ++ (if e.kind.hasOutput then [.send sent] else []))

/-- The calls of the owner: mode commands, `stop()` and `startThread()`. -/
def Action.isOwnerCall {W : Type} : Action W → Bool
  | .send _ => true
  | .stop => true
  | .startThread => true
  | _ => false

/-- The states through which the thread of an executer passes when one
command has released it from the wait of `Step` mode in the state `e0` and no
further owner call arrives: the wait with the command pending; then, the
command consumed, the stations of one iteration with the part of its record
made so far; and at last the wait again, or the end of the thread if an
operator returned `complete`. -/
def Executer.Stepping (e0 e : Executer) : Prop :=
  e.kind = e0.kind ∧ e.operators = e0.operators ∧ e._executionMode = .Step ∧
  ((e.pc = .waiting ∧ e._newMessage = true ∧ e._ending = false ∧ e.log = e0.log) ∨
   (e._newMessage = false ∧
    ((e.pc = .endingTest ∧ e._ending = false ∧ e.log = e0.log) ∨
     (e.pc = .receiving ∧ e._ending = false ∧ e.kind.hasInput = true ∧ e.log = e0.log) ∨
     (e.pc = .operating ∧ e._ending = false ∧
        ∃ c, e.log = e0.log ++ (if e0.kind.hasInput then [.receive c] else [])) ∨
     (e.pc = .sending ∧ e.kind.hasOutput = true ∧
        ∃ c, e.log = e0.log ++ ((if e0.kind.hasInput then [.receive c] else []) ++
          e0.operators.map .operation)) ∨
     (e.pc = .loopTest ∧ ∃ c d, e.log = e0.log ++ e0.iterationLog c d) ∨
     ((e.pc = .locked ∨ e.pc = .waiting) ∧ e._ending = false ∧
        ∃ c d, e.log = e0.log ++ e0.iterationLog c d) ∨
     (e.pc = .finished ∧ e._ending = true ∧ ∃ c d, e.log = e0.log ++ e0.iterationLog c d))))

/-- A transform stage hosting operator `0` of `statusTable`, in `Continuous`
mode, whose input port (buffer `0`) holds no item and whose output port
(buffer `1`) is filled, so that its thread blocks in `receive` and in `send`
alike; the thread stands at `pc`. -/
def blockedStage (pc : Location) : Stage Nat :=
  { shared := { world := 0, buffers := [UniqueBuffer.new 2, ⟨3, false, true, false⟩] },
    executer :=
      { ((((Executer.new .OperatorExecuter 0 1).addOperator 0).opInput 0).opOutput
          0).startThread.send .Continuous
        with _inputPort := some 0, _outputPort := some 1, pc := pc } }

/-- A call on the buffer of an exchange: `send` by the sender and `receive`
by the receiver, each with its own local `unique_ptr`, or `releaseAll`. -/
inductive ExchangeCall where
  | send
  | receive
  | releaseAll
deriving DecidableEq, Repr

/-- One buffer used by one sender and one receiver: the cell that the
sender's local `unique_ptr` owns, the buffer, the cell that the receiver's
local `unique_ptr` owns, and what the cells hold.  The member functions of
`UniqueBuffer` exchange handles and have no access to the contents. -/
structure Exchange (α π : Type) where
  senderLocal : α
  buffer : UniqueBuffer α
  receiverLocal : α
  payload : α → π

namespace Exchange

variable {α π : Type}

/-- The three cells, in the order sender, buffer, receiver. -/
def cells (x : Exchange α π) : List α :=
  [x.senderLocal, x.buffer._buffer, x.receiverLocal]

/-- Perform one call; `none` when the call blocks. -/
def call (x : Exchange α π) : ExchangeCall → Option (Exchange α π)
  | .send =>
    match x.buffer.send x.senderLocal with
    | some (b, data_ptr) => some { x with buffer := b, senderLocal := data_ptr }
    | none => none
  | .receive =>
    match x.buffer.receive x.receiverLocal with
    | some (b, data_ptr) => some { x with buffer := b, receiverLocal := data_ptr }
    | none => none
  | .releaseAll => some { x with buffer := x.buffer.releaseAll }

/-- Perform a sequence of calls, each of which has to complete. -/
def run (x : Exchange α π) : List ExchangeCall → Option (Exchange α π)
  | [] => some x
  | c :: cs =>
    match x.call c with
    | some x1 => run x1 cs
    | none => none

end Exchange

/-- The same operators over worlds that also keep, oldest first, the list of
the operators invoked so far.  The list is not part of the source; it makes
the order of the virtual calls `op->operation()` visible. -/
def OperatorTable.traced {W : Type} (ops : OperatorTable W) : OperatorTable (W × List Nat) :=
  { operation := fun op w =>
      match ops.operation op w.1 with
      | some (w1, opStat) => some ((w1, w.2 ++ [op]), opStat)
      | none => none,
    writeInput := fun op a w => (ops.writeInput op a w.1, w.2),
    writeOutput := fun op a w => (ops.writeOutput op a w.1, w.2),
    make_unique := fun w => ((ops.make_unique w.1).1, ((ops.make_unique w.1).2, w.2)) }

/-- A stage hosting the operators `1`, `2` and `0` of `statusTable`, added in
this order, which return `complete`, `error` and `running`; the thread stands
before the operator loop. -/
def threeStatusStage : Stage Nat :=
  { (statusStage 1 .Continuous .operating) with
    executer := (((statusStage 1 .Continuous .operating).executer.addOperator 2).addOperator 0) }

/-- The record of whole iterations, one for each pair of the cell received
and the cell sent, oldest first. -/
def Executer.iterationsLog (e : Executer) (its : List (Addr × Addr)) : List Event :=
  (its.map fun it => e.iterationLog it.1 it.2).flatten

/-- Whether the event is a completed `receive`. -/
def Event.isReceive : Event → Bool
  | .receive _ => true
  | _ => false

/-- Whether the event is the invocation of an operator. -/
def Event.isOperation : Event → Bool
  | .operation _ => true
  | _ => false

/-- Whether the event is a `send`. -/
def Event.isSend : Event → Bool
  | .send _ => true
  | _ => false

/-- The states of a thread that began with the record of `e0` empty: the
iterations `its` are complete, and between the operator loop and the end of
the iteration `current` is the part of the running iteration made so far:
the `receive`, or the `receive` and the operators. -/
def Executer.Iterating (e0 e : Executer) (its : List (Addr × Addr))
    (current : List Event) : Prop :=
  e.kind = e0.kind ∧ e.operators = e0.operators ∧
  e.log = e0.iterationsLog its ++ current ∧
  (e.pc = .receiving → e.kind.hasInput = true) ∧
  ((e.pc ≠ .operating ∧ e.pc ≠ .sending ∧ current = []) ∨
   (e.pc = .operating ∧
      ∃ c, current = if e0.kind.hasInput then [.receive c] else []) ∨
   (e.pc = .sending ∧ e.kind.hasOutput = true ∧
      ∃ c, current = (if e0.kind.hasInput then [.receive c] else []) ++
        e0.operators.map .operation))

/-! ## Pipelines

Several executers that share their buffers and the world.  The threads are
interleaved: one action is one transition of one thread, or one call by the
owner of one stage.  `stop()` and `releaseAll()` are not among the actions, so
that no buffer of a pipeline is ever terminated; an operator returning
`complete` ends its stage as usual.
-/

/-- What can happen in a pipeline: a transition of the thread of stage
`stage`, or a call by the owner of that stage. -/
inductive PipelineAction where
  | thread (stage : Nat)
  | send (stage : Nat) (msg : ExecutionMode)
  | startThread (stage : Nat)
deriving DecidableEq, Repr

/-- A pipeline: the executers in the order of the flow of items, what they
share, and two records: `emitted` holds what the output cell of a source
stage held after each run of its operator loop, `consumed` what the input
cell of a sink stage held at each run of its operator loop, oldest first.
The records are not part of the source; no transition reads them. -/
structure Pipeline (W V : Type) where
  shared : Shared W
  stages : List Executer
  emitted : List V
  consumed : List V

/-- The places where a pipeline keeps a cell: the buffer of a port, the
`_inputBuffer` of a stage and the `_outputBuffer` of a stage. -/
inductive Place where
  | buffer (port : Nat)
  | input (stage : Nat)
  | output (stage : Nat)
deriving DecidableEq, Repr

/-- What is taken for granted about the operators of an executer that has
the class, the operators and the slot pointers of `e0`.  Let such an executer
perform the slot assignments and the operator loop in a world that is `good`,
its scratch cells being cells of the pipeline, and let the loop return.  Then
the world is `good` again; if the executer has both sides, its output cell
holds `f` of what its input cell held; and every other cell of the pipeline
holds what it held.  Here `val w c` is the item that cell `c` holds in the
world `w`. -/
def Executer.Computes {W V : Type} (ops : OperatorTable W) (val : W → Addr → V)
    (good : W → Prop) (isCell : Addr → Prop) (f : V → V) (e0 : Executer) : Prop :=
  ∀ (e : Executer) (w w1 w2 : W) (opStatus : OperationStatus),
    e.kind = e0.kind → e.operators = e0.operators →
    e._opInput = e0._opInput → e._opOutput = e0._opOutput →
    good w →
    (e.kind.hasInput = true → isCell e._inputBuffer) →
    (e.kind.hasOutput = true → isCell e._outputBuffer) →
    (e.kind.hasInput = true → e.kind.hasOutput = true → e._inputBuffer ≠ e._outputBuffer) →
    Executer.bindSlots ops e w = some w1 →
    Executer.runOperators ops e.operators w1 e._opStatus = some (w2, opStatus) →
    good w2 ∧
    (e.kind.hasInput = true → e.kind.hasOutput = true →
      val w2 e._outputBuffer = f (val w e._inputBuffer)) ∧
    ∀ c, isCell c → (e.kind.hasInput = true → c ≠ e._inputBuffer) →
      (e.kind.hasOutput = true → c ≠ e._outputBuffer) → val w2 c = val w c

/-- Two executers agree in the parts that no transition of a thread changes
once the ports are set: the class, the operators, the slot pointers and the
ports. -/
def Executer.SameParts (e e1 : Executer) : Prop :=
  e1.kind = e.kind ∧ e1.operators = e.operators ∧
  e1._opInput = e._opInput ∧ e1._opOutput = e._opOutput ∧
  e1._inputPort = e._inputPort ∧ e1._outputPort = e._outputPort

namespace Pipeline

variable {W V : Type}

/-- Perform one action; `none` when the action cannot complete. -/
def act (ops : OperatorTable W) (val : W → Addr → V) (p : Pipeline W V) :
    PipelineAction → Option (Pipeline W V)
  | .thread i =>
    match p.stages[i]? with
    | none => none
    | some e =>
      match e._execute ops p.shared with
      | none => none
      | some (s, e1) =>
        some { shared := s, stages := p.stages.set i e1,
               emitted :=
                 if e.pc = .operating ∧ e.kind = .SourceExecuter then
                   p.emitted ++ [val s.world e._outputBuffer]
                 else p.emitted,
               consumed :=
                 if e.pc = .operating ∧ e.kind = .SinkExecuter then
                   p.consumed ++ [val p.shared.world e._inputBuffer]
                 else p.consumed }
  | .send i msg =>
    match p.stages[i]? with
    | none => none
    | some e => some { p with stages := p.stages.set i (e.send msg) }
  | .startThread i =>
    match p.stages[i]? with
    | none => none
    | some e =>
      if e.pc = .notStarted then some { p with stages := p.stages.set i e.startThread }
      else none

/-- Perform a sequence of actions, each of which has to complete. -/
def run (ops : OperatorTable W) (val : W → Addr → V) (p : Pipeline W V) :
    List PipelineAction → Option (Pipeline W V)
  | [] => some p
  | a :: as =>
    match p.act ops val a with
    | some p1 => run ops val p1 as
    | none => none

/-- The composition of the functions of a list, the first one applied
first. -/
def through (fs : List (V → V)) (x : V) : V := fs.foldl (fun a f => f a) x

/-- The function of the stage at position `k`: stage `0` is the source, the
stages `1`, ..., `fs.length` are the transform stages with the functions of
`fs`, and the last stage is the sink. -/
def stageFn (fs : List (V → V)) (k : Nat) : V → V := fs.getD (k - 1) id

/-- The cell at a place, if the place exists. -/
def cellAt (p : Pipeline W V) : Place → Option Addr
  | .buffer j => (p.shared.buffers[j]?).map fun b => b._buffer
  | .input k =>
    (p.stages[k]?).bind fun e => if e.kind.hasInput then some e._inputBuffer else none
  | .output k =>
    (p.stages[k]?).bind fun e => if e.kind.hasOutput then some e._outputBuffer else none

/-- The item that a stage has taken in and not yet passed on, as it will
leave the stage: between `receive` and the operator loop the function of the
stage is still to be applied to it; between the loop and `send` it is in the
output cell. -/
def pending (val : W → Addr → V) (w : W) (f : V → V) (e : Executer) : List V :=
  match e.pc with
  | .operating => if e.kind.hasInput then [f (val w e._inputBuffer)] else []
  | .sending => [val w e._outputBuffer]
  | _ => []

/-- A linear pipeline with the transform functions `fs`: a source, one
transform stage for each function, and a sink; buffer `k` joins stage `k` to
stage `k + 1`.  The world is `good`, every stage keeps the contract
`Executer.Computes` with its function, and the cells at the places of the
pipeline are cells in the sense of `isCell`, no two places holding the same
cell. -/
structure Wiring (ops : OperatorTable W) (val : W → Addr → V) (good : W → Prop)
    (isCell : Addr → Prop) (fs : List (V → V)) (p : Pipeline W V) : Prop where
  stages_length : p.stages.length = fs.length + 2
  buffers_length : p.shared.buffers.length = fs.length + 1
  good_world : good p.shared.world
  kind : ∀ (k : Nat) (e : Executer), p.stages[k]? = some e →
    e.kind = if k = 0 then .SourceExecuter
      else if k = fs.length + 1 then .SinkExecuter else .OperatorExecuter
  inputPort : ∀ (k : Nat) (e : Executer), p.stages[k]? = some e → e.kind.hasInput = true →
    e._inputPort = some (k - 1)
  outputPort : ∀ (k : Nat) (e : Executer), p.stages[k]? = some e → e.kind.hasOutput = true →
    e._outputPort = some k
  computes : ∀ (k : Nat) (e : Executer), p.stages[k]? = some e →
    e.Computes ops val good isCell (stageFn fs k)
  is_cell : ∀ (x : Place) (a : Addr), p.cellAt x = some a → isCell a
  distinct : ∀ (x y : Place) (a : Addr), p.cellAt x = some a → p.cellAt y = some a → x = y

/-- A linear pipeline at its start: no thread is inside an iteration, every
buffer is as constructed, and nothing has been emitted or consumed. -/
structure Initial (ops : OperatorTable W) (val : W → Addr → V) (good : W → Prop)
    (isCell : Addr → Prop) (fs : List (V → V)) (p : Pipeline W V) : Prop where
  wiring : p.Wiring ops val good isCell fs
  pc : ∀ (k : Nat) (e : Executer), p.stages[k]? = some e →
    e.pc = .notStarted ∨ e.pc = .loopTest
  fresh : ∀ (j : Nat) (b : UniqueBuffer Addr), p.shared.buffers[j]? = some b →
    b._bufferAvailable = true ∧ b._dataRefreshed = false ∧ b._ending = false
  emitted : p.emitted = []
  consumed : p.consumed = []

/-- The states of a linear pipeline in operation.  `D j` and `O j` are the
items deposited in buffer `j` and obtained from it so far.  A buffer is
either available with everything deposited obtained, or filled with the item
deposited last.  What a stage has taken in (a source: emitted), mapped by its
function, is what it has passed on (a sink: consumed) followed by the item it
is working on. -/
structure Inv (ops : OperatorTable W) (val : W → Addr → V) (good : W → Prop)
    (isCell : Addr → Prop) (fs : List (V → V)) (p : Pipeline W V)
    (D O : Nat → List V) : Prop where
  wiring : p.Wiring ops val good isCell fs
  pc_input : ∀ (k : Nat) (e : Executer), p.stages[k]? = some e → e.pc = .receiving →
    e.kind.hasInput = true
  pc_output : ∀ (k : Nat) (e : Executer), p.stages[k]? = some e → e.pc = .sending →
    e.kind.hasOutput = true
  not_ending : ∀ (j : Nat) (b : UniqueBuffer Addr), p.shared.buffers[j]? = some b →
    b._ending = false
  edge : ∀ (j : Nat) (b : UniqueBuffer Addr), p.shared.buffers[j]? = some b →
    (b._bufferAvailable = true ∧ b._dataRefreshed = false ∧ D j = O j) ∨
    (b._bufferAvailable = false ∧ b._dataRefreshed = true ∧
      D j = O j ++ [val p.shared.world b._buffer])
  stage : ∀ (k : Nat) (e : Executer), p.stages[k]? = some e →
    (if e.kind.hasInput then (O (k - 1)).map (stageFn fs k) else p.emitted) =
      (if e.kind.hasOutput then D k else p.consumed) ++
        pending val p.shared.world (stageFn fs k) e

end Pipeline

/-- The item that a cell of the tests holds: the content of the cell on the
free store. -/
def World.val (w : World) (a : Addr) : Dyadic := w.heap.getD a (Dyadic.ofInt 0)

/-- The state of `ExecutionTest.FourThreadsCompleteTest` when the four
threads have been started.  `op1`, ..., `op4` are the operators `0`, ..., `3`,
`cSrc` is operator `4` and `cSnk` operator `5`; the stages are `source`,
`exec1`, `exec2` and `sink`. -/
def fourThreadsTest : Pipeline World Dyadic :=
  let w0 : World :=
    { heap := [],
      objects := [⟨none, none, none, none, .Mult3⟩, ⟨none, none, none, none, .Div3Round⟩,
        ⟨none, none, none, none, .Add5⟩, ⟨none, none, none, none, .Div2⟩,
        ⟨none, none, none, none, .CounterSource 37 (37 + 5)⟩,
        ⟨none, none, none, none, .CounterSink (Dyadic.ofInt 0)⟩] }
  -- the scratch cells of `exec1`, `exec2`, `source` and `sink`
  let c1in := w0.make_unique
  let c1out := c1in.2.make_unique
  let c2in := c1out.2.make_unique
  let c2out := c2in.2.make_unique
  let csrc := c2out.2.make_unique
  let csnk := csrc.2.make_unique
  -- `op2.input(op1.output());` and the configuration of `exec1`
  let slot1 := csnk.2.output 0
  let w1 := slot1.2.setInput 1 slot1.1
  let exec1 := ((((Executer.new .OperatorExecuter c1in.1 c1out.1).opInput 0).opOutput
    1).addOperator 0).addOperator 1
  -- `op4.input(op3.output());` and the configuration of `exec2`
  let slot2 := w1.output 2
  let w2 := slot2.2.setInput 3 slot2.1
  let exec2 := ((((Executer.new .OperatorExecuter c2in.1 c2out.1).opInput 2).opOutput
    3).addOperator 2).addOperator 3
  -- `source.addOperator(&cSrc); source.opOutput(..); sink.addOperator(&cSnk); sink.opInput(..);`
  let source := ((Executer.new .SourceExecuter 0 csrc.1).addOperator 4).opOutput 4
  let sink := ((Executer.new .SinkExecuter csnk.1 0).addOperator 5).opInput 5
  -- `exec1.input(source.output()); exec2.input(exec1.output()); sink.input(exec2.output());`
  let p0 := source.output World.table ⟨w2, []⟩
  let exec1a := exec1.attachInput (some p0.1)
  let p1 := exec1a.output World.table p0.2.1
  let exec2a := exec2.attachInput (some p1.1)
  let p2 := exec2a.output World.table p1.2.1
  let sinka := sink.attachInput (some p2.1)
  -- the four `send` calls and the four `startThread` calls
  { shared := p2.2.1,
    stages := [(p0.2.2.send .Step).startThread, (p1.2.2.send .Continuous).startThread,
      (p2.2.2.send .Continuous).startThread, (sinka.send .Continuous).startThread],
    emitted := [],
    consumed := [] }

/-- The worlds of `fourThreadsTest`: eleven cells, and the six operators
with their link cells `6` and `7`; the slots that the executers assign, the
counter of the source and the variable of the sink are arbitrary. -/
def fourThreadsGood (w : World) : Prop :=
  w.heap.length = 11 ∧
  ∃ (a0 b1 a2 b3 b4 a5 : Option Addr) (counter endLimit : Int) (sinkVariable : Dyadic),
    w.objects = [⟨none, some 6, a0, some 6, .Mult3⟩, ⟨none, none, some 6, b1, .Div3Round⟩,
      ⟨none, some 7, a2, some 7, .Add5⟩, ⟨none, none, some 7, b3, .Div2⟩,
      ⟨none, none, none, b4, .CounterSource counter endLimit⟩,
      ⟨none, none, a5, none, .CounterSink sinkVariable⟩]

/-- The cells of `fourThreadsTest` that the executers and the buffers own:
all but the link cells of the operators. -/
def fourThreadsCell (a : Addr) : Prop := a < 11 ∧ a ≠ 6 ∧ a ≠ 7

/-- The functions of `exec1` and `exec2`. -/
def fourThreadsFns : List (Dyadic → Dyadic) :=
  [fun x => Div3Round.value (Mult3.value x), fun x => Div2.value (Add5.value x)]

/-- A schedule for `fourThreadsTest`: the source performs the iteration
that the pending command allows, then `exec1`, `exec2` and the sink perform
one iteration each. -/
def fourThreadsSchedule : List PipelineAction :=
  List.replicate 6 (.thread 0) ++ List.replicate 6 (.thread 1) ++
    List.replicate 6 (.thread 2) ++ List.replicate 5 (.thread 3)

/-- The place of each cell of `fourThreadsTest` when the threads have been
started. -/
def fourThreadsPlace : Addr → Place
  | 0 => .input 1
  | 1 => .output 1
  | 2 => .input 2
  | 3 => .output 2
  | 4 => .output 0
  | 5 => .input 3
  | 8 => .buffer 0
  | 9 => .buffer 1
  | _ => .buffer 2

/-- The state of `fourThreadsTest` after the schedule, a further
`source.send(ExecutionMode::Step)` and the schedule once more. -/
def fourThreadsLater : Pipeline World Dyadic :=
  (fourThreadsTest.run World.table World.val
    (fourThreadsSchedule ++ [.send 0 .Step] ++ fourThreadsSchedule)).getD fourThreadsTest

/-! ## Operators without an executer

The tests of the fixture `OperatorTest` call the operators directly. -/

/-- The assignment `*p = x` through a pointer `p` to a cell; `none` stands
for undefined behaviour, when `p` names no cell. -/
def World.store (a : Addr) (x : Dyadic) (w : World) : Option World :=
  if a < w.heap.length then some { w with heap := w.heap.set a x } else none

/-- `getValue()` of `CounterSink`. -/
def World.getValue (op : Nat) (w : World) : Option Dyadic :=
  match w.objects[op]? with
  | none => none
  | some ob =>
    match ob.members with
    | .CounterSink _sinkVariable => some _sinkVariable
    | _ => none

/-- The virtual call `op->operation()`, `n` times in a row, each call having
to return; the result is the world after the last call. -/
def World.invoke (op : Nat) : Nat → World → Option World
  | 0, w => some w
  | n + 1, w =>
    match w.operation op with
    | none => none
    | some (w1, _) => World.invoke op n w1

/-- The members that the constructor `CounterSource(opName, start)` sets.
The addition `start + 5` is done in `int`: `none` stands for undefined
behaviour, when it overflows. -/
def CounterSource.new (start : Int) : Option Members :=
  if -2147483648 ≤ start ∧ start + 5 ≤ 2147483647 then
    some (.CounterSource start (start + 5))
  else none

/-- The fixture `OperatorTest`: `op1` (`Mult2`) is operator `0`, `op2`
(`Div2Round`) operator `1`, `cSrc` (`CounterSource` from `37`) operator `2`
and `cSnk` operator `3`; no cell has been made yet. -/
def operatorTest : World :=
  { heap := [],
    objects := [⟨none, none, none, none, .Mult2⟩, ⟨none, none, none, none, .Div2Round⟩,
      ⟨none, none, none, none, .CounterSource 37 (37 + 5)⟩,
      ⟨none, none, none, none, .CounterSink (Dyadic.ofInt 0)⟩] }

/-- The first lines of `OperatorTest.ChechOneOperator` with `x` for `3`: the
two getter calls whose results are tested for null, `*op1.input() = x;` and the
read `*op1.input()`; the result is the value read. -/
def chechOneOperator (x : Dyadic) : Option Dyadic :=
  -- `ASSERT_TRUE(op1.input()); ASSERT_TRUE(op1.output());`
  let w0 := ((operatorTest.input 0).2.output 0).2
  -- `*op1.input() = x;`
  let slot := w0.input 0
  match slot.1 with
  | none => none
  | some a =>
    match slot.2.store a x with
    | none => none
    | some w =>
      -- `*op1.input()`
      match (w.input 0).1 with
      | none => none
      | some a1 => (w.input 0).2.heap[a1]?

/-- `OperatorTest.LinkedTwoOperators` with `n` for `16`; the result is the
value of `*op2.output()` after the two operations. -/
def linkedTwoOperators (n : Int) : Option Dyadic :=
  -- `*op1.input() = n;`
  let slot := operatorTest.input 0
  match slot.1.bind fun a => slot.2.store a (.ofInt n) with
  | none => none
  | some w1 =>
    -- `op2.input(op1.output());`
    let link := w1.output 0
    let w2 := link.2.setInput 1 link.1
    -- `*op2.output() = 0.0;`
    let out := w2.output 1
    match out.1.bind fun a => out.2.store a (.ofInt 0) with
    | none => none
    | some w3 =>
      -- `op1.operation(); op2.operation();`
      match w3.operation 0 with
      | none => none
      | some (w4, _) =>
        match w4.operation 1 with
        | none => none
        | some (w5, _) =>
          -- `*op2.output()`
          match (w5.output 1).1 with
          | none => none
          | some a => (w5.output 1).2.heap[a]?

/-- The links of `OperatorTest.SourceAndSink`: `op1.input(cSrc.output());
op2.input(op1.output()); op2.output(cSnk.input());`. -/
def sourceAndSink : World :=
  let src := operatorTest.output 2
  let w1 := src.2.setInput 0 src.1
  let link := w1.output 0
  let w2 := link.2.setInput 1 link.1
  let snk := w2.input 3
  snk.2.setOutput 1 snk.1

/-- One round of `OperatorTest.SourceAndSink`: `opStat = cSrc.operation();
op1.operation(); op2.operation(); cSnk.operation();`.  The result is the world
after the round, `opStat` and `cSnk.getValue()`. -/
def sourceAndSinkRound (w : World) : Option (World × OperationStatus × Dyadic) :=
  match w.operation 2 with
  | none => none
  | some (w1, opStat) =>
    match w1.operation 0 with
    | none => none
    | some (w2, _) =>
      match w2.operation 1 with
      | none => none
      | some (w3, _) =>
        match w3.operation 3 with
        | none => none
        | some (w4, _) =>
          match w4.getValue 3 with
          | none => none
          | some value => some (w4, opStat, value)

/-- Rounds of `OperatorTest.SourceAndSink` in a row: for each round, oldest
first, the status that the source returned and the value that the sink shows
after it. -/
def sourceAndSinkRounds : Nat → World → Option (List (OperationStatus × Dyadic))
  | 0, _ => some []
  | n + 1, w =>
    match sourceAndSinkRound w with
    | none => none
    | some (w1, opStat, value) =>
      match sourceAndSinkRounds n w1 with
      | none => none
      | some rest => some ((opStat, value) :: rest)

/-! ## Termination of buffers along runs -/

/-- Between two states of what the executers share: every buffer is still
there with the flag `_ending` it had, and the buffers made in between are not
terminated. -/
def Shared.SameEnding {W : Type} (s s1 : Shared W) : Prop :=
  (∀ (j : Nat) (b : UniqueBuffer Addr), s.buffers[j]? = some b →
    ∃ b1, s1.buffers[j]? = some b1 ∧ b1._ending = b._ending) ∧
  (∀ (j : Nat) (b1 : UniqueBuffer Addr), s1.buffers[j]? = some b1 → s.buffers[j]? = none →
    b1._ending = false)

/-- Between two states of what the executers share: every buffer is still
there, and terminated if it was. -/
def Shared.Keeps {W : Type} (s s1 : Shared W) : Prop :=
  ∀ (j : Nat) (b : UniqueBuffer Addr), s.buffers[j]? = some b →
    ∃ b1, s1.buffers[j]? = some b1 ∧ (b._ending = true → b1._ending = true)

/-- The actions that call `releaseAll()`: `stop()` of the stage and the
`releaseAll()` of a neighbour. -/
def Action.isTermination {W : Type} : Action W → Bool
  | .stop => true
  | .peerReleaseAll _ => true
  | _ => false

/-- Whether the action is a transition of the thread. -/
def Action.isThread {W : Type} : Action W → Bool
  | .thread => true
  | _ => false

/-- A stage on which `stop()` has been called: `_ending` is set and each
port that the class has names a terminated buffer.  As in every state that a
thread reaches, the thread stands at `receive` or at `send` only if the class
has the side. -/
def Stage.Stopped {W : Type} (st : Stage W) : Prop :=
  st.executer._ending = true ∧
  (st.executer.kind.hasInput = true →
    ∃ port b, st.executer._inputPort = some port ∧ st.shared.buffers[port]? = some b ∧
      b._ending = true) ∧
  (st.executer.kind.hasOutput = true →
    ∃ port b, st.executer._outputPort = some port ∧ st.shared.buffers[port]? = some b ∧
      b._ending = true) ∧
  (st.executer.pc = .receiving → st.executer.kind.hasInput = true) ∧
  (st.executer.pc = .sending → st.executer.kind.hasOutput = true)

/-- The operators of the executer return whenever they are invoked, and the
slot pointers through which the executer assigns have been set. -/
def Executer.Returns {W : Type} (ops : OperatorTable W) (e : Executer) : Prop :=
  (e.kind.hasInput = true → e._opInput ≠ none) ∧
  (e.kind.hasOutput = true → e._opOutput ≠ none) ∧
  ∀ (w : W) (opStatus : OperationStatus),
    Executer.runOperators ops e.operators w opStatus ≠ none

/-- The number of transitions that the thread of a stopped stage makes from
where it stands until it has ended; for a thread that has not been started,
the number it makes once it has been. -/
def Executer.remaining (e : Executer) : Nat :=
  match e.pc with
  | .notStarted => 1
  | .loopTest => 1
  | .locked => 3
  | .waiting => 3
  | .endingTest => 2
  | .receiving => if e.kind.hasOutput then 4 else 3
  | .operating => if e.kind.hasOutput then 3 else 2
  | .sending => 2
  | .finished => 0

/-- The transform stage of the examples, its thread standing at `pc`, after
`stop()`. -/
def stoppedStage (pc : Location) : Stage Nat :=
  ⟨((blockedStage pc).executer.stop statusTable (blockedStage pc).shared).1,
   ((blockedStage pc).executer.stop statusTable (blockedStage pc).shared).2⟩

/-- A sink stage hosting operator `0` of `statusTable`, in `Continuous` mode,
whose input port (buffer `0`) has been terminated by the neighbour while no
item was resident; the thread stands at the loop condition and `_inputBuffer`
is cell `0`. -/
def staleStage : Stage Nat :=
  { shared := { world := 0, buffers := [⟨2, true, false, true⟩] },
    executer :=
      { (((Executer.new .SinkExecuter 0 1).addOperator 0).opInput 0).startThread.send .Continuous
        with _inputPort := some 0 } }

/-- An executer on which neither `send(mode)` nor `stop()` nor `startThread()`
has been called: the control members are as the constructor has set them, and
the thread has done nothing. -/
def Executer.Fresh (e : Executer) : Prop :=
  e._executionMode = .Step ∧ e._newMessage = false ∧ e._opStatus = .running ∧
  e._ending = false ∧ e.pc = .notStarted ∧ e.log = []

/-! ## Invocations kept in the world

Over the traced table every `op->operation()` that returns leaves the operator
in the trace of the world, so that the trace tells how often the operator loop
has run, whatever the record of the thread says. -/

/-- The operator that an event of the record is the invocation of. -/
def Event.operator : Event → Option Nat
  | .operation op => some op
  | _ => none

/-- Actions that leave the trace of a traced world alone: every action but a
neighbour's write that changes the trace.  The trace is no cell of the free
store, so that no neighbour has access to it. -/
def Action.keepsTrace {W : Type} : Action (W × List Nat) → Prop
  | .peerWrite f => ∀ w, (f w).2 = w.2
  | _ => True

/-- The stage over traced worlds, the trace being empty. -/
def Stage.traced {W : Type} (st : Stage W) : Stage (W × List Nat) :=
  ⟨⟨(st.shared.world, []), st.shared.buffers⟩, st.executer⟩

/-! ## Later states of `OneThreadTest` -/

/-- The state of `OneThreadTest` with the item `x` when the thread has
finished the iteration on that item and stands at the loop condition, the
client's `exec1.output()->receive(output)` has returned, and the buffer of the
input port has been terminated by `releaseAll()`, as the `stop()` of a stage
sharing it does, no item being resident. -/
def oneThreadStale (x : Int) : Stage World :=
  match (oneThreadTest x).run World.table
      (List.replicate 6 .thread ++ [.peerReceive 1 4, .peerReleaseAll 0]) with
  | some st => st
  | none => oneThreadTest x

/-! ## The wait of `Step` mode and `stop()`, statement by statement

In the embedding above a call that waits returns as soon as its predicate
holds, and `stop()` is one transition.  Whether a waiting thread gets to see
that its predicate holds depends on more.  `_condition.wait(uLock, pred)` is
`while (!pred()) wait(uLock);`, the call `wait(uLock)` releases the mutex and
suspends the thread, and a notification wakes the threads that are suspended
at that moment and no others.  This section embeds the wait of `Step` mode in
`_execute` and the statements of `stop()` and `send()` at that granularity: the
state has in addition whether the thread holds `_mutex`, where the thread
stands inside the wait, and how far the owner's call of `stop()` has come.
The stage itself moves as above, by `_execute` and `_terminateInputOutput`. -/

/-- Where the thread stands inside `_condition.wait(uLock, pred)`. -/
inductive WaitPhase where
  /-- Holding `_mutex`, before `pred()` is evaluated. -/
  | testing
  /-- `pred()` has returned false; `_mutex` is still held and `wait(uLock)` is
  entered next. -/
  | entering
  /-- Inside `wait(uLock)`: `_mutex` released, the thread suspended. -/
  | suspended
  /-- Woken inside `wait(uLock)`; `_mutex` is taken again next. -/
  | woken
deriving DecidableEq, Repr

/-- How far the owner's call of `stop()` has come: the statement executed
last. -/
inductive StopPhase where
  /-- `stop()` has not been called. -/
  | notCalled
  /-- After `_ending.store(true)`. -/
  | stored
  /-- After `_mutex.unlock()`. -/
  | unlocked
  /-- After `_condition.notify_all()`. -/
  | notified
  /-- After `_terminateInputOutput()`: the call has returned. -/
  | returned
deriving DecidableEq, Repr

/-- A stage together with the state of `_mutex` and `_condition` of its
executer: whether the thread holds `_mutex` (the owner holds it only inside
`send`, which is one action here), where the thread stands inside the wait of
`Step` mode (read only while the thread is at `Location.waiting`), and the
statement of `stop()` that the owner has executed last. -/
structure Monitor (W : Type) where
  stage : Stage W
  locked : Bool
  phase : WaitPhase
  stopped : StopPhase
deriving DecidableEq

/-- What can happen to a stage at this granularity. -/
inductive MonitorAction (W : Type) where
  /-- A step of the thread. -/
  | thread
  /-- The next statement of the owner's call of `stop()`. -/
  | stop
  /-- The owner's `send(msg)`, whole. -/
  | send (msg : ExecutionMode)
  /-- A call by a neighbour, on a buffer or on the world. -/
  | peer (a : Action W)
  /-- A spurious wake-up of the suspended thread, which the library permits
  and does not promise. -/
  | spurious

/-- The actions that need neither a call of the owner nor a spurious
wake-up: the steps of the thread and the calls of the neighbours. -/
def MonitorAction.isQuiet {W : Type} : MonitorAction W → Bool
  | .thread => true
  | .peer _ => true
  | _ => false

namespace Monitor

variable {W : Type}

/-- A stage whose thread is outside the lock, `stop()` not having been
called. -/
def start (st : Stage W) : Monitor W :=
  { stage := st, locked := false, phase := .testing, stopped := .notCalled }

/-- The transition of `_execute` at the place where the thread stands, with
the mutex held afterwards or not as given. -/
def advance (ops : OperatorTable W) (m : Monitor W) (locked : Bool) : Option (Monitor W) :=
  match m.stage.executer._execute ops m.stage.shared with
  | some (s, e) => some { m with stage := ⟨s, e⟩, locked := locked, phase := .testing }
  | none => none

/-- One step of the thread.  At the loop condition the thread goes on to
`unique_lock<mutex> uLock(_mutex)`, for which the mutex has to be free.  At
`if ((_executionMode == Step) && (!_ending.load()))` it enters the wait and
keeps the mutex, or passes on to `uLock.unlock()`.  Inside the wait it
evaluates the predicate `_newMessage || _ending.load()`: if that holds the
wait returns, `_newMessage` is cleared and the mutex released; if not, the
thread enters `wait(uLock)`, releases the mutex there and is suspended; a
suspended thread makes no step; a woken thread takes the mutex again and
evaluates the predicate anew.  Everywhere else the thread moves as
`_execute` says, and the mutex is not involved. -/
def thread (ops : OperatorTable W) (m : Monitor W) : Option (Monitor W) :=
  match m.stage.executer.pc with
  | .loopTest =>
    if m.stage.executer._ending then m.advance ops m.locked
    else if m.locked then none
    else m.advance ops true
  | .locked =>
    m.advance ops (m.locked && decide (m.stage.executer._executionMode = .Step ∧
      m.stage.executer._ending = false))
  | .waiting =>
    match m.phase with
    | .testing =>
      if m.stage.executer._newMessage || m.stage.executer._ending then m.advance ops false
      else some { m with phase := .entering }
    | .entering => some { m with phase := .suspended, locked := false }
    | .suspended => none
    | .woken => if m.locked then none else some { m with phase := .testing, locked := true }
  | _ => m.advance ops m.locked

/-- A notification on `_condition`: the thread is woken if it is suspended
in the wait, and nothing happens otherwise. -/
def notify (m : Monitor W) : Monitor W :=
  if m.stage.executer.pc = .waiting ∧ m.phase = .suspended then { m with phase := .woken }
  else m

/-- The next statement of `stop()`:
`_ending.store(true); _mutex.unlock(); _condition.notify_all();
_terminateInputOutput();`.  None of them takes the mutex.  The caller of
`_mutex.unlock()` does not hold the mutex; `forced` says whether the call
releases a mutex that the thread holds. -/
def stop (ops : OperatorTable W) (forced : Bool) (m : Monitor W) : Option (Monitor W) :=
  match m.stopped with
  | .notCalled =>
    some { m with stage := { m.stage with executer := { m.stage.executer with _ending := true } },
                  stopped := .stored }
  | .stored => some { m with locked := m.locked && !forced, stopped := .unlocked }
  | .unlocked => some { m.notify with stopped := .notified }
  | .notified =>
    some { m with
      stage := ⟨(m.stage.executer._terminateInputOutput ops m.stage.shared).1,
                (m.stage.executer._terminateInputOutput ops m.stage.shared).2⟩,
      stopped := .returned }
  | .returned => none

/-- `send(msg)`: `lock_guard<mutex> uLock(_mutex)` takes the mutex, so that
the call does not complete while the thread holds it; then the members are
set and `_condition.notify_one()` is called. -/
def send (msg : ExecutionMode) (m : Monitor W) : Option (Monitor W) :=
  if m.locked then none
  else some ({ m with stage := { m.stage with executer := m.stage.executer.send msg } }).notify

/-- Perform one action; `none` when the action cannot complete. -/
def act (ops : OperatorTable W) (forced : Bool) (m : Monitor W) :
    MonitorAction W → Option (Monitor W)
  | .thread => m.thread ops
  | .stop => m.stop ops forced
  | .send msg => m.send msg
  | .peer a =>
    if a.isOwnerCall || a.isThread then none
    else
      match m.stage.act ops a with
      | some st => some { m with stage := st }
      | none => none
  | .spurious =>
    if m.stage.executer.pc = .waiting ∧ m.phase = .suspended then some { m with phase := .woken }
    else none

/-- Perform a sequence of actions, each of which has to complete. -/
def run (ops : OperatorTable W) (forced : Bool) (m : Monitor W) :
    List (MonitorAction W) → Option (Monitor W)
  | [] => some m
  | a :: as =>
    match m.act ops forced a with
    | some m1 => run ops forced m1 as
    | none => none

end Monitor

/-- The source stage of the examples in `Step` mode, no command having been
sent, when its thread has gone into the wait, holds `_mutex` and has
evaluated the predicate as false. -/
def waitingMonitor : Monitor Nat :=
  { stage := statusStage 0 .Step .waiting, locked := true, phase := .entering,
    stopped := .notCalled }

/-! ## The hand-off buffer: theorems -/

section BufferLemmas

variable {α : Type}

theorem Edge.edgeRun_nil (e : Edge α) : e.run [] = some e := rfl

theorem Edge.edgeRun_cons (e : Edge α) (c : BufferCall α) (cs : List (BufferCall α)) :
    e.run (c :: cs) = (e.call c).bind fun e1 => e1.run cs := by
  cases h : e.call c <;> simp [Edge.run, h]

/-- A completed `send` on a consistent edge finds the slot available and
leaves the edge consistent, with the slot filled. -/
theorem Edge.Consistent.after_send {e e1 : Edge α} {x : α} (h : e.Consistent)
    (hc : e.call (.send x) = some e1) :
    e.buffer._bufferAvailable = true ∧ e1.Consistent ∧
      e1.buffer._bufferAvailable = false := by
  obtain ⟨hE, hF⟩ := h
  rcases hF with ⟨hA, hR, hD⟩ | ⟨hA, hR, hD⟩
  · simp [Edge.call, UniqueBuffer.send, hA, hE] at hc
    subst hc
    simp [Edge.Consistent, hE, hA, hD]
  · simp [Edge.call, UniqueBuffer.send, hA, hE] at hc

/-- A completed `receive` on a consistent edge finds the slot filled and
leaves the edge consistent, with the slot available. -/
theorem Edge.Consistent.after_receive {e e1 : Edge α} {y : α} (h : e.Consistent)
    (hc : e.call (.receive y) = some e1) :
    e.buffer._bufferAvailable = false ∧ e1.Consistent ∧
      e1.buffer._bufferAvailable = true := by
  obtain ⟨hE, hF⟩ := h
  rcases hF with ⟨hA, hR, hD⟩ | ⟨hA, hR, hD⟩
  · simp [Edge.call, UniqueBuffer.receive, hR, hE] at hc
  · simp [Edge.call, UniqueBuffer.receive, hR, hE] at hc
    subst hc
    simp [Edge.Consistent, hE, hA, hD]

/-- Runs of sends and receives from a consistent edge alternate, beginning
with the call that the availability flag allows, and end consistent. -/
theorem Edge.Consistent.after_run {cs : List (BufferCall α)} :
    ∀ {e e1 : Edge α}, e.Consistent → BufferCall.releaseAll ∉ cs →
      e.run cs = some e1 → alternates e.buffer._bufferAvailable cs ∧ e1.Consistent := by
  induction cs with
  | nil =>
    intro e e1 h _ hr
    simp [Edge.run] at hr
    subst hr
    cases e.buffer._bufferAvailable <;> exact ⟨trivial, h⟩
  | cons c cs ih =>
    intro e e1 h hn hr
    rw [Edge.edgeRun_cons] at hr
    cases hc : e.call c with
    | none => simp [hc] at hr
    | some e2 =>
      simp [hc] at hr
      have hn2 : BufferCall.releaseAll ∉ cs := fun hm => hn (List.mem_cons_of_mem _ hm)
      cases c with
      | send x =>
        obtain ⟨hA, h2, hA2⟩ := h.after_send hc
        obtain ⟨hal, h1⟩ := ih h2 hn2 hr
        rw [hA2] at hal
        rw [hA]
        exact ⟨hal, h1⟩
      | receive y =>
        obtain ⟨hA, h2, hA2⟩ := h.after_receive hc
        obtain ⟨hal, h1⟩ := ih h2 hn2 hr
        rw [hA2] at hal
        rw [hA]
        exact ⟨hal, h1⟩
      | releaseAll => exact absurd (List.mem_cons_self _ _) hn

/-- A completed `send` returns with the slot filled. -/
theorem UniqueBuffer.send_flags {b b1 : UniqueBuffer α} {x l : α}
    (h : b.send x = some (b1, l)) :
    b1._bufferAvailable = false ∧ b1._dataRefreshed = true ∧ b1._ending = b._ending := by
  unfold UniqueBuffer.send at h
  by_cases hw : (b._bufferAvailable || b._ending) = true
  · rw [if_pos hw] at h
    injection h with h
    injection h with h1 h2
    subst h1
    exact ⟨rfl, rfl, rfl⟩
  · rw [if_neg hw] at h
    exact absurd h (by simp)

/-- A completed `receive` returns with the slot available. -/
theorem UniqueBuffer.receive_flags {b b1 : UniqueBuffer α} {x l : α}
    (h : b.receive x = some (b1, l)) :
    b1._bufferAvailable = true ∧ b1._dataRefreshed = false ∧ b1._ending = b._ending := by
  unfold UniqueBuffer.receive at h
  by_cases hw : (b._dataRefreshed || b._ending) = true
  · rw [if_pos hw] at h
    injection h with h
    injection h with h1 h2
    subst h1
    exact ⟨rfl, rfl, rfl⟩
  · rw [if_neg hw] at h
    exact absurd h (by simp)

/-- Every completed call leaves exactly one of the two slot flags set,
provided exactly one was set before. -/
theorem Edge.call_flags {e e1 : Edge α} {c : BufferCall α}
    (h : e.buffer._bufferAvailable = !e.buffer._dataRefreshed)
    (hc : e.call c = some e1) :
    e1.buffer._bufferAvailable = !e1.buffer._dataRefreshed := by
  cases c with
  | send x =>
    cases hs : e.buffer.send x with
    | none => simp [Edge.call, hs] at hc
    | some r =>
      obtain ⟨b1, l⟩ := r
      simp [Edge.call, hs] at hc
      subst hc
      obtain ⟨h1, h2, _⟩ := UniqueBuffer.send_flags hs
      simp [h1, h2]
  | receive y =>
    cases hs : e.buffer.receive y with
    | none => simp [Edge.call, hs] at hc
    | some r =>
      obtain ⟨b1, l⟩ := r
      simp [Edge.call, hs] at hc
      subst hc
      obtain ⟨h1, h2, _⟩ := UniqueBuffer.receive_flags hs
      simp [h1, h2]
  | releaseAll =>
    simp [Edge.call, UniqueBuffer.releaseAll] at hc
    subst hc
    exact h

theorem Edge.run_flags {cs : List (BufferCall α)} :
    ∀ {e e1 : Edge α}, e.buffer._bufferAvailable = (!e.buffer._dataRefreshed) →
      e.run cs = some e1 → e1.buffer._bufferAvailable = !e1.buffer._dataRefreshed := by
  induction cs with
  | nil =>
    intro e e1 h hr
    simp [Edge.run] at hr
    subst hr
    exact h
  | cons c cs ih =>
    intro e e1 h hr
    rw [Edge.edgeRun_cons] at hr
    cases hc : e.call c with
    | none => simp [hc] at hr
    | some e2 =>
      simp [hc] at hr
      exact ih (Edge.call_flags h hc) hr

end BufferLemmas


/-- C1. Round trip: on a non-terminated buffer whose slot is available, `send`
with a local cell `x` followed by `receive` into any local cell `y` completes,
the receiver's cell is `x`, and the buffer is back in the available state
(`_bufferAvailable` set, `_dataRefreshed` clear, not terminated), now owning
`y`.  The value of `_dataRefreshed` before the send plays no part. -/
theorem C1_send_receive_round_trip {α : Type} (b : UniqueBuffer α) (x y : α)
    (hE : b._ending = false) (hA : b._bufferAvailable = true) :
    ∃ b1 l1 b2 l2, b.send x = some (b1, l1) ∧ b1.receive y = some (b2, l2) ∧
      l2 = x ∧ b2._bufferAvailable = true ∧ b2._dataRefreshed = false ∧
      b2._ending = false ∧ l1 = b._buffer ∧ b2._buffer = y := by
  refine ⟨{ b with _buffer := x, _bufferAvailable := false, _dataRefreshed := true },
    b._buffer, { b with _buffer := y, _bufferAvailable := true, _dataRefreshed := false },
    x, ?_, ?_, rfl, rfl, rfl, hE, rfl, rfl⟩
  · simp [UniqueBuffer.send, hA]
  · simp [UniqueBuffer.receive]

/-- Witness for C1 on a fresh buffer over `Nat` cells. -/
theorem C1_send_receive_round_trip_witness :
    ∃ b1 l1 b2 l2, (UniqueBuffer.new 0).send 16 = some (b1, l1) ∧
      b1.receive 7 = some (b2, l2) ∧
      l2 = 16 ∧ b2._bufferAvailable = true ∧ b2._dataRefreshed = false ∧
      b2._ending = false ∧ l1 = (UniqueBuffer.new 0)._buffer ∧ b2._buffer = 7 :=
  C1_send_receive_round_trip (UniqueBuffer.new (0 : Nat)) 16 7 rfl rfl

/-- C2. Per-edge FIFO: take a non-terminated buffer in its available state
and any sequence of `send` and `receive` calls on it that all complete.  Then
the calls alternate, beginning with a `send`; the cells obtained by the
receives are a prefix of the cells deposited by the sends, in the same order;
and at most one deposited cell has not been obtained yet. -/
theorem C2_edge_fifo {α : Type} (b : UniqueBuffer α) (cs : List (BufferCall α))
    (e : Edge α) (hE : b._ending = false) (hA : b._bufferAvailable = true)
    (hR : b._dataRefreshed = false) (hcs : BufferCall.releaseAll ∉ cs)
    (hrun : (Edge.start b).run cs = some e) :
    alternates true cs ∧ e.obtained <+: e.deposited ∧
      e.deposited.length ≤ e.obtained.length + 1 ∧ e.buffer._ending = false := by
  have h0 : (Edge.start b).Consistent := ⟨hE, Or.inl ⟨hA, hR, rfl⟩⟩
  obtain ⟨hal, hE1, hF⟩ := h0.after_run hcs hrun
  refine ⟨by simpa [Edge.start, hA] using hal, ?_, ?_, hE1⟩
  · rcases hF with ⟨_, _, hD⟩ | ⟨_, _, hD⟩
    · rw [hD]
    · rw [hD]; exact List.prefix_append _ _
  · rcases hF with ⟨_, _, hD⟩ | ⟨_, _, hD⟩
    · rw [hD]; omega
    · rw [hD]; simp

/-- Witness for C2: two items sent and received, then a third one sent. -/
theorem C2_edge_fifo_witness :
    alternates true
        [BufferCall.send 11, .receive 0, .send 12, .receive 11, .send 13] ∧
      [11, 12] <+: [11, 12, 13] ∧ [11, 12, 13].length ≤ [11, 12].length + 1 ∧
      (UniqueBuffer.mk 13 false true false)._ending = false :=
  C2_edge_fifo (UniqueBuffer.new (0 : Nat))
    [.send 11, .receive 0, .send 12, .receive 11, .send 13]
    { buffer := ⟨13, false, true, false⟩, deposited := [11, 12, 13], obtained := [11, 12] }
    rfl rfl rfl (by decide) (by decide)

/-- C3. Flag invariant: in every state reached from a freshly constructed
buffer by a finite sequence of completed `send`, `receive` and `releaseAll`
calls, exactly one of `_bufferAvailable` and `_dataRefreshed` is set. -/
theorem C3_flag_invariant {α : Type} (c : α) (cs : List (BufferCall α)) (e : Edge α)
    (hrun : (Edge.start (UniqueBuffer.new c)).run cs = some e) :
    Xor' (e.buffer._bufferAvailable = true) (e.buffer._dataRefreshed = true) := by
  have h := Edge.run_flags (e := Edge.start (UniqueBuffer.new c)) rfl hrun
  cases hR : e.buffer._dataRefreshed <;> simp [hR] at h <;> simp [Xor', h, hR]

/-- Witness for C3: a send, a termination, a receive and a further send. -/
theorem C3_flag_invariant_witness :
    Xor' ((UniqueBuffer.mk 8 false true true)._bufferAvailable = true)
      ((UniqueBuffer.mk 8 false true true)._dataRefreshed = true) :=
  C3_flag_invariant (0 : Nat) [.send 5, .releaseAll, .receive 7, .send 8]
    { buffer := ⟨8, false, true, true⟩, deposited := [5, 8], obtained := [5] } (by decide)

/-- C4, counterexample.  A freshly constructed buffer is terminated and then
`send` is called with a local cell `5`: the call swaps, so that the caller is
left with the buffer's cell `0` and the buffer owns `5`; the following
`receive` with a local cell `7` swaps as well. -/
theorem C4_terminated_send_swaps :
    (UniqueBuffer.new (0 : Nat)).releaseAll.send 5
        = some (⟨5, false, true, true⟩, 0) ∧
      (UniqueBuffer.mk (5 : Nat) false true true).receive 7
        = some (⟨7, true, false, true⟩, 5) := by
  decide

/-- C4, amended.  On a terminated buffer neither call blocks and the
terminated flag stays set.  `send` swaps exactly when `_bufferAvailable` is
set at the call and `receive` exactly when `_dataRefreshed` is set; otherwise
the caller's cell and the buffer's cell are unchanged. -/
theorem C4_terminated_calls {α : Type} (b : UniqueBuffer α) (x : α)
    (hE : b._ending = true) :
    (∃ b1 l, b.send x = some (b1, l) ∧ b1._ending = true ∧
        (b._bufferAvailable = false → l = x ∧ b1._buffer = b._buffer) ∧
        (b._bufferAvailable = true → l = b._buffer ∧ b1._buffer = x)) ∧
    (∃ b1 l, b.receive x = some (b1, l) ∧ b1._ending = true ∧
        (b._dataRefreshed = false → l = x ∧ b1._buffer = b._buffer) ∧
        (b._dataRefreshed = true → l = b._buffer ∧ b1._buffer = x)) := by
  constructor
  · cases hA : b._bufferAvailable <;> simp [UniqueBuffer.send, hA, hE] <;>
      exact ⟨_, _, ⟨rfl, rfl⟩, rfl, rfl, rfl⟩
  · cases hR : b._dataRefreshed <;> simp [UniqueBuffer.receive, hR, hE] <;>
      exact ⟨_, _, ⟨rfl, rfl⟩, rfl, rfl, rfl⟩

/-- Witness for C4: a terminated buffer whose slot is filled. -/
theorem C4_terminated_calls_witness :
    (∃ b1 l, (UniqueBuffer.mk (3 : Nat) false true true).send 9 = some (b1, l) ∧
        b1._ending = true ∧
        ((UniqueBuffer.mk (3 : Nat) false true true)._bufferAvailable = false →
          l = 9 ∧ b1._buffer = (UniqueBuffer.mk (3 : Nat) false true true)._buffer) ∧
        ((UniqueBuffer.mk (3 : Nat) false true true)._bufferAvailable = true →
          l = (UniqueBuffer.mk (3 : Nat) false true true)._buffer ∧ b1._buffer = 9)) ∧
    (∃ b1 l, (UniqueBuffer.mk (3 : Nat) false true true).receive 9 = some (b1, l) ∧
        b1._ending = true ∧
        ((UniqueBuffer.mk (3 : Nat) false true true)._dataRefreshed = false →
          l = 9 ∧ b1._buffer = (UniqueBuffer.mk (3 : Nat) false true true)._buffer) ∧
        ((UniqueBuffer.mk (3 : Nat) false true true)._dataRefreshed = true →
          l = (UniqueBuffer.mk (3 : Nat) false true true)._buffer ∧ b1._buffer = 9)) :=
  C4_terminated_calls (UniqueBuffer.mk (3 : Nat) false true true) 9 rfl

/-! ## The stage executers: theorems -/

section StageLemmas

variable {W : Type}

theorem Stage.threadRun_zero (ops : OperatorTable W) (st : Stage W) :
    st.threadRun ops 0 = some st := rfl

theorem Stage.threadRun_succ (ops : OperatorTable W) (st : Stage W) (n : Nat) :
    st.threadRun ops (n + 1) =
      (st.executer._execute ops st.shared).bind fun r => Stage.threadRun ops ⟨r.1, r.2⟩ n := by
  simp only [Stage.threadRun, List.replicate_succ, Stage.run, Stage.act]
  cases h : st.executer._execute ops st.shared with
  | none => simp
  | some r => simp

/-- A whole iteration of a transform stage in `Continuous` mode, from the loop
condition back to the loop condition, when an item is resident in the input
port and the slot of the output port is available. -/
theorem Stage.iteration (ops : OperatorTable W) (st : Stage W) (inPort outPort : Nat)
    (bin bout : UniqueBuffer Addr) (opIn opOut : Nat) (w1 : W) (status : OperationStatus)
    (hk : st.executer.kind = .OperatorExecuter) (hpc : st.executer.pc = .loopTest)
    (hm : st.executer._executionMode = .Continuous) (he : st.executer._ending = false)
    (hip : st.executer._inputPort = some inPort) (hop : st.executer._outputPort = some outPort)
    (hne : inPort ≠ outPort)
    (hbi : st.shared.buffers[inPort]? = some bin) (hbo : st.shared.buffers[outPort]? = some bout)
    (hin : bin._dataRefreshed = true) (hout : bout._bufferAvailable = true)
    (hoi : st.executer._opInput = some opIn) (hoo : st.executer._opOutput = some opOut)
    (hrun : Executer.runOperators ops st.executer.operators
      (ops.writeOutput opOut st.executer._outputBuffer
        (ops.writeInput opIn bin._buffer st.shared.world))
      st.executer._opStatus = some (w1, status)) :
    ∃ st1, st.threadRun ops 6 = some st1 ∧ st1.shared.world = w1 ∧
      st1.shared.buffers[outPort]? = some { bout with
        _buffer := st.executer._outputBuffer, _bufferAvailable := false,
        _dataRefreshed := true } ∧
      st1.shared.buffers[inPort]? = some { bin with
        _buffer := st.executer._inputBuffer, _bufferAvailable := true,
        _dataRefreshed := false } ∧
      st1.executer._inputBuffer = bin._buffer ∧
      st1.executer._outputBuffer = bout._buffer ∧
      st1.executer.log = st.executer.log ++ [.receive bin._buffer] ++
        st.executer.operators.map .operation ++ [.send st.executer._outputBuffer] ∧
      st1.executer.pc = .loopTest := by
  obtain ⟨s, e⟩ := st
  simp only at hk hpc hm he hip hop hbi hbo hoi hoo hrun
  have hlen : inPort < s.buffers.length := (List.getElem?_eq_some_iff.mp hbi).1
  have hlen2 : outPort < s.buffers.length := (List.getElem?_eq_some_iff.mp hbo).1
  simp [Stage.threadRun_succ, Stage.threadRun_zero, Executer._execute, hpc, he, hm, hk,
    ExecuterKind.hasInput, ExecuterKind.hasOutput, hip, hop, hbi, hbo, UniqueBuffer.receive,
    UniqueBuffer.send, hin, hout, Executer.bindSlots, hoi, hoo, hrun, List.getElem?_set_ne hne,
    hne, hne.symm, hlen]
  exact List.getElem?_set_self (by simpa using hlen2)

/-- `Mult3` followed by `Div3Round`, linked slot to slot through the cell `a`,
with the first input bound to `c` and the last output bound to `o`. -/
theorem World.mult3_div3Round (w : World) (i1 i2 : Nat) (ob1 ob2 : Operator)
    (a c o : Addr) (x : Dyadic) (status : OperationStatus) (h12 : i1 ≠ i2)
    (h1 : w.objects[i1]? = some ob1) (hm1 : ob1.members = .Mult3)
    (ho1 : ob1._output = some a)
    (h2 : w.objects[i2]? = some ob2) (hm2 : ob2.members = .Div3Round)
    (hi2 : ob2._input = some a)
    (ha : a < w.heap.length) (hc : w.heap[c]? = some x) (ho : o < w.heap.length) :
    ∃ w1, Executer.runOperators World.table [i1, i2]
        (World.table.writeOutput i2 o (World.table.writeInput i1 c w)) status
          = some (w1, status) ∧
      w1.heap[o]? = some (Div3Round.value (Mult3.value x)) := by
  obtain ⟨hl1, rfl⟩ := List.getElem?_eq_some_iff.mp h1
  obtain ⟨hl2, rfl⟩ := List.getElem?_eq_some_iff.mp h2
  obtain ⟨hcl, rfl⟩ := List.getElem?_eq_some_iff.mp hc
  simp [Executer.runOperators, World.table, World.writeInput, World.writeOutput,
    World.operation, h12, h12.symm, hl1, hl2, hcl, hm1, hm2, World.assign, ho1, hi2, ha, ho,
    List.getElem?_set_ne]

/-- An iteration of a transform stage hosting `Mult3` then `Div3Round`. -/
theorem Stage.iteration_mult3_div3Round (st : Stage World) (inPort outPort : Nat)
    (bin bout : UniqueBuffer Addr) (i1 i2 : Nat) (ob1 ob2 : Operator) (a : Addr) (x : Int)
    (hk : st.executer.kind = .OperatorExecuter) (hpc : st.executer.pc = .loopTest)
    (hm : st.executer._executionMode = .Continuous) (he : st.executer._ending = false)
    (hip : st.executer._inputPort = some inPort) (hop : st.executer._outputPort = some outPort)
    (hne : inPort ≠ outPort)
    (hbi : st.shared.buffers[inPort]? = some bin) (hbo : st.shared.buffers[outPort]? = some bout)
    (hin : bin._dataRefreshed = true) (hout : bout._bufferAvailable = true)
    (hops : st.executer.operators = [i1, i2])
    (hoi : st.executer._opInput = some i1) (hoo : st.executer._opOutput = some i2)
    (h12 : i1 ≠ i2)
    (h1 : st.shared.world.objects[i1]? = some ob1) (hm1 : ob1.members = .Mult3)
    (ho1 : ob1._output = some a)
    (h2 : st.shared.world.objects[i2]? = some ob2) (hm2 : ob2.members = .Div3Round)
    (hi2 : ob2._input = some a)
    (ha : a < st.shared.world.heap.length)
    (hx : st.shared.world.heap[bin._buffer]? = some (.ofInt x))
    (ho : st.executer._outputBuffer < st.shared.world.heap.length) :
    ∃ st1, st.threadRun World.table 6 = some st1 ∧
      st1.shared.buffers[outPort]? = some { bout with
        _buffer := st.executer._outputBuffer, _bufferAvailable := false,
        _dataRefreshed := true } ∧
      st1.shared.world.heap[st.executer._outputBuffer]?
        = some (Div3Round.value (Mult3.value (.ofInt x))) := by
  obtain ⟨w1, hrun, hval⟩ := World.mult3_div3Round st.shared.world i1 i2 ob1 ob2 a
    bin._buffer st.executer._outputBuffer (.ofInt x) st.executer._opStatus h12 h1 hm1 ho1 h2
    hm2 hi2 ha hx ho
  rw [← hops] at hrun
  obtain ⟨st1, hr, hw, hb, _⟩ := Stage.iteration World.table st inPort outPort bin bout i1 i2
    w1 _ hk hpc hm he hip hop hne hbi hbo hin hout hoi hoo hrun
  exact ⟨st1, hr, hb, by rw [hw]; exact hval⟩

/-- The exact value `⌊3.1 * x / 3⌋` is the integer quotient `31 * x / 30`. -/
theorem floor_exact (x : Int) : ⌊(31 / 10 : ℚ) * x / 3⌋ = 31 * x / 30 := by
  have h : (31 / 10 : ℚ) * x / 3 = ((31 * x : Int) : ℚ) / ((30 : Nat) : ℚ) := by
    push_cast; ring
  rw [h, Rat.floor_intCast_div_natCast]
  rfl

set_option maxRecDepth 100000 in
/-- Up to `100` the `float` computation of `Mult3` then `Div3Round` gives the
exact `⌊3.1 * x / 3⌋`. -/
theorem mult3_div3Round_small :
    ∀ x : Fin 101, Div3Round.value (Mult3.value (.ofInt x.val)) = .ofInt (31 * x.val / 30) := by
  decide

end StageLemmas

/-- C5, counterexample.  In `OneThreadTest` with the item `676529` the stage
deposits the cell `1` in its output port, holding `699080`, while
`⌊3.1 * 676529 / 3⌋ = 699079`: the `float` product `3.1 * 676529` is rounded
up to `2097240`. -/
theorem C5_item_676529 :
    ((oneThreadTest 676529).threadRun World.table 6).map
        (fun st => (st.shared.buffers[1]?, st.shared.world.heap[1]?))
      = some (some ⟨1, false, true, false⟩, some (.ofInt 699080)) ∧
    ⌊(31 / 10 : ℚ) * (676529 : Int) / 3⌋ = 699079 := by
  constructor
  · decide
  · rw [floor_exact]; decide

/-- C5, amended.  (1) For every operator table: when a transform stage in
`Continuous` mode stands at its loop condition, an item is resident in its
input port and the slot of its output port is available, the thread completes
the iteration in six transitions; it withdraws the resident cell, binds the
first operator's input to that cell and the last operator's output to
`_outputBuffer`, invokes the operators in order, and deposits the former
`_outputBuffer` cell in the output port.  (2) For the stage hosting `Mult3`
then `Div3Round`, linked slot to slot, the deposited cell holds the `float`
value `Div3Round.value (Mult3.value x)` for the item `x` withdrawn.  (3) That
value is `16` for `16` and `15` for `15`, and is `⌊3.1 * x / 3⌋` for
`0 ≤ x ≤ 100`. -/
theorem C5_stage_output :
    (∀ (W : Type) (ops : OperatorTable W) (st : Stage W) (inPort outPort : Nat)
        (bin bout : UniqueBuffer Addr) (opIn opOut : Nat) (w1 : W)
        (status : OperationStatus),
      st.executer.kind = .OperatorExecuter → st.executer.pc = .loopTest →
      st.executer._executionMode = .Continuous → st.executer._ending = false →
      st.executer._inputPort = some inPort → st.executer._outputPort = some outPort →
      inPort ≠ outPort →
      st.shared.buffers[inPort]? = some bin → st.shared.buffers[outPort]? = some bout →
      bin._dataRefreshed = true → bout._bufferAvailable = true →
      st.executer._opInput = some opIn → st.executer._opOutput = some opOut →
      Executer.runOperators ops st.executer.operators
          (ops.writeOutput opOut st.executer._outputBuffer
            (ops.writeInput opIn bin._buffer st.shared.world))
          st.executer._opStatus = some (w1, status) →
      ∃ st1, st.threadRun ops 6 = some st1 ∧ st1.shared.world = w1 ∧
        st1.shared.buffers[outPort]? = some { bout with
          _buffer := st.executer._outputBuffer, _bufferAvailable := false,
          _dataRefreshed := true } ∧
        st1.shared.buffers[inPort]? = some { bin with
          _buffer := st.executer._inputBuffer, _bufferAvailable := true,
          _dataRefreshed := false } ∧
        st1.executer._inputBuffer = bin._buffer ∧
        st1.executer._outputBuffer = bout._buffer ∧
        st1.executer.log = st.executer.log ++ [.receive bin._buffer] ++
          st.executer.operators.map .operation ++ [.send st.executer._outputBuffer] ∧
        st1.executer.pc = .loopTest) ∧
    (∀ (st : Stage World) (inPort outPort : Nat) (bin bout : UniqueBuffer Addr)
        (i1 i2 : Nat) (ob1 ob2 : Operator) (a : Addr) (x : Int),
      st.executer.kind = .OperatorExecuter → st.executer.pc = .loopTest →
      st.executer._executionMode = .Continuous → st.executer._ending = false →
      st.executer._inputPort = some inPort → st.executer._outputPort = some outPort →
      inPort ≠ outPort →
      st.shared.buffers[inPort]? = some bin → st.shared.buffers[outPort]? = some bout →
      bin._dataRefreshed = true → bout._bufferAvailable = true →
      st.executer.operators = [i1, i2] →
      st.executer._opInput = some i1 → st.executer._opOutput = some i2 → i1 ≠ i2 →
      st.shared.world.objects[i1]? = some ob1 → ob1.members = .Mult3 →
      ob1._output = some a →
      st.shared.world.objects[i2]? = some ob2 → ob2.members = .Div3Round →
      ob2._input = some a →
      a < st.shared.world.heap.length →
      st.shared.world.heap[bin._buffer]? = some (.ofInt x) →
      st.executer._outputBuffer < st.shared.world.heap.length →
      ∃ st1, st.threadRun World.table 6 = some st1 ∧
        st1.shared.buffers[outPort]? = some { bout with
          _buffer := st.executer._outputBuffer, _bufferAvailable := false,
          _dataRefreshed := true } ∧
        st1.shared.world.heap[st.executer._outputBuffer]?
          = some (Div3Round.value (Mult3.value (.ofInt x)))) ∧
    Div3Round.value (Mult3.value (.ofInt 16)) = .ofInt 16 ∧
    Div3Round.value (Mult3.value (.ofInt 15)) = .ofInt 15 ∧
    (∀ x : Int, 0 ≤ x → x ≤ 100 →
      Div3Round.value (Mult3.value (.ofInt x)) = .ofInt ⌊(31 / 10 : ℚ) * x / 3⌋) := by
  refine ⟨?_, ?_, by decide, by decide, ?_⟩
  · intro W ops st inPort outPort bin bout opIn opOut w1 status hk hpc hm he hip hop hne hbi
      hbo hin hout hoi hoo hrun
    exact Stage.iteration ops st inPort outPort bin bout opIn opOut w1 status hk hpc hm he hip
      hop hne hbi hbo hin hout hoi hoo hrun
  · intro st inPort outPort bin bout i1 i2 ob1 ob2 a x hk hpc hm he hip hop hne hbi hbo hin
      hout hops hoi hoo h12 h1 hm1 ho1 h2 hm2 hi2 ha hx ho
    exact Stage.iteration_mult3_div3Round st inPort outPort bin bout i1 i2 ob1 ob2 a x hk hpc
      hm he hip hop hne hbi hbo hin hout hops hoi hoo h12 h1 hm1 ho1 h2 hm2 hi2 ha hx ho
  · intro x h0 h1
    rw [floor_exact]
    have hx : x = ((⟨x.toNat, by omega⟩ : Fin 101).val : Int) := by
      simp only; omega
    rw [hx]
    exact mult3_div3Round_small _

/-- Witness for C5: the second part at `OneThreadTest` with the item `16`. -/
theorem C5_stage_output_witness :
    ∃ st1, (oneThreadTest 16).threadRun World.table 6 = some st1 ∧
      st1.shared.buffers[1]? = some ⟨1, false, true, false⟩ ∧
      st1.shared.world.heap[1]? = some (Div3Round.value (Mult3.value (.ofInt 16))) :=
  C5_stage_output.2.1 (oneThreadTest 16) 0 1 ⟨3, false, true, false⟩ ⟨6, true, false, false⟩
    0 1 ⟨none, some 2, none, some 2, .Mult3⟩ ⟨none, none, some 2, none, .Div3Round⟩ 2 16
    rfl rfl rfl rfl rfl rfl (by decide) rfl rfl rfl rfl rfl rfl rfl (by decide) rfl rfl rfl
    rfl rfl rfl (by decide) rfl (by decide)

section ControlLemmas

variable {W : Type}

theorem Stage.stageRun_nil (ops : OperatorTable W) (st : Stage W) : st.run ops [] = some st := rfl

theorem Stage.stageRun_cons (ops : OperatorTable W) (st : Stage W) (a : Action W)
    (as : List (Action W)) :
    st.run ops (a :: as) = (st.act ops a).bind fun st1 => st1.run ops as := by
  cases h : st.act ops a <;> simp [Stage.run, h]

/-- An invariant of every action is an invariant of every run. -/
theorem Stage.run_invariant (ops : OperatorTable W) (P : Stage W → Prop)
    (hP : ∀ st a st1, P st → st.act ops a = some st1 → P st1) :
    ∀ (as : List (Action W)) (st st1 : Stage W), P st → st.run ops as = some st1 → P st1 := by
  intro as
  induction as with
  | nil =>
    intro st st1 h hr
    simp [Stage.run] at hr
    subst hr
    exact h
  | cons a as ih =>
    intro st st1 h hr
    rw [Stage.stageRun_cons] at hr
    cases ha : st.act ops a with
    | none => simp [ha] at hr
    | some st2 =>
      simp [ha] at hr
      exact ih st2 st1 (hP st a st2 h ha) hr

/-- The status recorded by the loop: `complete` as soon as one operator
returns `complete`, and the former status otherwise. -/
theorem Executer.runOperators_status (ops : OperatorTable W) :
    ∀ (l : List Nat) (w : W) (opStatus : OperationStatus),
      (Executer.runOperators ops l w opStatus).map Prod.snd =
        (Executer.returned ops l w).map fun statuses =>
          if OperationStatus.complete ∈ statuses then .complete else opStatus := by
  intro l
  induction l with
  | nil => intro w opStatus; simp [Executer.runOperators, Executer.returned]
  | cons op rest ih =>
    intro w opStatus
    cases h : ops.operation op w with
    | none => simp [Executer.runOperators, Executer.returned, h]
    | some r =>
      obtain ⟨w1, opStat⟩ := r
      simp only [Executer.runOperators, Executer.returned, h]
      rw [ih]
      cases hr : Executer.returned ops rest w1 with
      | none => simp
      | some statuses =>
        cases opStat <;> simp

/-- The loop succeeds exactly when every operator does. -/
theorem Executer.runOperators_of_returned (ops : OperatorTable W) (l : List Nat) (w : W)
    (opStatus : OperationStatus) (statuses : List OperationStatus)
    (h : Executer.returned ops l w = some statuses) :
    ∃ w1, Executer.runOperators ops l w opStatus =
      some (w1, if OperationStatus.complete ∈ statuses then .complete else opStatus) := by
  have hs := Executer.runOperators_status ops l w opStatus
  rw [h] at hs
  cases hr : Executer.runOperators ops l w opStatus with
  | none => simp [hr] at hs
  | some r =>
    obtain ⟨w1, s1⟩ := r
    simp [hr] at hs
    exact ⟨w1, by rw [hs]⟩

theorem Executer.stop_fields (ops : OperatorTable W) (s : Shared W) (e : Executer) :
    (e.stop ops s).2._ending = true ∧ (e.stop ops s).2.pc = e.pc ∧
      (e.stop ops s).2.log = e.log ∧ (e.stop ops s).2._outputBuffer = e._outputBuffer ∧
      (e.stop ops s).2._inputBuffer = e._inputBuffer ∧
      (e.stop ops s).2._executionMode = e._executionMode ∧
      (e.stop ops s).2._newMessage = e._newMessage ∧
      (e.stop ops s).2._opStatus = e._opStatus ∧
      (e.stop ops s).2.kind = e.kind ∧ (e.stop ops s).2.operators = e.operators := by
  unfold Executer.stop Executer._terminateInputOutput
  cases hk : e.kind <;> cases hi : e._inputPort <;> cases ho : e._outputPort <;>
    simp [Executer.input, Executer.output, hi, ho, hk]

end ControlLemmas

section ErrorLemmas

variable {W : Type}

/-- From the loop condition, a stage that is not ending and is in
`Continuous` mode reaches the first call of the loop body in three
transitions. -/
theorem Stage.reenter (ops : OperatorTable W) (st : Stage W)
    (hpc : st.executer.pc = .loopTest) (he : st.executer._ending = false)
    (hm : st.executer._executionMode = .Continuous) :
    st.threadRun ops 3 = some ⟨st.shared,
      { st.executer with
        pc := if st.executer.kind.hasInput then .receiving else .operating }⟩ := by
  obtain ⟨s, e⟩ := st
  simp only at hpc he hm
  cases hk : e.kind.hasInput <;>
    simp [Stage.threadRun_succ, Stage.threadRun_zero, Executer._execute, hpc, he, hm, hk]

end ErrorLemmas

/-- C7, counterexample.  A source stage in `Continuous` mode whose only
operator returns `error`: after the iteration `_ending` is still clear and
the recorded status is still `running`, the item is sent, and the thread
enters the next iteration and invokes the operator again. -/
theorem C7_error_does_not_stop :
    ((statusStage 2 .Continuous .operating).threadRun statusTable 6).map
        (fun st => (st.executer._ending, st.executer._opStatus, st.executer.pc,
          st.executer.log))
      = some (false, .running, .sending, [.operation 2, .send 0, .operation 2]) := by
  decide

/-- C7, amended.  Let the thread stand before the operator loop with no
`complete` recorded, and let no operator return `complete` in the loop
(`error` may be returned).  Then the transition leaves `_opStatus` and
`_ending` as they were and goes on to `send` (or, in a sink, to the loop
condition), having invoked every operator once.  If the stage was not ending,
the loop is not left: from the loop condition the thread goes back into the
loop, and in `Continuous` mode three transitions bring it to the first call of
the next iteration. -/
theorem C7_error_not_recorded {W : Type} (ops : OperatorTable W) (st : Stage W)
    (w : W) (statuses : List OperationStatus)
    (hpc : st.executer.pc = .operating)
    (hb : Executer.bindSlots ops st.executer st.shared.world = some w)
    (hret : Executer.returned ops st.executer.operators w = some statuses)
    (hn : OperationStatus.complete ∉ statuses)
    (hs : st.executer._opStatus ≠ .complete) :
    ∃ st1, st.act ops .thread = some st1 ∧
      st1.executer._opStatus = st.executer._opStatus ∧
      st1.executer._ending = st.executer._ending ∧
      st1.executer._executionMode = st.executer._executionMode ∧
      st1.executer.pc = (if st.executer.kind.hasOutput then .sending else .loopTest) ∧
      st1.executer.log = st.executer.log ++ st.executer.operators.map .operation ∧
      (∀ st2 : Stage W, st2.executer.pc = .loopTest →
        st2.executer._ending = false →
        (∃ st3, st2.act ops .thread = some st3 ∧ st3.executer.pc = .locked) ∧
        (st2.executer._executionMode = .Continuous →
          st2.threadRun ops 3 = some ⟨st2.shared,
            { st2.executer with
              pc := if st2.executer.kind.hasInput then .receiving else .operating }⟩)) := by
  obtain ⟨s, e⟩ := st
  simp only at hpc hb hret hs
  obtain ⟨w1, hrun⟩ := Executer.runOperators_of_returned ops e.operators w e._opStatus statuses hret
  simp only [hn, if_false] at hrun
  refine ⟨⟨{ s with world := w1 },
    { e with _opStatus := e._opStatus
             _ending := e._ending
             pc := if e.kind.hasOutput then .sending else .loopTest
             log := e.log ++ e.operators.map .operation }⟩, ?_, rfl, rfl, rfl, rfl, rfl, ?_⟩
  · simp [Stage.act, Executer._execute, hpc, hb, hrun, hs]
  · intro st2 hp2 he2
    refine ⟨?_, fun hm2 => Stage.reenter ops st2 hp2 he2 hm2⟩
    obtain ⟨s2, e2⟩ := st2
    simp only at hp2 he2
    simp [Stage.act, Executer._execute, hp2, he2]

/-- Witness for C7: the source stage whose only operator returns `error`. -/
theorem C7_error_not_recorded_witness :
    ∃ st1, (statusStage 2 .Continuous .operating).act statusTable .thread = some st1 ∧
      st1.executer._opStatus = (statusStage 2 .Continuous .operating).executer._opStatus ∧
      st1.executer._ending = (statusStage 2 .Continuous .operating).executer._ending ∧
      st1.executer._executionMode = (statusStage 2 .Continuous .operating).executer._executionMode ∧
      st1.executer.pc = (if (statusStage 2 .Continuous .operating).executer.kind.hasOutput
        then .sending else .loopTest) ∧
      st1.executer.log = (statusStage 2 .Continuous .operating).executer.log ++
        (statusStage 2 .Continuous .operating).executer.operators.map .operation ∧
      (∀ st2 : Stage Nat, st2.executer.pc = .loopTest →
        st2.executer._ending = false →
        (∃ st3, st2.act statusTable .thread = some st3 ∧ st3.executer.pc = .locked) ∧
        (st2.executer._executionMode = .Continuous →
          st2.threadRun statusTable 3 = some ⟨st2.shared,
            { st2.executer with
              pc := if st2.executer.kind.hasInput then .receiving else .operating }⟩)) :=
  C7_error_not_recorded statusTable (statusStage 2 .Continuous .operating) 0 [.error]
    rfl rfl rfl (by decide) (by decide)

section StepLemmas

variable {W : Type}

/-- A peer's call leaves the executer as it is. -/
theorem Stage.act_peer (ops : OperatorTable W) (st st1 : Stage W) (a : Action W)
    (ha : st.act ops a = some st1) (hn : a.isOwnerCall = false)
    (ht : ∀ r, st.executer._execute ops st.shared = some r → st1 ≠ ⟨r.1, r.2⟩ ∨ a ≠ .thread) :
    st1.executer = st.executer := by
  obtain ⟨s, e⟩ := st
  cases a with
  | thread =>
    simp only [Stage.act] at ha
    cases hx : e._execute ops s with
    | none => simp [hx] at ha
    | some r =>
      simp [hx] at ha
      rcases ht r hx with h | h
      · exact absurd ha.symm h
      · exact absurd rfl h
  | send msg => simp [Action.isOwnerCall] at hn
  | stop => simp [Action.isOwnerCall] at hn
  | startThread => simp [Action.isOwnerCall] at hn
  | peerSend port c =>
    simp only [Stage.act] at ha
    cases hb : s.buffers[port]? with
    | none => simp [hb] at ha
    | some b =>
      simp only [hb] at ha
      cases hs : b.send c with
      | none => simp [hs] at ha
      | some r1 =>
        simp [hs] at ha
        subst ha
        rfl
  | peerReceive port c =>
    simp only [Stage.act] at ha
    cases hb : s.buffers[port]? with
    | none => simp [hb] at ha
    | some b =>
      simp only [hb] at ha
      cases hs : b.receive c with
      | none => simp [hs] at ha
      | some r1 =>
        simp [hs] at ha
        subst ha
        rfl
  | peerReleaseAll port =>
    simp [Stage.act] at ha
    subst ha
    rfl
  | peerWrite f =>
    simp [Stage.act] at ha
    subst ha
    rfl

/-- A transition of the thread keeps the thread within the stepping states. -/
theorem Executer.Stepping.stepping_thread (ops : OperatorTable W) (e0 e e1 : Executer)
    (s s1 : Shared W) (h : Executer.Stepping e0 e)
    (hx : e._execute ops s = some (s1, e1)) : Executer.Stepping e0 e1 := by
  obtain ⟨hk, hops, hm, hcases⟩ := h
  rcases hcases with ⟨hp, hn, he, hl⟩ | ⟨hn, hcases⟩
  · simp [Executer._execute, hp, hn] at hx
    obtain ⟨_, rfl⟩ := hx
    exact ⟨hk, hops, (by simp [hm]), Or.inr ⟨rfl, Or.inl ⟨rfl, (by simp [he]), hl⟩⟩⟩
  · rcases hcases with ⟨hp, he, hl⟩ | ⟨hp, he, hi, hl⟩ | ⟨hp, he, c, hl⟩ | ⟨hp, ho, c, hl⟩ |
      ⟨hp, c, d, hl⟩ | ⟨hp, he, c, d, hl⟩ | ⟨hp, he, c, d, hl⟩
    · -- endingTest
      cases hi : e.kind.hasInput
      · simp [Executer._execute, hp, he, hi] at hx
        obtain ⟨_, rfl⟩ := hx
        refine ⟨hk, hops, (by simp [hm]),
          Or.inr ⟨(by simp [hn]), Or.inr (Or.inr (Or.inl ⟨rfl, (by simp [he]), 0, ?_⟩))⟩⟩
        simp [← hk, hi, hl]
      · simp [Executer._execute, hp, he, hi] at hx
        obtain ⟨_, rfl⟩ := hx
        exact ⟨hk, hops, (by simp [hm]),
          Or.inr ⟨(by simp [hn]), Or.inr (Or.inl ⟨rfl, (by simp [he]), (by simp [hi]), hl⟩)⟩⟩
    · -- receiving
      simp only [Executer._execute, hp] at hx
      cases hport : e._inputPort with
      | none =>
        simp [hport, Executer.input] at hx
        obtain ⟨_, rfl⟩ := hx
        exact ⟨hk, hops, (by simp [hm]),
          Or.inr ⟨(by simp [hn]), Or.inr (Or.inl ⟨(by simp [hp]), (by simp [he]), (by simp [hi]), hl⟩)⟩⟩
      | some port =>
        simp only [hport] at hx
        cases hb : s.buffers[port]? with
        | none => simp [hb] at hx
        | some b =>
          simp only [hb] at hx
          cases hr : b.receive e._inputBuffer with
          | none => simp [hr] at hx
          | some r1 =>
            simp [hr] at hx
            obtain ⟨_, rfl⟩ := hx
            refine ⟨hk, hops, (by simp [hm]),
              Or.inr ⟨(by simp [hn]), Or.inr (Or.inr (Or.inl ⟨rfl, (by simp [he]), r1.2, ?_⟩))⟩⟩
            simp [← hk, hi, hl]
    · -- operating
      simp only [Executer._execute, hp] at hx
      cases hb : Executer.bindSlots ops e s.world with
      | none => simp [hb] at hx
      | some w =>
        simp only [hb] at hx
        cases hr : Executer.runOperators ops e.operators w e._opStatus with
        | none => simp [hr] at hx
        | some r1 =>
          simp [hr] at hx
          obtain ⟨_, rfl⟩ := hx
          cases ho : e.kind.hasOutput
          · refine ⟨hk, hops, hm, Or.inr ⟨hn, Or.inr (Or.inr (Or.inr (Or.inr (Or.inl
              ⟨by simp [ho], c, 0, ?_⟩))))⟩⟩
            simp [Executer.iterationLog, ← hk, ho, hl, hops]
          · refine ⟨hk, hops, hm, Or.inr ⟨hn, Or.inr (Or.inr (Or.inr (Or.inl
              ⟨by simp [ho], ho, c, ?_⟩)))⟩⟩
            simp [hl, hops]
    · -- sending
      simp only [Executer._execute, hp] at hx
      cases hport : e._outputPort with
      | none =>
        simp [hport, Executer.output] at hx
        obtain ⟨_, rfl⟩ := hx
        exact ⟨hk, hops, (by simp [hm]),
          Or.inr ⟨(by simp [hn]), Or.inr (Or.inr (Or.inr (Or.inl ⟨(by simp [hp]), (by simp [ho]), c,
            hl⟩)))⟩⟩
      | some port =>
        simp only [hport] at hx
        cases hb : s.buffers[port]? with
        | none => simp [hb] at hx
        | some b =>
          simp only [hb] at hx
          cases hr : b.send e._outputBuffer with
          | none => simp [hr] at hx
          | some r1 =>
            simp [hr] at hx
            obtain ⟨_, rfl⟩ := hx
            refine ⟨hk, hops, (by simp [hm]),
              Or.inr ⟨(by simp [hn]), Or.inr (Or.inr (Or.inr (Or.inr (Or.inl
              ⟨rfl, c, e._outputBuffer, ?_⟩))))⟩⟩
            simp [Executer.iterationLog, ← hk, ho, hl]
    · -- loopTest
      cases he : e._ending
      · simp [Executer._execute, hp, he] at hx
        obtain ⟨_, rfl⟩ := hx
        exact ⟨hk, hops, (by simp [hm]),
          Or.inr ⟨(by simp [hn]), Or.inr (Or.inr (Or.inr (Or.inr (Or.inr (Or.inl
          ⟨Or.inl rfl, (by simp [he]), c, d, hl⟩)))))⟩⟩
      · simp [Executer._execute, hp, he] at hx
        obtain ⟨_, rfl⟩ := hx
        exact ⟨hk, hops, (by simp [hm]),
          Or.inr ⟨(by simp [hn]), Or.inr (Or.inr (Or.inr (Or.inr (Or.inr (Or.inr
          ⟨rfl, (by simp [he]), c, d, hl⟩)))))⟩⟩
    · -- locked or waiting again
      rcases hp with hp | hp
      · simp [Executer._execute, hp, he, hm] at hx
        obtain ⟨_, rfl⟩ := hx
        exact ⟨hk, hops, (by simp [hm]),
          Or.inr ⟨(by simp [hn]), Or.inr (Or.inr (Or.inr (Or.inr (Or.inr (Or.inl
          ⟨Or.inr rfl, (by simp [he]), c, d, hl⟩)))))⟩⟩
      · simp [Executer._execute, hp, he, hn] at hx
    · -- finished
      simp [Executer._execute, hp] at hx

/-- Without an owner call, no action leads out of the stepping states. -/
theorem Executer.Stepping.stepping_act (ops : OperatorTable W) (e0 : Executer) (st st1 : Stage W)
    (a : Action W) (h : Executer.Stepping e0 st.executer) (hn : a.isOwnerCall = false)
    (ha : st.act ops a = some st1) : Executer.Stepping e0 st1.executer := by
  by_cases hthread : ∃ r, st.executer._execute ops st.shared = some r ∧
      st1 = ⟨r.1, r.2⟩ ∧ a = .thread
  · obtain ⟨r, hx, rfl, _⟩ := hthread
    exact Executer.Stepping.stepping_thread ops e0 st.executer r.2 st.shared r.1 h hx
  · have := Stage.act_peer ops st st1 a ha hn (fun r hr => by
      by_contra hc
      push_neg at hc
      exact hthread ⟨r, hr, hc.1, hc.2⟩)
    rw [this]
    exact h

/-- Runs without owner calls stay within the stepping states. -/
theorem Executer.Stepping.stepping_run (ops : OperatorTable W) (e0 : Executer) :
    ∀ (as : List (Action W)) (st st1 : Stage W), Executer.Stepping e0 st.executer →
      (∀ a ∈ as, a.isOwnerCall = false) → st.run ops as = some st1 →
      Executer.Stepping e0 st1.executer := by
  intro as
  induction as with
  | nil =>
    intro st st1 h _ hr
    simp [Stage.run] at hr
    subst hr
    exact h
  | cons a as ih =>
    intro st st1 h hn hr
    rw [Stage.stageRun_cons] at hr
    cases ha : st.act ops a with
    | none => simp [ha] at hr
    | some st2 =>
      simp [ha] at hr
      exact ih st2 st1
        (Executer.Stepping.stepping_act ops e0 st st2 a h (hn a (List.mem_cons_self _ _)) ha)
        (fun b hb => hn b (List.mem_cons_of_mem _ hb)) hr

end StepLemmas
section Transitions

variable {W : Type} (ops : OperatorTable W) (s : Shared W) (e : Executer)

theorem Executer.at_loopTest (hp : e.pc = .loopTest) :
    e._execute ops s = some (s, { e with pc := if e._ending then .finished else .locked }) := by
  cases he : e._ending <;> simp [Executer._execute, hp, he]

theorem Executer.at_locked (hp : e.pc = .locked) :
    e._execute ops s = some (s, { e with
      pc := if e._executionMode = .Step ∧ e._ending = false then .waiting else .endingTest }) := by
  by_cases h : e._executionMode = .Step ∧ e._ending = false
  · simp only [Executer._execute, hp, h, and_self, if_true]
  · simp only [Executer._execute, hp, h, if_false]

theorem Executer.at_waiting (hp : e.pc = .waiting) (h : (e._newMessage || e._ending) = true) :
    e._execute ops s = some (s, { e with _newMessage := false, pc := .endingTest }) := by
  simp only [Executer._execute, hp, h, if_true]

theorem Executer.at_waiting_blocked (hp : e.pc = .waiting) (hn : e._newMessage = false)
    (he : e._ending = false) : e._execute ops s = none := by
  simp [Executer._execute, hp, hn, he]

theorem Executer.at_endingTest (hp : e.pc = .endingTest) :
    e._execute ops s = some (s, { e with
      pc := if e._ending then .loopTest
        else if e.kind.hasInput then .receiving else .operating }) := by
  cases he : e._ending <;> cases hi : e.kind.hasInput <;>
    simp [Executer._execute, hp, he, hi]

theorem Executer.at_receiving (port : Nat) (b b1 : UniqueBuffer Addr) (cell : Addr)
    (hp : e.pc = .receiving) (hport : e._inputPort = some port)
    (hb : s.buffers[port]? = some b) (hr : b.receive e._inputBuffer = some (b1, cell)) :
    e._execute ops s = some ({ s with buffers := s.buffers.set port b1 },
      { e with _inputBuffer := cell, pc := .operating, log := e.log ++ [.receive cell] }) := by
  simp only [Executer._execute, hp, hport, hb, hr]

theorem Executer.at_operating (w w1 : W) (opStatus : OperationStatus)
    (hp : e.pc = .operating) (hb : Executer.bindSlots ops e s.world = some w)
    (hr : Executer.runOperators ops e.operators w e._opStatus = some (w1, opStatus)) :
    e._execute ops s = some ({ s with world := w1 },
      { e with _opStatus := opStatus,
               _ending := if opStatus = .complete then true else e._ending,
               pc := if e.kind.hasOutput then .sending else .loopTest,
               log := e.log ++ e.operators.map .operation }) := by
  simp only [Executer._execute, hp, hb, hr]

theorem Executer.at_sending (port : Nat) (b b1 : UniqueBuffer Addr) (cell : Addr)
    (hp : e.pc = .sending) (hport : e._outputPort = some port)
    (hb : s.buffers[port]? = some b) (hr : b.send e._outputBuffer = some (b1, cell)) :
    e._execute ops s = some ({ s with buffers := s.buffers.set port b1 },
      { e with _outputBuffer := cell, pc := .loopTest,
               log := e.log ++ [.send e._outputBuffer] }) := by
  simp only [Executer._execute, hp, hport, hb, hr]

/-- The slot assignments read only the class, the two slot pointers and the
two scratch cells. -/
theorem Executer.bindSlots_congr (e1 e2 : Executer) (w : W) (hk : e1.kind = e2.kind)
    (hi : e1._opInput = e2._opInput) (ho : e1._opOutput = e2._opOutput)
    (hib : e1._inputBuffer = e2._inputBuffer) (hob : e1._outputBuffer = e2._outputBuffer) :
    Executer.bindSlots ops e1 w = Executer.bindSlots ops e2 w := by
  simp only [Executer.bindSlots, hk, hi, ho, hib, hob]

theorem Stage.thread_step (st : Stage W) (s1 : Shared W) (e1 : Executer) (n : Nat)
    (h : st.executer._execute ops st.shared = some (s1, e1)) :
    st.threadRun ops (n + 1) = (Stage.mk s1 e1).threadRun ops n := by
  rw [Stage.threadRun_succ, h]
  rfl

end Transitions
section StepProgress

variable {W : Type}

/-- One command, one iteration: a stage blocked at the wait of `Step` mode
whose ports are ready performs, after `send(Step)`, one whole iteration and is
blocked at the wait again. -/
theorem Stage.step_once (ops : OperatorTable W) (st : Stage W) (inPort outPort : Nat)
    (bin bout : UniqueBuffer Addr) (w : W) (statuses : List OperationStatus)
    (hpc : st.executer.pc = .waiting) (he : st.executer._ending = false)
    (hin : st.executer.kind.hasInput = true → st.executer._inputPort = some inPort ∧
      st.shared.buffers[inPort]? = some bin ∧ bin._dataRefreshed = true)
    (hout : st.executer.kind.hasOutput = true → st.executer._outputPort = some outPort ∧
      st.shared.buffers[outPort]? = some bout ∧ bout._bufferAvailable = true)
    (hne : inPort ≠ outPort)
    (hb : Executer.bindSlots ops
      { st.executer with
        _inputBuffer := if st.executer.kind.hasInput then bin._buffer
          else st.executer._inputBuffer } st.shared.world = some w)
    (hret : Executer.returned ops st.executer.operators w = some statuses)
    (hn : OperationStatus.complete ∉ statuses)
    (hs : st.executer._opStatus ≠ .complete) :
    ∃ st1, (Stage.mk st.shared (st.executer.send .Step)).threadRun ops
        (5 + (if st.executer.kind.hasInput then 1 else 0) +
          (if st.executer.kind.hasOutput then 1 else 0)) = some st1 ∧
      st1.executer.pc = .waiting ∧ st1.executer._newMessage = false ∧
      st1.executer.log = st.executer.log ++
        st.executer.iterationLog bin._buffer st.executer._outputBuffer ∧
      st1.act ops .thread = none := by
  obtain ⟨s, e⟩ := st
  simp only at hpc he hin hout hb hret hs
  obtain ⟨w1, hrun⟩ := Executer.runOperators_of_returned ops e.operators w e._opStatus statuses hret
  simp only [hn, if_false] at hrun
  cases hk : e.kind
  · -- source
    rw [show ((5 + if ExecuterKind.SourceExecuter.hasInput = true then 1 else 0) +
        if ExecuterKind.SourceExecuter.hasOutput = true then 1 else 0) = 6 from by decide]
    simp only [hk, ExecuterKind.hasInput, ExecuterKind.hasOutput] at hin hout hb
    obtain ⟨hop, hbo, hav⟩ := hout trivial
    cases hoo : e._opOutput with
    | none => simp [Executer.bindSlots, hk, ExecuterKind.hasInput, ExecuterKind.hasOutput, hoo] at hb
    | some opOut =>
      simp [Executer.bindSlots, hk, ExecuterKind.hasInput, ExecuterKind.hasOutput, hoo] at hb
      subst hb
      simp only [Stage.threadRun_succ, Stage.threadRun_zero]
      simp [Executer._execute, Executer.send, hpc, he, hk, ExecuterKind.hasInput,
        ExecuterKind.hasOutput, hop, hbo, UniqueBuffer.send, hav, Executer.bindSlots, hoo, hrun,
        hs]
      simp [Executer.iterationLog, Stage.act, Executer._execute, hk, ExecuterKind.hasInput,
        ExecuterKind.hasOutput]
  · -- transform
    rw [show ((5 + if ExecuterKind.OperatorExecuter.hasInput = true then 1 else 0) +
        if ExecuterKind.OperatorExecuter.hasOutput = true then 1 else 0) = 7 from by decide]
    simp only [hk, ExecuterKind.hasInput, ExecuterKind.hasOutput] at hin hout hb
    obtain ⟨hop, hbo, hav⟩ := hout trivial
    obtain ⟨hip, hbi, hre⟩ := hin trivial
    have hlen : inPort < s.buffers.length := (List.getElem?_eq_some_iff.mp hbi).1
    cases hoi : e._opInput with
    | none => simp [Executer.bindSlots, hk, ExecuterKind.hasInput, ExecuterKind.hasOutput, hoi] at hb
    | some opIn =>
      cases hoo : e._opOutput with
      | none =>
        simp [Executer.bindSlots, hk, ExecuterKind.hasInput, ExecuterKind.hasOutput, hoi, hoo] at hb
      | some opOut =>
        simp [Executer.bindSlots, hk, ExecuterKind.hasInput, ExecuterKind.hasOutput, hoi, hoo] at hb
        subst hb
        simp only [Stage.threadRun_succ, Stage.threadRun_zero]
        simp [Executer._execute, Executer.send, hpc, he, hk, ExecuterKind.hasInput,
          ExecuterKind.hasOutput, hop, hbo, hip, hbi, UniqueBuffer.send, UniqueBuffer.receive,
          hav, hre, Executer.bindSlots, hoi, hoo, hrun, hs, List.getElem?_set_ne hne, hlen]
        simp [Executer.iterationLog, Stage.act, Executer._execute, hk, ExecuterKind.hasInput,
          ExecuterKind.hasOutput]
  · -- sink
    rw [show ((5 + if ExecuterKind.SinkExecuter.hasInput = true then 1 else 0) +
        if ExecuterKind.SinkExecuter.hasOutput = true then 1 else 0) = 6 from by decide]
    simp only [hk, ExecuterKind.hasInput, ExecuterKind.hasOutput] at hin hout hb
    obtain ⟨hip, hbi, hre⟩ := hin trivial
    cases hoi : e._opInput with
    | none => simp [Executer.bindSlots, hk, ExecuterKind.hasInput, ExecuterKind.hasOutput, hoi] at hb
    | some opIn =>
      simp [Executer.bindSlots, hk, ExecuterKind.hasInput, ExecuterKind.hasOutput, hoi] at hb
      subst hb
      simp only [Stage.threadRun_succ, Stage.threadRun_zero]
      simp [Executer._execute, Executer.send, hpc, he, hk, ExecuterKind.hasInput,
        ExecuterKind.hasOutput, hip, hbi, UniqueBuffer.receive, hre, Executer.bindSlots, hoi,
        hrun, hs]
      simp [Executer.iterationLog, Stage.act, Executer._execute, hk, ExecuterKind.hasInput,
        ExecuterKind.hasOutput]

end StepProgress
section StepConsequences

/-- In a stepping state the record has grown by an initial part of one
iteration. -/
theorem Executer.Stepping.log_prefix (e0 e : Executer) (h : Executer.Stepping e0 e) :
    ∃ c d l, e.log = e0.log ++ l ∧ l <+: e0.iterationLog c d := by
  obtain ⟨_, _, _, hcases⟩ := h
  rcases hcases with ⟨_, _, _, hl⟩ | ⟨_, hcases⟩
  · exact ⟨0, 0, [], by simp [hl], List.nil_prefix⟩
  · rcases hcases with ⟨_, _, hl⟩ | ⟨_, _, _, hl⟩ | ⟨_, _, c, hl⟩ | ⟨_, _, c, hl⟩ |
      ⟨_, c, d, hl⟩ | ⟨_, _, c, d, hl⟩ | ⟨_, _, c, d, hl⟩
    · exact ⟨0, 0, [], by simp [hl], List.nil_prefix⟩
    · exact ⟨0, 0, [], by simp [hl], List.nil_prefix⟩
    · exact ⟨c, 0, _, hl, List.prefix_append _ _⟩
    · refine ⟨c, 0, _, hl, ?_⟩
      unfold Executer.iterationLog
      exact (List.prefix_append_right_inj _).mpr (List.prefix_append _ _)
    · exact ⟨c, d, _, hl, List.prefix_refl _⟩
    · exact ⟨c, d, _, hl, List.prefix_refl _⟩
    · exact ⟨c, d, _, hl, List.prefix_refl _⟩

/-- A stepping thread found at the wait with no command pending has done one
whole iteration and cannot move. -/
theorem Executer.Stepping.waiting_again {W : Type} (ops : OperatorTable W) (e0 : Executer)
    (st : Stage W) (h : Executer.Stepping e0 st.executer) (hp : st.executer.pc = .waiting)
    (hn : st.executer._newMessage = false) :
    (∃ c d, st.executer.log = e0.log ++ e0.iterationLog c d) ∧ st.act ops .thread = none := by
  obtain ⟨_, _, _, hcases⟩ := h
  rcases hcases with ⟨_, hn1, _, _⟩ | ⟨_, hcases⟩
  · rw [hn] at hn1; exact absurd hn1 (by simp)
  · rcases hcases with ⟨hp1, _⟩ | ⟨hp1, _⟩ | ⟨hp1, _⟩ | ⟨hp1, _⟩ | ⟨hp1, _⟩ |
      ⟨_, he, c, d, hl⟩ | ⟨hp1, _⟩
    · rw [hp] at hp1; exact absurd hp1 (by simp)
    · rw [hp] at hp1; exact absurd hp1 (by simp)
    · rw [hp] at hp1; exact absurd hp1 (by simp)
    · rw [hp] at hp1; exact absurd hp1 (by simp)
    · rw [hp] at hp1; exact absurd hp1 (by simp)
    · exact ⟨⟨c, d, hl⟩, by simp [Stage.act, Executer._execute, hp, hn, he]⟩
    · rw [hp] at hp1; exact absurd hp1 (by simp)

end StepConsequences

/-- C8, counterexample.  A source stage blocked at the wait of `Step` mode
receives the single command `send(Continuous)`, which switches the mode.  The
thread performs an iteration, the consumer takes the item, and the thread
performs a second iteration with no further command: it does not wait. -/
theorem C8_mode_switch_keeps_running :
    ((statusStage 0 .Step .waiting).run statusTable
        [.send .Continuous, .thread, .thread, .thread, .thread, .peerReceive 0 5,
          .thread, .thread, .thread, .thread, .thread]).map
        (fun st => (st.executer.pc, st.executer.log))
      = some (.loopTest, [.operation 0, .send 0, .operation 0, .send 1]) := by
  decide

/-- C8, amended.  Let the thread of a stage that is not ending stand at the
wait (which it enters in `Step` mode only).  (1) In `Step` mode the thread goes
from the test of the mode to the wait.  (2) With no command pending the thread
cannot leave the wait.  (3) When it leaves the wait, a command was pending,
and leaving clears `_newMessage`.  (4) After a single `send(Step)` delivered to the blocked
thread, as long as no further owner call arrives: the record grows by an
initial part of one iteration at most, and whenever the thread is at the wait
with no command pending, it has performed exactly one iteration and cannot
move.  (5) If the ports are ready and no operator returns `complete`, the
thread does perform that iteration and is blocked at the wait again. -/
theorem C8_step_pacing {W : Type} (ops : OperatorTable W) (st : Stage W)
    (hpc : st.executer.pc = .waiting) (he : st.executer._ending = false) :
    (∀ st0 : Stage W, st0.executer.pc = .locked → st0.executer._executionMode = .Step →
      st0.executer._ending = false →
      st0.act ops .thread = some ⟨st0.shared, { st0.executer with pc := .waiting }⟩) ∧
    (st.executer._newMessage = false → st.act ops .thread = none) ∧
    (∀ st1, st.act ops .thread = some st1 →
      st.executer._newMessage = true ∧ st1.executer._newMessage = false ∧
      st1.executer.pc = .endingTest ∧ st1.executer.log = st.executer.log) ∧
    (st.executer._newMessage = false →
      ∀ (as : List (Action W)) (st2 : Stage W), (∀ a ∈ as, a.isOwnerCall = false) →
        (Stage.mk st.shared (st.executer.send .Step)).run ops as = some st2 →
        (∃ c d l, st2.executer.log = st.executer.log ++ l ∧
          l <+: st.executer.iterationLog c d) ∧
        (st2.executer.pc = .waiting → st2.executer._newMessage = false →
          (∃ c d, st2.executer.log = st.executer.log ++ st.executer.iterationLog c d) ∧
          st2.act ops .thread = none)) ∧
    (∀ (inPort outPort : Nat) (bin bout : UniqueBuffer Addr) (w : W)
        (statuses : List OperationStatus),
      (st.executer.kind.hasInput = true → st.executer._inputPort = some inPort ∧
        st.shared.buffers[inPort]? = some bin ∧ bin._dataRefreshed = true) →
      (st.executer.kind.hasOutput = true → st.executer._outputPort = some outPort ∧
        st.shared.buffers[outPort]? = some bout ∧ bout._bufferAvailable = true) →
      inPort ≠ outPort →
      Executer.bindSlots ops
        { st.executer with
          _inputBuffer := if st.executer.kind.hasInput then bin._buffer
            else st.executer._inputBuffer } st.shared.world = some w →
      Executer.returned ops st.executer.operators w = some statuses →
      OperationStatus.complete ∉ statuses →
      st.executer._opStatus ≠ .complete →
      ∃ st1, (Stage.mk st.shared (st.executer.send .Step)).threadRun ops
          (5 + (if st.executer.kind.hasInput then 1 else 0) +
            (if st.executer.kind.hasOutput then 1 else 0)) = some st1 ∧
        st1.executer.pc = .waiting ∧ st1.executer._newMessage = false ∧
        st1.executer.log = st.executer.log ++
          st.executer.iterationLog bin._buffer st.executer._outputBuffer ∧
        st1.act ops .thread = none) := by
  refine ⟨?_, ?_, ?_, ?_, ?_⟩
  · intro st0 hp0 hm0 he0
    simp [Stage.act, Executer._execute, hp0, hm0, he0]
  · intro hn
    simp [Stage.act, Executer._execute, hpc, hn, he]
  · intro st1 h1
    cases hn : st.executer._newMessage
    · simp [Stage.act, Executer._execute, hpc, hn, he] at h1
    · simp [Stage.act, Executer._execute, hpc, hn, he] at h1
      subst h1
      exact ⟨rfl, rfl, rfl, rfl⟩
  · intro hn as st2 has hrun
    have h0 : Executer.Stepping st.executer (Stage.mk st.shared (st.executer.send .Step)).executer :=
      ⟨rfl, rfl, rfl, Or.inl ⟨hpc, rfl, he, rfl⟩⟩
    have h2 := Executer.Stepping.stepping_run ops st.executer as _ st2 h0 has hrun
    exact ⟨Executer.Stepping.log_prefix _ _ h2,
      fun hp2 hn2 => Executer.Stepping.waiting_again ops _ st2 h2 hp2 hn2⟩
  · intro inPort outPort bin bout w statuses hin hout hne hb hret hnc hs
    exact Stage.step_once ops st inPort outPort bin bout w statuses hpc he hin hout hne hb hret
      hnc hs

/-- Witness for C8: the source stage of the examples, blocked at the wait of
`Step` mode, with its operator returning `running`. -/
theorem C8_step_pacing_witness :
    (statusStage 0 .Step .waiting).act statusTable .thread = none ∧
    ∃ st1, (Stage.mk (statusStage 0 .Step .waiting).shared
        ((statusStage 0 .Step .waiting).executer.send .Step)).threadRun statusTable
          (5 + (if (statusStage 0 .Step .waiting).executer.kind.hasInput then 1 else 0) +
            (if (statusStage 0 .Step .waiting).executer.kind.hasOutput then 1 else 0))
          = some st1 ∧
      st1.executer.pc = .waiting ∧ st1.executer._newMessage = false ∧
      st1.executer.log = (statusStage 0 .Step .waiting).executer.log ++
        (statusStage 0 .Step .waiting).executer.iterationLog 0
          (statusStage 0 .Step .waiting).executer._outputBuffer ∧
      st1.act statusTable .thread = none :=
  ⟨(C8_step_pacing statusTable (statusStage 0 .Step .waiting) rfl rfl).2.1 rfl,
   (C8_step_pacing statusTable (statusStage 0 .Step .waiting) rfl rfl).2.2.2.2
      1 0 (UniqueBuffer.new 0) (UniqueBuffer.new 1) 0 [.running]
      (by decide) (by decide) (by decide) rfl rfl (by decide) (by decide)⟩

section StopLemmas

variable {W : Type}

theorem UniqueBuffer.releaseAll_releaseAll {α : Type} (b : UniqueBuffer α) :
    b.releaseAll.releaseAll = b.releaseAll := rfl

/-- `releaseAll` on a port changes the buffer of that port only. -/
theorem Shared.releaseAll_get (s : Shared W) (port p : Nat) (b : UniqueBuffer Addr)
    (h : s.buffers[p]? = some b) :
    (s.releaseAll port).buffers[p]? = some (if port = p then b.releaseAll else b) := by
  have hl : p < s.buffers.length := (List.getElem?_eq_some_iff.mp h).1
  by_cases hp : port = p
  · subst hp
    simp [Shared.releaseAll, h, hl]
  · unfold Shared.releaseAll
    cases hb : s.buffers[port]? with
    | none => simp [hp, h]
    | some b1 => simp [hp, h, List.getElem?_set_ne hp]

theorem Shared.releaseAll_length (s : Shared W) (port : Nat) :
    (s.releaseAll port).buffers.length = s.buffers.length := by
  unfold Shared.releaseAll
  cases hb : s.buffers[port]? <;> simp

/-- `input()` followed by `releaseAll()` on the port. -/
theorem Executer.terminate_input (ops : OperatorTable W) (s : Shared W) (e : Executer)
    (hin : ∀ port, e._inputPort = some port → port < s.buffers.length) :
    ((e.input ops s).2.2._inputPort = some (e.input ops s).1 ∧
        (e.input ops s).2.2._outputPort = e._outputPort) ∧
      (∃ b, ((e.input ops s).2.1.releaseAll (e.input ops s).1).buffers[(e.input ops s).1]?
        = some b ∧ b._ending = true) ∧
      (∀ p b0, s.buffers[p]? = some b0 →
        ((e.input ops s).2.1.releaseAll (e.input ops s).1).buffers[p]?
          = some (if (e.input ops s).1 = p then b0.releaseAll else b0)) ∧
      (∀ p0, e._inputPort = some p0 → (e.input ops s).1 = p0) ∧
      (e._inputPort = none → (e.input ops s).1 = s.buffers.length) ∧
      s.buffers.length ≤ ((e.input ops s).2.1.releaseAll (e.input ops s).1).buffers.length := by
  cases hp : e._inputPort with
  | none =>
    have hnew : (s.buffers ++ [UniqueBuffer.new (ops.make_unique s.world).1])[s.buffers.length]?
        = some (UniqueBuffer.new (ops.make_unique s.world).1) := by simp
    refine ⟨by simp [Executer.input, hp, Shared.make_shared], ?_, ?_, by simp, ?_, ?_⟩
    · refine ⟨(UniqueBuffer.new (ops.make_unique s.world).1).releaseAll, ?_, rfl⟩
      simp only [Executer.input, hp, Shared.make_shared]
      rw [Shared.releaseAll_get _ _ _ _ hnew]
      simp
    · intro p b0 hb0
      have hl : p < s.buffers.length := (List.getElem?_eq_some_iff.mp hb0).1
      have hb1 : (s.buffers ++ [UniqueBuffer.new (ops.make_unique s.world).1])[p]?
          = some b0 := by
        rw [List.getElem?_append_left hl]; exact hb0
      simp only [Executer.input, hp, Shared.make_shared]
      rw [Shared.releaseAll_get _ _ _ _ hb1]
    · intro _
      simp [Executer.input, hp, Shared.make_shared]
    · rw [Shared.releaseAll_length]
      simp [Executer.input, hp, Shared.make_shared]
  | some port =>
    have hl := hin port hp
    obtain ⟨b, hb⟩ : ∃ b, s.buffers[port]? = some b :=
      ⟨s.buffers[port], List.getElem?_eq_getElem hl⟩
    refine ⟨?_, ?_, ?_, ?_, by simp, ?_⟩
    · simp [Executer.input, hp]
    · refine ⟨b.releaseAll, ?_, rfl⟩
      simp only [Executer.input, hp]
      rw [Shared.releaseAll_get _ _ _ _ hb]
      simp
    · intro p b0 hb0
      simp only [Executer.input, hp]
      rw [Shared.releaseAll_get _ _ _ _ hb0]
    · intro p0 h0
      simp only [Executer.input, hp]
      exact (Option.some.inj h0)
    · rw [Shared.releaseAll_length]
      simp [Executer.input, hp]

/-- `output()` followed by `releaseAll()` on the port. -/
theorem Executer.terminate_output (ops : OperatorTable W) (s : Shared W) (e : Executer)
    (hout : ∀ port, e._outputPort = some port → port < s.buffers.length) :
    ((e.output ops s).2.2._outputPort = some (e.output ops s).1 ∧
        (e.output ops s).2.2._inputPort = e._inputPort) ∧
      (∃ b, ((e.output ops s).2.1.releaseAll (e.output ops s).1).buffers[(e.output ops s).1]?
        = some b ∧ b._ending = true) ∧
      (∀ p b0, s.buffers[p]? = some b0 →
        ((e.output ops s).2.1.releaseAll (e.output ops s).1).buffers[p]?
          = some (if (e.output ops s).1 = p then b0.releaseAll else b0)) ∧
      (∀ p0, e._outputPort = some p0 → (e.output ops s).1 = p0) ∧
      (e._outputPort = none → (e.output ops s).1 = s.buffers.length) ∧
      s.buffers.length ≤
        ((e.output ops s).2.1.releaseAll (e.output ops s).1).buffers.length := by
  cases hp : e._outputPort with
  | none =>
    have hnew : (s.buffers ++ [UniqueBuffer.new (ops.make_unique s.world).1])[s.buffers.length]?
        = some (UniqueBuffer.new (ops.make_unique s.world).1) := by simp
    refine ⟨by simp [Executer.output, hp, Shared.make_shared], ?_, ?_, by simp, ?_, ?_⟩
    · refine ⟨(UniqueBuffer.new (ops.make_unique s.world).1).releaseAll, ?_, rfl⟩
      simp only [Executer.output, hp, Shared.make_shared]
      rw [Shared.releaseAll_get _ _ _ _ hnew]
      simp
    · intro p b0 hb0
      have hl : p < s.buffers.length := (List.getElem?_eq_some_iff.mp hb0).1
      have hb1 : (s.buffers ++ [UniqueBuffer.new (ops.make_unique s.world).1])[p]?
          = some b0 := by
        rw [List.getElem?_append_left hl]; exact hb0
      simp only [Executer.output, hp, Shared.make_shared]
      rw [Shared.releaseAll_get _ _ _ _ hb1]
    · intro _
      simp [Executer.output, hp, Shared.make_shared]
    · rw [Shared.releaseAll_length]
      simp [Executer.output, hp, Shared.make_shared]
  | some port =>
    have hl := hout port hp
    obtain ⟨b, hb⟩ : ∃ b, s.buffers[port]? = some b :=
      ⟨s.buffers[port], List.getElem?_eq_getElem hl⟩
    refine ⟨?_, ?_, ?_, ?_, by simp, ?_⟩
    · simp [Executer.output, hp]
    · refine ⟨b.releaseAll, ?_, rfl⟩
      simp only [Executer.output, hp]
      rw [Shared.releaseAll_get _ _ _ _ hb]
      simp
    · intro p b0 hb0
      simp only [Executer.output, hp]
      rw [Shared.releaseAll_get _ _ _ _ hb0]
    · intro p0 h0
      simp only [Executer.output, hp]
      exact (Option.some.inj h0)
    · rw [Shared.releaseAll_length]
      simp [Executer.output, hp]

end StopLemmas
section StopEffect

variable {W : Type}

/-- `stop()` of a transform stage, step by step. -/
theorem Executer.stop_transform (ops : OperatorTable W) (s : Shared W) (e : Executer)
    (hk : e.kind = .OperatorExecuter) :
    e.stop ops s =
      ((((({ e with _ending := true } : Executer).input ops s).2.2.output ops
          ((({ e with _ending := true } : Executer).input ops s).2.1.releaseAll
            (({ e with _ending := true } : Executer).input ops s).1)).2.1.releaseAll
        ((({ e with _ending := true } : Executer).input ops s).2.2.output ops
          ((({ e with _ending := true } : Executer).input ops s).2.1.releaseAll
            (({ e with _ending := true } : Executer).input ops s).1)).1),
       ((({ e with _ending := true } : Executer).input ops s).2.2.output ops
          ((({ e with _ending := true } : Executer).input ops s).2.1.releaseAll
            (({ e with _ending := true } : Executer).input ops s).1)).2.2) := by
  simp only [Executer.stop, Executer._terminateInputOutput, hk]

theorem Executer.stop_source (ops : OperatorTable W) (s : Shared W) (e : Executer)
    (hk : e.kind = .SourceExecuter) :
    e.stop ops s =
      (((({ e with _ending := true } : Executer).output ops s).2.1.releaseAll
          (({ e with _ending := true } : Executer).output ops s).1),
       (({ e with _ending := true } : Executer).output ops s).2.2) := by
  simp only [Executer.stop, Executer._terminateInputOutput, hk]

theorem Executer.stop_sink (ops : OperatorTable W) (s : Shared W) (e : Executer)
    (hk : e.kind = .SinkExecuter) :
    e.stop ops s =
      (((({ e with _ending := true } : Executer).input ops s).2.1.releaseAll
          (({ e with _ending := true } : Executer).input ops s).1),
       (({ e with _ending := true } : Executer).input ops s).2.2) := by
  simp only [Executer.stop, Executer._terminateInputOutput, hk]

/-- The ports after `stop()`: every port the class has names a terminated
buffer, which is the former buffer with `_ending` set if the port existed and
a newly made buffer otherwise; a port the class does not have is untouched. -/
theorem Executer.stop_ports (ops : OperatorTable W) (s : Shared W) (e : Executer)
    (hin : ∀ port, e._inputPort = some port → port < s.buffers.length)
    (hout : ∀ port, e._outputPort = some port → port < s.buffers.length) :
    (e.kind.hasInput = true →
      ∃ port b, (e.stop ops s).2._inputPort = some port ∧
        (e.stop ops s).1.buffers[port]? = some b ∧ b._ending = true ∧
        (∀ p0 b0, e._inputPort = some p0 → s.buffers[p0]? = some b0 →
          port = p0 ∧ b = b0.releaseAll) ∧
        (e._inputPort = none → s.buffers.length ≤ port)) ∧
    (e.kind.hasOutput = true →
      ∃ port b, (e.stop ops s).2._outputPort = some port ∧
        (e.stop ops s).1.buffers[port]? = some b ∧ b._ending = true ∧
        (∀ p0 b0, e._outputPort = some p0 → s.buffers[p0]? = some b0 →
          port = p0 ∧ b = b0.releaseAll) ∧
        (e._outputPort = none → s.buffers.length ≤ port)) ∧
    (e.kind.hasInput = false → (e.stop ops s).2._inputPort = e._inputPort) ∧
    (e.kind.hasOutput = false → (e.stop ops s).2._outputPort = e._outputPort) := by
  cases hk : e.kind
  · -- source
    rw [Executer.stop_source ops s e hk]
    obtain ⟨⟨h1, h2⟩, ⟨b, hb, hbe⟩, h3, h4, h5, _⟩ :=
      Executer.terminate_output ops s { e with _ending := true } hout
    simp only [ExecuterKind.hasInput, ExecuterKind.hasOutput]
    generalize (Executer.output ops s { e with _ending := true }).1 = q at *
    refine ⟨by simp, fun _ => ⟨q, b, h1, hb, hbe, ?_, ?_⟩, fun _ => h2, by simp⟩
    · intro p0 b0 hp0 hb0
      have hq := h4 p0 hp0
      subst hq
      rw [h3 q b0 hb0, if_pos rfl] at hb
      exact ⟨rfl, (Option.some.inj hb).symm⟩
    · intro hn
      exact le_of_eq (h5 hn).symm
  · -- transform
    rw [Executer.stop_transform ops s e hk]
    obtain ⟨⟨h1, h2⟩, ⟨b, hb, hbe⟩, h3, h4, h5, h6⟩ :=
      Executer.terminate_input ops s { e with _ending := true } hin
    have hout1 : ∀ port,
        (({ e with _ending := true } : Executer).input ops s).2.2._outputPort = some port →
        port < ((({ e with _ending := true } : Executer).input ops s).2.1.releaseAll
          (({ e with _ending := true } : Executer).input ops s).1).buffers.length := by
      intro port hp
      rw [h2] at hp
      exact lt_of_lt_of_le (hout port hp) h6
    obtain ⟨⟨k1, k2⟩, ⟨c, hc, hce⟩, k3, k4, k5, k6⟩ :=
      Executer.terminate_output ops _ _ hout1
    simp only [ExecuterKind.hasInput, ExecuterKind.hasOutput]
    generalize (Executer.output ops
      ((Executer.input ops s { e with _ending := true }).2.1.releaseAll
        (Executer.input ops s { e with _ending := true }).1)
      (Executer.input ops s { e with _ending := true }).2.2).1 = q at *
    generalize (Executer.input ops s { e with _ending := true }).1 = r at *
    refine ⟨fun _ => ⟨r, _, k2.trans h1, k3 r b hb, ?_, ?_, ?_⟩,
      fun _ => ⟨q, c, k1, hc, hce, ?_, ?_⟩, by simp, by simp⟩
    · split
      · rfl
      · exact hbe
    · intro p0 b0 hp0 hb0
      have hr := h4 p0 hp0
      subst hr
      rw [h3 r b0 hb0, if_pos rfl] at hb
      rw [← Option.some.inj hb]
      exact ⟨rfl, by split <;> rfl⟩
    · intro hn
      exact le_of_eq (h5 hn).symm
    · intro p0 b0 hp0 hb0
      have hq := k4 p0 (h2.trans hp0)
      subst hq
      rw [k3 q _ (h3 q b0 hb0), if_pos rfl] at hc
      rw [← Option.some.inj hc]
      exact ⟨rfl, by split <;> rfl⟩
    · intro hn
      rw [k5 (h2.trans hn)]
      exact h6
  · -- sink
    rw [Executer.stop_sink ops s e hk]
    obtain ⟨⟨h1, h2⟩, ⟨b, hb, hbe⟩, h3, h4, h5, _⟩ :=
      Executer.terminate_input ops s { e with _ending := true } hin
    simp only [ExecuterKind.hasInput, ExecuterKind.hasOutput]
    generalize (Executer.input ops s { e with _ending := true }).1 = r at *
    refine ⟨fun _ => ⟨r, b, h1, hb, hbe, ?_, ?_⟩, by simp, by simp, fun _ => h2⟩
    · intro p0 b0 hp0 hb0
      have hr := h4 p0 hp0
      subst hr
      rw [h3 r b0 hb0, if_pos rfl] at hb
      exact ⟨rfl, (Option.some.inj hb).symm⟩
    · intro hn
      exact le_of_eq (h5 hn).symm

end StopEffect
section DrainLemmas

variable {W : Type}

/-- `stop()` leaves the slot pointers alone. -/
theorem Executer.stop_slots (ops : OperatorTable W) (s : Shared W) (e : Executer) :
    (e.stop ops s).2._opInput = e._opInput ∧ (e.stop ops s).2._opOutput = e._opOutput := by
  unfold Executer.stop Executer._terminateInputOutput
  cases hk : e.kind <;> cases hi : e._inputPort <;> cases ho : e._outputPort <;>
    simp [Executer.input, Executer.output, hi, ho, hk]

/-- `receive` on a terminated buffer with no item resident returns at once
and swaps nothing. -/
theorem UniqueBuffer.receive_terminated_empty {α : Type} (b : UniqueBuffer α) (x : α)
    (he : b._ending = true) (hr : b._dataRefreshed = false) :
    b.receive x = some ({ b with _bufferAvailable := true, _dataRefreshed := false }, x) := by
  simp [UniqueBuffer.receive, he, hr]

end DrainLemmas

/-- C9. `stop()` sets `_ending` and leaves the mode, `_newMessage` and the
recorded status as they were.  For each side the class has, the port names a
terminated buffer afterwards: the buffer the port named before, with
`_ending` set and nothing else changed, or a newly made buffer if the port was
null.  A port the class does not have is left alone.  A neighbour holding the
same handle looks up the same, terminated buffer. -/
theorem C9_stop_terminates_ports {W : Type} (ops : OperatorTable W) (s : Shared W)
    (e : Executer)
    (hin : ∀ port, e._inputPort = some port → port < s.buffers.length)
    (hout : ∀ port, e._outputPort = some port → port < s.buffers.length) :
    (e.stop ops s).2._ending = true ∧
    (e.stop ops s).2._executionMode = e._executionMode ∧
    (e.stop ops s).2._newMessage = e._newMessage ∧
    (e.stop ops s).2._opStatus = e._opStatus ∧
    (e.kind.hasInput = true →
      ∃ port b, (e.stop ops s).2._inputPort = some port ∧
        (e.stop ops s).1.buffers[port]? = some b ∧ b._ending = true ∧
        (∀ p0 b0, e._inputPort = some p0 → s.buffers[p0]? = some b0 →
          port = p0 ∧ b = b0.releaseAll) ∧
        (e._inputPort = none → s.buffers.length ≤ port)) ∧
    (e.kind.hasOutput = true →
      ∃ port b, (e.stop ops s).2._outputPort = some port ∧
        (e.stop ops s).1.buffers[port]? = some b ∧ b._ending = true ∧
        (∀ p0 b0, e._outputPort = some p0 → s.buffers[p0]? = some b0 →
          port = p0 ∧ b = b0.releaseAll) ∧
        (e._outputPort = none → s.buffers.length ≤ port)) ∧
    (e.kind.hasInput = false → (e.stop ops s).2._inputPort = e._inputPort) ∧
    (e.kind.hasOutput = false → (e.stop ops s).2._outputPort = e._outputPort) ∧
    (∀ (neighbour : Executer) (port : Nat),
      (e.kind.hasOutput = true ∧ (e.stop ops s).2._outputPort = some port ∧
          neighbour._inputPort = some port) ∨
        (e.kind.hasInput = true ∧ (e.stop ops s).2._inputPort = some port ∧
          neighbour._outputPort = some port) →
      ∃ b, (e.stop ops s).1.buffers[port]? = some b ∧ b._ending = true) := by
  obtain ⟨f1, _, _, _, _, f2, f3, f4, _⟩ := Executer.stop_fields ops s e
  obtain ⟨p1, p2, p3, p4⟩ := Executer.stop_ports ops s e hin hout
  refine ⟨f1, f2, f3, f4, p1, p2, p3, p4, ?_⟩
  intro neighbour port h
  rcases h with ⟨hk, hp, _⟩ | ⟨hk, hp, _⟩
  · obtain ⟨q, b, hq, hb, hbe, _⟩ := p2 hk
    rw [hp] at hq
    rw [Option.some.inj hq]
    exact ⟨b, hb, hbe⟩
  · obtain ⟨q, b, hq, hb, hbe, _⟩ := p1 hk
    rw [hp] at hq
    rw [Option.some.inj hq]
    exact ⟨b, hb, hbe⟩

/-- Witness for C9: a newly constructed transform stage, whose ports are both
null, over an empty list of buffers. -/
theorem C9_stop_terminates_ports_witness :
    ((Executer.new .OperatorExecuter 0 1).stop statusTable ⟨0, []⟩).2._ending = true ∧
    ((Executer.new .OperatorExecuter 0 1).stop statusTable ⟨0, []⟩).2._inputPort = some 0 ∧
    ((Executer.new .OperatorExecuter 0 1).stop statusTable ⟨0, []⟩).2._outputPort = some 1 ∧
    ((Executer.new .OperatorExecuter 0 1).stop statusTable ⟨0, []⟩).1.buffers
      = [⟨0, true, false, true⟩, ⟨0, true, false, true⟩] :=
  ⟨(C9_stop_terminates_ports statusTable ⟨0, []⟩ (Executer.new .OperatorExecuter 0 1)
      (by decide) (by decide)).1, rfl, rfl, rfl⟩

section ChainLemmas

variable {W : Type}

/-- One status is returned for each operator of the list. -/
theorem Executer.returned_length (ops : OperatorTable W) :
    ∀ (l : List Nat) (w : W) (statuses : List OperationStatus),
      Executer.returned ops l w = some statuses → statuses.length = l.length := by
  intro l
  induction l with
  | nil =>
    intro w statuses h
    simp [Executer.returned] at h
    subst h
    rfl
  | cons op rest ih =>
    intro w statuses h
    cases ho : ops.operation op w with
    | none => simp [Executer.returned, ho] at h
    | some r =>
      cases hr : Executer.returned ops rest r.1 with
      | none => simp [Executer.returned, ho, hr] at h
      | some tl =>
        simp [Executer.returned, ho, hr] at h
        subst h
        simp [ih r.1 tl hr]

/-- The loop over the traced table does what the loop over the table does,
and adds the operators of the list, in order, to the trace. -/
theorem Executer.runOperators_traced (ops : OperatorTable W) :
    ∀ (l : List Nat) (w : W) (trace : List Nat) (opStatus : OperationStatus),
      Executer.runOperators ops.traced l (w, trace) opStatus =
        (Executer.runOperators ops l w opStatus).map
          fun r => ((r.1, trace ++ l), r.2) := by
  intro l
  induction l with
  | nil => intro w trace opStatus; simp [Executer.runOperators]
  | cons op rest ih =>
    intro w trace opStatus
    cases ho : ops.operation op w with
    | none => simp [Executer.runOperators, OperatorTable.traced, ho]
    | some r =>
      simp only [Executer.runOperators, OperatorTable.traced, ho]
      rw [← OperatorTable.traced, ih]
      simp

/-- The slot assignments over the traced table. -/
theorem Executer.bindSlots_traced (ops : OperatorTable W) (e : Executer) (w : W)
    (trace : List Nat) :
    Executer.bindSlots ops.traced e (w, trace) =
      (Executer.bindSlots ops e w).map fun w1 => (w1, trace) := by
  unfold Executer.bindSlots
  cases e.kind.hasInput <;> cases e.kind.hasOutput <;> cases e._opInput <;>
    cases e._opOutput <;> simp [OperatorTable.traced]

end ChainLemmas

section TraceLemmas

variable {W : Type}

theorem Shared.releaseAll_world (s : Shared W) (port : Nat) :
    (s.releaseAll port).world = s.world := by
  unfold Shared.releaseAll
  cases s.buffers[port]? <;> rfl

/-- `input()` over the traced table leaves the trace alone. -/
theorem Executer.input_trace (ops : OperatorTable W) (s : Shared (W × List Nat))
    (e : Executer) : (e.input ops.traced s).2.1.world.2 = s.world.2 := by
  unfold Executer.input
  cases e._inputPort <;> rfl

/-- `output()` over the traced table leaves the trace alone. -/
theorem Executer.output_trace (ops : OperatorTable W) (s : Shared (W × List Nat))
    (e : Executer) : (e.output ops.traced s).2.1.world.2 = s.world.2 := by
  unfold Executer.output
  cases e._outputPort <;> rfl

/-- `stop()` over the traced table leaves the trace alone. -/
theorem Executer.stop_trace (ops : OperatorTable W) (s : Shared (W × List Nat))
    (e : Executer) : (e.stop ops.traced s).1.world.2 = s.world.2 := by
  unfold Executer.stop Executer._terminateInputOutput
  cases e.kind <;>
    simp only [Shared.releaseAll_world, Executer.input_trace, Executer.output_trace]

theorem Event.operator_map (l : List Nat) :
    (l.map Event.operation).filterMap Event.operator = l := by
  induction l with
  | nil => rfl
  | cons op l ih => simp [Event.operator, ih]

/-- A transition of the thread over the traced table adds to the trace what
it adds to the record as invocations. -/
theorem Executer.execute_trace (ops : OperatorTable W) (s s1 : Shared (W × List Nat))
    (e e1 : Executer) (h : e._execute ops.traced s = some (s1, e1)) :
    ∃ l, s1.world.2 = s.world.2 ++ l ∧
      e1.log.filterMap Event.operator = e.log.filterMap Event.operator ++ l := by
  unfold Executer._execute at h
  split at h
  · simp at h
  · split at h <;> (simp at h; obtain ⟨rfl, rfl⟩ := h; exact ⟨[], by simp, by simp⟩)
  · split at h <;> (simp at h; obtain ⟨rfl, rfl⟩ := h; exact ⟨[], by simp, by simp⟩)
  · split at h
    · simp at h; obtain ⟨rfl, rfl⟩ := h; exact ⟨[], by simp, by simp⟩
    · simp at h
  · split at h
    · simp at h; obtain ⟨rfl, rfl⟩ := h; exact ⟨[], by simp, by simp⟩
    · split at h <;> (simp at h; obtain ⟨rfl, rfl⟩ := h; exact ⟨[], by simp, by simp⟩)
  · split at h
    · simp only [Option.some.injEq, Prod.mk.injEq] at h
      obtain ⟨rfl, rfl⟩ := h
      refine ⟨[], by simp [Executer.input_trace], ?_⟩
      unfold Executer.input
      split <;> simp
    · split at h
      · simp at h
      · split at h
        · simp at h
        · simp at h; obtain ⟨rfl, rfl⟩ := h
          exact ⟨[], by simp, by simp [Event.operator]⟩
  · rw [Executer.bindSlots_traced] at h
    cases hb : Executer.bindSlots ops e s.world.1 with
    | none => simp [hb] at h
    | some w =>
      simp only [hb, Option.map_some', Executer.runOperators_traced] at h
      cases hr : Executer.runOperators ops e.operators w e._opStatus with
      | none => simp [hr] at h
      | some r =>
        simp [hr] at h
        obtain ⟨rfl, rfl⟩ := h
        exact ⟨e.operators, rfl, by rw [List.filterMap_append, Event.operator_map]⟩
  · split at h
    · simp only [Option.some.injEq, Prod.mk.injEq] at h
      obtain ⟨rfl, rfl⟩ := h
      refine ⟨[], by simp [Executer.output_trace], ?_⟩
      unfold Executer.output
      split <;> simp
    · split at h
      · simp at h
      · split at h
        · simp at h
        · simp at h; obtain ⟨rfl, rfl⟩ := h
          exact ⟨[], by simp, by simp [Event.operator]⟩
  · simp at h

/-- Every action that leaves the trace alone keeps the trace equal to the
invocations on record. -/
theorem Stage.act_trace (ops : OperatorTable W) (st st1 : Stage (W × List Nat))
    (a : Action (W × List Nat)) (hk : a.keepsTrace)
    (h : st.shared.world.2 = st.executer.log.filterMap Event.operator)
    (ha : st.act ops.traced a = some st1) :
    st1.shared.world.2 = st1.executer.log.filterMap Event.operator := by
  obtain ⟨s, e⟩ := st
  simp only at h
  cases a with
  | thread =>
    simp only [Stage.act] at ha
    cases hx : e._execute ops.traced s with
    | none => simp [hx] at ha
    | some r =>
      simp [hx] at ha
      subst ha
      obtain ⟨l, h1, h2⟩ := Executer.execute_trace ops s r.1 e r.2 hx
      simp only [h1, h2, h]
  | send msg =>
    simp [Stage.act] at ha
    subst ha
    exact h
  | stop =>
    simp [Stage.act] at ha
    subst ha
    simp only [Executer.stop_trace, (Executer.stop_fields ops.traced s e).2.2.1]
    exact h
  | startThread =>
    simp only [Stage.act] at ha
    split at ha
    · simp at ha
      subst ha
      exact h
    · simp at ha
  | peerSend port c =>
    have he := Stage.act_peer ops.traced _ st1 _ ha rfl (fun _ _ => Or.inr (by simp))
    simp only [Stage.act] at ha
    split at ha
    · simp at ha
    · split at ha
      · simp at ha
      · simp at ha
        rw [he]
        subst ha
        exact h
  | peerReceive port c =>
    have he := Stage.act_peer ops.traced _ st1 _ ha rfl (fun _ _ => Or.inr (by simp))
    simp only [Stage.act] at ha
    split at ha
    · simp at ha
    · split at ha
      · simp at ha
      · simp at ha
        rw [he]
        subst ha
        exact h
  | peerReleaseAll port =>
    simp [Stage.act] at ha
    subst ha
    simp only [Shared.releaseAll_world]
    exact h
  | peerWrite f =>
    simp [Stage.act] at ha
    subst ha
    simp only [Action.keepsTrace] at hk
    simp only [hk]
    exact h

/-- Along every run whose actions leave the trace alone, the trace is the
list of the invocations on record. -/
theorem Stage.run_trace (ops : OperatorTable W) :
    ∀ (as : List (Action (W × List Nat))) (st st1 : Stage (W × List Nat)),
      (∀ a ∈ as, a.keepsTrace) →
      st.shared.world.2 = st.executer.log.filterMap Event.operator →
      st.run ops.traced as = some st1 →
      st1.shared.world.2 = st1.executer.log.filterMap Event.operator := by
  intro as
  induction as with
  | nil =>
    intro st st1 _ h hr
    simp [Stage.run] at hr
    subst hr
    exact h
  | cons a as ih =>
    intro st st1 hk h hr
    rw [Stage.stageRun_cons] at hr
    cases ha : st.act ops.traced a with
    | none => simp [ha] at hr
    | some st2 =>
      simp [ha] at hr
      exact ih st2 st1 (fun b hb => hk b (List.mem_cons_of_mem _ hb))
        (Stage.act_trace ops st st2 a (hk a (List.mem_cons_self _ _)) h ha) hr

/-- The invocations in the record of whole iterations: the operators of the
stage, once for each iteration. -/
theorem Executer.iterationsLog_operators (e : Executer) (its : List (Addr × Addr)) :
    (e.iterationsLog its).filterMap Event.operator
      = (List.replicate its.length e.operators).flatten := by
  induction its with
  | nil => simp [Executer.iterationsLog]
  | cons it its ih =>
    have hc : e.iterationsLog (it :: its) = e.iterationLog it.1 it.2 ++ e.iterationsLog its := by
      simp [Executer.iterationsLog]
    rw [hc, List.filterMap_append, ih]
    simp only [Executer.iterationLog, List.filterMap_append, Event.operator_map,
      List.length_cons, List.replicate_succ, List.flatten_cons]
    cases e.kind.hasInput <;> cases e.kind.hasOutput <;> simp [Event.operator]

end TraceLemmas

section WakeLemmas

variable {W : Type}

/-- The slot assignments when the slot pointers are set. -/
theorem Executer.bindSlots_set (ops : OperatorTable W) (e : Executer) (w : W) (opIn opOut : Nat)
    (hi : e.kind.hasInput = true → e._opInput = some opIn)
    (ho : e.kind.hasOutput = true → e._opOutput = some opOut) :
    Executer.bindSlots ops e w = some
      (if e.kind.hasOutput then
        ops.writeOutput opOut e._outputBuffer
          (if e.kind.hasInput then ops.writeInput opIn e._inputBuffer w else w)
       else (if e.kind.hasInput then ops.writeInput opIn e._inputBuffer w else w)) := by
  unfold Executer.bindSlots
  cases h1 : e.kind.hasInput <;> cases h2 : e.kind.hasOutput <;>
    simp [h1, h2, hi, ho]

end WakeLemmas

section PipelineLemmas

variable {W V : Type}

theorem Pipeline.through_nil (x : V) : Pipeline.through [] x = x := rfl

theorem Pipeline.through_append (fs : List (V → V)) (f : V → V) (x : V) :
    Pipeline.through (fs ++ [f]) x = f (Pipeline.through fs x) := by
  simp [Pipeline.through, List.foldl_append]

/-- The function of a transform stage is the function of `fs` at its place. -/
theorem Pipeline.through_take_succ (fs : List (V → V)) (j : Nat) (hj : j < fs.length)
    (x : V) :
    Pipeline.through (fs.take (j + 1)) x =
      Pipeline.stageFn fs (j + 1) (Pipeline.through (fs.take j) x) := by
  rw [List.take_succ, List.getElem?_eq_getElem hj]
  simp only [Option.toList_some, Pipeline.through_append, Pipeline.stageFn,
    Nat.add_sub_cancel, List.getD_eq_getElem?_getD, List.getElem?_eq_getElem hj,
    Option.getD_some]

/-- The function at the place of the sink is the identity. -/
theorem Pipeline.stageFn_sink (fs : List (V → V)) (x : V) :
    Pipeline.stageFn fs (fs.length + 1) x = x := by
  simp [Pipeline.stageFn]

/-- What the sink has consumed is an initial part of what the source has
emitted, mapped through the transform stages in their order. -/
theorem Pipeline.Inv.consumed_prefix {ops : OperatorTable W} {val : W → Addr → V}
    {good : W → Prop} {isCell : Addr → Prop} {fs : List (V → V)} {p : Pipeline W V}
    {D O : Nat → List V} (h : p.Inv ops val good isCell fs D O) :
    p.consumed <+: p.emitted.map (Pipeline.through fs) := by
  have hstage : ∀ k, k < fs.length + 2 → ∃ e, p.stages[k]? = some e := by
    intro k hk
    exact ⟨_, List.getElem?_eq_getElem (by rw [h.wiring.stages_length]; exact hk)⟩
  have hbuf : ∀ j, j < fs.length + 1 → ∃ b, p.shared.buffers[j]? = some b := by
    intro j hj
    exact ⟨_, List.getElem?_eq_getElem (by rw [h.wiring.buffers_length]; exact hj)⟩
  have hedge : ∀ j, j < fs.length + 1 → O j <+: D j := by
    intro j hj
    obtain ⟨b, hb⟩ := hbuf j hj
    rcases h.edge j b hb with ⟨_, _, hd⟩ | ⟨_, _, hd⟩
    · rw [hd]
    · rw [hd]; exact List.prefix_append _ _
  have hO : ∀ j, j < fs.length + 1 →
      O j <+: p.emitted.map (Pipeline.through (fs.take j)) := by
    intro j
    induction j with
    | zero =>
      intro hj
      obtain ⟨e, he⟩ := hstage 0 (by omega)
      have hk := h.wiring.kind 0 e he
      simp only [if_true] at hk
      have hs := h.stage 0 e he
      simp only [hk, ExecuterKind.hasInput, ExecuterKind.hasOutput, if_true,
        Bool.false_eq_true, if_false] at hs
      have h1 : D 0 <+: p.emitted := by rw [hs]; exact List.prefix_append _ _
      have h2 : p.emitted.map (Pipeline.through (fs.take 0)) = p.emitted := by
        have h3 : Pipeline.through (fs.take 0) = id := rfl
        rw [h3, List.map_id]
      rw [h2]
      exact (hedge 0 hj).trans h1
    | succ j ih =>
      intro hj
      obtain ⟨e, he⟩ := hstage (j + 1) (by omega)
      have hk := h.wiring.kind (j + 1) e he
      have hne : ¬ (j + 1 = fs.length + 1) := by omega
      simp only [Nat.succ_ne_zero, if_false, hne] at hk
      have hs := h.stage (j + 1) e he
      simp only [hk, ExecuterKind.hasInput, ExecuterKind.hasOutput, if_true,
        Nat.add_sub_cancel] at hs
      have h1 : D (j + 1) <+: (O j).map (Pipeline.stageFn fs (j + 1)) := by
        rw [hs]; exact List.prefix_append _ _
      have h2 := (ih (by omega)).map (Pipeline.stageFn fs (j + 1))
      have h3 : (p.emitted.map (Pipeline.through (fs.take j))).map
          (Pipeline.stageFn fs (j + 1)) = p.emitted.map (Pipeline.through (fs.take (j + 1))) := by
        rw [List.map_map]
        apply List.map_congr_left
        intro x _
        exact (Pipeline.through_take_succ fs j (by omega) x).symm
      rw [h3] at h2
      exact ((hedge (j + 1) hj).trans h1).trans h2
  obtain ⟨e, he⟩ := hstage (fs.length + 1) (by omega)
  have hk := h.wiring.kind (fs.length + 1) e he
  simp only [Nat.succ_ne_zero, if_false, if_true] at hk
  have hs := h.stage (fs.length + 1) e he
  simp only [hk, ExecuterKind.hasInput, ExecuterKind.hasOutput, if_true,
    Nat.add_sub_cancel, Bool.false_eq_true, if_false] at hs
  have h1 : p.consumed <+: O fs.length := by
    have h2 : (O fs.length).map (Pipeline.stageFn fs (fs.length + 1)) = O fs.length := by
      conv_rhs => rw [← List.map_id (O fs.length)]
      apply List.map_congr_left
      intro x _
      exact Pipeline.stageFn_sink fs x
    rw [h2] at hs
    rw [hs]
    exact List.prefix_append _ _
  have h4 := hO fs.length (by omega)
  rw [List.take_length] at h4
  exact h1.trans h4

end PipelineLemmas

section PipelineSteps

variable {W V : Type}

/-- What is found in a list after one place has been written. -/
theorem Pipeline.set_cases {α : Type} {l : List α} {i k : Nat} {a x : α}
    (h : (l.set i a)[k]? = some x) : (k = i ∧ x = a) ∨ (k ≠ i ∧ l[k]? = some x) := by
  rw [List.getElem?_set] at h
  by_cases hik : i = k
  · rw [if_pos hik] at h
    split at h
    · exact Or.inl ⟨hik.symm, (Option.some.inj h).symm⟩
    · exact absurd h (by simp)
  · rw [if_neg hik] at h
    exact Or.inr ⟨fun hki => hik hki.symm, h⟩

/-- The contract of the operators depends on the class, the operators and
the slot pointers only. -/
theorem Executer.Computes.of_sameParts {ops : OperatorTable W} {val : W → Addr → V}
    {good : W → Prop} {isCell : Addr → Prop} {f : V → V} {e e1 : Executer}
    (h : e.Computes ops val good isCell f) (hs : e.SameParts e1) :
    e1.Computes ops val good isCell f := by
  obtain ⟨h1, h2, h3, h4, _, _⟩ := hs
  intro e2 w w1 w2 opStatus g1 g2 g3 g4
  exact h e2 w w1 w2 opStatus (g1.trans h1) (g2.trans h2) (g3.trans h3) (g4.trans h4)

/-- If the places of a pipeline hold the cells that another one holds at
the places of an injective renaming, the cells of the one are cells, and
distinct, as those of the other are. -/
theorem Pipeline.cells_of_renaming {isCell : Addr → Prop} (p p1 : Pipeline W V)
    (σ : Place → Place) (hσ : Function.Injective σ)
    (hc : ∀ x, p1.cellAt x = p.cellAt (σ x))
    (h1 : ∀ (x : Place) (a : Addr), p.cellAt x = some a → isCell a)
    (h2 : ∀ (x y : Place) (a : Addr), p.cellAt x = some a → p.cellAt y = some a → x = y) :
    (∀ (x : Place) (a : Addr), p1.cellAt x = some a → isCell a) ∧
    (∀ (x y : Place) (a : Addr), p1.cellAt x = some a → p1.cellAt y = some a → x = y) := by
  constructor
  · intro x a hx
    rw [hc] at hx
    exact h1 _ a hx
  · intro x y a hx hy
    rw [hc] at hx hy
    exact hσ (h2 _ _ a hx hy)

/-- The stages and what they share are in place, with the parts of every
stage that the wiring speaks of. -/
theorem Pipeline.Wiring.wiring_update {ops : OperatorTable W} {val : W → Addr → V}
    {good : W → Prop} {isCell : Addr → Prop} {fs : List (V → V)} {p p1 : Pipeline W V}
    (h : p.Wiring ops val good isCell fs) (i : Nat) (e e1 : Executer)
    (hi : p.stages[i]? = some e) (hs : e.SameParts e1)
    (hst : p1.stages = p.stages.set i e1)
    (hbl : p1.shared.buffers.length = p.shared.buffers.length)
    (hg : good p1.shared.world)
    (σ : Place → Place) (hσ : Function.Injective σ)
    (hc : ∀ x, p1.cellAt x = p.cellAt (σ x)) :
    p1.Wiring ops val good isCell fs := by
  have hstage : ∀ (k : Nat) (x : Executer), p1.stages[k]? = some x →
      ∃ y, p.stages[k]? = some y ∧ y.SameParts x := by
    intro k x hx
    rw [hst] at hx
    rcases Pipeline.set_cases hx with ⟨rfl, rfl⟩ | ⟨_, hk⟩
    · exact ⟨e, hi, hs⟩
    · exact ⟨x, hk, rfl, rfl, rfl, rfl, rfl, rfl⟩
  obtain ⟨c1, c2⟩ := Pipeline.cells_of_renaming p p1 σ hσ hc h.is_cell h.distinct
  refine ⟨by rw [hst, List.length_set]; exact h.stages_length,
    hbl.trans h.buffers_length, hg, ?_, ?_, ?_, ?_, c1, c2⟩
  · intro k x hx
    obtain ⟨y, hy, h1, _⟩ := hstage k x hx
    rw [h1]
    exact h.kind k y hy
  · intro k x hx hin
    obtain ⟨y, hy, h1, _, _, _, h5, _⟩ := hstage k x hx
    rw [h5]
    exact h.inputPort k y hy (h1 ▸ hin)
  · intro k x hx hout
    obtain ⟨y, hy, h1, _, _, _, _, h6⟩ := hstage k x hx
    rw [h6]
    exact h.outputPort k y hy (h1 ▸ hout)
  · intro k x hx
    obtain ⟨y, hy, hyx⟩ := hstage k x hx
    exact (h.computes k y hy).of_sameParts hyx

end PipelineSteps

section PipelineQuiet

variable {W V : Type}

/-- Writing to a stage an executer with the same class and the same scratch
cells leaves every place with its cell. -/
theorem Pipeline.cellAt_same (p p1 : Pipeline W V) (i : Nat) (e e1 : Executer)
    (hi : p.stages[i]? = some e) (hk : e1.kind = e.kind)
    (hin : e1._inputBuffer = e._inputBuffer) (hout : e1._outputBuffer = e._outputBuffer)
    (hst : p1.stages = p.stages.set i e1)
    (hb : p1.shared.buffers = p.shared.buffers) :
    ∀ x, p1.cellAt x = p.cellAt x := by
  have hl : i < p.stages.length := (List.getElem?_eq_some_iff.mp hi).1
  intro x
  cases x with
  | buffer j => simp only [Pipeline.cellAt, hb]
  | input k =>
    simp only [Pipeline.cellAt, hst, List.getElem?_set]
    by_cases hik : i = k
    · subst hik
      simp [hl, hi, hk, hin]
    · simp [hik]
  | output k =>
    simp only [Pipeline.cellAt, hst, List.getElem?_set]
    by_cases hik : i = k
    · subst hik
      simp [hl, hi, hk, hout]
    · simp [hik]

/-- A change of one stage that touches neither its scratch cells nor the
item it is working on, and nothing that is shared, keeps the pipeline in
operation. -/
theorem Pipeline.Inv.inv_quiet {ops : OperatorTable W} {val : W → Addr → V}
    {good : W → Prop} {isCell : Addr → Prop} {fs : List (V → V)} {p : Pipeline W V}
    {D O : Nat → List V} (h : p.Inv ops val good isCell fs D O)
    (i : Nat) (e e1 : Executer) (hi : p.stages[i]? = some e) (hs : e.SameParts e1)
    (hin : e1._inputBuffer = e._inputBuffer) (hout : e1._outputBuffer = e._outputBuffer)
    (hp : Pipeline.pending val p.shared.world (Pipeline.stageFn fs i) e1 =
      Pipeline.pending val p.shared.world (Pipeline.stageFn fs i) e)
    (hr : e1.pc = .receiving → e1.kind.hasInput = true)
    (hsd : e1.pc = .sending → e1.kind.hasOutput = true) :
    Pipeline.Inv ops val good isCell fs
      ⟨p.shared, p.stages.set i e1, p.emitted, p.consumed⟩ D O := by
  have hw : Pipeline.Wiring ops val good isCell fs
      ⟨p.shared, p.stages.set i e1, p.emitted, p.consumed⟩ :=
    h.wiring.wiring_update i e e1 hi hs rfl rfl h.wiring.good_world id Function.injective_id
      (Pipeline.cellAt_same p _ i e e1 hi hs.1 hin hout rfl rfl)
  refine ⟨hw, ?_, ?_, h.not_ending, h.edge, ?_⟩
  · intro k x hx
    rcases Pipeline.set_cases hx with ⟨rfl, rfl⟩ | ⟨_, hk⟩
    · exact hr
    · exact h.pc_input k x hk
  · intro k x hx
    rcases Pipeline.set_cases hx with ⟨rfl, rfl⟩ | ⟨_, hk⟩
    · exact hsd
    · exact h.pc_output k x hk
  · intro k x hx
    rcases Pipeline.set_cases hx with ⟨rfl, rfl⟩ | ⟨_, hk⟩
    · have h0 := h.stage k e hi
      simp only [hp, hs.1]
      exact h0
    · exact h.stage k x hk

/-- A linear pipeline at its start is in operation. -/
theorem Pipeline.Initial.initial_inv {ops : OperatorTable W} {val : W → Addr → V}
    {good : W → Prop} {isCell : Addr → Prop} {fs : List (V → V)} {p : Pipeline W V}
    (h : p.Initial ops val good isCell fs) :
    p.Inv ops val good isCell fs (fun _ => []) (fun _ => []) := by
  refine ⟨h.wiring, ?_, ?_, fun j b hb => (h.fresh j b hb).2.2,
    fun j b hb => Or.inl ⟨(h.fresh j b hb).1, (h.fresh j b hb).2.1, rfl⟩, ?_⟩
  · intro k e he hp
    rcases h.pc k e he with h1 | h1 <;> rw [h1] at hp <;> exact absurd hp (by simp)
  · intro k e he hp
    rcases h.pc k e he with h1 | h1 <;> rw [h1] at hp <;> exact absurd hp (by simp)
  · intro k e he
    have hp : Pipeline.pending val p.shared.world (Pipeline.stageFn fs k) e = [] := by
      rcases h.pc k e he with h1 | h1 <;> simp [Pipeline.pending, h1]
    simp [hp, h.emitted, h.consumed]

end PipelineQuiet

section PipelineReceive

variable {W V : Type}

/-- In a linear pipeline a stage with an input side is not the first one. -/
theorem Pipeline.Wiring.pos_of_input {ops : OperatorTable W} {val : W → Addr → V}
    {good : W → Prop} {isCell : Addr → Prop} {fs : List (V → V)} {p : Pipeline W V}
    (h : p.Wiring ops val good isCell fs) (k : Nat) (e : Executer)
    (he : p.stages[k]? = some e) (hin : e.kind.hasInput = true) : 0 < k := by
  have hk := h.kind k e he
  by_cases h0 : k = 0
  · rw [if_pos h0] at hk
    rw [hk] at hin
    exact absurd hin (by simp [ExecuterKind.hasInput])
  · omega

/-- The cells after the exchange of `receive`: the buffer of the port and
the `_inputBuffer` of the stage have changed places. -/
theorem Pipeline.cellAt_receive (p p1 : Pipeline W V) (i port : Nat) (e e1 : Executer)
    (b b1 : UniqueBuffer Addr) (hi : p.stages[i]? = some e)
    (hb : p.shared.buffers[port]? = some b) (hin : e.kind.hasInput = true)
    (hk : e1.kind = e.kind) (h1 : e1._inputBuffer = b._buffer)
    (h2 : e1._outputBuffer = e._outputBuffer) (h3 : b1._buffer = e._inputBuffer)
    (hst : p1.stages = p.stages.set i e1)
    (hbs : p1.shared.buffers = p.shared.buffers.set port b1) :
    ∀ x, p1.cellAt x = p.cellAt (Equiv.swap (Place.buffer port) (Place.input i) x) := by
  have hl : i < p.stages.length := (List.getElem?_eq_some_iff.mp hi).1
  have hlb : port < p.shared.buffers.length := (List.getElem?_eq_some_iff.mp hb).1
  intro x
  cases x with
  | buffer j =>
    by_cases hj : j = port
    · subst hj
      rw [Equiv.swap_apply_left]
      simp [Pipeline.cellAt, hbs, hlb, hi, hin, h3]
    · rw [Equiv.swap_apply_of_ne_of_ne (by simp [hj]) (by simp)]
      simp [Pipeline.cellAt, hbs, List.getElem?_set_ne (fun h => hj h.symm)]
  | input k =>
    by_cases hki : k = i
    · subst hki
      rw [Equiv.swap_apply_right]
      simp [Pipeline.cellAt, hst, hl, hb, hk, hin, h1]
    · rw [Equiv.swap_apply_of_ne_of_ne (by simp) (by simp [hki])]
      simp [Pipeline.cellAt, hst, List.getElem?_set_ne (fun h => hki h.symm)]
  | output k =>
    rw [Equiv.swap_apply_of_ne_of_ne (by simp) (by simp)]
    by_cases hki : k = i
    · subst hki
      simp [Pipeline.cellAt, hst, hl, hi, hk, h2]
    · simp [Pipeline.cellAt, hst, List.getElem?_set_ne (fun h => hki h.symm)]

/-- A completed `receive` of a stage keeps the pipeline in operation: the
item of the buffer goes to the stage. -/
theorem Pipeline.Inv.inv_receive {ops : OperatorTable W} {val : W → Addr → V}
    {good : W → Prop} {isCell : Addr → Prop} {fs : List (V → V)} {p : Pipeline W V}
    {D O : Nat → List V} (h : p.Inv ops val good isCell fs D O)
    (i port : Nat) (e e1 : Executer) (b b1 : UniqueBuffer Addr) (cell : Addr)
    (hi : p.stages[i]? = some e) (hpc : e.pc = .receiving)
    (hport : e._inputPort = some port) (hb : p.shared.buffers[port]? = some b)
    (hrec : b.receive e._inputBuffer = some (b1, cell))
    (hs : e.SameParts e1) (h1 : e1._inputBuffer = cell)
    (h2 : e1._outputBuffer = e._outputBuffer) (hp1 : e1.pc = .operating) :
    ∃ O1, Pipeline.Inv ops val good isCell fs
      ⟨⟨p.shared.world, p.shared.buffers.set port b1⟩, p.stages.set i e1,
        p.emitted, p.consumed⟩ D O1 := by
  have hin : e.kind.hasInput = true := h.pc_input i e hi hpc
  have hpos : 0 < i := h.wiring.pos_of_input i e hi hin
  have hpi : port = i - 1 := by
    have := h.wiring.inputPort i e hi hin
    rw [hport] at this
    exact Option.some.inj this
  have hend : b._ending = false := h.not_ending port b hb
  have hfill : b._dataRefreshed = true := by
    cases hf : b._dataRefreshed with
    | true => rfl
    | false => simp [UniqueBuffer.receive, hf, hend] at hrec
  have hsw : b1._buffer = e._inputBuffer ∧ cell = b._buffer := by
    simp only [UniqueBuffer.receive, hfill, Bool.true_or, if_true, Option.some.injEq,
      Prod.mk.injEq] at hrec
    obtain ⟨hb1, hcell⟩ := hrec
    subst hb1
    exact ⟨rfl, hcell.symm⟩
  obtain ⟨hb1, hcell⟩ := hsw
  obtain ⟨hf1, hf2, hf3⟩ := UniqueBuffer.receive_flags hrec
  subst hcell
  have hD : D port = O port ++ [val p.shared.world b._buffer] := by
    rcases h.edge port b hb with ⟨_, hf, _⟩ | ⟨_, _, hd⟩
    · rw [hfill] at hf; exact absurd hf (by simp)
    · exact hd
  have hlb : port < p.shared.buffers.length := (List.getElem?_eq_some_iff.mp hb).1
  have hw : Pipeline.Wiring ops val good isCell fs
      ⟨⟨p.shared.world, p.shared.buffers.set port b1⟩, p.stages.set i e1,
        p.emitted, p.consumed⟩ :=
    h.wiring.wiring_update i e e1 hi hs rfl (by simp) h.wiring.good_world
      (Equiv.swap (Place.buffer port) (Place.input i)) (Equiv.injective _)
      (Pipeline.cellAt_receive p _ i port e e1 b b1 hi hb hin hs.1 h1 h2 hb1 rfl rfl)
  refine ⟨Function.update O port (O port ++ [val p.shared.world b._buffer]), hw, ?_, ?_, ?_,
    ?_, ?_⟩
  · intro k x hx hp
    rcases Pipeline.set_cases hx with ⟨rfl, rfl⟩ | ⟨_, hk⟩
    · rw [hp1] at hp; exact absurd hp (by simp)
    · exact h.pc_input k x hk hp
  · intro k x hx hp
    rcases Pipeline.set_cases hx with ⟨rfl, rfl⟩ | ⟨_, hk⟩
    · rw [hp1] at hp; exact absurd hp (by simp)
    · exact h.pc_output k x hk hp
  · intro j x hx
    rcases Pipeline.set_cases hx with ⟨rfl, rfl⟩ | ⟨_, hk⟩
    · exact hf3.trans hend
    · exact h.not_ending j x hk
  · intro j x hx
    rcases Pipeline.set_cases hx with ⟨rfl, rfl⟩ | ⟨hj, hk⟩
    · exact Or.inl ⟨hf1, hf2, by simp [hD]⟩
    · rw [Function.update_noteq hj]
      exact h.edge j x hk
  · intro k x hx
    rcases Pipeline.set_cases hx with ⟨rfl, rfl⟩ | ⟨hki, hk⟩
    · have h0 := h.stage k e hi
      have hp0 : Pipeline.pending val p.shared.world (Pipeline.stageFn fs k) e = [] := by
        simp [Pipeline.pending, hpc]
      rw [hp0, List.append_nil] at h0
      simp only [hin, if_true] at h0
      have hp2 : Pipeline.pending val p.shared.world (Pipeline.stageFn fs k) x =
          [Pipeline.stageFn fs k (val p.shared.world b._buffer)] := by
        simp [Pipeline.pending, hp1, hs.1, hin, h1]
      rw [hp2]
      rw [← hpi] at h0
      simp only [hs.1, hin, if_true]
      rw [← hpi, Function.update_same, List.map_append, h0]
      rfl
    · have h0 := h.stage k x hk
      by_cases hxin : x.kind.hasInput = true
      · have hkpos := h.wiring.pos_of_input k x hk hxin
        have hne : k - 1 ≠ port := by omega
        simp only [hxin, if_true, Function.update_noteq hne]
        simp only [hxin, if_true] at h0
        exact h0
      · simp only [hxin, if_false]
        simp only [hxin, if_false] at h0
        exact h0

end PipelineReceive

section PipelineSend

variable {W V : Type}

/-- The cells after the exchange of `send`: the buffer of the port and the
`_outputBuffer` of the stage have changed places. -/
theorem Pipeline.cellAt_send (p p1 : Pipeline W V) (i port : Nat) (e e1 : Executer)
    (b b1 : UniqueBuffer Addr) (hi : p.stages[i]? = some e)
    (hb : p.shared.buffers[port]? = some b) (hout : e.kind.hasOutput = true)
    (hk : e1.kind = e.kind) (h1 : e1._inputBuffer = e._inputBuffer)
    (h2 : e1._outputBuffer = b._buffer) (h3 : b1._buffer = e._outputBuffer)
    (hst : p1.stages = p.stages.set i e1)
    (hbs : p1.shared.buffers = p.shared.buffers.set port b1) :
    ∀ x, p1.cellAt x = p.cellAt (Equiv.swap (Place.buffer port) (Place.output i) x) := by
  have hl : i < p.stages.length := (List.getElem?_eq_some_iff.mp hi).1
  have hlb : port < p.shared.buffers.length := (List.getElem?_eq_some_iff.mp hb).1
  intro x
  cases x with
  | buffer j =>
    by_cases hj : j = port
    · subst hj
      rw [Equiv.swap_apply_left]
      simp [Pipeline.cellAt, hbs, hlb, hi, hout, h3]
    · rw [Equiv.swap_apply_of_ne_of_ne (by simp [hj]) (by simp)]
      simp [Pipeline.cellAt, hbs, List.getElem?_set_ne (fun h => hj h.symm)]
  | input k =>
    rw [Equiv.swap_apply_of_ne_of_ne (by simp) (by simp)]
    by_cases hki : k = i
    · subst hki
      simp [Pipeline.cellAt, hst, hl, hi, hk, h1]
    · simp [Pipeline.cellAt, hst, List.getElem?_set_ne (fun h => hki h.symm)]
  | output k =>
    by_cases hki : k = i
    · subst hki
      rw [Equiv.swap_apply_right]
      simp [Pipeline.cellAt, hst, hl, hb, hk, hout, h2]
    · rw [Equiv.swap_apply_of_ne_of_ne (by simp) (by simp [hki])]
      simp [Pipeline.cellAt, hst, List.getElem?_set_ne (fun h => hki h.symm)]

/-- A completed `send` of a stage keeps the pipeline in operation: the item
the stage was working on goes to the buffer. -/
theorem Pipeline.Inv.inv_send {ops : OperatorTable W} {val : W → Addr → V}
    {good : W → Prop} {isCell : Addr → Prop} {fs : List (V → V)} {p : Pipeline W V}
    {D O : Nat → List V} (h : p.Inv ops val good isCell fs D O)
    (i port : Nat) (e e1 : Executer) (b b1 : UniqueBuffer Addr) (cell : Addr)
    (hi : p.stages[i]? = some e) (hpc : e.pc = .sending)
    (hport : e._outputPort = some port) (hb : p.shared.buffers[port]? = some b)
    (hsend : b.send e._outputBuffer = some (b1, cell))
    (hs : e.SameParts e1) (h1 : e1._inputBuffer = e._inputBuffer)
    (h2 : e1._outputBuffer = cell) (hp1 : e1.pc = .loopTest) :
    ∃ D1, Pipeline.Inv ops val good isCell fs
      ⟨⟨p.shared.world, p.shared.buffers.set port b1⟩, p.stages.set i e1,
        p.emitted, p.consumed⟩ D1 O := by
  have hout : e.kind.hasOutput = true := h.pc_output i e hi hpc
  have hpi : port = i := by
    have := h.wiring.outputPort i e hi hout
    rw [hport] at this
    exact Option.some.inj this
  have hend : b._ending = false := h.not_ending port b hb
  have hav : b._bufferAvailable = true := by
    cases hf : b._bufferAvailable with
    | true => rfl
    | false => simp [UniqueBuffer.send, hf, hend] at hsend
  have hsw : b1._buffer = e._outputBuffer ∧ cell = b._buffer := by
    simp only [UniqueBuffer.send, hav, Bool.true_or, if_true, Option.some.injEq,
      Prod.mk.injEq] at hsend
    obtain ⟨hb1, hcell⟩ := hsend
    subst hb1
    exact ⟨rfl, hcell.symm⟩
  obtain ⟨hb1, hcell⟩ := hsw
  obtain ⟨hf1, hf2, hf3⟩ := UniqueBuffer.send_flags hsend
  subst hcell
  have hD : D port = O port := by
    rcases h.edge port b hb with ⟨_, _, hd⟩ | ⟨hf, _, _⟩
    · exact hd
    · rw [hav] at hf; exact absurd hf (by simp)
  have hw : Pipeline.Wiring ops val good isCell fs
      ⟨⟨p.shared.world, p.shared.buffers.set port b1⟩, p.stages.set i e1,
        p.emitted, p.consumed⟩ :=
    h.wiring.wiring_update i e e1 hi hs rfl (by simp) h.wiring.good_world
      (Equiv.swap (Place.buffer port) (Place.output i)) (Equiv.injective _)
      (Pipeline.cellAt_send p _ i port e e1 b b1 hi hb hout hs.1 h1 h2 hb1 rfl rfl)
  refine ⟨Function.update D port (D port ++ [val p.shared.world e._outputBuffer]), hw, ?_, ?_,
    ?_, ?_, ?_⟩
  · intro k x hx hp
    rcases Pipeline.set_cases hx with ⟨rfl, rfl⟩ | ⟨_, hk⟩
    · rw [hp1] at hp; exact absurd hp (by simp)
    · exact h.pc_input k x hk hp
  · intro k x hx hp
    rcases Pipeline.set_cases hx with ⟨rfl, rfl⟩ | ⟨_, hk⟩
    · rw [hp1] at hp; exact absurd hp (by simp)
    · exact h.pc_output k x hk hp
  · intro j x hx
    rcases Pipeline.set_cases hx with ⟨rfl, rfl⟩ | ⟨_, hk⟩
    · exact hf3.trans hend
    · exact h.not_ending j x hk
  · intro j x hx
    rcases Pipeline.set_cases hx with ⟨rfl, rfl⟩ | ⟨hj, hk⟩
    · exact Or.inr ⟨hf1, hf2, by simp [hD, hb1]⟩
    · rw [Function.update_noteq hj]
      exact h.edge j x hk
  · intro k x hx
    rcases Pipeline.set_cases hx with ⟨rfl, rfl⟩ | ⟨hki, hk⟩
    · have h0 := h.stage k e hi
      have hp0 : Pipeline.pending val p.shared.world (Pipeline.stageFn fs k) e =
          [val p.shared.world e._outputBuffer] := by
        simp [Pipeline.pending, hpc]
      have hp2 : Pipeline.pending val p.shared.world (Pipeline.stageFn fs k) x = [] := by
        simp [Pipeline.pending, hp1]
      rw [hp0] at h0
      simp only [hout, if_true] at h0
      rw [hp2, List.append_nil]
      simp only [hs.1, hout, if_true]
      rw [h0, hpi, Function.update_same]
    · have h0 := h.stage k x hk
      have hne : k ≠ port := by rw [hpi]; exact hki
      by_cases hxo : x.kind.hasOutput = true
      · simp only [hxo, if_true, Function.update_noteq hne]
        simp only [hxo, if_true] at h0
        exact h0
      · simp only [hxo, if_false]
        simp only [hxo, if_false] at h0
        exact h0

end PipelineSend

section PipelineOperate

variable {W V : Type}

/-- In a linear pipeline the source is the first stage. -/
theorem Pipeline.Wiring.pos_source {ops : OperatorTable W} {val : W → Addr → V}
    {good : W → Prop} {isCell : Addr → Prop} {fs : List (V → V)} {p : Pipeline W V}
    (h : p.Wiring ops val good isCell fs) (k : Nat) (e : Executer)
    (he : p.stages[k]? = some e) (hk : e.kind = .SourceExecuter) : k = 0 := by
  have h1 := h.kind k e he
  rw [hk] at h1
  by_cases h0 : k = 0
  · exact h0
  · rw [if_neg h0] at h1
    split at h1 <;> exact absurd h1 (by simp)

/-- In a linear pipeline the sink is the last stage. -/
theorem Pipeline.Wiring.pos_sink {ops : OperatorTable W} {val : W → Addr → V}
    {good : W → Prop} {isCell : Addr → Prop} {fs : List (V → V)} {p : Pipeline W V}
    (h : p.Wiring ops val good isCell fs) (k : Nat) (e : Executer)
    (he : p.stages[k]? = some e) (hk : e.kind = .SinkExecuter) : k = fs.length + 1 := by
  have h1 := h.kind k e he
  rw [hk] at h1
  by_cases h0 : k = 0
  · rw [if_pos h0] at h1
    exact absurd h1 (by simp)
  · rw [if_neg h0] at h1
    by_cases h2 : k = fs.length + 1
    · exact h2
    · rw [if_neg h2] at h1
      exact absurd h1 (by simp)

/-- A run of the operator loop of a stage keeps the pipeline in operation:
a source emits, a transform stage applies its function to the item it is
working on, a sink consumes. -/
theorem Pipeline.Inv.inv_operate {ops : OperatorTable W} {val : W → Addr → V}
    {good : W → Prop} {isCell : Addr → Prop} {fs : List (V → V)} {p : Pipeline W V}
    {D O : Nat → List V} (h : p.Inv ops val good isCell fs D O)
    (i : Nat) (e e1 : Executer) (w1 w2 : W) (opStatus : OperationStatus)
    (hi : p.stages[i]? = some e) (hpc : e.pc = .operating)
    (hbind : Executer.bindSlots ops e p.shared.world = some w1)
    (hrun : Executer.runOperators ops e.operators w1 e._opStatus = some (w2, opStatus))
    (hs : e.SameParts e1) (h1 : e1._inputBuffer = e._inputBuffer)
    (h2 : e1._outputBuffer = e._outputBuffer)
    (hp1 : e1.pc = if e.kind.hasOutput then .sending else .loopTest) :
    Pipeline.Inv ops val good isCell fs
      ⟨⟨w2, p.shared.buffers⟩, p.stages.set i e1,
        if e.kind = .SourceExecuter then p.emitted ++ [val w2 e._outputBuffer] else p.emitted,
        if e.kind = .SinkExecuter then p.consumed ++ [val p.shared.world e._inputBuffer]
          else p.consumed⟩ D O := by
  have hcin : e.kind.hasInput = true → p.cellAt (.input i) = some e._inputBuffer := by
    intro hin
    simp [Pipeline.cellAt, hi, hin]
  have hcout : e.kind.hasOutput = true → p.cellAt (.output i) = some e._outputBuffer := by
    intro hout
    simp [Pipeline.cellAt, hi, hout]
  obtain ⟨hg, hval, hframe⟩ := h.wiring.computes i e hi e p.shared.world w1 w2 opStatus
    rfl rfl rfl rfl h.wiring.good_world
    (fun hin => h.wiring.is_cell _ _ (hcin hin))
    (fun hout => h.wiring.is_cell _ _ (hcout hout))
    (fun hin hout heq => by
      have := h.wiring.distinct (.input i) (.output i) e._inputBuffer (hcin hin)
        (by rw [heq]; exact hcout hout)
      exact absurd this (by simp))
    hbind hrun
  have hfr : ∀ (y : Place) (c : Addr), y ≠ .input i → y ≠ .output i →
      p.cellAt y = some c → val w2 c = val p.shared.world c := by
    intro y c hy1 hy2 hc
    refine hframe c (h.wiring.is_cell y c hc) (fun hin heq => hy1 ?_) (fun hout heq => hy2 ?_)
    · exact h.wiring.distinct y (.input i) c hc (by rw [heq]; exact hcin hin)
    · exact h.wiring.distinct y (.output i) c hc (by rw [heq]; exact hcout hout)
  have hw : Pipeline.Wiring ops val good isCell fs
      ⟨⟨w2, p.shared.buffers⟩, p.stages.set i e1,
        if e.kind = .SourceExecuter then p.emitted ++ [val w2 e._outputBuffer] else p.emitted,
        if e.kind = .SinkExecuter then p.consumed ++ [val p.shared.world e._inputBuffer]
          else p.consumed⟩ :=
    h.wiring.wiring_update i e e1 hi hs rfl rfl hg id Function.injective_id
      (Pipeline.cellAt_same p _ i e e1 hi hs.1 h1 h2 rfl rfl)
  refine ⟨hw, ?_, ?_, h.not_ending, ?_, ?_⟩
  · intro k x hx hp
    rcases Pipeline.set_cases hx with ⟨rfl, rfl⟩ | ⟨_, hk⟩
    · rw [hp1] at hp
      split at hp <;> exact absurd hp (by simp)
    · exact h.pc_input k x hk hp
  · intro k x hx hp
    rcases Pipeline.set_cases hx with ⟨rfl, rfl⟩ | ⟨_, hk⟩
    · rw [hp1] at hp
      rw [hs.1]
      split at hp
      · assumption
      · exact absurd hp (by simp)
    · exact h.pc_output k x hk hp
  · intro j b hb
    have hv : val w2 b._buffer = val p.shared.world b._buffer :=
      hfr (.buffer j) b._buffer (by simp) (by simp) (by simp [Pipeline.cellAt, hb])
    simp only [hv]
    exact h.edge j b hb
  · intro k x hx
    rcases Pipeline.set_cases hx with ⟨rfl, rfl⟩ | ⟨hki, hk⟩
    · have h0 := h.stage k e hi
      cases hkind : e.kind with
      | SourceExecuter =>
        simp only [hkind, ExecuterKind.hasInput, ExecuterKind.hasOutput, Pipeline.pending, hpc,
          if_true, Bool.false_eq_true, if_false, List.append_nil] at h0 hp1
        simp only [hs.1, hkind, ExecuterKind.hasInput, ExecuterKind.hasOutput,
          Pipeline.pending, hp1, if_true, Bool.false_eq_true, if_false, h2, h0, reduceCtorEq]
      | OperatorExecuter =>
        have hv := hval (by rw [hkind]; rfl) (by rw [hkind]; rfl)
        simp only [hkind, ExecuterKind.hasInput, ExecuterKind.hasOutput, Pipeline.pending, hpc,
          if_true] at h0 hp1
        simp only [hs.1, hkind, ExecuterKind.hasInput, ExecuterKind.hasOutput,
          Pipeline.pending, hp1, if_true, h2, h0, hv, reduceCtorEq, if_false]
      | SinkExecuter =>
        have hpos := h.wiring.pos_sink k e hi hkind
        simp only [hkind, ExecuterKind.hasInput, ExecuterKind.hasOutput, Pipeline.pending, hpc,
          if_true, Bool.false_eq_true, if_false] at h0 hp1
        simp only [hs.1, hkind, ExecuterKind.hasInput, ExecuterKind.hasOutput,
          Pipeline.pending, hp1, if_true, Bool.false_eq_true, if_false, h0, List.append_nil,
          reduceCtorEq]
        rw [hpos, Pipeline.stageFn_sink]
    · have h0 := h.stage k x hk
      have hpend : Pipeline.pending val w2 (Pipeline.stageFn fs k) x =
          Pipeline.pending val p.shared.world (Pipeline.stageFn fs k) x := by
        unfold Pipeline.pending
        cases hxp : x.pc with
        | operating =>
          by_cases hxin : x.kind.hasInput = true
          · have hv := hfr (.input k) x._inputBuffer (by simp [hki]) (by simp)
              (by simp [Pipeline.cellAt, hk, hxin])
            simp only [hxin, if_true, hv]
          · simp [hxin]
        | sending =>
          have hxo := h.pc_output k x hk hxp
          have hv := hfr (.output k) x._outputBuffer (by simp) (by simp [hki])
            (by simp [Pipeline.cellAt, hk, hxo])
          simp only [hv]
        | notStarted => rfl
        | loopTest => rfl
        | locked => rfl
        | waiting => rfl
        | endingTest => rfl
        | receiving => rfl
        | finished => rfl
      have he1 : x.kind.hasInput = false → e.kind ≠ .SourceExecuter := by
        intro hxin hek
        have hx0 : x.kind = .SourceExecuter := by
          cases hxk : x.kind <;> simp [hxk, ExecuterKind.hasInput] at hxin ⊢
        have := h.wiring.pos_source k x hk hx0
        have := h.wiring.pos_source i e hi hek
        omega
      have he2 : x.kind.hasOutput = false → e.kind ≠ .SinkExecuter := by
        intro hxo hek
        have hx0 : x.kind = .SinkExecuter := by
          cases hxk : x.kind <;> simp [hxk, ExecuterKind.hasOutput] at hxo ⊢
        have := h.wiring.pos_sink k x hk hx0
        have := h.wiring.pos_sink i e hi hek
        omega
      rw [hpend]
      simp only
      cases hxin : x.kind.hasInput <;> cases hxo : x.kind.hasOutput <;>
        simp only [hxin, hxo, if_true, Bool.false_eq_true, if_false] at h0 ⊢
      · rw [if_neg (he1 hxin), if_neg (he2 hxo)]; exact h0
      · rw [if_neg (he1 hxin)]; exact h0
      · rw [if_neg (he2 hxo)]; exact h0
      · exact h0

end PipelineOperate

section PipelineRuns

variable {W V : Type}

/-- The transitions of a thread between the iterations: nothing shared is
touched, the scratch cells stay, and the thread goes to `receive` only in a
class with an input side, to the operator loop at once only in a class
without. -/
theorem Executer.execute_control (ops : OperatorTable W) (s s1 : Shared W)
    (e e1 : Executer)
    (hp : e.pc = .loopTest ∨ e.pc = .locked ∨ e.pc = .waiting ∨ e.pc = .endingTest)
    (h : e._execute ops s = some (s1, e1)) :
    s1 = s ∧ e.SameParts e1 ∧ e1._inputBuffer = e._inputBuffer ∧
      e1._outputBuffer = e._outputBuffer ∧ e1.pc ≠ .sending ∧
      (e1.pc = .receiving → e.kind.hasInput = true) ∧
      (e1.pc = .operating → e.kind.hasInput = false) := by
  rcases hp with hp | hp | hp | hp
  · rw [Executer.at_loopTest ops s e hp] at h
    simp only [Option.some.injEq, Prod.mk.injEq] at h
    obtain ⟨rfl, rfl⟩ := h
    refine ⟨rfl, ⟨rfl, rfl, rfl, rfl, rfl, rfl⟩, rfl, rfl, ?_, ?_, ?_⟩ <;>
      (simp only; split <;> simp)
  · rw [Executer.at_locked ops s e hp] at h
    simp only [Option.some.injEq, Prod.mk.injEq] at h
    obtain ⟨rfl, rfl⟩ := h
    refine ⟨rfl, ⟨rfl, rfl, rfl, rfl, rfl, rfl⟩, rfl, rfl, ?_, ?_, ?_⟩ <;>
      (simp only; split <;> simp)
  · cases hw : (e._newMessage || e._ending) with
    | false =>
      simp only [Bool.or_eq_false_iff] at hw
      rw [Executer.at_waiting_blocked ops s e hp hw.1 hw.2] at h
      exact absurd h (by simp)
    | true =>
      rw [Executer.at_waiting ops s e hp hw] at h
      simp only [Option.some.injEq, Prod.mk.injEq] at h
      obtain ⟨rfl, rfl⟩ := h
      exact ⟨rfl, ⟨rfl, rfl, rfl, rfl, rfl, rfl⟩, rfl, rfl, by simp, by simp, by simp⟩
  · rw [Executer.at_endingTest ops s e hp] at h
    simp only [Option.some.injEq, Prod.mk.injEq] at h
    obtain ⟨rfl, rfl⟩ := h
    refine ⟨rfl, ⟨rfl, rfl, rfl, rfl, rfl, rfl⟩, rfl, rfl, ?_, ?_, ?_⟩
    · simp only; split <;> (try split) <;> simp
    · simp only
      cases e._ending <;> cases hin : e.kind.hasInput <;> simp
    · simp only
      cases e._ending <;> cases hin : e.kind.hasInput <;> simp

/-- Every transition of a thread keeps the pipeline in operation. -/
theorem Pipeline.Inv.inv_thread {ops : OperatorTable W} {val : W → Addr → V}
    {good : W → Prop} {isCell : Addr → Prop} {fs : List (V → V)} {p p1 : Pipeline W V}
    {D O : Nat → List V} (h : p.Inv ops val good isCell fs D O) (i : Nat)
    (ha : p.act ops val (.thread i) = some p1) :
    ∃ D1 O1, p1.Inv ops val good isCell fs D1 O1 := by
  simp only [Pipeline.act] at ha
  cases hi : p.stages[i]? with
  | none => simp [hi] at ha
  | some e =>
    simp only [hi] at ha
    cases hx : e._execute ops p.shared with
    | none => simp [hx] at ha
    | some r =>
      obtain ⟨s, e1⟩ := r
      simp only [hx, Option.some.injEq] at ha
      subst ha
      have hcontrol : e.pc = .loopTest ∨ e.pc = .locked ∨ e.pc = .waiting ∨
          e.pc = .endingTest →
          ∃ D1 O1, Pipeline.Inv ops val good isCell fs
            ⟨s, p.stages.set i e1,
              if e.pc = .operating ∧ e.kind = .SourceExecuter then
                p.emitted ++ [val s.world e._outputBuffer] else p.emitted,
              if e.pc = .operating ∧ e.kind = .SinkExecuter then
                p.consumed ++ [val p.shared.world e._inputBuffer] else p.consumed⟩ D1 O1 := by
        intro hp
        obtain ⟨rfl, hs, h1, h2, g1, g2, g3⟩ := Executer.execute_control ops p.shared s e e1 hp hx
        have hno : e.pc ≠ .operating := by
          rcases hp with hp | hp | hp | hp <;> rw [hp] <;> simp
        have hp0 : Pipeline.pending val p.shared.world (Pipeline.stageFn fs i) e = [] := by
          rcases hp with hp | hp | hp | hp <;> simp [Pipeline.pending, hp]
        have hp1 : Pipeline.pending val p.shared.world (Pipeline.stageFn fs i) e1 = [] := by
          unfold Pipeline.pending
          cases hpc1 : e1.pc with
          | operating =>
            have := g3 hpc1
            simp [hs.1, this]
          | sending => exact absurd hpc1 g1
          | notStarted => rfl
          | loopTest => rfl
          | locked => rfl
          | waiting => rfl
          | endingTest => rfl
          | receiving => rfl
          | finished => rfl
        refine ⟨D, O, ?_⟩
        simp only [hno, false_and, if_false]
        exact h.inv_quiet i e e1 hi hs h1 h2 (hp1.trans hp0.symm)
          (fun hr => by rw [hs.1]; exact g2 hr) (fun hsd => absurd hsd g1)
      cases hpc : e.pc with
      | notStarted => simp [Executer._execute, hpc] at hx
      | finished => simp [Executer._execute, hpc] at hx
      | loopTest => rw [hpc] at hcontrol; exact hcontrol (Or.inl rfl)
      | locked => rw [hpc] at hcontrol; exact hcontrol (Or.inr (Or.inl rfl))
      | waiting => rw [hpc] at hcontrol; exact hcontrol (Or.inr (Or.inr (Or.inl rfl)))
      | endingTest => rw [hpc] at hcontrol; exact hcontrol (Or.inr (Or.inr (Or.inr rfl)))
      | receiving =>
        have hin := h.pc_input i e hi hpc
        have hport := h.wiring.inputPort i e hi hin
        cases hb : p.shared.buffers[i - 1]? with
        | none => simp [Executer._execute, hpc, hport, hb] at hx
        | some b =>
          cases hr : b.receive e._inputBuffer with
          | none => simp [Executer._execute, hpc, hport, hb, hr] at hx
          | some r =>
            obtain ⟨b1, cell⟩ := r
            rw [Executer.at_receiving ops p.shared e (i - 1) b b1 cell hpc hport hb hr] at hx
            simp only [Option.some.injEq, Prod.mk.injEq] at hx
            obtain ⟨rfl, rfl⟩ := hx
            obtain ⟨O1, hO1⟩ := h.inv_receive i (i - 1) e
              { e with _inputBuffer := cell, pc := .operating, log := e.log ++ [.receive cell] }
              b b1 cell hi hpc hport hb hr ⟨rfl, rfl, rfl, rfl, rfl, rfl⟩ rfl rfl rfl
            refine ⟨D, O1, ?_⟩
            simp only [reduceCtorEq, false_and, if_false]
            exact hO1
      | operating =>
        cases hb : Executer.bindSlots ops e p.shared.world with
        | none => simp [Executer._execute, hpc, hb] at hx
        | some w1 =>
          cases hr : Executer.runOperators ops e.operators w1 e._opStatus with
          | none => simp [Executer._execute, hpc, hb, hr] at hx
          | some r =>
            obtain ⟨w2, opStatus⟩ := r
            rw [Executer.at_operating ops p.shared e w1 w2 opStatus hpc hb hr] at hx
            simp only [Option.some.injEq, Prod.mk.injEq] at hx
            obtain ⟨rfl, rfl⟩ := hx
            refine ⟨D, O, ?_⟩
            simp only [true_and]
            exact h.inv_operate i e
              { e with _opStatus := opStatus,
                       _ending := if opStatus = .complete then true else e._ending,
                       pc := if e.kind.hasOutput then .sending else .loopTest,
                       log := e.log ++ e.operators.map .operation }
              w1 w2 opStatus hi hpc hb hr ⟨rfl, rfl, rfl, rfl, rfl, rfl⟩ rfl rfl rfl
      | sending =>
        have hout := h.pc_output i e hi hpc
        have hport := h.wiring.outputPort i e hi hout
        cases hb : p.shared.buffers[i]? with
        | none => simp [Executer._execute, hpc, hport, hb] at hx
        | some b =>
          cases hr : b.send e._outputBuffer with
          | none => simp [Executer._execute, hpc, hport, hb, hr] at hx
          | some r =>
            obtain ⟨b1, cell⟩ := r
            rw [Executer.at_sending ops p.shared e i b b1 cell hpc hport hb hr] at hx
            simp only [Option.some.injEq, Prod.mk.injEq] at hx
            obtain ⟨rfl, rfl⟩ := hx
            obtain ⟨D1, hD1⟩ := h.inv_send i i e
              { e with _outputBuffer := cell, pc := .loopTest,
                       log := e.log ++ [.send e._outputBuffer] }
              b b1 cell hi hpc hport hb hr ⟨rfl, rfl, rfl, rfl, rfl, rfl⟩ rfl rfl rfl
            refine ⟨D1, O, ?_⟩
            simp only [reduceCtorEq, false_and, if_false]
            exact hD1

end PipelineRuns

section PipelineInvariant

variable {W V : Type}

/-- Every action keeps the pipeline in operation. -/
theorem Pipeline.Inv.inv_act {ops : OperatorTable W} {val : W → Addr → V}
    {good : W → Prop} {isCell : Addr → Prop} {fs : List (V → V)} {p p1 : Pipeline W V}
    {D O : Nat → List V} (h : p.Inv ops val good isCell fs D O) (a : PipelineAction)
    (ha : p.act ops val a = some p1) :
    ∃ D1 O1, p1.Inv ops val good isCell fs D1 O1 := by
  cases a with
  | thread i => exact h.inv_thread i ha
  | send i msg =>
    simp only [Pipeline.act] at ha
    cases hi : p.stages[i]? with
    | none => simp [hi] at ha
    | some e =>
      simp only [hi, Option.some.injEq] at ha
      subst ha
      exact ⟨D, O, h.inv_quiet i e (e.send msg) hi ⟨rfl, rfl, rfl, rfl, rfl, rfl⟩ rfl rfl rfl
        (h.pc_input i e hi) (h.pc_output i e hi)⟩
  | startThread i =>
    simp only [Pipeline.act] at ha
    cases hi : p.stages[i]? with
    | none => simp [hi] at ha
    | some e =>
      simp only [hi] at ha
      split at ha
      · rename_i hn
        simp only [Option.some.injEq] at ha
        subst ha
        refine ⟨D, O, h.inv_quiet i e e.startThread hi ⟨rfl, rfl, rfl, rfl, rfl, rfl⟩ rfl rfl ?_
          (fun hr => absurd hr (by simp [Executer.startThread]))
          (fun hr => absurd hr (by simp [Executer.startThread]))⟩
        simp [Pipeline.pending, Executer.startThread, hn]
      · exact absurd ha (by simp)

/-- Every run keeps the pipeline in operation. -/
theorem Pipeline.Inv.inv_run {ops : OperatorTable W} {val : W → Addr → V}
    {good : W → Prop} {isCell : Addr → Prop} {fs : List (V → V)}
    (as : List PipelineAction) :
    ∀ {p p1 : Pipeline W V} {D O : Nat → List V}, p.Inv ops val good isCell fs D O →
      p.run ops val as = some p1 → ∃ D1 O1, p1.Inv ops val good isCell fs D1 O1 := by
  induction as with
  | nil =>
    intro p p1 D O h hr
    simp only [Pipeline.run, Option.some.injEq] at hr
    subst hr
    exact ⟨D, O, h⟩
  | cons a as ih =>
    intro p p1 D O h hr
    cases ha : p.act ops val a with
    | none => simp [Pipeline.run, ha] at hr
    | some p2 =>
      simp only [Pipeline.run, ha] at hr
      obtain ⟨D2, O2, h2⟩ := h.inv_act a ha
      exact ih h2 hr

end PipelineInvariant

section FourThreads

/-- What a cell holds after another cell has been written. -/
theorem World.val_set (heap : List Dyadic) (objects objects1 : List Operator) (a b : Addr)
    (x : Dyadic) :
    World.val ⟨heap.set b x, objects⟩ a =
      if b = a ∧ b < heap.length then x else World.val ⟨heap, objects1⟩ a := by
  simp only [World.val, List.getD_eq_getElem?_getD, List.getElem?_set]
  by_cases h1 : b = a
  · subst h1
    by_cases h2 : b < heap.length
    · simp [h2]
    · simp [h2, List.getElem?_eq_none (Nat.le_of_not_lt h2)]
  · simp [h1]

/-- What a cell within the free store holds. -/
theorem World.val_eq (heap : List Dyadic) (objects : List Operator) (a : Addr)
    (h : a < heap.length) : World.val ⟨heap, objects⟩ a = heap[a] := by
  simp [World.val, List.getElem?_eq_getElem h]

/-- The contract of `exec1`, hosting `Mult3` and `Div3Round`. -/
theorem fourThreads_exec1 (e0 : Executer) (hk : e0.kind = .OperatorExecuter)
    (hops : e0.operators = [0, 1]) (hi : e0._opInput = some 0) (ho : e0._opOutput = some 1) :
    e0.Computes World.table World.val fourThreadsGood fourThreadsCell
      (fun x => Div3Round.value (Mult3.value x)) := by
  intro e w w1 w2 opStatus ek eo ei eoo hg hcin hcout _ hbind hrun
  rw [hk] at ek
  rw [hops] at eo
  rw [hi] at ei
  rw [ho] at eoo
  obtain ⟨hlen, a0, b1, a2, b3, b4, a5, counter, endLimit, sinkVariable, hobj⟩ := hg
  obtain ⟨h1, _, _⟩ := hcin (by rw [ek]; rfl)
  obtain ⟨h2, h26, h27⟩ := hcout (by rw [ek]; rfl)
  obtain ⟨heap, objects⟩ := w
  simp only at hlen hobj
  subst hobj
  simp only [Executer.bindSlots, ek, ExecuterKind.hasInput, ExecuterKind.hasOutput, ei, eoo,
    if_true, World.table, World.writeInput, World.writeOutput, List.getElem?_cons_zero,
    List.set_cons_zero, List.getElem?_cons_succ, List.set_cons_succ, Option.some.injEq]
    at hbind
  subst hbind
  rw [eo] at hrun
  have g1 : e._inputBuffer < heap.length := by rw [hlen]; exact h1
  have g2 : e._outputBuffer < heap.length := by rw [hlen]; exact h2
  have g6 : 6 < heap.length := by rw [hlen]; decide
  simp only [Executer.runOperators, World.table, World.operation, List.getElem?_cons_zero,
    List.getElem?_cons_succ, World.assign, List.getElem?_eq_getElem g1, g6, if_true,
    reduceCtorEq, if_false, List.length_set, List.getElem?_set, g2, Option.some.injEq,
    Prod.mk.injEq] at hrun
  obtain ⟨rfl, _⟩ := hrun
  refine ⟨⟨by simp [hlen], _, _, _, _, _, _, _, _, _, rfl⟩, ?_, ?_⟩
  · intro _ _
    rw [World.val_set _ _ [] _ _ _, if_pos ⟨rfl, by simpa using g2⟩, World.val_eq _ _ _ g1]
  · intro c hc hc1 hc2
    obtain ⟨_, hc6, _⟩ := hc
    have hc1 := hc1 (by rw [ek]; rfl)
    have hc2 := hc2 (by rw [ek]; rfl)
    rw [World.val_set _ _ [] _ _ _, if_neg (fun h => hc2 h.1.symm),
      World.val_set _ _ [] _ _ _, if_neg (fun h => hc6 h.1.symm)]
    rfl

/-- The contract of `exec2`, hosting `Add5` and `Div2`. -/
theorem fourThreads_exec2 (e0 : Executer) (hk : e0.kind = .OperatorExecuter)
    (hops : e0.operators = [2, 3]) (hi : e0._opInput = some 2) (ho : e0._opOutput = some 3) :
    e0.Computes World.table World.val fourThreadsGood fourThreadsCell
      (fun x => Div2.value (Add5.value x)) := by
  intro e w w1 w2 opStatus ek eo ei eoo hg hcin hcout _ hbind hrun
  rw [hk] at ek
  rw [hops] at eo
  rw [hi] at ei
  rw [ho] at eoo
  obtain ⟨hlen, a0, b1, a2, b3, b4, a5, counter, endLimit, sinkVariable, hobj⟩ := hg
  obtain ⟨h1, _, _⟩ := hcin (by rw [ek]; rfl)
  obtain ⟨h2, h26, h27⟩ := hcout (by rw [ek]; rfl)
  obtain ⟨heap, objects⟩ := w
  simp only at hlen hobj
  subst hobj
  simp only [Executer.bindSlots, ek, ExecuterKind.hasInput, ExecuterKind.hasOutput, ei, eoo,
    if_true, World.table, World.writeInput, World.writeOutput, List.getElem?_cons_zero,
    List.set_cons_zero, List.getElem?_cons_succ, List.set_cons_succ, Option.some.injEq]
    at hbind
  subst hbind
  rw [eo] at hrun
  have g1 : e._inputBuffer < heap.length := by rw [hlen]; exact h1
  have g2 : e._outputBuffer < heap.length := by rw [hlen]; exact h2
  have g7 : 7 < heap.length := by rw [hlen]; decide
  simp only [Executer.runOperators, World.table, World.operation, List.getElem?_cons_zero,
    List.getElem?_cons_succ, World.assign, List.getElem?_eq_getElem g1, g7, if_true,
    reduceCtorEq, if_false, List.length_set, List.getElem?_set, g2, Option.some.injEq,
    Prod.mk.injEq] at hrun
  obtain ⟨rfl, _⟩ := hrun
  refine ⟨⟨by simp [hlen], _, _, _, _, _, _, _, _, _, rfl⟩, ?_, ?_⟩
  · intro _ _
    rw [World.val_set _ _ [] _ _ _, if_pos ⟨rfl, by simpa using g2⟩, World.val_eq _ _ _ g1]
  · intro c hc hc1 hc2
    obtain ⟨_, _, hc7⟩ := hc
    have hc1 := hc1 (by rw [ek]; rfl)
    have hc2 := hc2 (by rw [ek]; rfl)
    rw [World.val_set _ _ [] _ _ _, if_neg (fun h => hc2 h.1.symm),
      World.val_set _ _ [] _ _ _, if_neg (fun h => hc7 h.1.symm)]
    rfl

/-- The contract of `source`, hosting `CounterSource`. -/
theorem fourThreads_source (f : Dyadic → Dyadic) (e0 : Executer)
    (hk : e0.kind = .SourceExecuter) (hops : e0.operators = [4])
    (ho : e0._opOutput = some 4) :
    e0.Computes World.table World.val fourThreadsGood fourThreadsCell f := by
  intro e w w1 w2 opStatus ek eo _ eoo hg _ hcout _ hbind hrun
  rw [hk] at ek
  rw [hops] at eo
  rw [ho] at eoo
  obtain ⟨hlen, a0, b1, a2, b3, b4, a5, counter, endLimit, sinkVariable, hobj⟩ := hg
  obtain ⟨h2, _, _⟩ := hcout (by rw [ek]; rfl)
  obtain ⟨heap, objects⟩ := w
  simp only at hlen hobj
  subst hobj
  simp only [Executer.bindSlots, ek, ExecuterKind.hasInput, ExecuterKind.hasOutput, eoo,
    if_true, World.table, World.writeOutput, List.getElem?_cons_zero, Bool.false_eq_true,
    if_false, List.set_cons_zero, List.getElem?_cons_succ, List.set_cons_succ,
    Option.some.injEq] at hbind
  subst hbind
  rw [eo] at hrun
  have g2 : e._outputBuffer < heap.length := by rw [hlen]; exact h2
  simp only [Executer.runOperators, World.table, World.operation, List.getElem?_cons_zero,
    List.getElem?_cons_succ, g2, if_true, List.set_cons_zero, List.set_cons_succ] at hrun
  refine ⟨?_, fun h => absurd h (by rw [ek]; simp [ExecuterKind.hasInput]), ?_⟩
  · by_cases hc : counter < endLimit
    · simp only [hc, if_true, Option.some.injEq, Prod.mk.injEq] at hrun
      obtain ⟨rfl, _⟩ := hrun
      exact ⟨by simp [hlen], _, _, _, _, _, _, _, _, _, rfl⟩
    · simp only [hc, if_false, Option.some.injEq, Prod.mk.injEq] at hrun
      obtain ⟨rfl, _⟩ := hrun
      exact ⟨by simp [hlen], _, _, _, _, _, _, _, _, _, rfl⟩
  · intro c _ _ hc2
    have hc2 := hc2 (by rw [ek]; rfl)
    by_cases hc : counter < endLimit
    · simp only [hc, if_true, Option.some.injEq, Prod.mk.injEq] at hrun
      obtain ⟨rfl, _⟩ := hrun
      rw [World.val_set _ _ [] _ _ _, if_neg (fun h => hc2 h.1.symm)]
      rfl
    · simp only [hc, if_false, Option.some.injEq, Prod.mk.injEq] at hrun
      obtain ⟨rfl, _⟩ := hrun
      rw [World.val_set _ _ [] _ _ _, if_neg (fun h => hc2 h.1.symm)]
      rfl

/-- The contract of `sink`, hosting `CounterSink`. -/
theorem fourThreads_sink (f : Dyadic → Dyadic) (e0 : Executer)
    (hk : e0.kind = .SinkExecuter) (hops : e0.operators = [5])
    (hi : e0._opInput = some 5) :
    e0.Computes World.table World.val fourThreadsGood fourThreadsCell f := by
  intro e w w1 w2 opStatus ek eo ei _ hg hcin _ _ hbind hrun
  rw [hk] at ek
  rw [hops] at eo
  rw [hi] at ei
  obtain ⟨hlen, a0, b1, a2, b3, b4, a5, counter, endLimit, sinkVariable, hobj⟩ := hg
  obtain ⟨h1, _, _⟩ := hcin (by rw [ek]; rfl)
  obtain ⟨heap, objects⟩ := w
  simp only at hlen hobj
  subst hobj
  simp only [Executer.bindSlots, ek, ExecuterKind.hasInput, ExecuterKind.hasOutput, ei,
    if_true, World.table, World.writeInput, List.getElem?_cons_zero, Bool.false_eq_true,
    if_false, List.set_cons_zero, List.getElem?_cons_succ, List.set_cons_succ,
    Option.some.injEq] at hbind
  subst hbind
  rw [eo] at hrun
  have g1 : e._inputBuffer < heap.length := by rw [hlen]; exact h1
  simp only [Executer.runOperators, World.table, World.operation, List.getElem?_cons_zero,
    List.getElem?_cons_succ, List.getElem?_eq_getElem g1, List.set_cons_zero,
    List.set_cons_succ, reduceCtorEq, if_false, Option.some.injEq, Prod.mk.injEq] at hrun
  obtain ⟨rfl, _⟩ := hrun
  exact ⟨⟨hlen, _, _, _, _, _, _, _, _, _, rfl⟩,
    fun _ h => absurd h (by rw [ek]; simp [ExecuterKind.hasOutput]), fun _ _ _ _ => rfl⟩

end FourThreads

section FourThreadsStart

/-- The stages of `fourThreadsTest`. -/
theorem fourThreadsTest_stages :
    fourThreadsTest.stages =
      [⟨.SourceExecuter, [4], .Step, some .Step, false, true, .running, none, some 4, none,
          some 0, 0, 4, .loopTest, []⟩,
        ⟨.OperatorExecuter, [0, 1], .Continuous, some .Continuous, false, true, .running,
          some 0, some 1, some 0, some 1, 0, 1, .loopTest, []⟩,
        ⟨.OperatorExecuter, [2, 3], .Continuous, some .Continuous, false, true, .running,
          some 2, some 3, some 1, some 2, 2, 3, .loopTest, []⟩,
        ⟨.SinkExecuter, [5], .Continuous, some .Continuous, false, true, .running,
          some 5, none, some 2, none, 5, 0, .loopTest, []⟩] := rfl

/-- The buffers of `fourThreadsTest`. -/
theorem fourThreadsTest_buffers :
    fourThreadsTest.shared.buffers =
      [UniqueBuffer.new 8, UniqueBuffer.new 9, UniqueBuffer.new 10] := rfl

/-- The cells of `fourThreadsTest` and their places. -/
theorem fourThreadsTest_cellAt (x : Place) (a : Addr)
    (h : fourThreadsTest.cellAt x = some a) :
    fourThreadsCell a ∧ x = fourThreadsPlace a := by
  cases x with
  | buffer j =>
    simp only [Pipeline.cellAt, fourThreadsTest_buffers] at h
    rcases j with _ | _ | _ | j <;> simp [UniqueBuffer.new] at h <;> subst h <;>
      exact ⟨⟨by decide, by decide, by decide⟩, rfl⟩
  | input k =>
    simp only [Pipeline.cellAt, fourThreadsTest_stages] at h
    rcases k with _ | _ | _ | _ | k <;> simp [ExecuterKind.hasInput] at h <;> subst h <;>
      exact ⟨⟨by decide, by decide, by decide⟩, rfl⟩
  | output k =>
    simp only [Pipeline.cellAt, fourThreadsTest_stages] at h
    rcases k with _ | _ | _ | _ | k <;> simp [ExecuterKind.hasOutput] at h <;> subst h <;>
      exact ⟨⟨by decide, by decide, by decide⟩, rfl⟩

/-- The pipeline `fourThreadsTest` is a linear pipeline at its start. -/
theorem fourThreadsTest_initial :
    fourThreadsTest.Initial World.table World.val fourThreadsGood fourThreadsCell
      fourThreadsFns := by
  refine ⟨⟨rfl, rfl, ⟨rfl, none, none, none, none, none, none, 37, 42, Dyadic.ofInt 0, rfl⟩,
    ?_, ?_, ?_, ?_, fun x a h => (fourThreadsTest_cellAt x a h).1,
    fun x y a hx hy => (fourThreadsTest_cellAt x a hx).2.trans
      (fourThreadsTest_cellAt y a hy).2.symm⟩, ?_, ?_, rfl, rfl⟩
  · intro k e h
    rw [fourThreadsTest_stages] at h
    rcases k with _ | _ | _ | _ | k <;> simp at h <;> subst h <;> rfl
  · intro k e h
    rw [fourThreadsTest_stages] at h
    rcases k with _ | _ | _ | _ | k <;> simp at h <;> subst h <;>
      simp [ExecuterKind.hasInput]
  · intro k e h
    rw [fourThreadsTest_stages] at h
    rcases k with _ | _ | _ | _ | k <;> simp at h <;> subst h <;>
      simp [ExecuterKind.hasOutput]
  · intro k e h
    rw [fourThreadsTest_stages] at h
    rcases k with _ | _ | _ | _ | k <;> simp at h <;> subst h
    · exact fourThreads_source _ _ rfl rfl rfl
    · exact fourThreads_exec1 _ rfl rfl rfl rfl
    · exact fourThreads_exec2 _ rfl rfl rfl rfl
    · exact fourThreads_sink _ _ rfl rfl rfl
  · intro k e h
    rw [fourThreadsTest_stages] at h
    rcases k with _ | _ | _ | _ | k <;> simp at h <;> subst h <;> exact Or.inr rfl
  · intro j b h
    rw [fourThreadsTest_buffers] at h
    rcases j with _ | _ | _ | j <;> simp at h <;> subst h <;> exact ⟨rfl, rfl, rfl⟩

end FourThreadsStart

section EndToEnd

variable {V : Type}

/-- Identity functions compose to the identity. -/
theorem Pipeline.through_id (fs : List (V → V)) (h : ∀ f ∈ fs, f = id) (x : V) :
    Pipeline.through fs x = x := by
  induction fs generalizing x with
  | nil => rfl
  | cons f fs ih =>
    have hf : f = id := h f (List.mem_cons_self _ _)
    have := ih (fun g hg => h g (List.mem_cons_of_mem _ hg)) (f x)
    simp only [Pipeline.through, List.foldl_cons] at this ⊢
    rw [this, hf]
    rfl

/-- The run that leads to `fourThreadsLater`. -/
theorem fourThreadsLater_run :
    fourThreadsTest.run World.table World.val
      (fourThreadsSchedule ++ [.send 0 .Step] ++ fourThreadsSchedule)
      = some fourThreadsLater := by
  rfl

end EndToEnd

/-- C11. Take a linear pipeline of a source, transform stages and a sink at
its start, the operators of every stage keeping the contract of
`Executer.Computes` with the function of the stage.  In every state reached
by any interleaving of transitions of the threads and of mode commands and
`startThread()` calls of the owners, what the sink has consumed is an initial
part of what the source has emitted, mapped through the functions of the
transform stages in their order; if these are identities, an initial part of
what has been emitted.  No buffer is terminated in such a state.  The stages
`Mult3`, `Div3Round` and `Add5`, `Div2` map `16` to `10.5` and `15` to
`10`. -/
theorem C11_end_to_end_order {W V : Type} (ops : OperatorTable W) (val : W → Addr → V)
    (good : W → Prop) (isCell : Addr → Prop) (fs : List (V → V)) (p0 p : Pipeline W V)
    (as : List PipelineAction)
    (h0 : p0.Initial ops val good isCell fs) (hrun : p0.run ops val as = some p) :
    p.consumed <+: p.emitted.map (Pipeline.through fs) ∧
    ((∀ f ∈ fs, f = id) → p.consumed <+: p.emitted) ∧
    (∀ (j : Nat) (b : UniqueBuffer Addr), p.shared.buffers[j]? = some b →
      b._ending = false) ∧
    Pipeline.through fourThreadsFns (.ofInt 16) = ⟨21, 1⟩ ∧
    Pipeline.through fourThreadsFns (.ofInt 15) = .ofInt 10 := by
  obtain ⟨D, O, h⟩ := Pipeline.Inv.inv_run as h0.initial_inv hrun
  have hp := h.consumed_prefix
  refine ⟨hp, ?_, h.not_ending, by decide, by decide⟩
  intro hid
  have hm : p.emitted.map (Pipeline.through fs) = p.emitted := by
    conv_rhs => rw [← List.map_id p.emitted]
    apply List.map_congr_left
    intro x _
    exact Pipeline.through_id fs hid x
  rw [hm] at hp
  exact hp

/-- Witness for C11: in `ExecutionTest.FourThreadsCompleteTest` the source
emits `37` and, after a further command, `38`; the sink consumes `21.5` and
`22`. -/
theorem C11_end_to_end_order_witness :
    fourThreadsLater.emitted = [.ofInt 37, .ofInt 38] ∧
    fourThreadsLater.consumed = [⟨43, 1⟩, .ofInt 22] ∧
    fourThreadsLater.consumed <+:
      fourThreadsLater.emitted.map (Pipeline.through fourThreadsFns) :=
  ⟨by decide, by decide,
    (C11_end_to_end_order World.table World.val fourThreadsGood fourThreadsCell fourThreadsFns
      fourThreadsTest fourThreadsLater
      (fourThreadsSchedule ++ [.send 0 .Step] ++ fourThreadsSchedule)
      fourThreadsTest_initial fourThreadsLater_run).1⟩

section IterationLemmas

variable {W : Type}

theorem Executer.iterationsLog_append (e : Executer) (its : List (Addr × Addr))
    (c d : Addr) :
    e.iterationsLog (its ++ [(c, d)]) = e.iterationsLog its ++ e.iterationLog c d := by
  simp [Executer.iterationsLog]

/-- The numbers of events in the record of whole iterations. -/
theorem Executer.iterationsLog_count (e : Executer) (its : List (Addr × Addr)) :
    (e.iterationsLog its).countP Event.isReceive
        = (if e.kind.hasInput then its.length else 0) ∧
      (e.iterationsLog its).countP Event.isOperation = its.length * e.operators.length ∧
      (e.iterationsLog its).countP Event.isSend
        = (if e.kind.hasOutput then its.length else 0) := by
  have hop : ∀ l : List Nat, (l.map Event.operation).countP Event.isReceive = 0 ∧
      (l.map Event.operation).countP Event.isOperation = l.length ∧
      (l.map Event.operation).countP Event.isSend = 0 := by
    intro l
    induction l with
    | nil => simp
    | cons a l ih =>
      obtain ⟨h1, h2, h3⟩ := ih
      simp [List.countP_cons, h1, h2, h3, Event.isReceive, Event.isOperation, Event.isSend]
  induction its with
  | nil => simp [Executer.iterationsLog]
  | cons it its ih =>
    obtain ⟨h1, h2, h3⟩ := ih
    obtain ⟨g1, g2, g3⟩ := hop e.operators
    have hc : e.iterationsLog (it :: its) = e.iterationLog it.1 it.2 ++ e.iterationsLog its := by
      simp [Executer.iterationsLog]
    rw [hc]
    simp only [List.countP_append, h1, h2, h3, Executer.iterationLog, g1, g2, g3]
    refine ⟨?_, ?_, ?_⟩
    · cases e.kind.hasInput <;> cases e.kind.hasOutput <;>
        simp [List.countP_cons, Event.isReceive] <;> omega
    · cases e.kind.hasInput <;> cases e.kind.hasOutput <;>
        simp [List.countP_cons, Event.isOperation] <;> ring
    · cases e.kind.hasInput <;> cases e.kind.hasOutput <;>
        simp [List.countP_cons, Event.isSend] <;> omega

/-- Every transition of the thread keeps the shape of the record. -/
theorem Executer.Iterating.iterating_thread (ops : OperatorTable W) (e0 e e1 : Executer)
    (s s1 : Shared W) (its : List (Addr × Addr)) (current : List Event)
    (h : Executer.Iterating e0 e its current) (hx : e._execute ops s = some (s1, e1)) :
    ∃ its1 current1, Executer.Iterating e0 e1 its1 current1 := by
  obtain ⟨hk, ho, hl, hr, hcases⟩ := h
  unfold Executer._execute at hx
  split at hx
  · simp at hx
  · rename_i hp
    have hb : current = [] := by
      rcases hcases with ⟨_, _, h⟩ | ⟨h, _⟩ | ⟨h, _⟩
      · exact h
      · rw [hp] at h; exact absurd h (by simp)
      · rw [hp] at h; exact absurd h (by simp)
    split at hx <;>
      (simp at hx; obtain ⟨_, rfl⟩ := hx
       exact ⟨its, current, hk, ho, hl, by simp, Or.inl ⟨by simp, by simp, hb⟩⟩)
  · rename_i hp
    have hb : current = [] := by
      rcases hcases with ⟨_, _, h⟩ | ⟨h, _⟩ | ⟨h, _⟩
      · exact h
      · rw [hp] at h; exact absurd h (by simp)
      · rw [hp] at h; exact absurd h (by simp)
    split at hx <;>
      (simp at hx; obtain ⟨_, rfl⟩ := hx
       exact ⟨its, current, hk, ho, hl, by simp, Or.inl ⟨by simp, by simp, hb⟩⟩)
  · rename_i hp
    have hb : current = [] := by
      rcases hcases with ⟨_, _, h⟩ | ⟨h, _⟩ | ⟨h, _⟩
      · exact h
      · rw [hp] at h; exact absurd h (by simp)
      · rw [hp] at h; exact absurd h (by simp)
    split at hx
    · simp at hx; obtain ⟨_, rfl⟩ := hx
      exact ⟨its, current, hk, ho, hl, by simp, Or.inl ⟨by simp, by simp, hb⟩⟩
    · simp at hx
  · rename_i hp
    have hb : current = [] := by
      rcases hcases with ⟨_, _, h⟩ | ⟨h, _⟩ | ⟨h, _⟩
      · exact h
      · rw [hp] at h; exact absurd h (by simp)
      · rw [hp] at h; exact absurd h (by simp)
    split at hx
    · simp at hx; obtain ⟨_, rfl⟩ := hx
      exact ⟨its, current, hk, ho, hl, by simp, Or.inl ⟨by simp, by simp, hb⟩⟩
    · split at hx
      · rename_i hi
        simp at hx; obtain ⟨_, rfl⟩ := hx
        exact ⟨its, current, hk, ho, hl, fun _ => hi, Or.inl ⟨by simp, by simp, hb⟩⟩
      · rename_i hi
        simp at hx; obtain ⟨_, rfl⟩ := hx
        refine ⟨its, current, hk, ho, hl, by simp, Or.inr (Or.inl ⟨rfl, 0, ?_⟩)⟩
        rw [← hk]
        simp [hi, hb]
  · rename_i hp
    have hb : current = [] := by
      rcases hcases with ⟨_, _, h⟩ | ⟨h, _⟩ | ⟨h, _⟩
      · exact h
      · rw [hp] at h; exact absurd h (by simp)
      · rw [hp] at h; exact absurd h (by simp)
    have hi := hr hp
    split at hx
    · simp [Executer.input] at hx
      split at hx <;>
        (obtain ⟨_, rfl⟩ := hx
         exact ⟨its, current, hk, ho, hl, fun _ => hi, Or.inl ⟨by simp [hp], by simp [hp], hb⟩⟩)
    · split at hx
      · simp at hx
      · split at hx
        · simp at hx
        · rename_i b1 cell _
          simp at hx; obtain ⟨_, rfl⟩ := hx
          refine ⟨its, [.receive cell], hk, ho, by simp [hl, hb], by simp,
            Or.inr (Or.inl ⟨rfl, cell, ?_⟩)⟩
          rw [← hk]
          simp [hi]
  · rename_i hp
    obtain ⟨c, hc⟩ : ∃ c, current = if e0.kind.hasInput then [.receive c] else [] := by
      rcases hcases with ⟨h, _⟩ | ⟨_, h⟩ | ⟨h, _⟩
      · exact absurd hp h
      · exact h
      · rw [hp] at h; exact absurd h (by simp)
    split at hx
    · simp at hx
    · split at hx
      · simp at hx
      · simp at hx; obtain ⟨_, rfl⟩ := hx
        cases hout : e.kind.hasOutput with
        | true =>
          refine ⟨its, current ++ e0.operators.map .operation, hk, ho, ?_, by simp,
            Or.inr (Or.inr ⟨by simp, hout, c, by rw [hc]⟩)⟩
          simp [hl, ho]
        | false =>
          refine ⟨its ++ [(c, 0)], [], hk, ho, ?_, by simp,
            Or.inl ⟨by simp, by simp, rfl⟩⟩
          rw [Executer.iterationsLog_append]
          simp [hl, ho, Executer.iterationLog, hc, ← hk, hout]
  · rename_i hp
    obtain ⟨hout, c, hc⟩ : e.kind.hasOutput = true ∧ ∃ c, current =
        (if e0.kind.hasInput then [.receive c] else []) ++ e0.operators.map .operation := by
      rcases hcases with ⟨_, h, _⟩ | ⟨h, _⟩ | ⟨_, h⟩
      · exact absurd hp h
      · rw [hp] at h; exact absurd h (by simp)
      · exact h
    split at hx
    · simp [Executer.output] at hx
      split at hx <;>
        (obtain ⟨_, rfl⟩ := hx
         exact ⟨its, current, hk, ho, hl, by simp [hp],
           Or.inr (Or.inr ⟨hp, hout, c, hc⟩)⟩)
    · split at hx
      · simp at hx
      · split at hx
        · simp at hx
        · simp at hx; obtain ⟨_, rfl⟩ := hx
          refine ⟨its ++ [(c, e._outputBuffer)], [], hk, ho, ?_, by simp,
            Or.inl ⟨by simp, by simp, rfl⟩⟩
          rw [Executer.iterationsLog_append]
          simp [hl, Executer.iterationLog, hc, ← hk, hout]
  · simp at hx

end IterationLemmas

section IterationRuns

variable {W : Type}

/-- Every action keeps the shape of the record. -/
theorem Executer.Iterating.iterating_act (ops : OperatorTable W) (e0 : Executer)
    (st st1 : Stage W) (a : Action W)
    (h : ∃ its current, Executer.Iterating e0 st.executer its current)
    (ha : st.act ops a = some st1) :
    ∃ its current, Executer.Iterating e0 st1.executer its current := by
  obtain ⟨its, current, h⟩ := h
  obtain ⟨s, e⟩ := st
  cases a with
  | thread =>
    simp only [Stage.act] at ha
    cases hx : e._execute ops s with
    | none => simp [hx] at ha
    | some r =>
      simp [hx] at ha
      subst ha
      exact Executer.Iterating.iterating_thread ops e0 e r.2 s r.1 its current h hx
  | send msg =>
    simp [Stage.act] at ha
    subst ha
    exact ⟨its, current, h⟩
  | stop =>
    simp [Stage.act] at ha
    subst ha
    obtain ⟨_, f2, f3, _, _, _, _, _, f9, f10⟩ := Executer.stop_fields ops s e
    obtain ⟨hk, ho, hl, hr, hc⟩ := h
    refine ⟨its, current, ?_⟩
    simp only [Executer.Iterating, f2, f3, f9, f10]
    exact ⟨hk, ho, hl, hr, hc⟩
  | startThread =>
    simp only [Stage.act] at ha
    split at ha
    · rename_i hn
      simp at ha
      subst ha
      obtain ⟨hk, ho, hl, hr, hc⟩ := h
      have hb : current = [] := by
        rcases hc with ⟨_, _, h⟩ | ⟨h, _⟩ | ⟨h, _⟩
        · exact h
        · rw [hn] at h; exact absurd h (by simp)
        · rw [hn] at h; exact absurd h (by simp)
      exact ⟨its, current, hk, ho, hl, by simp [Executer.startThread],
        Or.inl ⟨by simp [Executer.startThread], by simp [Executer.startThread], hb⟩⟩
    · simp at ha
  | peerSend port c =>
    rw [Stage.act_peer ops _ st1 _ ha rfl (fun _ _ => Or.inr (by simp))]
    exact ⟨its, current, h⟩
  | peerReceive port c =>
    rw [Stage.act_peer ops _ st1 _ ha rfl (fun _ _ => Or.inr (by simp))]
    exact ⟨its, current, h⟩
  | peerReleaseAll port =>
    rw [Stage.act_peer ops _ st1 _ ha rfl (fun _ _ => Or.inr (by simp))]
    exact ⟨its, current, h⟩
  | peerWrite f =>
    rw [Stage.act_peer ops _ st1 _ ha rfl (fun _ _ => Or.inr (by simp))]
    exact ⟨its, current, h⟩

end IterationRuns

/-- C12. Let the thread of a stage begin with an empty record, over worlds
that keep the trace of the invocations, the trace being empty, and let the
stage, its owner and its neighbours act in any order (mode commands, `stop()`
and the termination of ports included; no neighbour touches the trace).  In
every state reached the record consists of whole iterations followed by an
initial part of one iteration, and an iteration is the `receive` (classes with
an input side), the operators in order, and the `send` (classes with an output
side).  The trace of the world, which only the calls `op->operation()` extend,
holds the operators of the stage once for every whole iteration, and once more
while the thread stands at `send`.  The part is empty whenever the thread is
not between the operator loop and the end of an iteration, and then the
numbers agree: for a transform stage the completed `receive` calls, the runs of
the operator chain and the `send` calls are equally many; for a source stage
the `send` calls and the runs of the chain are equally many. -/
theorem C12_iteration_counts {W : Type} (ops : OperatorTable W)
    (st st2 : Stage (W × List Nat)) (as : List (Action (W × List Nat)))
    (hpc : st.executer.pc = .notStarted ∨ st.executer.pc = .loopTest)
    (hlog : st.executer.log = []) (htrace : st.shared.world.2 = [])
    (hpeer : ∀ a ∈ as, a.keepsTrace)
    (hrun : st.run ops.traced as = some st2) :
    ∃ (its : List (Addr × Addr)) (current : List Event) (c d : Addr),
      st2.executer.log = st.executer.iterationsLog its ++ current ∧
      current <+: st.executer.iterationLog c d ∧
      (st2.executer.pc ≠ .operating → st2.executer.pc ≠ .sending → current = []) ∧
      st2.shared.world.2 = (List.replicate its.length st.executer.operators).flatten ++
        (if st2.executer.pc = .sending then st.executer.operators else []) ∧
      (current = [] →
        (st.executer.kind = .OperatorExecuter →
          st2.executer.log.countP Event.isReceive = its.length ∧
          st2.shared.world.2 = (List.replicate its.length st.executer.operators).flatten ∧
          st2.executer.log.countP Event.isOperation
            = its.length * st.executer.operators.length ∧
          st2.executer.log.countP Event.isSend = its.length) ∧
        (st.executer.kind = .SourceExecuter →
          st2.executer.log.countP Event.isSend = its.length ∧
          st2.shared.world.2 = (List.replicate its.length st.executer.operators).flatten ∧
          st2.executer.log.countP Event.isOperation
            = its.length * st.executer.operators.length ∧
          st2.executer.log.countP Event.isReceive = 0)) := by
  have h0 : ∃ its current, Executer.Iterating st.executer st.executer its current := by
    refine ⟨[], [], rfl, rfl, by simp [hlog, Executer.iterationsLog], ?_, Or.inl ⟨?_, ?_, rfl⟩⟩ <;>
      rcases hpc with hp | hp <;> simp [hp]
  obtain ⟨its, current, hk, ho, hl, hr, hc⟩ := Stage.run_invariant ops.traced
    (fun x => ∃ its current, Executer.Iterating st.executer x.executer its current)
    (fun x a x1 hx ha => Executer.Iterating.iterating_act ops.traced st.executer x x1 a hx ha)
    as st st2 h0 hrun
  have ht := Stage.run_trace ops as st st2 hpeer (by rw [htrace, hlog]; rfl) hrun
  rw [hl, List.filterMap_append, Executer.iterationsLog_operators] at ht
  obtain ⟨n1, n2, n3⟩ := Executer.iterationsLog_count st.executer its
  have hcur : ∃ c d, current <+: st.executer.iterationLog c d ∧
      (st2.executer.pc ≠ .operating → st2.executer.pc ≠ .sending → current = []) ∧
      current.filterMap Event.operator
        = (if st2.executer.pc = .sending then st.executer.operators else []) := by
    rcases hc with ⟨hp1, hp2, h⟩ | ⟨hp, c, h⟩ | ⟨hp, _, c, h⟩
    · exact ⟨0, 0, by rw [h]; exact List.nil_prefix, fun _ _ => h, by simp [h, hp2]⟩
    · refine ⟨c, 0, by rw [h]; exact List.prefix_append _ _, fun hn _ => absurd hp hn, ?_⟩
      rw [h, hp]
      cases st.executer.kind.hasInput <;> simp [Event.operator]
    · refine ⟨c, 0, ?_, fun _ hn => absurd hp hn, ?_⟩
      · rw [h]
        simp only [Executer.iterationLog, ← List.append_assoc]
        exact List.prefix_append _ _
      · rw [h, hp, List.filterMap_append, Event.operator_map]
        cases st.executer.kind.hasInput <;> simp [Event.operator]
  obtain ⟨c, d, hp1, hp2, hp3⟩ := hcur
  rw [hp3] at ht
  refine ⟨its, current, c, d, hl, hp1, hp2, ht, ?_⟩
  intro he
  have ht2 : st2.shared.world.2
      = (List.replicate its.length st.executer.operators).flatten := by
    rw [he] at hp3
    rw [ht, ← hp3]
    simp
  rw [hl, he, List.append_nil]
  constructor
  · intro hkind
    simp only [hkind, ExecuterKind.hasInput, ExecuterKind.hasOutput, if_true] at n1 n3
    exact ⟨n1, ht2, n2, n3⟩
  · intro hkind
    simp only [hkind, ExecuterKind.hasInput, ExecuterKind.hasOutput, if_true] at n1 n3
    exact ⟨n3, ht2, n2, by simpa using n1⟩

/-- Witness for C12: the transform stage of the examples is started, the
client sends an item, the thread receives it, runs its operator and, once the
consumer has emptied the output port, sends; one iteration is on record and
operator `0` is once in the trace. -/
theorem C12_iteration_counts_witness :
    ∃ st2, (blockedStage .notStarted).traced.run statusTable.traced
        [.startThread, .thread, .thread, .thread, .peerSend 0 7, .thread, .thread,
          .peerReceive 1 9, .thread] = some st2 ∧
      st2.executer.log = [.receive 7, .operation 0, .send 1] ∧
      st2.shared.world = (1, [0]) ∧
      ∃ (its : List (Addr × Addr)) (current : List Event) (c d : Addr),
        st2.executer.log = (blockedStage .notStarted).executer.iterationsLog its ++ current ∧
        current <+: (blockedStage .notStarted).executer.iterationLog c d ∧
        (st2.executer.pc ≠ .operating → st2.executer.pc ≠ .sending → current = []) ∧
        st2.shared.world.2
          = (List.replicate its.length (blockedStage .notStarted).executer.operators).flatten ++
            (if st2.executer.pc = .sending then (blockedStage .notStarted).executer.operators
              else []) ∧
        (current = [] →
          ((blockedStage .notStarted).executer.kind = .OperatorExecuter →
            st2.executer.log.countP Event.isReceive = its.length ∧
            st2.shared.world.2
              = (List.replicate its.length
                  (blockedStage .notStarted).executer.operators).flatten ∧
            st2.executer.log.countP Event.isOperation
              = its.length * (blockedStage .notStarted).executer.operators.length ∧
            st2.executer.log.countP Event.isSend = its.length) ∧
          ((blockedStage .notStarted).executer.kind = .SourceExecuter →
            st2.executer.log.countP Event.isSend = its.length ∧
            st2.shared.world.2
              = (List.replicate its.length
                  (blockedStage .notStarted).executer.operators).flatten ∧
            st2.executer.log.countP Event.isOperation
              = its.length * (blockedStage .notStarted).executer.operators.length ∧
            st2.executer.log.countP Event.isReceive = 0)) :=
  ⟨_, rfl, rfl, rfl, C12_iteration_counts statusTable (blockedStage .notStarted).traced _
    [.startThread, .thread, .thread, .thread, .peerSend 0 7, .thread, .thread,
      .peerReceive 1 9, .thread] (Or.inl rfl) rfl rfl
    (fun a ha => by
      simp only [List.mem_cons, List.mem_singleton, List.not_mem_nil, or_false] at ha
      rcases ha with h | h | h | h | h | h | h | h | h <;> subst h <;> exact trivial) rfl⟩

/-- C13. On a non-terminated buffer whose slot is available, `send` completes
and exchanges the two cells: the buffer then holds the cell the caller passed
in, the caller's `data_ptr` holds the cell the buffer held before,
`_bufferAvailable` is clear and `_dataRefreshed` is set; the buffer is still
not terminated. -/
theorem C13_send_exchanges_cells {α : Type} (b : UniqueBuffer α) (data_ptr : α)
    (hE : b._ending = false) (hA : b._bufferAvailable = true) :
    ∃ b1 l1, b.send data_ptr = some (b1, l1) ∧ b1._buffer = data_ptr ∧ l1 = b._buffer ∧
      b1._bufferAvailable = false ∧ b1._dataRefreshed = true ∧ b1._ending = false := by
  refine ⟨{ b with _buffer := data_ptr, _bufferAvailable := false, _dataRefreshed := true },
    b._buffer, ?_, rfl, rfl, rfl, rfl, hE⟩
  simp [UniqueBuffer.send, hA]

/-- Witness for C13: a freshly constructed buffer owning cell `7`, and a
caller bringing cell `3`. -/
theorem C13_send_exchanges_cells_witness :
    ∃ b1 l1, (UniqueBuffer.new 7).send 3 = some (b1, l1) ∧ b1._buffer = 3 ∧
      l1 = (UniqueBuffer.new 7)._buffer ∧
      b1._bufferAvailable = false ∧ b1._dataRefreshed = true ∧ b1._ending = false :=
  C13_send_exchanges_cells (UniqueBuffer.new 7) 3 rfl rfl

/-- C14. Take any state of a buffer reached from its construction by
completed calls.  If the buffer is terminated and its slot is not filled,
`receive` returns with the caller's cell, the buffer's cell and both flags as
they were; if it is terminated and its slot is not available, `send` does.
In particular a `receive` that waits (slot not filled, buffer not terminated)
returns in this way once `releaseAll` has been called, and so does a `send`
that waits. -/
theorem C14_terminated_waiting_side {α : Type} (c : α) (cs : List (BufferCall α))
    (e : Edge α) (x : α)
    (hrun : (Edge.start (UniqueBuffer.new c)).run cs = some e) :
    (e.buffer._ending = true → e.buffer._dataRefreshed = false →
      e.buffer.receive x = some (e.buffer, x)) ∧
    (e.buffer._ending = true → e.buffer._bufferAvailable = false →
      e.buffer.send x = some (e.buffer, x)) ∧
    (e.buffer._ending = false → e.buffer._dataRefreshed = false →
      e.buffer.receive x = none ∧
      e.buffer.releaseAll.receive x = some (e.buffer.releaseAll, x)) ∧
    (e.buffer._ending = false → e.buffer._bufferAvailable = false →
      e.buffer.send x = none ∧
      e.buffer.releaseAll.send x = some (e.buffer.releaseAll, x)) := by
  have hf : e.buffer._bufferAvailable = !e.buffer._dataRefreshed :=
    Edge.run_flags (e := Edge.start (UniqueBuffer.new c)) rfl hrun
  obtain ⟨b⟩ := e
  obtain ⟨cell, av, re, en⟩ := b
  simp only at hf
  subst hf
  refine ⟨?_, ?_, ?_, ?_⟩
  · intro h1 h2
    simp only at h1 h2
    subst h1 h2
    rfl
  · intro h1 h2
    simp only [Bool.not_eq_false'] at h1 h2
    subst h1 h2
    rfl
  · intro h1 h2
    simp only at h1 h2
    subst h1 h2
    exact ⟨rfl, rfl⟩
  · intro h1 h2
    simp only [Bool.not_eq_false'] at h1 h2
    subst h1 h2
    exact ⟨rfl, rfl⟩

/-- Witness for C14: a buffer that is filled by a `send` and then terminated;
a further `send` returns with everything as it was. -/
theorem C14_terminated_waiting_side_witness :
    (⟨5, false, true, true⟩ : UniqueBuffer Nat).send 9 = some (⟨5, false, true, true⟩, 9) :=
  (C14_terminated_waiting_side 0 [.send 5, .releaseAll]
    ⟨⟨5, false, true, true⟩, [5], []⟩ 9 rfl).2.1 rfl rfl

section TerminatedLemmas

variable {α : Type}

/-- On a terminated buffer every call completes and leaves the buffer
terminated. -/
theorem Edge.call_terminated (e : Edge α) (c : BufferCall α) (h : e.buffer._ending = true) :
    ∃ e1, e.call c = some e1 ∧ e1.buffer._ending = true := by
  cases c with
  | send x =>
    cases hs : e.buffer.send x with
    | none => simp [UniqueBuffer.send, h] at hs
    | some r =>
      refine ⟨{ e with buffer := r.1, deposited := e.deposited ++ [x] },
        by simp [Edge.call, hs], ?_⟩
      exact (@UniqueBuffer.send_flags _ _ r.1 _ r.2 hs).2.2.trans h
  | receive y =>
    cases hs : e.buffer.receive y with
    | none => simp [UniqueBuffer.receive, h] at hs
    | some r =>
      refine ⟨{ e with buffer := r.1, obtained := e.obtained ++ [r.2] },
        by simp [Edge.call, hs], ?_⟩
      exact (@UniqueBuffer.receive_flags _ _ r.1 _ r.2 hs).2.2.trans h
  | releaseAll => exact ⟨_, rfl, rfl⟩

theorem Edge.run_terminated (cs : List (BufferCall α)) :
    ∀ e : Edge α, e.buffer._ending = true →
      ∃ e1, e.run cs = some e1 ∧ e1.buffer._ending = true := by
  induction cs with
  | nil => exact fun e h => ⟨e, rfl, h⟩
  | cons c cs ih =>
    intro e h
    obtain ⟨e1, h1, h2⟩ := Edge.call_terminated e c h
    obtain ⟨e2, h3, h4⟩ := ih e1 h2
    exact ⟨e2, by rw [Edge.edgeRun_cons, h1]; exact h3, h4⟩

end TerminatedLemmas

/-- C15. After `releaseAll()` every sequence of `send`, `receive` and
`releaseAll` calls runs to its end, no call blocking; in the state reached
`_ending` is still set, the wait predicates of `send` and of `receive` both
hold, and a further `send` or `receive` with any cell returns, leaving the
buffer terminated.  The slot flags of the buffer the sequence starts from are
arbitrary. -/
theorem C15_terminated_refuses_neither_side {α : Type} (b : UniqueBuffer α)
    (cs : List (BufferCall α)) :
    ∃ e, (Edge.start b.releaseAll).run cs = some e ∧ e.buffer._ending = true ∧
      e.buffer.sendReady = true ∧ e.buffer.receiveReady = true ∧
      (∀ x, ∃ b1 l, e.buffer.send x = some (b1, l) ∧ b1._ending = true) ∧
      (∀ x, ∃ b1 l, e.buffer.receive x = some (b1, l) ∧ b1._ending = true) := by
  obtain ⟨e, h1, h2⟩ := Edge.run_terminated cs (Edge.start b.releaseAll) rfl
  refine ⟨e, h1, h2, by simp [UniqueBuffer.sendReady, h2],
    by simp [UniqueBuffer.receiveReady, h2], ?_, ?_⟩
  · intro x
    cases hs : e.buffer.send x with
    | none => simp [UniqueBuffer.send, h2] at hs
    | some r =>
      exact ⟨r.1, r.2, rfl, (@UniqueBuffer.send_flags _ _ r.1 _ r.2 hs).2.2.trans h2⟩
  · intro x
    cases hs : e.buffer.receive x with
    | none => simp [UniqueBuffer.receive, h2] at hs
    | some r =>
      exact ⟨r.1, r.2, rfl, (@UniqueBuffer.receive_flags _ _ r.1 _ r.2 hs).2.2.trans h2⟩

/-- Witness for C15: a freshly constructed buffer is terminated; two `send`
calls and two `receive` calls in a row all return. -/
theorem C15_terminated_refuses_neither_side_witness :
    ∃ e, (Edge.start (UniqueBuffer.new 0).releaseAll).run
        [.send 1, .send 2, .receive 3, .receive 4] = some e ∧
      e.buffer._ending = true ∧ e.buffer.sendReady = true ∧ e.buffer.receiveReady = true ∧
      (∀ x, ∃ b1 l, e.buffer.send x = some (b1, l) ∧ b1._ending = true) ∧
      (∀ x, ∃ b1 l, e.buffer.receive x = some (b1, l) ∧ b1._ending = true) :=
  C15_terminated_refuses_neither_side (UniqueBuffer.new 0)
    [.send 1, .send 2, .receive 3, .receive 4]

section ExchangeLemmas

variable {α π : Type}

/-- Every completed call permutes the three cells and leaves the contents of
the cells alone. -/
theorem Exchange.call_cells {x x1 : Exchange α π} {c : ExchangeCall}
    (h : x.call c = some x1) : x1.cells.Perm x.cells ∧ x1.payload = x.payload := by
  obtain ⟨s, ⟨cell, av, re, en⟩, r, p⟩ := x
  cases c with
  | send =>
    cases av <;> cases en <;> simp [Exchange.call, UniqueBuffer.send] at h <;> subst h
    · exact ⟨List.Perm.refl _, rfl⟩
    · exact ⟨List.Perm.swap _ _ _, rfl⟩
    · exact ⟨List.Perm.swap _ _ _, rfl⟩
  | receive =>
    cases re <;> cases en <;> simp [Exchange.call, UniqueBuffer.receive] at h <;> subst h
    · exact ⟨List.Perm.refl _, rfl⟩
    · exact ⟨(List.Perm.swap _ _ _).cons _, rfl⟩
    · exact ⟨(List.Perm.swap _ _ _).cons _, rfl⟩
  | releaseAll =>
    simp [Exchange.call] at h
    subst h
    exact ⟨List.Perm.refl _, rfl⟩

theorem Exchange.run_cells (cs : List ExchangeCall) :
    ∀ {x x1 : Exchange α π}, x.run cs = some x1 →
      x1.cells.Perm x.cells ∧ x1.payload = x.payload := by
  induction cs with
  | nil =>
    intro x x1 h
    simp [Exchange.run] at h
    subst h
    exact ⟨List.Perm.refl _, rfl⟩
  | cons c cs ih =>
    intro x x1 h
    cases hc : x.call c with
    | none => simp [Exchange.run, hc] at h
    | some x2 =>
      simp [Exchange.run, hc] at h
      obtain ⟨h1, h2⟩ := Exchange.call_cells hc
      obtain ⟨h3, h4⟩ := ih h
      exact ⟨h3.trans h1, h4.trans h2⟩

end ExchangeLemmas

/-- C16. Across every sequence of completed `send`, `receive` and
`releaseAll` calls on a buffer used with one local cell of the sender and one
of the receiver, the cells held by the sender, the buffer and the receiver are
a permutation of the three cells at the start, and the contents of every cell
are as at the start.  If the three cells were distinct at the start, they are
distinct afterwards. -/
theorem C16_cell_conservation {α π : Type} (x x1 : Exchange α π) (cs : List ExchangeCall)
    (hrun : x.run cs = some x1) :
    [x1.senderLocal, x1.buffer._buffer, x1.receiverLocal].Perm
        [x.senderLocal, x.buffer._buffer, x.receiverLocal] ∧
      (∀ cell, x1.payload cell = x.payload cell) ∧
      ([x.senderLocal, x.buffer._buffer, x.receiverLocal].Nodup →
        [x1.senderLocal, x1.buffer._buffer, x1.receiverLocal].Nodup) := by
  obtain ⟨h1, h2⟩ := Exchange.run_cells cs hrun
  exact ⟨h1, fun cell => by rw [h2], fun hn => (h1.nodup_iff).mpr hn⟩

/-- Witness for C16: two items are handed over, the buffer is terminated and
both sides call once more; the cells `1`, `2`, `3` are still there. -/
theorem C16_cell_conservation_witness :
    [1, 3, 2].Perm [1, 2, 3] ∧ (∀ cell : Nat, cell + 10 = cell + 10) ∧
      ([1, 2, 3].Nodup → [1, 3, 2].Nodup) :=
  C16_cell_conservation (⟨1, UniqueBuffer.new 2, 3, fun cell => cell + 10⟩ : Exchange Nat Nat)
    ⟨1, ⟨3, false, true, true⟩, 2, fun cell => cell + 10⟩
    [.send, .receive, .send, .receive, .releaseAll, .receive, .send] rfl


/-- C17. `addOperator` appends to the end of the list of operators and
changes nothing else.  A thread that passes the test of `_ending` goes on to
the iteration.  In the iteration, provided the slot pointers are set and every
operator returns, the operator loop completes whatever statuses are returned
(`complete` and `error` included): one status is returned per operator, the
record of the thread grows by the operators of the list in the order in which
they were added, and over the traced table the trace of invocations grows by
exactly that list, each operator once, while the world is the one the
transition itself produces. -/
theorem C17_operators_invoked_in_order {W : Type} (ops : OperatorTable W) (st : Stage W)
    (w : W) (statuses : List OperationStatus) (trace : List Nat)
    (hpc : st.executer.pc = .operating)
    (hb : Executer.bindSlots ops st.executer st.shared.world = some w)
    (hret : Executer.returned ops st.executer.operators w = some statuses) :
    (∀ (e : Executer) (op : Nat), e.addOperator op = { e with operators := e.operators ++ [op] }) ∧
    (∀ st0 : Stage W, st0.executer.pc = .endingTest → st0.executer._ending = false →
      st0.act ops .thread = some ⟨st0.shared, { st0.executer with
        pc := if st0.executer.kind.hasInput then .receiving else .operating }⟩) ∧
    statuses.length = st.executer.operators.length ∧
    ∃ st1, st.act ops .thread = some st1 ∧
      st1.executer.operators = st.executer.operators ∧
      st1.executer.log = st.executer.log ++ st.executer.operators.map .operation ∧
      ∃ st2, (Stage.mk ⟨(st.shared.world, trace), st.shared.buffers⟩ st.executer).act
          ops.traced .thread = some st2 ∧
        st2.shared.world = (st1.shared.world, trace ++ st.executer.operators) ∧
        st2.executer = st1.executer := by
  obtain ⟨s, e⟩ := st
  simp only at hpc hb hret
  obtain ⟨w1, hrun⟩ := Executer.runOperators_of_returned ops e.operators w e._opStatus statuses hret
  refine ⟨fun _ _ => rfl, ?_, Executer.returned_length ops _ _ _ hret, ?_⟩
  · intro st0 hp0 he0
    obtain ⟨s0, e0⟩ := st0
    simp only at hp0 he0
    simp [Stage.act, Executer.at_endingTest ops s0 e0 hp0, he0]
  · have h1 := Executer.at_operating ops s e w w1 _ hpc hb hrun
    have h2 : e._execute ops.traced ⟨(s.world, trace), s.buffers⟩ =
        some (⟨(w1, trace ++ e.operators), s.buffers⟩,
          { e with _opStatus := if OperationStatus.complete ∈ statuses then .complete
                     else e._opStatus,
                   _ending := if (if OperationStatus.complete ∈ statuses then
                     OperationStatus.complete else e._opStatus) = .complete then true
                     else e._ending,
                   pc := if e.kind.hasOutput then .sending else .loopTest,
                   log := e.log ++ e.operators.map .operation }) := by
      simp only [Executer._execute, hpc, Executer.bindSlots_traced, hb, Option.map_some',
        Executer.runOperators_traced, hrun]
    refine ⟨⟨{ s with world := w1 },
      { e with _opStatus := if OperationStatus.complete ∈ statuses then .complete
                 else e._opStatus,
               _ending := if (if OperationStatus.complete ∈ statuses then
                 OperationStatus.complete else e._opStatus) = .complete then true
                 else e._ending,
               pc := if e.kind.hasOutput then .sending else .loopTest,
               log := e.log ++ e.operators.map .operation }⟩, ?_, rfl, rfl, ?_⟩
    · simp only [Stage.act, h1]
    · refine ⟨⟨⟨(w1, trace ++ e.operators), s.buffers⟩,
        { e with _opStatus := if OperationStatus.complete ∈ statuses then .complete
                   else e._opStatus,
                 _ending := if (if OperationStatus.complete ∈ statuses then
                   OperationStatus.complete else e._opStatus) = .complete then true
                   else e._ending,
                 pc := if e.kind.hasOutput then .sending else .loopTest,
                 log := e.log ++ e.operators.map .operation }⟩, ?_, rfl, rfl⟩
      simp only [Stage.act, h2]

/-- Witness for C17: the operators `1`, `2`, `0`, returning `complete`,
`error` and `running`, are all invoked, in this order. -/
theorem C17_operators_invoked_in_order_witness :
    ∃ st1, threeStatusStage.act statusTable .thread = some st1 ∧
      st1.executer.operators = [1, 2, 0] ∧
      st1.executer.log = [.operation 1, .operation 2, .operation 0] ∧
      ∃ st2, (Stage.mk ⟨(0, []), threeStatusStage.shared.buffers⟩ threeStatusStage.executer).act
          statusTable.traced .thread = some st2 ∧
        st2.shared.world = (st1.shared.world, [1, 2, 0]) ∧
        st2.executer = st1.executer :=
  (C17_operators_invoked_in_order statusTable threeStatusStage 0 [.complete, .error, .running]
    [] rfl rfl rfl).2.2.2


section StickyLemmas

variable {W : Type}

/-- The operator loop never takes back a recorded `complete`. -/
theorem Executer.runOperators_complete (ops : OperatorTable W) :
    ∀ (l : List Nat) (w w1 : W) (opStatus : OperationStatus),
      Executer.runOperators ops l w .complete = some (w1, opStatus) →
        opStatus = .complete := by
  intro l
  induction l with
  | nil =>
    intro w w1 opStatus h
    simp [Executer.runOperators] at h
    exact h.2.symm
  | cons op rest ih =>
    intro w w1 opStatus h
    cases ho : ops.operation op w with
    | none => simp [Executer.runOperators, ho] at h
    | some r =>
      simp only [Executer.runOperators, ho, ite_self] at h
      exact ih _ _ _ h

/-- No transition of the thread clears `_ending` or takes back a recorded
`complete`. -/
theorem Executer.execute_sticky (ops : OperatorTable W) (s s1 : Shared W) (e e1 : Executer)
    (h : e._execute ops s = some (s1, e1)) :
    (e._opStatus = .complete → e1._opStatus = .complete) ∧
      (e._ending = true → e1._ending = true) := by
  unfold Executer._execute at h
  split at h
  · simp at h
  · split at h <;> (simp at h; obtain ⟨_, rfl⟩ := h; exact ⟨id, id⟩)
  · split at h <;> (simp at h; obtain ⟨_, rfl⟩ := h; exact ⟨id, id⟩)
  · split at h
    · simp at h; obtain ⟨_, rfl⟩ := h; exact ⟨id, id⟩
    · simp at h
  · split at h
    · simp at h; obtain ⟨_, rfl⟩ := h; exact ⟨id, id⟩
    · split at h <;> (simp at h; obtain ⟨_, rfl⟩ := h; exact ⟨id, id⟩)
  · split at h
    · simp [Executer.input] at h
      split at h <;> (obtain ⟨_, rfl⟩ := h; exact ⟨id, id⟩)
    · split at h
      · simp at h
      · split at h
        · simp at h
        · simp at h; obtain ⟨_, rfl⟩ := h; exact ⟨id, id⟩
  · split at h
    · simp at h
    · split at h
      · simp at h
      · rename_i w hb w1 opStatus hr
        simp at h
        obtain ⟨_, rfl⟩ := h
        refine ⟨fun hc => ?_, fun he => ?_⟩
        · rw [hc] at hr
          exact Executer.runOperators_complete ops _ _ _ _ hr
        · simp [he]
  · split at h
    · simp [Executer.output] at h
      split at h <;> (obtain ⟨_, rfl⟩ := h; exact ⟨id, id⟩)
    · split at h
      · simp at h
      · split at h
        · simp at h
        · simp at h; obtain ⟨_, rfl⟩ := h; exact ⟨id, id⟩
  · simp at h

/-- No action clears `_ending` or takes back a recorded `complete`. -/
theorem Stage.act_sticky (ops : OperatorTable W) (st st1 : Stage W) (a : Action W)
    (h : st.act ops a = some st1) :
    (st.executer._opStatus = .complete → st1.executer._opStatus = .complete) ∧
      (st.executer._ending = true → st1.executer._ending = true) := by
  obtain ⟨s, e⟩ := st
  cases a with
  | thread =>
    simp only [Stage.act] at h
    cases hx : e._execute ops s with
    | none => simp [hx] at h
    | some r =>
      simp [hx] at h
      subst h
      exact Executer.execute_sticky ops s r.1 e r.2 hx
  | send msg =>
    simp [Stage.act] at h
    subst h
    exact ⟨id, id⟩
  | stop =>
    simp [Stage.act] at h
    subst h
    obtain ⟨h1, _, _, _, _, _, _, h8, _⟩ := Executer.stop_fields ops s e
    exact ⟨fun hc => h8.trans hc, fun _ => h1⟩
  | startThread =>
    simp only [Stage.act] at h
    split at h
    · simp at h
      subst h
      exact ⟨id, id⟩
    · simp at h
  | peerSend port c => 
    rw [Stage.act_peer ops _ st1 _ h rfl (fun _ _ => Or.inr (by simp))]
    exact ⟨id, id⟩
  | peerReceive port c => 
    rw [Stage.act_peer ops _ st1 _ h rfl (fun _ _ => Or.inr (by simp))]
    exact ⟨id, id⟩
  | peerReleaseAll port => 
    rw [Stage.act_peer ops _ st1 _ h rfl (fun _ _ => Or.inr (by simp))]
    exact ⟨id, id⟩
  | peerWrite f => 
    rw [Stage.act_peer ops _ st1 _ h rfl (fun _ _ => Or.inr (by simp))]
    exact ⟨id, id⟩

end StickyLemmas

/-- C18. No action of the thread, of the owner (`send(mode)`, `stop()`,
`startThread()`) or of a neighbour takes back a recorded `complete` or clears
`_ending`: along every run both stay as they are once set.  Once an operator
returns `complete` in the operator loop, `complete` is recorded and `_ending`
set when the loop is over, whatever the operators after it return, and both
hold in every state of every run from there. -/
theorem C18_completion_is_sticky {W : Type} (ops : OperatorTable W) (st st2 : Stage W)
    (as : List (Action W)) (hrun : st.run ops as = some st2) :
    (st.executer._opStatus = .complete → st2.executer._opStatus = .complete) ∧
    (st.executer._ending = true → st2.executer._ending = true) ∧
    (∀ (w : W) (statuses : List OperationStatus),
      st2.executer.pc = .operating →
      Executer.bindSlots ops st2.executer st2.shared.world = some w →
      Executer.returned ops st2.executer.operators w = some statuses →
      OperationStatus.complete ∈ statuses →
      ∃ st3, st2.act ops .thread = some st3 ∧
        st3.executer._opStatus = .complete ∧ st3.executer._ending = true ∧
        ∀ (bs : List (Action W)) (st4 : Stage W), st3.run ops bs = some st4 →
          st4.executer._opStatus = .complete ∧ st4.executer._ending = true) := by
  have hinv : ∀ (x y : Stage W) (cs : List (Action W)), x.run ops cs = some y →
      (x.executer._opStatus = .complete → y.executer._opStatus = .complete) ∧
      (x.executer._ending = true → y.executer._ending = true) := by
    intro x y cs hr
    exact Stage.run_invariant ops
      (fun z => (x.executer._opStatus = .complete → z.executer._opStatus = .complete) ∧
        (x.executer._ending = true → z.executer._ending = true))
      (fun z a z1 hz ha =>
        ⟨fun hc => (Stage.act_sticky ops z z1 a ha).1 (hz.1 hc),
         fun he => (Stage.act_sticky ops z z1 a ha).2 (hz.2 he)⟩)
      cs x y ⟨id, id⟩ hr
  refine ⟨(hinv st st2 as hrun).1, (hinv st st2 as hrun).2, ?_⟩
  intro w statuses hpc hb hret hc
  obtain ⟨s, e⟩ := st2
  simp only at hpc hb hret
  obtain ⟨w1, hr⟩ := Executer.runOperators_of_returned ops e.operators w e._opStatus statuses hret
  simp only [hc, if_true] at hr
  have h1 := Executer.at_operating ops s e w w1 _ hpc hb hr
  refine ⟨⟨{ s with world := w1 },
    { e with _opStatus := .complete
             _ending := true
             pc := if e.kind.hasOutput then .sending else .loopTest
             log := e.log ++ e.operators.map .operation }⟩, ?_, rfl, rfl, ?_⟩
  · simp only [Stage.act, h1, if_true]
  · intro bs st4 hr4
    exact ⟨(hinv _ st4 bs hr4).1 rfl, (hinv _ st4 bs hr4).2 rfl⟩

/-- Witness for C18: in the stage whose operators return `complete`,
`error` and `running`, the operator loop records `complete` and sets
`_ending`, and both stay in every run from there. -/
theorem C18_completion_is_sticky_witness :
    ∃ st3, threeStatusStage.act statusTable .thread = some st3 ∧
      st3.executer._opStatus = .complete ∧ st3.executer._ending = true ∧
      ∀ (bs : List (Action Nat)) (st4 : Stage Nat), st3.run statusTable bs = some st4 →
        st4.executer._opStatus = .complete ∧ st4.executer._ending = true :=
  (C18_completion_is_sticky statusTable threeStatusStage threeStatusStage [] rfl).2.2 0
    [.complete, .error, .running] rfl rfl rfl (by decide)


section IdempotenceLemmas

variable {W : Type}

/-- Writing to a place of a list what is there changes nothing. -/
theorem Shared.set_own {α : Type} (l : List α) (i : Nat) (a : α) (h : l[i]? = some a) :
    l.set i a = l := by
  apply List.ext_getElem?
  intro j
  by_cases hj : i = j
  · subst hj
    rw [List.getElem?_set_self (List.getElem?_eq_some_iff.mp h).1, h]
  · rw [List.getElem?_set_ne hj]

/-- `releaseAll` on a port whose buffer is terminated, or which names no
buffer, changes nothing. -/
theorem Shared.releaseAll_of_ending (s : Shared W) (port : Nat)
    (h : ∀ b, s.buffers[port]? = some b → b._ending = true) : s.releaseAll port = s := by
  unfold Shared.releaseAll
  cases hb : s.buffers[port]? with
  | none => rfl
  | some b =>
    obtain ⟨hl, hg⟩ := List.getElem?_eq_some_iff.mp hb
    have he := h b hb
    have hbb : b.releaseAll = b := by
      obtain ⟨c, av, re, en⟩ := b
      simp only at he
      subst he
      rfl
    simp only [hbb]
    rw [Shared.set_own _ _ _ hb]

/-- After `releaseAll` on a port, the buffer of the port is terminated. -/
theorem Shared.releaseAll_self (s : Shared W) (port : Nat) :
    ∀ b, (s.releaseAll port).buffers[port]? = some b → b._ending = true := by
  intro b hb
  cases h0 : s.buffers[port]? with
  | none =>
    simp only [Shared.releaseAll, h0] at hb
    exact absurd hb (by simp)
  | some b0 =>
    rw [Shared.releaseAll_get s port port b0 h0] at hb
    simp only [if_true, Option.some.injEq] at hb
    subst hb
    rfl

/-- `releaseAll` on a port leaves terminated what is terminated. -/
theorem Shared.releaseAll_other (s : Shared W) (port p : Nat)
    (h : ∀ b, s.buffers[p]? = some b → b._ending = true) :
    ∀ b, (s.releaseAll port).buffers[p]? = some b → b._ending = true := by
  intro b hb
  cases h0 : s.buffers[p]? with
  | none =>
    have hl : s.buffers.length ≤ p := List.getElem?_eq_none_iff.mp h0
    have hn : (s.releaseAll port).buffers[p]? = none :=
      List.getElem?_eq_none_iff.mpr (by rw [Shared.releaseAll_length]; exact hl)
    rw [hn] at hb
    exact absurd hb (by simp)
  | some b0 =>
    rw [Shared.releaseAll_get s port p b0 h0] at hb
    simp only [Option.some.injEq] at hb
    subst hb
    by_cases hp : port = p
    · simp [hp, UniqueBuffer.releaseAll]
    · simp [hp, h b0 h0]

/-- A new buffer leaves terminated what is terminated, the handle that will
name the new buffer excepted. -/
theorem Shared.make_shared_other (ops : OperatorTable W) (s : Shared W) (p : Nat)
    (hp : p ≠ s.buffers.length)
    (h : ∀ b, s.buffers[p]? = some b → b._ending = true) :
    ∀ b, (s.make_shared ops).2.buffers[p]? = some b → b._ending = true := by
  intro b hb
  simp only [Shared.make_shared] at hb
  by_cases hl : p < s.buffers.length
  · rw [List.getElem?_append_left hl] at hb
    exact h b hb
  · have hl2 : s.buffers.length + 1 ≤ p := by omega
    have hn : (s.buffers ++ [UniqueBuffer.new (ops.make_unique s.world).1])[p]? = none :=
      List.getElem?_eq_none_iff.mpr (by simp; omega)
    rw [hn] at hb
    exact absurd hb (by simp)

/-- `stop()` on a stage whose ports are set and terminated changes nothing
but `_ending`. -/
theorem Executer.stop_of_terminated (ops : OperatorTable W) (s : Shared W) (e : Executer)
    (he : e._ending = true)
    (hin : e.kind.hasInput = true → ∃ port, e._inputPort = some port ∧
      ∀ b, s.buffers[port]? = some b → b._ending = true)
    (hout : e.kind.hasOutput = true → ∃ port, e._outputPort = some port ∧
      ∀ b, s.buffers[port]? = some b → b._ending = true) :
    e.stop ops s = (s, e) := by
  have hee : { e with _ending := true } = e := by
    obtain ⟨⟩ := e
    simp only at he
    subst he
    rfl
  unfold Executer.stop
  rw [hee]
  unfold Executer._terminateInputOutput
  cases hk : e.kind with
  | OperatorExecuter =>
    obtain ⟨i, hi, hbi⟩ := hin (by rw [hk]; rfl)
    obtain ⟨o, ho, hbo⟩ := hout (by rw [hk]; rfl)
    simp only [Executer.input, Executer.output, hi, ho, Shared.releaseAll_of_ending s i hbi,
      Shared.releaseAll_of_ending s o hbo]
  | SourceExecuter =>
    obtain ⟨o, ho, hbo⟩ := hout (by rw [hk]; rfl)
    simp only [Executer.output, ho, Shared.releaseAll_of_ending s o hbo]
  | SinkExecuter =>
    obtain ⟨i, hi, hbi⟩ := hin (by rw [hk]; rfl)
    simp only [Executer.input, hi, Shared.releaseAll_of_ending s i hbi]

/-- After `stop()` the ports of the stage are set, and their buffers, as far
as the handles name buffers, are terminated. -/
theorem Executer.stop_terminated (ops : OperatorTable W) (s : Shared W) (e : Executer) :
    (e.kind.hasInput = true → ∃ port, (e.stop ops s).2._inputPort = some port ∧
      ∀ b, (e.stop ops s).1.buffers[port]? = some b → b._ending = true) ∧
    (e.kind.hasOutput = true → ∃ port, (e.stop ops s).2._outputPort = some port ∧
      ∀ b, (e.stop ops s).1.buffers[port]? = some b → b._ending = true) := by
  unfold Executer.stop Executer._terminateInputOutput
  cases hk : e.kind with
  | SourceExecuter =>
    refine ⟨fun h => absurd h (by simp [ExecuterKind.hasInput]), fun _ => ?_⟩
    cases ho : e._outputPort with
    | none => exact ⟨(s.make_shared ops).1, by simp [Executer.output, ho], by
        simp only [Executer.output, ho]; exact Shared.releaseAll_self _ _⟩
    | some o => exact ⟨o, by simp [Executer.output, ho], by
        simp only [Executer.output, ho]; exact Shared.releaseAll_self _ _⟩
  | SinkExecuter =>
    refine ⟨fun _ => ?_, fun h => absurd h (by simp [ExecuterKind.hasOutput])⟩
    cases hi : e._inputPort with
    | none => exact ⟨(s.make_shared ops).1, by simp [Executer.input, hi], by
        simp only [Executer.input, hi]; exact Shared.releaseAll_self _ _⟩
    | some i => exact ⟨i, by simp [Executer.input, hi], by
        simp only [Executer.input, hi]; exact Shared.releaseAll_self _ _⟩
  | OperatorExecuter =>
    cases hi : e._inputPort with
    | some i =>
      cases ho : e._outputPort with
      | some o =>
        refine ⟨fun _ => ⟨i, by simp [Executer.input, Executer.output, hi, ho], ?_⟩,
          fun _ => ⟨o, by simp [Executer.input, Executer.output, hi, ho], ?_⟩⟩
        · simp only [Executer.input, Executer.output, hi, ho]
          exact Shared.releaseAll_other _ _ _ (Shared.releaseAll_self _ _)
        · simp only [Executer.input, Executer.output, hi, ho]
          exact Shared.releaseAll_self _ _
      | none =>
        refine ⟨fun _ => ⟨i, by simp [Executer.input, Executer.output, hi, ho], ?_⟩,
          fun _ => ⟨((s.releaseAll i).make_shared ops).1,
            by simp [Executer.input, Executer.output, hi, ho], ?_⟩⟩
        · simp only [Executer.input, Executer.output, hi, ho]
          by_cases hio : i = ((s.releaseAll i).make_shared ops).1
          · generalize ((s.releaseAll i).make_shared ops).2 = X
            generalize ((s.releaseAll i).make_shared ops).1 = q at hio
            subst hio
            exact Shared.releaseAll_self _ _
          · exact Shared.releaseAll_other _ _ _
              (Shared.make_shared_other ops _ _ hio (Shared.releaseAll_self _ _))
        · simp only [Executer.input, Executer.output, hi, ho]
          exact Shared.releaseAll_self _ _
    | none =>
      cases ho : e._outputPort with
      | some o =>
        refine ⟨fun _ => ⟨(s.make_shared ops).1,
            by simp [Executer.input, Executer.output, hi, ho], ?_⟩,
          fun _ => ⟨o, by simp [Executer.input, Executer.output, hi, ho], ?_⟩⟩
        · simp only [Executer.input, Executer.output, hi, ho]
          exact Shared.releaseAll_other _ _ _ (Shared.releaseAll_self _ _)
        · simp only [Executer.input, Executer.output, hi, ho]
          exact Shared.releaseAll_self _ _
      | none =>
        refine ⟨fun _ => ⟨(s.make_shared ops).1,
            by simp [Executer.input, Executer.output, hi, ho], ?_⟩,
          fun _ => ⟨(((s.make_shared ops).2.releaseAll (s.make_shared ops).1).make_shared ops).1,
            by simp [Executer.input, Executer.output, hi, ho], ?_⟩⟩
        · simp only [Executer.input, Executer.output, hi, ho]
          refine Shared.releaseAll_other _ _ _
            (Shared.make_shared_other ops _ _ ?_ (Shared.releaseAll_self _ _))
          simp [Shared.make_shared, Shared.releaseAll_length]
        · simp only [Executer.input, Executer.output, hi, ho]
          exact Shared.releaseAll_self _ _

end IdempotenceLemmas

/-- C19. For every state of a stage and of what it shares, a second `stop()`
changes nothing: the executer, the buffers of its ports and every other
buffer are as after the first `stop()`.  Likewise a second `releaseAll()`
changes nothing in a buffer. -/
theorem C19_stop_idempotent {W : Type} (ops : OperatorTable W) (s : Shared W)
    (e : Executer) :
    (e.stop ops s).2.stop ops (e.stop ops s).1 = e.stop ops s ∧
    ((Stage.mk s e).act ops .stop).bind (fun st1 => st1.act ops .stop)
      = (Stage.mk s e).act ops .stop ∧
    ∀ (α : Type) (b : UniqueBuffer α), b.releaseAll.releaseAll = b.releaseAll := by
  have h1 : (e.stop ops s).2.stop ops (e.stop ops s).1 = e.stop ops s := by
    obtain ⟨f1, _, _, _, _, _, _, _, f9, _⟩ := Executer.stop_fields ops s e
    obtain ⟨p1, p2⟩ := Executer.stop_terminated ops s e
    exact Executer.stop_of_terminated ops _ _ f1 (fun h => p1 (f9 ▸ h)) (fun h => p2 (f9 ▸ h))
  refine ⟨h1, ?_, fun _ _ => rfl⟩
  simp only [Stage.act, Option.some_bind, h1]

/-- Witness for C19: the transform stage of the examples, stopped twice. -/
theorem C19_stop_idempotent_witness :
    ((Stage.mk (blockedStage .receiving).shared (blockedStage .receiving).executer).act
        statusTable .stop).bind (fun st1 => st1.act statusTable .stop)
      = (Stage.mk (blockedStage .receiving).shared (blockedStage .receiving).executer).act
        statusTable .stop :=
  (C19_stop_idempotent statusTable (blockedStage .receiving).shared
    (blockedStage .receiving).executer).2.1

section ModeLemmas

variable {W : Type}

/-- A thread that is not at the wait of `Step` mode does not read
`_newMessage` or `_message`: its transition is the same whatever they are. -/
theorem Executer.execute_pending (ops : OperatorTable W) (s : Shared W) (e : Executer)
    (pending : Bool) (msg : Option ExecutionMode) (hp : e.pc ≠ .waiting) :
    Executer._execute ops s { e with _newMessage := pending, _message := msg } =
      (e._execute ops s).map fun r =>
        (r.1, { r.2 with _newMessage := pending, _message := msg }) := by
  unfold Executer._execute
  cases hpc : e.pc with
  | waiting => exact absurd hpc hp
  | notStarted => simp
  | finished => simp
  | loopTest => cases he : e._ending <;> simp [he]
  | locked =>
    by_cases h : e._executionMode = .Step ∧ e._ending = false
    · simp [h]
    · simp only [h, if_false, Option.map_some']
  | endingTest => cases he : e._ending <;> cases hi : e.kind.hasInput <;> simp [he, hi]
  | receiving =>
    cases hport : e._inputPort with
    | none => simp [Executer.input, hport, hpc]
    | some port =>
      cases hb : s.buffers[port]? with
      | none => simp [hb]
      | some b =>
        cases hr : b.receive e._inputBuffer with
        | none => simp [hb, hr]
        | some r => simp [hb, hr]
  | operating =>
    have hbs : Executer.bindSlots ops
        { e with _newMessage := pending, _message := msg, pc := .operating }
        s.world = Executer.bindSlots ops e s.world :=
      Executer.bindSlots_congr ops _ _ _ rfl rfl rfl rfl rfl
    cases hb : Executer.bindSlots ops e s.world with
    | none => simp [hbs, hb]
    | some w =>
      cases hr : Executer.runOperators ops e.operators w e._opStatus with
      | none => simp [hbs, hb, hr]
      | some r => simp [hbs, hb, hr]
  | sending =>
    cases hport : e._outputPort with
    | none => simp [Executer.output, hport, hpc]
    | some port =>
      cases hb : s.buffers[port]? with
      | none => simp [hb]
      | some b =>
        cases hr : b.send e._outputBuffer with
        | none => simp [hb, hr]
        | some r => simp [hb, hr]

/-- In `Continuous` mode the thread does not go to the wait. -/
theorem Executer.execute_continuous (ops : OperatorTable W) (s s1 : Shared W)
    (e e1 : Executer) (hm : e._executionMode = .Continuous) (hp : e.pc ≠ .waiting)
    (h : e._execute ops s = some (s1, e1)) :
    e1._executionMode = .Continuous ∧ e1.pc ≠ .waiting := by
  unfold Executer._execute at h
  split at h
  · simp at h
  · split at h <;> (simp at h; obtain ⟨_, rfl⟩ := h; exact ⟨hm, by simp⟩)
  · split at h
    · rename_i hc
      rw [hm] at hc
      exact absurd hc.1 (by simp)
    · simp at h; obtain ⟨_, rfl⟩ := h; exact ⟨hm, by simp⟩
  · rename_i hc
    exact absurd hc hp
  · split at h
    · simp at h; obtain ⟨_, rfl⟩ := h; exact ⟨hm, by simp⟩
    · split at h <;> (simp at h; obtain ⟨_, rfl⟩ := h; exact ⟨hm, by simp⟩)
  · rename_i hc
    split at h
    · simp [Executer.input] at h
      split at h <;> (obtain ⟨_, rfl⟩ := h; exact ⟨hm, by simp [hc]⟩)
    · split at h
      · simp at h
      · split at h
        · simp at h
        · simp at h; obtain ⟨_, rfl⟩ := h; exact ⟨hm, by simp⟩
  · split at h
    · simp at h
    · split at h
      · simp at h
      · simp at h
        obtain ⟨_, rfl⟩ := h
        refine ⟨hm, ?_⟩
        simp only
        split <;> simp
  · rename_i hc
    split at h
    · simp [Executer.output] at h
      split at h <;> (obtain ⟨_, rfl⟩ := h; exact ⟨hm, by simp [hc]⟩)
    · split at h
      · simp at h
      · split at h
        · simp at h
        · simp at h; obtain ⟨_, rfl⟩ := h; exact ⟨hm, by simp⟩
  · simp at h

/-- In `Continuous` mode, away from the wait, what the thread does on its own
does not depend on `_newMessage` and `_message`. -/
theorem Stage.threadRun_pending (ops : OperatorTable W) (pending : Bool)
    (msg : Option ExecutionMode) :
    ∀ (n : Nat) (s : Shared W) (e : Executer), e._executionMode = .Continuous →
      e.pc ≠ .waiting →
      (Stage.mk s { e with _newMessage := pending, _message := msg }).threadRun ops n =
        ((Stage.mk s e).threadRun ops n).map fun st =>
          { st with executer := { st.executer with _newMessage := pending, _message := msg } } := by
  intro n
  induction n with
  | zero => intro s e _ _; rfl
  | succ n ih =>
    intro s e hm hp
    rw [Stage.threadRun_succ, Stage.threadRun_succ]
    simp only [Executer.execute_pending ops s e pending msg hp]
    cases hx : e._execute ops s with
    | none => simp
    | some r =>
      obtain ⟨h1, h2⟩ := Executer.execute_continuous ops s r.1 e r.2 hm hp hx
      simp only [Option.map_some']
      exact ih r.1 r.2 h1 h2

end ModeLemmas

/-- C20, counterexample.  A stage is started in `Step` mode, its thread goes
to the wait, the command `send(Continuous)` arrives and the thread leaves the
wait, clearing `_newMessage`.  The mode is now `Continuous` and no command is
pending; a further `send(Continuous)` sets `_newMessage`. -/
theorem C20_send_continuous_sets_pending :
    ((statusStage 0 .Step .notStarted).run statusTable
        [.startThread, .thread, .thread, .send .Continuous, .thread]).map
        (fun st => (st.executer._executionMode, st.executer._newMessage,
          (st.executer.send .Continuous)._newMessage))
      = some (.Continuous, false, true) := by
  decide

/-- C20, amended.  `send(mode)` with the current mode leaves every member
but `_newMessage` and the stored copy `_message` of the command as it is: the
mode, `_ending` and the recorded status are unchanged, and `_newMessage` is
set, in `Continuous` mode as in `Step` mode; it is unchanged exactly when it
was set before.  In `Continuous` mode a thread that is not at the wait does
not read `_newMessage`: what it does on its own is the same with and without
the `send(Continuous)`. -/
theorem C20_send_current_mode (e : Executer) :
    (e._executionMode = .Continuous →
      e.send .Continuous = { e with _newMessage := true, _message := some .Continuous }) ∧
    (e._executionMode = .Step →
      e.send .Step = { e with _newMessage := true, _message := some .Step }) ∧
    ((e.send e._executionMode)._executionMode = e._executionMode ∧
      (e.send e._executionMode)._ending = e._ending ∧
      (e.send e._executionMode)._opStatus = e._opStatus ∧
      (e.send e._executionMode)._newMessage = true ∧
      ((e.send e._executionMode)._newMessage = e._newMessage ↔ e._newMessage = true)) ∧
    (∀ (W : Type) (ops : OperatorTable W) (s : Shared W) (n : Nat),
      e._executionMode = .Continuous → e.pc ≠ .waiting →
      (Stage.mk s (e.send .Continuous)).threadRun ops n =
        ((Stage.mk s e).threadRun ops n).map fun st =>
          { st with executer :=
            { st.executer with _newMessage := true, _message := some .Continuous } }) := by
  have h1 : ∀ mode, e._executionMode = mode →
      e.send mode = { e with _newMessage := true, _message := some mode } := by
    intro mode hm
    subst hm
    rfl
  refine ⟨h1 _, h1 _, ⟨rfl, rfl, rfl, rfl, ?_⟩, ?_⟩
  · simp only [Executer.send]
    exact ⟨fun h => h.symm, fun h => h.symm⟩
  · intro W ops s n hm hp
    rw [h1 _ hm]
    exact Stage.threadRun_pending ops true (some .Continuous) n s e hm hp

/-- Witness for C20: the executer reached in the counterexample, in
`Continuous` mode with no command pending; `send(Continuous)` sets
`_newMessage` and keeps the rest. -/
theorem C20_send_current_mode_witness :
    (statusStage 0 .Continuous .endingTest).executer.send .Continuous =
      { (statusStage 0 .Continuous .endingTest).executer with
        _newMessage := true, _message := some .Continuous } :=
  (C20_send_current_mode (statusStage 0 .Continuous .endingTest).executer).1 rfl

section CommandLemmas

variable {W : Type}

/-- What an action that completes does to the executer: a transition of the
thread, one of the three calls of the owner, or nothing. -/
theorem Stage.act_cases (ops : OperatorTable W) (st st1 : Stage W) (a : Action W)
    (ha : st.act ops a = some st1) :
    (a = .thread ∧ st.executer._execute ops st.shared = some (st1.shared, st1.executer)) ∨
    (∃ msg, a = .send msg ∧ st1 = ⟨st.shared, st.executer.send msg⟩) ∨
    (a = .stop ∧
      st1 = ⟨(st.executer.stop ops st.shared).1, (st.executer.stop ops st.shared).2⟩) ∨
    (a = .startThread ∧ st.executer.pc = .notStarted ∧
      st1 = ⟨st.shared, st.executer.startThread⟩) ∨
    (a.isOwnerCall = false ∧ a ≠ .thread ∧ st1.executer = st.executer) := by
  obtain ⟨s, e⟩ := st
  cases a with
  | thread =>
    simp only [Stage.act] at ha
    cases hx : e._execute ops s with
    | none => simp [hx] at ha
    | some r =>
      simp [hx] at ha
      subst ha
      exact Or.inl ⟨rfl, rfl⟩
  | send msg =>
    simp [Stage.act] at ha
    exact Or.inr (Or.inl ⟨msg, rfl, ha.symm⟩)
  | stop =>
    simp [Stage.act] at ha
    exact Or.inr (Or.inr (Or.inl ⟨rfl, ha.symm⟩))
  | startThread =>
    simp only [Stage.act] at ha
    split at ha
    · rename_i hp
      simp at ha
      exact Or.inr (Or.inr (Or.inr (Or.inl ⟨rfl, hp, ha.symm⟩)))
    · simp at ha
  | peerSend port c =>
    exact Or.inr (Or.inr (Or.inr (Or.inr ⟨rfl, by simp,
      Stage.act_peer ops _ st1 _ ha rfl (fun _ _ => Or.inr (by simp))⟩)))
  | peerReceive port c =>
    exact Or.inr (Or.inr (Or.inr (Or.inr ⟨rfl, by simp,
      Stage.act_peer ops _ st1 _ ha rfl (fun _ _ => Or.inr (by simp))⟩)))
  | peerReleaseAll port =>
    exact Or.inr (Or.inr (Or.inr (Or.inr ⟨rfl, by simp,
      Stage.act_peer ops _ st1 _ ha rfl (fun _ _ => Or.inr (by simp))⟩)))
  | peerWrite f =>
    exact Or.inr (Or.inr (Or.inr (Or.inr ⟨rfl, by simp,
      Stage.act_peer ops _ st1 _ ha rfl (fun _ _ => Or.inr (by simp))⟩)))

theorem Stage.run_append (ops : OperatorTable W) (as bs : List (Action W)) :
    ∀ st : Stage W, st.run ops (as ++ bs) = (st.run ops as).bind fun st1 => st1.run ops bs := by
  induction as with
  | nil => intro st; rfl
  | cons a as ih =>
    intro st
    rw [List.cons_append, Stage.stageRun_cons, Stage.stageRun_cons]
    cases ha : st.act ops a with
    | none => simp
    | some st2 => simp [ih]

/-- A command following a command replaces it. -/
theorem Executer.send_send (e : Executer) (m1 m2 : ExecutionMode) :
    (e.send m1).send m2 = e.send m2 := rfl

/-- Any number of equal commands in a row leave what one of them leaves. -/
theorem Stage.run_sends (ops : OperatorTable W) (st : Stage W) (msg : ExecutionMode) (k : Nat) :
    st.run ops (List.replicate (k + 1) (.send msg)) = some ⟨st.shared, st.executer.send msg⟩ := by
  induction k generalizing st with
  | zero => rfl
  | succ k ih =>
    rw [List.replicate_succ, Stage.stageRun_cons]
    simp only [Stage.act, Option.some_bind]
    rw [ih]
    rfl

/-- A transition of the thread changes no mode and, away from the wait of
`Step` mode, leaves `_newMessage` as it is. -/
theorem Executer.execute_command (ops : OperatorTable W) (s s1 : Shared W)
    (e e1 : Executer) (h : e._execute ops s = some (s1, e1)) :
    e1._executionMode = e._executionMode ∧
      (e.pc ≠ .waiting → e1._newMessage = e._newMessage) := by
  unfold Executer._execute at h
  split at h
  · simp at h
  · split at h <;> (simp at h; obtain ⟨_, rfl⟩ := h; exact ⟨rfl, fun _ => rfl⟩)
  · split at h <;> (simp at h; obtain ⟨_, rfl⟩ := h; exact ⟨rfl, fun _ => rfl⟩)
  · rename_i hc
    split at h
    · simp at h; obtain ⟨_, rfl⟩ := h; exact ⟨rfl, fun hn => absurd hc hn⟩
    · simp at h
  · split at h
    · simp at h; obtain ⟨_, rfl⟩ := h; exact ⟨rfl, fun _ => rfl⟩
    · split at h <;> (simp at h; obtain ⟨_, rfl⟩ := h; exact ⟨rfl, fun _ => rfl⟩)
  · split at h
    · simp [Executer.input] at h
      split at h <;> (obtain ⟨_, rfl⟩ := h; exact ⟨rfl, fun _ => rfl⟩)
    · split at h
      · simp at h
      · split at h
        · simp at h
        · simp at h; obtain ⟨_, rfl⟩ := h; exact ⟨rfl, fun _ => rfl⟩
  · split at h
    · simp at h
    · split at h
      · simp at h
      · simp at h
        obtain ⟨_, rfl⟩ := h
        exact ⟨rfl, fun _ => rfl⟩
  · split at h
    · simp [Executer.output] at h
      split at h <;> (obtain ⟨_, rfl⟩ := h; exact ⟨rfl, fun _ => rfl⟩)
    · split at h
      · simp at h
      · split at h
        · simp at h
        · simp at h; obtain ⟨_, rfl⟩ := h; exact ⟨rfl, fun _ => rfl⟩
  · simp at h

/-- While commands `send(Step)` arrive and the thread does not leave the wait,
a command is pending and the mode is `Step` as soon as one has arrived. -/
theorem Stage.pending_run (ops : OperatorTable W) :
    ∀ (as : List (Action W)) (st st1 : Stage W),
      (∀ a ∈ as, a = .send .Step ∨ a.isOwnerCall = false) →
      (∀ (as1 as2 : List (Action W)) (st2 : Stage W), as = as1 ++ .thread :: as2 →
        st.run ops as1 = some st2 → st2.executer.pc ≠ .waiting) →
      st.run ops as = some st1 →
      ((st.executer._newMessage = true ∧ st.executer._executionMode = .Step) ∨
        .send .Step ∈ as) →
      st1.executer._newMessage = true ∧ st1.executer._executionMode = .Step := by
  intro as
  induction as with
  | nil =>
    intro st st1 _ _ hr hq
    simp [Stage.run] at hr
    subst hr
    rcases hq with hq | hq
    · exact hq
    · simp at hq
  | cons a as ih =>
    intro st st1 hall hwake hr hq
    rw [Stage.stageRun_cons] at hr
    cases ha : st.act ops a with
    | none => simp [ha] at hr
    | some st2 =>
      simp [ha] at hr
      have hwake2 : ∀ (as1 as2 : List (Action W)) (st3 : Stage W), as = as1 ++ .thread :: as2 →
          st2.run ops as1 = some st3 → st3.executer.pc ≠ .waiting := by
        intro as1 as2 st3 has h3
        refine hwake (a :: as1) as2 st3 (by rw [has]; rfl) ?_
        rw [Stage.stageRun_cons, ha]
        exact h3
      refine ih st2 st1 (fun b hb => hall b (List.mem_cons_of_mem _ hb)) hwake2 hr ?_
      rcases Stage.act_cases ops st st2 a ha with ⟨rfl, hx⟩ | ⟨msg, rfl, rfl⟩ | ⟨rfl, _⟩ |
          ⟨rfl, _, _⟩ | ⟨hno, _, he⟩
      · have hp := hwake [] as st rfl rfl
        obtain ⟨h1, h2⟩ := Executer.execute_command ops _ _ _ _ hx
        rcases hq with hq | hq
        · exact Or.inl ⟨(h2 hp).trans hq.1, h1.trans hq.2⟩
        · simp at hq
          exact Or.inr hq
      · rcases hall (.send msg) (List.mem_cons_self _ _) with h | h
        · simp at h
          subst h
          exact Or.inl ⟨rfl, rfl⟩
        · simp [Action.isOwnerCall] at h
      · rcases hall .stop (List.mem_cons_self _ _) with h | h
        · simp at h
        · simp [Action.isOwnerCall] at h
      · rcases hall .startThread (List.mem_cons_self _ _) with h | h
        · simp at h
        · simp [Action.isOwnerCall] at h
      · rw [he]
        rcases hq with hq | hq
        · exact Or.inl hq
        · rcases List.mem_cons.mp hq with h | h
          · rw [← h] at hno
            simp [Action.isOwnerCall] at hno
          · exact Or.inr h

end CommandLemmas

/-- C21. `send` stores one command: it overwrites `_message` and the mode and
sets the one flag `_newMessage`.  (1) `send(m1)` followed at once by `send(m2)`
leaves the executer that a single `send(m2)` leaves, and (2) every run
continues from there alike.  (3) Any number `k ≥ 1` of commands `send(Step)` in
a row is indistinguishable from one.  (4) Let commands `send(Step)`, at least
one, arrive in any interleaving with transitions of the thread and calls of
the neighbours, the thread not leaving the wait of `Step` mode meanwhile.  Then
a command is pending and the mode is `Step`; and once the thread is at the
wait, as long as no further owner call arrives, the record grows by an initial
part of one iteration at most, and when the thread is at the wait again with
no command pending it has performed exactly one iteration and cannot move.
(5) If the thread is blocked at the wait, the ports are ready and no operator
returns `complete`, then after `k ≥ 1` commands `send(Step)` the thread
performs one whole iteration and is blocked at the wait again.  (6) The source
stage of the examples, its thread on the way to the wait: three commands
`send(Step)` arrive before the thread is there; the thread then performs one
iteration and is blocked. -/
theorem C21_one_command_stored {W : Type} (ops : OperatorTable W) (st : Stage W) :
    (∀ m1 m2 : ExecutionMode, (st.executer.send m1).send m2 = st.executer.send m2) ∧
    (∀ (m1 m2 : ExecutionMode) (as : List (Action W)),
      st.run ops (.send m1 :: .send m2 :: as) = st.run ops (.send m2 :: as)) ∧
    (∀ (k : Nat) (as : List (Action W)), 1 ≤ k →
      st.run ops (List.replicate k (.send .Step) ++ as) = st.run ops (.send .Step :: as)) ∧
    (∀ (as : List (Action W)) (st1 : Stage W),
      (∀ a ∈ as, a = .send .Step ∨ a.isOwnerCall = false) → .send .Step ∈ as →
      (∀ (as1 as2 : List (Action W)) (st2 : Stage W), as = as1 ++ .thread :: as2 →
        st.run ops as1 = some st2 → st2.executer.pc ≠ .waiting) →
      st.run ops as = some st1 →
      st1.executer._newMessage = true ∧ st1.executer._executionMode = .Step ∧
      (st1.executer.pc = .waiting → st1.executer._ending = false →
        ∀ (bs : List (Action W)) (st2 : Stage W), (∀ a ∈ bs, a.isOwnerCall = false) →
          st1.run ops bs = some st2 →
          (∃ c d l, st2.executer.log = st1.executer.log ++ l ∧
            l <+: st1.executer.iterationLog c d) ∧
          (st2.executer.pc = .waiting → st2.executer._newMessage = false →
            (∃ c d, st2.executer.log = st1.executer.log ++ st1.executer.iterationLog c d) ∧
            st2.act ops .thread = none))) ∧
    (∀ (k inPort outPort : Nat) (bin bout : UniqueBuffer Addr) (w : W)
        (statuses : List OperationStatus),
      1 ≤ k → st.executer.pc = .waiting → st.executer._ending = false →
      (st.executer.kind.hasInput = true → st.executer._inputPort = some inPort ∧
        st.shared.buffers[inPort]? = some bin ∧ bin._dataRefreshed = true) →
      (st.executer.kind.hasOutput = true → st.executer._outputPort = some outPort ∧
        st.shared.buffers[outPort]? = some bout ∧ bout._bufferAvailable = true) →
      inPort ≠ outPort →
      Executer.bindSlots ops
        { st.executer with
          _inputBuffer := if st.executer.kind.hasInput then bin._buffer
            else st.executer._inputBuffer } st.shared.world = some w →
      Executer.returned ops st.executer.operators w = some statuses →
      OperationStatus.complete ∉ statuses →
      st.executer._opStatus ≠ .complete →
      ∃ st1, st.run ops (List.replicate k (.send .Step) ++ List.replicate
          (5 + (if st.executer.kind.hasInput then 1 else 0) +
            (if st.executer.kind.hasOutput then 1 else 0)) .thread) = some st1 ∧
        st1.executer.pc = .waiting ∧ st1.executer._newMessage = false ∧
        st1.executer.log = st.executer.log ++
          st.executer.iterationLog bin._buffer st.executer._outputBuffer ∧
        st1.act ops .thread = none) ∧
    (((statusStage 0 .Step .loopTest).run statusTable
          ([.send .Step, .thread, .send .Step, .thread, .send .Step] ++
            List.replicate 6 .thread)).map
          (fun x => (x.executer.pc, x.executer._newMessage, x.executer.log))
        = some (.waiting, false, [.operation 0, .send 0]) ∧
      (statusStage 0 .Step .loopTest).run statusTable
          ([.send .Step, .thread, .send .Step, .thread, .send .Step] ++
            List.replicate 7 .thread) = none) := by
  have hk : ∀ (k : Nat) (as : List (Action W)), 1 ≤ k →
      st.run ops (List.replicate k (.send .Step) ++ as) =
        (Stage.mk st.shared (st.executer.send .Step)).run ops as := by
    intro k as hk
    obtain ⟨j, rfl⟩ : ∃ j, k = j + 1 := ⟨k - 1, by omega⟩
    rw [Stage.run_append, Stage.run_sends]
    rfl
  refine ⟨fun _ _ => rfl, fun _ _ _ => rfl, ?_, ?_, ?_, by decide, by decide⟩
  · intro k as h1
    rw [hk k as h1]
    rfl
  · intro as st1 hall hmem hwake hrun
    obtain ⟨h1, h2⟩ := Stage.pending_run ops as st st1 hall hwake hrun (Or.inr hmem)
    refine ⟨h1, h2, ?_⟩
    intro hp he bs st2 hbs hrun2
    have h0 : Executer.Stepping st1.executer st1.executer :=
      ⟨rfl, rfl, h2, Or.inl ⟨hp, h1, he, rfl⟩⟩
    have h3 := Executer.Stepping.stepping_run ops st1.executer bs st1 st2 h0 hbs hrun2
    exact ⟨Executer.Stepping.log_prefix _ _ h3,
      fun hp2 hn2 => Executer.Stepping.waiting_again ops _ st2 h3 hp2 hn2⟩
  · intro k inPort outPort bin bout w statuses h1 hpc he hin hout hne hb hret hnc hs
    rw [hk k _ h1]
    exact Stage.step_once ops st inPort outPort bin bout w statuses hpc he hin hout hne hb hret
      hnc hs

/-- Witness for C21: three commands `send(Step)` in a row to the source stage
of the examples, blocked at the wait of `Step` mode, release one iteration:
the record shows one invocation and one `send`. -/
theorem C21_one_command_stored_witness :
    ∃ st1, (statusStage 0 .Step .waiting).run statusTable
        (List.replicate 3 (.send .Step) ++ List.replicate
          (5 + (if (statusStage 0 .Step .waiting).executer.kind.hasInput then 1 else 0) +
            (if (statusStage 0 .Step .waiting).executer.kind.hasOutput then 1 else 0))
          .thread) = some st1 ∧
      st1.executer.pc = .waiting ∧ st1.executer._newMessage = false ∧
      st1.executer.log = (statusStage 0 .Step .waiting).executer.log ++
        (statusStage 0 .Step .waiting).executer.iterationLog 0
          (statusStage 0 .Step .waiting).executer._outputBuffer ∧
      st1.act statusTable .thread = none :=
  (C21_one_command_stored statusTable (statusStage 0 .Step .waiting)).2.2.2.2.1
    3 1 0 (UniqueBuffer.new 0) (UniqueBuffer.new 1) 0 [.running]
    (by decide) rfl rfl (by decide) (by decide) (by decide) rfl rfl (by decide) (by decide)


/-- C22. The port getters `input()` and `output()` of an executer and the
port setters `input(inp)` and `output(outp)`.  (1) A getter called while the
port is null makes one new buffer, appended to the buffers made so far, stores
its handle and returns it; (2) every later call of the getter returns the same
handle and makes nothing; a getter called while the port is set returns the
port and makes nothing.  (3) After `b.input(a.output())` the getter
`b.input()` returns the handle that `a.output()` returned, whatever port `b`
had before, so that both stages look up the same buffer; likewise after
`a.output(b.input())`.  (4) In `FourThreadsCompleteTest` the three joins
make three buffers, and the input port of each stage is the output port of the
stage before it. -/
theorem C22_ports_shared {W : Type} (ops : OperatorTable W) (s s1 : Shared W)
    (a b : Executer) :
    (a._outputPort = none →
      (a.output ops s).1 = s.buffers.length ∧
      (a.output ops s).2.1.buffers =
        s.buffers ++ [UniqueBuffer.new (ops.make_unique s.world).1] ∧
      (a.output ops s).2.1.buffers[(a.output ops s).1]? =
        some (UniqueBuffer.new (ops.make_unique s.world).1) ∧
      (a.output ops s).2.2 = { a with _outputPort := some (a.output ops s).1 }) ∧
    (b._inputPort = none →
      (b.input ops s).1 = s.buffers.length ∧
      (b.input ops s).2.1.buffers =
        s.buffers ++ [UniqueBuffer.new (ops.make_unique s.world).1] ∧
      (b.input ops s).2.1.buffers[(b.input ops s).1]? =
        some (UniqueBuffer.new (ops.make_unique s.world).1) ∧
      (b.input ops s).2.2 = { b with _inputPort := some (b.input ops s).1 }) ∧
    ((a.output ops s).2.2.output ops s1 = ((a.output ops s).1, s1, (a.output ops s).2.2) ∧
      (b.input ops s).2.2.input ops s1 = ((b.input ops s).1, s1, (b.input ops s).2.2)) ∧
    (∀ port, a._outputPort = some port → a.output ops s = (port, s, a)) ∧
    (∀ port, b._inputPort = some port → b.input ops s = (port, s, b)) ∧
    ((b.attachInput (some (a.output ops s).1)).input ops s1 =
        ((a.output ops s).1, s1, b.attachInput (some (a.output ops s).1)) ∧
      ((a.output ops s).2.2.output ops s1).1 = (a.output ops s).1 ∧
      (b.attachInput (some (a.output ops s).1))._inputPort =
        (a.output ops s).2.2._outputPort) ∧
    ((a.attachOutput (some (b.input ops s).1)).output ops s1 =
        ((b.input ops s).1, s1, a.attachOutput (some (b.input ops s).1)) ∧
      ((b.input ops s).2.2.input ops s1).1 = (b.input ops s).1 ∧
      (a.attachOutput (some (b.input ops s).1))._outputPort =
        (b.input ops s).2.2._inputPort) ∧
    (fourThreadsTest.shared.buffers.length = 3 ∧
      fourThreadsTest.stages.map (fun e => (e._inputPort, e._outputPort)) =
        [(none, some 0), (some 0, some 1), (some 1, some 2), (some 2, none)]) := by
  have hout : (a.output ops s).2.2._outputPort = some (a.output ops s).1 := by
    cases h : a._outputPort <;> simp [Executer.output, h]
  have hin : (b.input ops s).2.2._inputPort = some (b.input ops s).1 := by
    cases h : b._inputPort <;> simp [Executer.input, h]
  refine ⟨?_, ?_, ⟨?_, ?_⟩, ?_, ?_, ⟨?_, ?_, ?_⟩, ⟨?_, ?_, ?_⟩, ?_⟩
  · intro h
    simp [Executer.output, h, Shared.make_shared]
  · intro h
    simp [Executer.input, h, Shared.make_shared]
  · generalize a.output ops s = r at hout
    simp only [Executer.output, hout]
  · generalize b.input ops s = r at hin
    simp only [Executer.input, hin]
  · intro port h
    simp only [Executer.output, h]
  · intro port h
    simp only [Executer.input, h]
  · simp [Executer.attachInput, Executer.input]
  · generalize a.output ops s = r at hout
    simp only [Executer.output, hout]
  · rw [hout]
    rfl
  · simp [Executer.attachOutput, Executer.output]
  · generalize b.input ops s = r at hin
    simp only [Executer.input, hin]
  · rw [hin]
    rfl
  · decide

/-- Witness for C22: a newly constructed source stage over an empty list of
buffers; its first `output()` makes buffer `0`. -/
theorem C22_ports_shared_witness :
    ((Executer.new .SourceExecuter 0 1).output statusTable ⟨0, []⟩).1 = 0 ∧
    ((Executer.new .SourceExecuter 0 1).output statusTable ⟨0, []⟩).2.1.buffers =
      [UniqueBuffer.new 0] ∧
    ((Executer.new .SinkExecuter 2 3).attachInput
      (some ((Executer.new .SourceExecuter 0 1).output statusTable ⟨0, []⟩).1))._inputPort
      = some 0 :=
  ⟨((C22_ports_shared statusTable ⟨0, []⟩ ⟨0, []⟩ (Executer.new .SourceExecuter 0 1)
      (Executer.new .SinkExecuter 2 3)).1 rfl).1,
   ((C22_ports_shared statusTable ⟨0, []⟩ ⟨0, []⟩ (Executer.new .SourceExecuter 0 1)
      (Executer.new .SinkExecuter 2 3)).1 rfl).2.1, rfl⟩

section LinkLemmas

/-- After `op2.input(op1.output())` the output slot pointer of `op1` and the
input slot pointer of `op2` name one cell. -/
theorem World.link_shared (w : World) (i1 i2 : Nat) (h1 : i1 < w.objects.length)
    (h2 : i2 < w.objects.length) :
    ∃ a, (w.output i1).1 = some a ∧
      (((w.output i1).2.setInput i2 (w.output i1).1).objects[i1]?).map (fun ob => ob._output)
        = some (some a) ∧
      (((w.output i1).2.setInput i2 (w.output i1).1).objects[i2]?).map (fun ob => ob._input)
        = some (some a) := by
  obtain ⟨ob1, hob1⟩ : ∃ ob, w.objects[i1]? = some ob :=
    ⟨w.objects[i1], List.getElem?_eq_getElem h1⟩
  obtain ⟨ob2, hob2⟩ : ∃ ob, w.objects[i2]? = some ob :=
    ⟨w.objects[i2], List.getElem?_eq_getElem h2⟩
  by_cases h12 : i1 = i2
  · subst h12
    cases ho : ob1._output with
    | some a =>
      refine ⟨a, by simp only [World.output, hob1, ho], ?_, ?_⟩ <;>
        simp [World.output, World.setInput, hob1, ho, h1]
    | none =>
      refine ⟨w.make_unique.1, by simp only [World.output, hob1, ho], ?_, ?_⟩ <;>
        simp [World.output, World.setInput, hob1, ho, h1]
  · cases ho : ob1._output with
    | some a =>
      refine ⟨a, by simp only [World.output, hob1, ho], ?_, ?_⟩ <;>
        simp [World.output, World.setInput, hob1, hob2, ho, h1, h2, h12,
          List.getElem?_set_ne (Ne.symm h12)]
    | none =>
      refine ⟨w.make_unique.1, by simp only [World.output, hob1, ho], ?_, ?_⟩ <;>
        simp [World.output, World.setInput, hob1, hob2, ho, h1, h2, h12,
          List.getElem?_set_ne h12, List.getElem?_set_ne (Ne.symm h12)]

/-- `Mult2` followed by `Div2Round`, linked through the cell `a`: the second
operator reads what the first has written. -/
theorem World.mult2_div2Round (w : World) (i1 i2 : Nat) (ob1 ob2 : Operator)
    (a c o : Addr) (x : Dyadic)
    (h1 : w.objects[i1]? = some ob1) (hm1 : ob1.members = .Mult2)
    (hi1 : ob1._input = some c) (ho1 : ob1._output = some a)
    (h2 : w.objects[i2]? = some ob2) (hm2 : ob2.members = .Div2Round)
    (hi2 : ob2._input = some a) (ho2 : ob2._output = some o)
    (ha : a < w.heap.length) (hc : w.heap[c]? = some x) (ho : o < w.heap.length) :
    ∃ w1 w2, w.operation i1 = some (w1, .running) ∧ w1.heap[a]? = some (Mult2.value x) ∧
      w1.operation i2 = some (w2, .running) ∧
      w2.heap[o]? = some (Div2Round.value (Mult2.value x)) := by
  obtain ⟨hcl, rfl⟩ := List.getElem?_eq_some_iff.mp hc
  refine ⟨⟨w.heap.set a (Mult2.value w.heap[c]), w.objects⟩,
    ⟨(w.heap.set a (Mult2.value w.heap[c])).set o (Div2Round.value (Mult2.value w.heap[c])),
      w.objects⟩, ?_, ?_, ?_, ?_⟩
  · simp [World.operation, h1, hm1, World.assign, hi1, ho1, ha, hcl]
  · simp [ha]
  · simp [World.operation, h2, hm2, World.assign, hi2, ho2, ha, ho]
  · simp [ho]

/-- The exact value `⌊2.1 * n / 2⌋` is the integer quotient `21 * n / 20`. -/
theorem floor_exact_mult2 (n : Int) : ⌊(21 / 10 : ℚ) * n / 2⌋ = 21 * n / 20 := by
  have h : (21 / 10 : ℚ) * n / 2 = ((21 * n : Int) : ℚ) / ((20 : Nat) : ℚ) := by
    push_cast; ring
  rw [h, Rat.floor_intCast_div_natCast]
  rfl

set_option maxRecDepth 100000 in
/-- From `-100` to `100` the `float` computation of `Mult2` then `Div2Round`
gives the exact `⌊2.1 * n / 2⌋`. -/
theorem mult2_div2Round_small :
    ∀ k : Fin 201, Div2Round.value (Mult2.value (.ofInt ((k.val : Int) - 100))) =
      .ofInt (21 * ((k.val : Int) - 100) / 20) := by
  decide

end LinkLemmas

/-- C23, counterexample.  `OperatorTest.LinkedTwoOperators` with the input
`998659` leaves `1048592` in the output slot of `op2`, while
`⌊2.1 * 998659 / 2⌋ = 1048591`: the `float` product `2.1 * 998659` is rounded
up to `2097184`. -/
theorem C23_input_998659 :
    linkedTwoOperators 998659 = some (.ofInt 1048592) ∧
    ⌊(21 / 10 : ℚ) * (998659 : Int) / 2⌋ = 1048591 := by
  constructor
  · decide
  · rw [floor_exact_mult2]; decide

/-- C23, amended.  (1) After `op2.input(op1.output())` the output slot pointer
of `op1` and the input slot pointer of `op2` name one cell.  (2) For `Mult2`
and `Div2Round` linked through a cell: `op1.operation()` writes the `float`
value `Mult2.value x` of its input `x` to that cell, and `op2.operation()`
reads it there and writes `Div2Round.value (Mult2.value x)` to its output slot.
(3) `OperatorTest.LinkedTwoOperators` with any `int` input `n` leaves
`Div2Round.value (Mult2.value n)` in the output slot of `op2`.  (4) That value
is `3` for `3` and `16` for `16`, and it is `⌊2.1 * n / 2⌋` for
`-100 ≤ n ≤ 100`. -/
theorem C23_linked_operators :
    (∀ (w : World) (i1 i2 : Nat), i1 < w.objects.length → i2 < w.objects.length →
      ∃ a, (w.output i1).1 = some a ∧
        (((w.output i1).2.setInput i2 (w.output i1).1).objects[i1]?).map
          (fun ob => ob._output) = some (some a) ∧
        (((w.output i1).2.setInput i2 (w.output i1).1).objects[i2]?).map
          (fun ob => ob._input) = some (some a)) ∧
    (∀ (w : World) (i1 i2 : Nat) (ob1 ob2 : Operator) (a c o : Addr) (x : Dyadic),
      w.objects[i1]? = some ob1 → ob1.members = .Mult2 →
      ob1._input = some c → ob1._output = some a →
      w.objects[i2]? = some ob2 → ob2.members = .Div2Round →
      ob2._input = some a → ob2._output = some o →
      a < w.heap.length → w.heap[c]? = some x → o < w.heap.length →
      ∃ w1 w2, w.operation i1 = some (w1, .running) ∧ w1.heap[a]? = some (Mult2.value x) ∧
        w1.operation i2 = some (w2, .running) ∧
        w2.heap[o]? = some (Div2Round.value (Mult2.value x))) ∧
    (∀ n : Int, -2147483648 ≤ n → n ≤ 2147483647 →
      linkedTwoOperators n = some (Div2Round.value (Mult2.value (.ofInt n)))) ∧
    linkedTwoOperators 3 = some (.ofInt 3) ∧
    linkedTwoOperators 16 = some (.ofInt 16) ∧
    (∀ n : Int, -100 ≤ n → n ≤ 100 →
      linkedTwoOperators n = some (.ofInt ⌊(21 / 10 : ℚ) * n / 2⌋)) := by
  refine ⟨World.link_shared, ?_, fun n _ _ => rfl, by decide, by decide, ?_⟩
  · intro w i1 i2 ob1 ob2 a c o x h1 hm1 hi1 ho1 h2 hm2 hi2 ho2 ha hc ho
    exact World.mult2_div2Round w i1 i2 ob1 ob2 a c o x h1 hm1 hi1 ho1 h2 hm2 hi2 ho2 ha hc ho
  · intro n h0 h1
    rw [floor_exact_mult2]
    have hn : n = (((⟨(n + 100).toNat, by omega⟩ : Fin 201).val : Int) - 100) := by
      simp only; omega
    have hl : linkedTwoOperators n = some (Div2Round.value (Mult2.value (.ofInt n))) := rfl
    rw [hl, hn]
    exact congrArg some (mult2_div2Round_small _)

/-- Witness for C23: the operators of `OperatorTest.SourceAndSink`, where
`Mult2` reads cell `0` and is linked to `Div2Round` through cell `1`; with `16`
in cell `0` the two operations leave `16` in cell `2`. -/
theorem C23_linked_operators_witness :
    ∃ w1 w2, ({ sourceAndSink with heap := [.ofInt 16, .ofInt 0, .ofInt 0] } : World).operation 0
        = some (w1, .running) ∧
      w1.heap[1]? = some (Mult2.value (.ofInt 16)) ∧
      w1.operation 1 = some (w2, .running) ∧
      w2.heap[2]? = some (Div2Round.value (Mult2.value (.ofInt 16))) :=
  C23_linked_operators.2.1 { sourceAndSink with heap := [.ofInt 16, .ofInt 0, .ofInt 0] } 0 1
    ⟨none, some 1, some 0, some 1, .Mult2⟩ ⟨none, none, some 1, some 2, .Div2Round⟩ 1 0 2
    (.ofInt 16) rfl rfl rfl rfl rfl rfl rfl rfl (by decide) rfl (by decide)
section SlotLemmas

/-- The getter `input()` returns a slot for every operator, and a second call
returns the same slot and changes nothing. -/
theorem World.input_stable (op : Nat) (w : World) :
    (op < w.objects.length → ∃ a, (w.input op).1 = some a) ∧
      (w.input op).2.input op = w.input op := by
  cases hob : w.objects[op]? with
  | none =>
    refine ⟨fun h => ?_, by simp [World.input, hob]⟩
    rw [List.getElem?_eq_none_iff] at hob
    omega
  | some ob =>
    have hl : op < w.objects.length := (List.getElem?_eq_some_iff.mp hob).1
    cases hi : ob._input with
    | some a =>
      have h1 : w.input op = (some a, w) := by simp only [World.input, hob, hi]
      rw [h1]
      exact ⟨fun _ => ⟨a, rfl⟩, h1⟩
    | none =>
      refine ⟨fun _ => ⟨w.make_unique.1, by simp only [World.input, hob, hi]⟩, ?_⟩
      simp [World.input, hob, hi, hl]

/-- The getter `output()` returns a slot for every operator, and a second
call returns the same slot and changes nothing. -/
theorem World.output_stable (op : Nat) (w : World) :
    (op < w.objects.length → ∃ a, (w.output op).1 = some a) ∧
      (w.output op).2.output op = w.output op := by
  cases hob : w.objects[op]? with
  | none =>
    refine ⟨fun h => ?_, by simp [World.output, hob]⟩
    rw [List.getElem?_eq_none_iff] at hob
    omega
  | some ob =>
    have hl : op < w.objects.length := (List.getElem?_eq_some_iff.mp hob).1
    cases hi : ob._output with
    | some a =>
      have h1 : w.output op = (some a, w) := by simp only [World.output, hob, hi]
      rw [h1]
      exact ⟨fun _ => ⟨a, rfl⟩, h1⟩
    | none =>
      refine ⟨fun _ => ⟨w.make_unique.1, by simp only [World.output, hob, hi]⟩, ?_⟩
      simp [World.output, hob, hi, hl]

/-- An assignment through a pointer to a cell changes no operator object. -/
theorem World.store_objects (a : Addr) (x : Dyadic) (w w1 : World)
    (h : w.store a x = some w1) :
    w1.objects = w.objects ∧ w1.heap[a]? = some x ∧ w1.heap.length = w.heap.length := by
  unfold World.store at h
  split at h
  · rename_i hl
    simp at h
    subst h
    simp [hl]
  · simp at h

/-- The getters read the operator objects only to find the slot. -/
theorem World.input_congr (op : Nat) (w w1 : World) (a : Addr)
    (h : w1.objects = w.objects) (ha : (w.input op).1 = some a)
    (hw : (w.input op).2 = w) : w1.input op = (some a, w1) := by
  unfold World.input at ha hw ⊢
  rw [h]
  cases hob : w.objects[op]? with
  | none => simp [hob] at ha
  | some ob =>
    simp only [hob] at ha hw ⊢
    cases hi : ob._input with
    | some a1 =>
      simp only [hi] at ha ⊢
      rw [Option.some.inj ha]
    | none =>
      simp only [hi] at hw
      have := congrArg (fun v => v.heap.length) hw
      simp [World.make_unique] at this

theorem World.output_congr (op : Nat) (w w1 : World) (a : Addr)
    (h : w1.objects = w.objects) (ha : (w.output op).1 = some a)
    (hw : (w.output op).2 = w) : w1.output op = (some a, w1) := by
  unfold World.output at ha hw ⊢
  rw [h]
  cases hob : w.objects[op]? with
  | none => simp [hob] at ha
  | some ob =>
    simp only [hob] at ha hw ⊢
    cases hi : ob._output with
    | some a1 =>
      simp only [hi] at ha ⊢
      rw [Option.some.inj ha]
    | none =>
      simp only [hi] at hw
      have := congrArg (fun v => v.heap.length) hw
      simp [World.make_unique] at this

end SlotLemmas

/-- C24. The getters `input()` and `output()` of an operator.  (1) For every
operator the getter returns a slot, never null.  (2) A second call returns the
same slot and changes nothing: no cell is made and no member assigned.  (3) A
value written through the slot that one call returned is read through the slot
that the next call returns; and the write is defined when the getter has made
the fallback cell itself.  (4) After the setter has been given a non-null
slot `p`, the getter returns `p`, makes no cell and leaves the fallback
`unique_ptr` as it was.  (5) In `OperatorTest.ChechOneOperator`, what is
written through `op1.input()` is read through `op1.input()`: `3` gives `3`. -/
theorem C24_slot_getters (op : Nat) (w : World) (hop : op < w.objects.length) :
    ((∃ a, (w.input op).1 = some a) ∧ (∃ a, (w.output op).1 = some a)) ∧
    ((w.input op).2.input op = w.input op ∧ (w.output op).2.output op = w.output op) ∧
    (∀ (a : Addr) (x : Dyadic) (w1 : World), (w.input op).1 = some a →
      (w.input op).2.store a x = some w1 →
      w1.input op = (some a, w1) ∧ w1.heap[a]? = some x) ∧
    (∀ (a : Addr) (x : Dyadic) (w1 : World), (w.output op).1 = some a →
      (w.output op).2.store a x = some w1 →
      w1.output op = (some a, w1) ∧ w1.heap[a]? = some x) ∧
    (∀ (ob : Operator) (x : Dyadic), w.objects[op]? = some ob → ob._input = none →
      ∃ a w1, (w.input op).1 = some a ∧ (w.input op).2.store a x = some w1) ∧
    (∀ (ob : Operator) (x : Dyadic), w.objects[op]? = some ob → ob._output = none →
      ∃ a w1, (w.output op).1 = some a ∧ (w.output op).2.store a x = some w1) ∧
    (∀ p : Addr, (w.setInput op (some p)).input op = (some p, w.setInput op (some p)) ∧
      (w.setInput op (some p)).heap = w.heap ∧
      ((w.setInput op (some p)).objects[op]?).map (fun ob => ob._inputBuffer) =
        (w.objects[op]?).map (fun ob => ob._inputBuffer)) ∧
    (∀ p : Addr, (w.setOutput op (some p)).output op = (some p, w.setOutput op (some p)) ∧
      (w.setOutput op (some p)).heap = w.heap ∧
      ((w.setOutput op (some p)).objects[op]?).map (fun ob => ob._outputBuffer) =
        (w.objects[op]?).map (fun ob => ob._outputBuffer)) ∧
    (∀ x : Dyadic, chechOneOperator x = some x) ∧
    chechOneOperator (.ofInt 3) = some (.ofInt 3) := by
  obtain ⟨ob, hob⟩ : ∃ ob, w.objects[op]? = some ob :=
    ⟨w.objects[op], List.getElem?_eq_getElem hop⟩
  refine ⟨⟨(World.input_stable op w).1 hop, (World.output_stable op w).1 hop⟩,
    ⟨(World.input_stable op w).2, (World.output_stable op w).2⟩, ?_, ?_, ?_, ?_, ?_, ?_,
    fun x => rfl, rfl⟩
  · intro a x w1 ha hs
    obtain ⟨h1, h2, _⟩ := World.store_objects a x _ w1 hs
    refine ⟨World.input_congr op (w.input op).2 w1 a h1 ?_ ?_, h2⟩
    · rw [(World.input_stable op w).2]; exact ha
    · rw [(World.input_stable op w).2]
  · intro a x w1 ha hs
    obtain ⟨h1, h2, _⟩ := World.store_objects a x _ w1 hs
    refine ⟨World.output_congr op (w.output op).2 w1 a h1 ?_ ?_, h2⟩
    · rw [(World.output_stable op w).2]; exact ha
    · rw [(World.output_stable op w).2]
  · intro ob1 x hob1 hi
    simp [World.input, hob1, hi, World.store, World.make_unique]
  · intro ob1 x hob1 hi
    simp [World.output, hob1, hi, World.store, World.make_unique]
  · intro p
    simp [World.setInput, World.input, hob, hop]
  · intro p
    simp [World.setOutput, World.output, hob, hop]

/-- Witness for C24: operator `op1` of the fixture `OperatorTest`, whose
slots are null at first: the getter makes the fallback cell `0`, and `3`
written through it is read back. -/
theorem C24_slot_getters_witness :
    (∃ a, (operatorTest.input 0).1 = some a) ∧
    (operatorTest.input 0).2.input 0 = operatorTest.input 0 ∧
    chechOneOperator (.ofInt 3) = some (.ofInt 3) :=
  ⟨(C24_slot_getters 0 operatorTest (by decide)).1.1,
   (C24_slot_getters 0 operatorTest (by decide)).2.1.1,
   (C24_slot_getters 0 operatorTest (by decide)).2.2.2.2.2.2.2.2.2⟩
section CounterLemmas

/-- One invocation of a `CounterSource` whose output slot names a cell. -/
theorem World.counterSource_operation (op : Nat) (b : Addr) (w : World) (ob : Operator)
    (counter limit : Int) (hob : w.objects[op]? = some ob)
    (hm : ob.members = .CounterSource counter limit) (hout : ob._output = some b)
    (hb : b < w.heap.length) :
    ∃ w1, w.operation op = some (w1, if counter < limit then .running else .complete) ∧
      w1.heap[b]? = some (.ofInt counter) ∧ w1.heap.length = w.heap.length ∧
      w1.objects[op]? = some { ob with
        members := .CounterSource (if counter < limit then counter + 1 else counter) limit } := by
  have hl : op < w.objects.length := (List.getElem?_eq_some_iff.mp hob).1
  by_cases hc : counter < limit
  · refine ⟨⟨w.heap.set b (.ofInt counter),
      w.objects.set op { ob with members := .CounterSource (counter + 1) limit }⟩, ?_, ?_, ?_, ?_⟩
    · simp [World.operation, hob, hm, hout, hb, hc]
    · simp [hb]
    · simp
    · simp [hc, hl]
  · refine ⟨⟨w.heap.set b (.ofInt counter), w.objects⟩, ?_, ?_, ?_, ?_⟩
    · simp [World.operation, hob, hm, hout, hb, hc]
    · simp [hb]
    · simp
    · simp only [hc, if_false]
      rw [hob, ← hm]

/-- The counter after `k` invocations: it has gone up by `k`, but not beyond
the limit. -/
theorem World.counterSource_invoke (op : Nat) (b : Addr) (limit : Int) :
    ∀ (k : Nat) (w : World) (ob : Operator) (counter : Int),
      w.objects[op]? = some ob → ob.members = .CounterSource counter limit →
      ob._output = some b → b < w.heap.length → counter ≤ limit →
      ∃ wk, World.invoke op k w = some wk ∧ wk.heap.length = w.heap.length ∧
        wk.objects[op]? = some { ob with
          members := .CounterSource (min (counter + k) limit) limit } := by
  intro k
  induction k with
  | zero =>
    intro w ob counter hob hm _ _ hc
    refine ⟨w, rfl, rfl, ?_⟩
    rw [hob]
    simp only [Nat.cast_zero, add_zero, min_eq_left hc]
    rw [← hm]
  | succ k ih =>
    intro w ob counter hob hm hout hb hc
    obtain ⟨w1, h1, _, h3, h4⟩ :=
      World.counterSource_operation op b w ob counter limit hob hm hout hb
    by_cases hlt : counter < limit
    · simp only [hlt, if_true] at h4
      obtain ⟨wk, k1, k2, k3⟩ := ih w1 _ (counter + 1) h4 rfl hout (by rw [h3]; exact hb)
        (by omega)
      refine ⟨wk, ?_, by rw [k2, h3], ?_⟩
      · simp only [World.invoke, h1]
        exact k1
      · rw [k3]
        simp only [Nat.cast_add, Nat.cast_one]
        rw [show counter + 1 + (k : Int) = counter + ((k : Int) + 1) from by ring]
    · simp only [hlt, if_false] at h4
      obtain ⟨wk, k1, k2, k3⟩ := ih w1 _ counter h4 rfl hout (by rw [h3]; exact hb) hc
      have he : counter = limit := by omega
      refine ⟨wk, ?_, by rw [k2, h3], ?_⟩
      · simp only [World.invoke, h1]
        exact k1
      · rw [k3]
        subst he
        simp only [Nat.cast_add, Nat.cast_one]
        rw [min_eq_right (by omega), min_eq_right (by omega)]

end CounterLemmas

/-- C25. Let a `CounterSource` be constructed with the start value `start`,
`start + 5` being an `int`, and let its output slot name a cell.  For every
`k`, the first `k` invocations of `operation()` return, and invocation `k + 1`
writes `start + k` to the output slot and returns `running` if `k < 5`, and
writes `start + 5` and returns `complete` if `k ≥ 5`.  So `complete` is returned
by the sixth and by every later invocation, and by none before. -/
theorem C25_counter_source (start : Int) (members : Members)
    (hnew : CounterSource.new start = some members) (w : World) (op : Nat) (ob : Operator)
    (b : Addr) (hob : w.objects[op]? = some ob) (hm : ob.members = members)
    (hout : ob._output = some b) (hb : b < w.heap.length) (k : Nat) :
    ∃ wk w1 status, World.invoke op k w = some wk ∧
      wk.operation op = some (w1, status) ∧
      (k < 5 → status = .running ∧ w1.heap[b]? = some (.ofInt (start + k))) ∧
      (5 ≤ k → status = .complete ∧ w1.heap[b]? = some (.ofInt (start + 5))) ∧
      (status = .complete ↔ 5 ≤ k) := by
  unfold CounterSource.new at hnew
  split at hnew
  · simp only [Option.some.injEq] at hnew
    subst hnew
    obtain ⟨wk, k1, k2, k3⟩ := World.counterSource_invoke op b (start + 5) k w ob start hob hm
      hout hb (by omega)
    obtain ⟨w1, h1, h2, _⟩ := World.counterSource_operation op b wk _
      (min (start + k) (start + 5)) (start + 5) k3 rfl hout (by rw [k2]; exact hb)
    refine ⟨wk, w1, _, k1, h1, ?_, ?_, ?_⟩
    · intro hk
      have hmin : min (start + (k : Int)) (start + 5) = start + k := min_eq_left (by omega)
      rw [hmin] at h2 ⊢
      exact ⟨by simp; omega, h2⟩
    · intro hk
      have hmin : min (start + (k : Int)) (start + 5) = start + 5 := min_eq_right (by omega)
      rw [hmin] at h2 ⊢
      exact ⟨by simp, h2⟩
    · by_cases hk : k < 5
      · have hmin : min (start + (k : Int)) (start + 5) = start + k := min_eq_left (by omega)
        rw [hmin]
        simp [hk]
      · have hmin : min (start + (k : Int)) (start + 5) = start + 5 := min_eq_right (by omega)
        rw [hmin]
        simp; omega
  · simp at hnew

/-- Witness for C25: `cSrc` of `OperatorTest.SourceAndSink`, constructed with
the start value `37`, whose output slot names cell `0`; the sixth invocation
writes `42` and returns `complete`. -/
theorem C25_counter_source_witness :
    ∃ wk w1 status, World.invoke 2 5 sourceAndSink = some wk ∧
      wk.operation 2 = some (w1, status) ∧
      (5 < 5 → status = .running ∧ w1.heap[0]? = some (.ofInt (37 + (5 : Nat)))) ∧
      (5 ≤ 5 → status = .complete ∧ w1.heap[0]? = some (.ofInt (37 + 5))) ∧
      (status = .complete ↔ 5 ≤ 5) :=
  C25_counter_source 37 (.CounterSource 37 (37 + 5)) rfl sourceAndSink 2
    ⟨none, some 0, none, some 0, .CounterSource 37 (37 + 5)⟩ 0 rfl rfl rfl (by decide) 5
section ChainRounds

/-- One round of the chain of `OperatorTest.SourceAndSink`, whatever the
counter of the source is: the sink shows what `Mult2` then `Div2Round` make of
the value that the source has written, and the links stay. -/
theorem sourceAndSinkRound_value (w : World) (counter limit : Int) (value : Dyadic)
    (b0 b1 b2 b3 b4 b5 b6 b7 i2 o3 : Option Addr) (hh : w.heap.length = 3)
    (ho : w.objects = [⟨b0, b1, some 0, some 1, .Mult2⟩, ⟨b2, b3, some 1, some 2, .Div2Round⟩,
      ⟨b4, b5, i2, some 0, .CounterSource counter limit⟩,
      ⟨b6, b7, some 2, o3, .CounterSink value⟩]) :
    ∃ w1, sourceAndSinkRound w =
        some (w1, if counter < limit then .running else .complete,
          Div2Round.value (Mult2.value (.ofInt counter))) ∧
      w1.heap.length = 3 ∧
      w1.objects = [⟨b0, b1, some 0, some 1, .Mult2⟩, ⟨b2, b3, some 1, some 2, .Div2Round⟩,
        ⟨b4, b5, i2, some 0, .CounterSource (if counter < limit then counter + 1 else counter)
          limit⟩,
        ⟨b6, b7, some 2, o3, .CounterSink (Div2Round.value (Mult2.value (.ofInt counter)))⟩] := by
  obtain ⟨heap, objects⟩ := w
  simp only at hh ho
  subst ho
  match heap, hh with
  | [x0, x1, x2], _ =>
    by_cases hc : counter < limit <;>
      simp [sourceAndSinkRound, World.operation, World.assign, World.getValue, hc]

end ChainRounds

/-- C26, counterexample.  In `OperatorTest.SourceAndSink` the fourth round
makes the sink show `42`, not `41`: the source has written `40`, and
`⌊2.1 * 40 / 2⌋ = 42`.  The values of the six rounds are not
`38, 39, 40, 41, 43, 44`. -/
theorem C26_fourth_value :
    (sourceAndSinkRounds 4 sourceAndSink).map (fun l => l.map Prod.snd) =
      some [.ofInt 38, .ofInt 39, .ofInt 40, .ofInt 42] ∧
    ⌊(21 / 10 : ℚ) * (40 : Int) / 2⌋ = 42 ∧
    (sourceAndSinkRounds 6 sourceAndSink).map (fun l => l.map Prod.snd) ≠
      some [.ofInt 38, .ofInt 39, .ofInt 40, .ofInt 41, .ofInt 43, .ofInt 44] := by
  refine ⟨by decide, ?_, by decide⟩
  rw [floor_exact_mult2]; decide

/-- C26, amended.  (1) In the chain of `OperatorTest.SourceAndSink`, linked
slot to slot, one round makes the sink show the `float` value
`Div2Round.value (Mult2.value k)` of the value `k` that the source has
written, and the source returns `running` while its counter is below the limit
and `complete` from then on.  (2) With the source constructed from `37`, six
rounds make the sink show `38, 39, 40, 42, 43, 44`; the source returns
`running` five times and `complete` the sixth time.  (3) These values are
`⌊2.1 * k / 2⌋` for `k = 37, ..., 42`. -/
theorem C26_source_terminated_chain :
    (∀ (w : World) (counter limit : Int) (value : Dyadic)
        (b0 b1 b2 b3 b4 b5 b6 b7 i2 o3 : Option Addr),
      w.heap.length = 3 →
      w.objects = [⟨b0, b1, some 0, some 1, .Mult2⟩, ⟨b2, b3, some 1, some 2, .Div2Round⟩,
        ⟨b4, b5, i2, some 0, .CounterSource counter limit⟩,
        ⟨b6, b7, some 2, o3, .CounterSink value⟩] →
      ∃ w1, sourceAndSinkRound w =
          some (w1, if counter < limit then .running else .complete,
            Div2Round.value (Mult2.value (.ofInt counter))) ∧
        w1.heap.length = 3 ∧
        w1.objects = [⟨b0, b1, some 0, some 1, .Mult2⟩, ⟨b2, b3, some 1, some 2, .Div2Round⟩,
          ⟨b4, b5, i2, some 0,
            .CounterSource (if counter < limit then counter + 1 else counter) limit⟩,
          ⟨b6, b7, some 2, o3,
            .CounterSink (Div2Round.value (Mult2.value (.ofInt counter)))⟩]) ∧
    sourceAndSinkRounds 6 sourceAndSink =
      some [(.running, .ofInt 38), (.running, .ofInt 39), (.running, .ofInt 40),
        (.running, .ofInt 42), (.running, .ofInt 43), (.complete, .ofInt 44)] ∧
    ([37, 38, 39, 40, 41, 42].map fun k : Int => Dyadic.ofInt ⌊(21 / 10 : ℚ) * k / 2⌋) =
      [.ofInt 38, .ofInt 39, .ofInt 40, .ofInt 42, .ofInt 43, .ofInt 44] := by
  refine ⟨fun w counter limit value b0 b1 b2 b3 b4 b5 b6 b7 i2 o3 hh ho =>
    sourceAndSinkRound_value w counter limit value b0 b1 b2 b3 b4 b5 b6 b7 i2 o3 hh ho,
    by decide, ?_⟩
  simp only [List.map, floor_exact_mult2]
  decide

/-- Witness for C26: the first round of `OperatorTest.SourceAndSink`, the
counter of the source being `37`: the source returns `running` and the sink
shows `Div2Round.value (Mult2.value 37)`, which is `38`. -/
theorem C26_source_terminated_chain_witness :
    ∃ w1, sourceAndSinkRound sourceAndSink =
        some (w1, if (37 : Int) < 37 + 5 then .running else .complete,
          Div2Round.value (Mult2.value (.ofInt 37))) ∧
      w1.heap.length = 3 ∧
      w1.objects = [⟨none, some 1, some 0, some 1, .Mult2⟩,
        ⟨none, none, some 1, some 2, .Div2Round⟩,
        ⟨none, some 0, none, some 0,
          .CounterSource (if (37 : Int) < 37 + 5 then 37 + 1 else 37) (37 + 5)⟩,
        ⟨some 2, none, some 2, none,
          .CounterSink (Div2Round.value (Mult2.value (.ofInt 37)))⟩] :=
  C26_source_terminated_chain.1 sourceAndSink 37 (37 + 5) (.ofInt 0) none (some 1) none none
    none (some 0) (some 2) none none none rfl rfl

section FrameLemmas

variable {W : Type}

theorem Shared.SameEnding.same_refl (s : Shared W) : s.SameEnding s :=
  ⟨fun _ b h => ⟨b, h, rfl⟩, fun _ _ h h0 => by rw [h0] at h; exact absurd h (by simp)⟩

theorem Shared.SameEnding.same_trans {s s1 s2 : Shared W} (h1 : s.SameEnding s1)
    (h2 : s1.SameEnding s2) : s.SameEnding s2 := by
  refine ⟨fun j b hb => ?_, fun j b2 hb2 h0 => ?_⟩
  · obtain ⟨b1, hb1, he1⟩ := h1.1 j b hb
    obtain ⟨b2, hb2, he2⟩ := h2.1 j b1 hb1
    exact ⟨b2, hb2, he2.trans he1⟩
  · cases hb1 : s1.buffers[j]? with
    | none => exact h2.2 j b2 hb2 hb1
    | some b1 =>
      obtain ⟨b3, hb3, he3⟩ := h2.1 j b1 hb1
      rw [hb2] at hb3
      rw [Option.some.inj hb3, he3]
      exact h1.2 j b1 hb1 h0

theorem Shared.SameEnding.keeps {s s1 : Shared W} (h : s.SameEnding s1) : s.Keeps s1 :=
  fun j b hb => by
    obtain ⟨b1, hb1, he1⟩ := h.1 j b hb
    exact ⟨b1, hb1, fun he => he1.trans he⟩

theorem Shared.Keeps.keeps_refl (s : Shared W) : s.Keeps s :=
  fun _ b h => ⟨b, h, id⟩

theorem Shared.Keeps.keeps_trans {s s1 s2 : Shared W} (h1 : s.Keeps s1) (h2 : s1.Keeps s2) :
    s.Keeps s2 := fun j b hb => by
  obtain ⟨b1, hb1, he1⟩ := h1 j b hb
  obtain ⟨b2, hb2, he2⟩ := h2 j b1 hb1
  exact ⟨b2, hb2, fun he => he2 (he1 he)⟩

/-- Replacing a buffer by one with the same flag `_ending`. -/
theorem Shared.SameEnding.of_set (s : Shared W) (w : W) (port : Nat) (b b1 : UniqueBuffer Addr)
    (hb : s.buffers[port]? = some b) (he : b1._ending = b._ending) :
    s.SameEnding ⟨w, s.buffers.set port b1⟩ := by
  have hl : port < s.buffers.length := (List.getElem?_eq_some_iff.mp hb).1
  refine ⟨fun j c hc => ?_, fun j c hc h0 => ?_⟩
  · by_cases hj : port = j
    · subst hj
      rw [hb] at hc
      rw [← Option.some.inj hc]
      exact ⟨b1, List.getElem?_set_self hl, he⟩
    · exact ⟨c, by simp only [List.getElem?_set_ne hj]; exact hc, rfl⟩
  · have hlen : s.buffers.length ≤ j := List.getElem?_eq_none_iff.mp h0
    have hn : (s.buffers.set port b1)[j]? = none :=
      List.getElem?_eq_none_iff.mpr (by simp; exact hlen)
    simp only at hc
    rw [hn] at hc
    exact absurd hc (by simp)

/-- A new buffer is not terminated and leaves the others alone. -/
theorem Shared.SameEnding.of_make_shared (ops : OperatorTable W) (s : Shared W) :
    s.SameEnding (s.make_shared ops).2 := by
  refine ⟨fun j c hc => ?_, fun j c hc h0 => ?_⟩
  · have hl : j < s.buffers.length := (List.getElem?_eq_some_iff.mp hc).1
    exact ⟨c, by simp only [Shared.make_shared, List.getElem?_append_left hl]; exact hc, rfl⟩
  · have hlen : s.buffers.length ≤ j := List.getElem?_eq_none_iff.mp h0
    simp only [Shared.make_shared] at hc
    rw [List.getElem?_append_right hlen] at hc
    cases hj : j - s.buffers.length with
    | zero =>
      simp [hj] at hc
      rw [← hc]
      rfl
    | succ k => simp [hj] at hc

/-- `releaseAll()` on a port loses no buffer and revives none. -/
theorem Shared.Keeps.of_releaseAll (s : Shared W) (port : Nat) : s.Keeps (s.releaseAll port) := by
  intro j b hb
  rw [Shared.releaseAll_get s port j b hb]
  refine ⟨_, rfl, fun he => ?_⟩
  split
  · rfl
  · exact he

/-- What a transition of the thread leaves as it is: the flags `_ending` of
the buffers, the ports that are set, the class, the operators and the slot
pointers; and the thread gets to `receive` and `send` only in a class that has
the side. -/
theorem Executer.execute_frame (ops : OperatorTable W) (s s1 : Shared W) (e e1 : Executer)
    (h : e._execute ops s = some (s1, e1)) :
    s.SameEnding s1 ∧
    (∀ port, e._inputPort = some port → e1._inputPort = some port) ∧
    (∀ port, e._outputPort = some port → e1._outputPort = some port) ∧
    (e1.kind = e.kind ∧ e1.operators = e.operators ∧ e1._opInput = e._opInput ∧
      e1._opOutput = e._opOutput) ∧
    (e1.pc = .receiving → e.pc = .receiving ∨ e.kind.hasInput = true) ∧
    (e1.pc = .sending → e.pc = .sending ∨ e.kind.hasOutput = true) := by
  cases hpc : e.pc with
  | notStarted => simp [Executer._execute, hpc] at h
  | finished => simp [Executer._execute, hpc] at h
  | loopTest =>
    obtain ⟨rfl, ⟨k1, k2, k3, k4, k5, k6⟩, _, _, h5, h6, _⟩ :=
      Executer.execute_control ops s s1 e e1 (Or.inl hpc) h
    exact ⟨Shared.SameEnding.same_refl _, fun p hp => k5.trans hp, fun p hp => k6.trans hp,
      ⟨k1, k2, k3, k4⟩, fun hr => Or.inr (h6 hr), fun hs => absurd hs h5⟩
  | locked =>
    obtain ⟨rfl, ⟨k1, k2, k3, k4, k5, k6⟩, _, _, h5, h6, _⟩ :=
      Executer.execute_control ops s s1 e e1 (Or.inr (Or.inl hpc)) h
    exact ⟨Shared.SameEnding.same_refl _, fun p hp => k5.trans hp, fun p hp => k6.trans hp,
      ⟨k1, k2, k3, k4⟩, fun hr => Or.inr (h6 hr), fun hs => absurd hs h5⟩
  | waiting =>
    obtain ⟨rfl, ⟨k1, k2, k3, k4, k5, k6⟩, _, _, h5, h6, _⟩ :=
      Executer.execute_control ops s s1 e e1 (Or.inr (Or.inr (Or.inl hpc))) h
    exact ⟨Shared.SameEnding.same_refl _, fun p hp => k5.trans hp, fun p hp => k6.trans hp,
      ⟨k1, k2, k3, k4⟩, fun hr => Or.inr (h6 hr), fun hs => absurd hs h5⟩
  | endingTest =>
    obtain ⟨rfl, ⟨k1, k2, k3, k4, k5, k6⟩, _, _, h5, h6, _⟩ :=
      Executer.execute_control ops s s1 e e1 (Or.inr (Or.inr (Or.inr hpc))) h
    exact ⟨Shared.SameEnding.same_refl _, fun p hp => k5.trans hp, fun p hp => k6.trans hp,
      ⟨k1, k2, k3, k4⟩, fun hr => Or.inr (h6 hr), fun hs => absurd hs h5⟩
  | receiving =>
    cases hport : e._inputPort with
    | none =>
      simp only [Executer._execute, hpc, hport, Executer.input, Option.some.injEq,
        Prod.mk.injEq] at h
      obtain ⟨rfl, rfl⟩ := h
      exact ⟨Shared.SameEnding.of_make_shared ops s, fun p hp => by simp at hp,
        fun p hp => hp, ⟨rfl, rfl, rfl, rfl⟩, fun _ => Or.inl rfl,
        fun hs => absurd hs (by simp)⟩
    | some port =>
      cases hb : s.buffers[port]? with
      | none => simp [Executer._execute, hpc, hport, hb] at h
      | some b =>
        cases hr : b.receive e._inputBuffer with
        | none => simp [Executer._execute, hpc, hport, hb, hr] at h
        | some r =>
          simp only [Executer._execute, hpc, hport, hb, hr, Option.some.injEq,
            Prod.mk.injEq] at h
          obtain ⟨rfl, rfl⟩ := h
          exact ⟨Shared.SameEnding.of_set s _ port b r.1 hb (UniqueBuffer.receive_flags hr).2.2,
            fun p hp => hp, fun p hp => hp, ⟨rfl, rfl, rfl, rfl⟩,
            fun hx => absurd hx (by simp), fun hx => absurd hx (by simp)⟩
  | operating =>
    cases hb : Executer.bindSlots ops e s.world with
    | none => simp [Executer._execute, hpc, hb] at h
    | some w =>
      cases hr : Executer.runOperators ops e.operators w e._opStatus with
      | none => simp [Executer._execute, hpc, hb, hr] at h
      | some r =>
        simp only [Executer._execute, hpc, hb, hr, Option.some.injEq, Prod.mk.injEq] at h
        obtain ⟨rfl, rfl⟩ := h
        refine ⟨⟨fun j c hc => ⟨c, hc, rfl⟩,
          fun j c hc h0 => by simp only at hc; rw [h0] at hc; exact absurd hc (by simp)⟩,
          fun p hp => hp, fun p hp => hp, ⟨rfl, rfl, rfl, rfl⟩, ?_, ?_⟩
        · intro hx
          simp only at hx
          split at hx <;> simp at hx
        · intro hx
          simp only at hx
          split at hx
          · rename_i ho
            exact Or.inr ho
          · simp at hx
  | sending =>
    cases hport : e._outputPort with
    | none =>
      simp only [Executer._execute, hpc, hport, Executer.output, Option.some.injEq,
        Prod.mk.injEq] at h
      obtain ⟨rfl, rfl⟩ := h
      exact ⟨Shared.SameEnding.of_make_shared ops s, fun p hp => hp,
        fun p hp => by simp at hp, ⟨rfl, rfl, rfl, rfl⟩,
        fun hs => absurd hs (by simp), fun _ => Or.inl rfl⟩
    | some port =>
      cases hb : s.buffers[port]? with
      | none => simp [Executer._execute, hpc, hport, hb] at h
      | some b =>
        cases hr : b.send e._outputBuffer with
        | none => simp [Executer._execute, hpc, hport, hb, hr] at h
        | some r =>
          simp only [Executer._execute, hpc, hport, hb, hr, Option.some.injEq,
            Prod.mk.injEq] at h
          obtain ⟨rfl, rfl⟩ := h
          exact ⟨Shared.SameEnding.of_set s _ port b r.1 hb (UniqueBuffer.send_flags hr).2.2,
            fun p hp => hp, fun p hp => hp, ⟨rfl, rfl, rfl, rfl⟩,
            fun hx => absurd hx (by simp), fun hx => absurd hx (by simp)⟩

end FrameLemmas
section ActFrame

variable {W : Type}

/-- The port getters lose no buffer, terminate none and keep a port that is
set. -/
theorem Executer.getter_frame (ops : OperatorTable W) (s : Shared W) (e : Executer) :
    (s.SameEnding (e.input ops s).2.1 ∧
      (∀ port, e._inputPort = some port → (e.input ops s).2.2._inputPort = some port) ∧
      (e.input ops s).2.2._outputPort = e._outputPort) ∧
    (s.SameEnding (e.output ops s).2.1 ∧
      (∀ port, e._outputPort = some port → (e.output ops s).2.2._outputPort = some port) ∧
      (e.output ops s).2.2._inputPort = e._inputPort) := by
  refine ⟨⟨?_, ?_, ?_⟩, ⟨?_, ?_, ?_⟩⟩
  · cases hp : e._inputPort with
    | none =>
      simp only [Executer.input, hp]
      exact Shared.SameEnding.of_make_shared ops s
    | some port =>
      simp only [Executer.input, hp]
      exact Shared.SameEnding.same_refl s
  · intro port hp
    simp [Executer.input, hp]
  · cases hp : e._inputPort <;> simp [Executer.input, hp]
  · cases hp : e._outputPort with
    | none =>
      simp only [Executer.output, hp]
      exact Shared.SameEnding.of_make_shared ops s
    | some port =>
      simp only [Executer.output, hp]
      exact Shared.SameEnding.same_refl s
  · intro port hp
    simp [Executer.output, hp]
  · cases hp : e._outputPort <;> simp [Executer.output, hp]

/-- `stop()` loses no buffer, revives none and keeps a port that is set. -/
theorem Executer.stop_frame (ops : OperatorTable W) (s : Shared W) (e : Executer) :
    s.Keeps (e.stop ops s).1 ∧
    (∀ port, e._inputPort = some port → (e.stop ops s).2._inputPort = some port) ∧
    (∀ port, e._outputPort = some port → (e.stop ops s).2._outputPort = some port) := by
  cases hk : e.kind
  · rw [Executer.stop_source ops s e hk]
    obtain ⟨_, h1, h2, h3⟩ := Executer.getter_frame ops s { e with _ending := true }
    exact ⟨h1.keeps.keeps_trans (Shared.Keeps.of_releaseAll _ _),
      fun p hp => h3.trans hp, fun p hp => h2 p hp⟩
  · rw [Executer.stop_transform ops s e hk]
    obtain ⟨⟨h1, h2, h3⟩, _⟩ := Executer.getter_frame ops s { e with _ending := true }
    obtain ⟨_, k1, k2, k3⟩ := Executer.getter_frame ops
      ((({ e with _ending := true } : Executer).input ops s).2.1.releaseAll
        (({ e with _ending := true } : Executer).input ops s).1)
      (({ e with _ending := true } : Executer).input ops s).2.2
    exact ⟨(h1.keeps.keeps_trans (Shared.Keeps.of_releaseAll _ _)).keeps_trans
      (k1.keeps.keeps_trans (Shared.Keeps.of_releaseAll _ _)),
      fun p hp => k3.trans (h2 p hp), fun p hp => k2 p (h3.trans hp)⟩
  · rw [Executer.stop_sink ops s e hk]
    obtain ⟨⟨h1, h2, h3⟩, _⟩ := Executer.getter_frame ops s { e with _ending := true }
    exact ⟨h1.keeps.keeps_trans (Shared.Keeps.of_releaseAll _ _),
      fun p hp => h2 p hp, fun p hp => h3.trans hp⟩

/-- What every action leaves as it is: no buffer is lost and none revived;
but for `stop()` and `releaseAll()` the flags `_ending` of the buffers stay; a
port that is set stays; so do the class, the operators and the slot pointers;
and the thread gets to `receive` and `send` only in a class that has the
side. -/
theorem Stage.act_frame (ops : OperatorTable W) (st st1 : Stage W) (a : Action W)
    (ha : st.act ops a = some st1) :
    st.shared.Keeps st1.shared ∧
    (a.isTermination = false → st.shared.SameEnding st1.shared) ∧
    (∀ port, st.executer._inputPort = some port → st1.executer._inputPort = some port) ∧
    (∀ port, st.executer._outputPort = some port → st1.executer._outputPort = some port) ∧
    (st1.executer.kind = st.executer.kind ∧ st1.executer.operators = st.executer.operators ∧
      st1.executer._opInput = st.executer._opInput ∧
      st1.executer._opOutput = st.executer._opOutput) ∧
    (st1.executer.pc = .receiving →
      st.executer.pc = .receiving ∨ st.executer.kind.hasInput = true) ∧
    (st1.executer.pc = .sending →
      st.executer.pc = .sending ∨ st.executer.kind.hasOutput = true) := by
  obtain ⟨s, e⟩ := st
  cases a with
  | thread =>
    simp only [Stage.act] at ha
    cases hx : e._execute ops s with
    | none => simp [hx] at ha
    | some r =>
      simp [hx] at ha
      subst ha
      obtain ⟨h1, h2, h3, h4, h5, h6⟩ := Executer.execute_frame ops s r.1 e r.2 hx
      exact ⟨h1.keeps, fun _ => h1, h2, h3, h4, h5, h6⟩
  | send msg =>
    simp [Stage.act] at ha
    subst ha
    exact ⟨Shared.Keeps.keeps_refl _, fun _ => Shared.SameEnding.same_refl _, fun _ h => h,
      fun _ h => h, ⟨rfl, rfl, rfl, rfl⟩, fun h => Or.inl h, fun h => Or.inl h⟩
  | stop =>
    simp [Stage.act] at ha
    subst ha
    obtain ⟨_, f2, _, _, _, _, _, _, f9, f10⟩ := Executer.stop_fields ops s e
    obtain ⟨g1, g2⟩ := Executer.stop_slots ops s e
    obtain ⟨k1, k2, k3⟩ := Executer.stop_frame ops s e
    exact ⟨k1, fun h => by simp [Action.isTermination] at h, k2, k3, ⟨f9, f10, g1, g2⟩,
      fun h => Or.inl (f2.symm.trans h), fun h => Or.inl (f2.symm.trans h)⟩
  | startThread =>
    simp only [Stage.act] at ha
    split at ha
    · simp at ha
      subst ha
      exact ⟨Shared.Keeps.keeps_refl _, fun _ => Shared.SameEnding.same_refl _, fun _ h => h,
        fun _ h => h, ⟨rfl, rfl, rfl, rfl⟩, fun h => by simp [Executer.startThread] at h,
        fun h => by simp [Executer.startThread] at h⟩
    · simp at ha
  | peerSend port c =>
    simp only [Stage.act] at ha
    cases hb : s.buffers[port]? with
    | none => simp [hb] at ha
    | some b =>
      simp only [hb] at ha
      cases hs : b.send c with
      | none => simp [hs] at ha
      | some r1 =>
        simp [hs] at ha
        subst ha
        have hsame := Shared.SameEnding.of_set s s.world port b r1.1 hb
          (UniqueBuffer.send_flags hs).2.2
        exact ⟨hsame.keeps, fun _ => hsame, fun _ h => h, fun _ h => h, ⟨rfl, rfl, rfl, rfl⟩,
          fun h => Or.inl h, fun h => Or.inl h⟩
  | peerReceive port c =>
    simp only [Stage.act] at ha
    cases hb : s.buffers[port]? with
    | none => simp [hb] at ha
    | some b =>
      simp only [hb] at ha
      cases hs : b.receive c with
      | none => simp [hs] at ha
      | some r1 =>
        simp [hs] at ha
        subst ha
        have hsame := Shared.SameEnding.of_set s s.world port b r1.1 hb
          (UniqueBuffer.receive_flags hs).2.2
        exact ⟨hsame.keeps, fun _ => hsame, fun _ h => h, fun _ h => h, ⟨rfl, rfl, rfl, rfl⟩,
          fun h => Or.inl h, fun h => Or.inl h⟩
  | peerReleaseAll port =>
    simp [Stage.act] at ha
    subst ha
    exact ⟨Shared.Keeps.of_releaseAll s port, fun h => by simp [Action.isTermination] at h,
      fun _ h => h, fun _ h => h, ⟨rfl, rfl, rfl, rfl⟩, fun h => Or.inl h, fun h => Or.inl h⟩
  | peerWrite f =>
    simp [Stage.act] at ha
    subst ha
    have hsame : s.SameEnding ⟨f s.world, s.buffers⟩ :=
      ⟨fun _ b h => ⟨b, h, rfl⟩, fun _ _ h h0 => by
        simp only at h; rw [h0] at h; exact absurd h (by simp)⟩
    exact ⟨hsame.keeps, fun _ => hsame, fun _ h => h, fun _ h => h, ⟨rfl, rfl, rfl, rfl⟩,
      fun h => Or.inl h, fun h => Or.inl h⟩

end ActFrame
section StoppedLemmas

variable {W : Type}

/-- The state after `stop()` is a stopped state. -/
theorem Stage.Stopped.of_stop (ops : OperatorTable W) (st : Stage W)
    (hin : ∀ port, st.executer._inputPort = some port → port < st.shared.buffers.length)
    (hout : ∀ port, st.executer._outputPort = some port → port < st.shared.buffers.length)
    (hr : st.executer.pc = .receiving → st.executer.kind.hasInput = true)
    (hs : st.executer.pc = .sending → st.executer.kind.hasOutput = true) :
    Stage.Stopped ⟨(st.executer.stop ops st.shared).1, (st.executer.stop ops st.shared).2⟩ := by
  obtain ⟨f1, f2, _, _, _, _, _, _, f9, _⟩ := Executer.stop_fields ops st.shared st.executer
  obtain ⟨p1, p2, _, _⟩ := Executer.stop_ports ops st.shared st.executer hin hout
  refine ⟨f1, ?_, ?_, ?_, ?_⟩
  · intro hk
    simp only [f9] at hk
    obtain ⟨port, b, h1, h2, h3, _⟩ := p1 hk
    exact ⟨port, b, h1, h2, h3⟩
  · intro hk
    simp only [f9] at hk
    obtain ⟨port, b, h1, h2, h3, _⟩ := p2 hk
    exact ⟨port, b, h1, h2, h3⟩
  · intro hp
    simp only [f2, f9] at hp ⊢
    exact hr hp
  · intro hp
    simp only [f2, f9] at hp ⊢
    exact hs hp

/-- No action leads out of the stopped states. -/
theorem Stage.Stopped.stopped_act (ops : OperatorTable W) (st st1 : Stage W) (a : Action W)
    (h : st.Stopped) (ha : st.act ops a = some st1) : st1.Stopped := by
  obtain ⟨h1, h2, h3, h4, h5⟩ := h
  obtain ⟨f1, _, f3, f4, ⟨f5, _, _, _⟩, f6, f7⟩ := Stage.act_frame ops st st1 a ha
  refine ⟨(Stage.act_sticky ops st st1 a ha).2 h1, ?_, ?_, ?_, ?_⟩
  · intro hk
    rw [f5] at hk
    obtain ⟨port, b, k1, k2, k3⟩ := h2 hk
    obtain ⟨b1, k4, k5⟩ := f1 port b k2
    exact ⟨port, b1, f3 port k1, k4, k5 k3⟩
  · intro hk
    rw [f5] at hk
    obtain ⟨port, b, k1, k2, k3⟩ := h3 hk
    obtain ⟨b1, k4, k5⟩ := f1 port b k2
    exact ⟨port, b1, f4 port k1, k4, k5 k3⟩
  · intro hp
    rw [f5]
    rcases f6 hp with h | h
    · exact h4 h
    · exact h
  · intro hp
    rw [f5]
    rcases f7 hp with h | h
    · exact h5 h
    · exact h

theorem Stage.Stopped.stopped_run (ops : OperatorTable W) (as : List (Action W))
    (st st1 : Stage W) (h : st.Stopped) (hr : st.run ops as = some st1) : st1.Stopped :=
  Stage.run_invariant ops Stage.Stopped
    (fun x a y hx ha => Stage.Stopped.stopped_act ops x y a hx ha) as st st1 h hr

/-- A transition of the thread of a stopped stage: one transition less
remains, the thread does not go to `receive`, and it goes to the operator loop
only from `receive`. -/
theorem Stage.Stopped.stopped_thread (ops : OperatorTable W) (s s1 : Shared W)
    (e e1 : Executer) (h : Stage.Stopped ⟨s, e⟩) (hx : e._execute ops s = some (s1, e1)) :
    e1.remaining + 1 = e.remaining ∧ e1.pc ≠ .receiving ∧
      (e1.pc = .operating → e.pc = .receiving) ∧ e1.pc ≠ .notStarted := by
  obtain ⟨h1, h2, h3, h4, h5⟩ := h
  simp only at h1 h2 h3 h4 h5
  cases hpc : e.pc with
  | notStarted => simp [Executer._execute, hpc] at hx
  | finished => simp [Executer._execute, hpc] at hx
  | loopTest =>
    rw [Executer.at_loopTest ops s e hpc] at hx
    simp only [Option.some.injEq, Prod.mk.injEq] at hx
    obtain ⟨_, rfl⟩ := hx
    simp [Executer.remaining, h1, hpc]
  | locked =>
    rw [Executer.at_locked ops s e hpc] at hx
    simp only [Option.some.injEq, Prod.mk.injEq] at hx
    obtain ⟨_, rfl⟩ := hx
    simp [Executer.remaining, h1, hpc]
  | waiting =>
    rw [Executer.at_waiting ops s e hpc (by simp [h1])] at hx
    simp only [Option.some.injEq, Prod.mk.injEq] at hx
    obtain ⟨_, rfl⟩ := hx
    simp [Executer.remaining, hpc]
  | endingTest =>
    rw [Executer.at_endingTest ops s e hpc] at hx
    simp only [Option.some.injEq, Prod.mk.injEq] at hx
    obtain ⟨_, rfl⟩ := hx
    simp [Executer.remaining, h1, hpc]
  | receiving =>
    obtain ⟨port, b, k1, k2, k3⟩ := h2 (h4 hpc)
    cases hr : b.receive e._inputBuffer with
    | none => simp [UniqueBuffer.receive, k3] at hr
    | some r =>
      rw [Executer.at_receiving ops s e port b r.1 r.2 hpc k1 k2 hr] at hx
      simp only [Option.some.injEq, Prod.mk.injEq] at hx
      obtain ⟨_, rfl⟩ := hx
      cases ho : e.kind.hasOutput <;> simp [Executer.remaining, ho, hpc]
  | operating =>
    cases hb : Executer.bindSlots ops e s.world with
    | none => simp [Executer._execute, hpc, hb] at hx
    | some w =>
      cases hr : Executer.runOperators ops e.operators w e._opStatus with
      | none => simp [Executer._execute, hpc, hb, hr] at hx
      | some r =>
        rw [Executer.at_operating ops s e w r.1 r.2 hpc hb hr] at hx
        simp only [Option.some.injEq, Prod.mk.injEq] at hx
        obtain ⟨_, rfl⟩ := hx
        cases ho : e.kind.hasOutput <;> simp [Executer.remaining, ho, hpc]
  | sending =>
    obtain ⟨port, b, k1, k2, k3⟩ := h3 (h5 hpc)
    cases hr : b.send e._outputBuffer with
    | none => simp [UniqueBuffer.send, k3] at hr
    | some r =>
      rw [Executer.at_sending ops s e port b r.1 r.2 hpc k1 k2 hr] at hx
      simp only [Option.some.injEq, Prod.mk.injEq] at hx
      obtain ⟨_, rfl⟩ := hx
      simp [Executer.remaining, hpc]

/-- The thread of a stopped stage is never blocked: unless it has not been
started or has ended, it can make a transition. -/
theorem Stage.Stopped.stopped_enabled (ops : OperatorTable W) (s : Shared W) (e : Executer)
    (h : Stage.Stopped ⟨s, e⟩) (hret : e.Returns ops) (hn : e.pc ≠ .notStarted)
    (hf : e.pc ≠ .finished) : ∃ r, e._execute ops s = some r := by
  obtain ⟨h1, h2, h3, h4, h5⟩ := h
  simp only at h1 h2 h3 h4 h5
  cases hpc : e.pc with
  | notStarted => exact absurd hpc hn
  | finished => exact absurd hpc hf
  | loopTest => exact ⟨_, Executer.at_loopTest ops s e hpc⟩
  | locked => exact ⟨_, Executer.at_locked ops s e hpc⟩
  | waiting => exact ⟨_, Executer.at_waiting ops s e hpc (by simp [h1])⟩
  | endingTest => exact ⟨_, Executer.at_endingTest ops s e hpc⟩
  | receiving =>
    obtain ⟨port, b, k1, k2, k3⟩ := h2 (h4 hpc)
    cases hr : b.receive e._inputBuffer with
    | none => simp [UniqueBuffer.receive, k3] at hr
    | some r => exact ⟨_, Executer.at_receiving ops s e port b r.1 r.2 hpc k1 k2 hr⟩
  | operating =>
    obtain ⟨r1, r2, r3⟩ := hret
    have hb : ∃ w, Executer.bindSlots ops e s.world = some w := by
      unfold Executer.bindSlots
      cases hi : e.kind.hasInput <;> cases ho : e.kind.hasOutput
      · simp
      · cases hoo : e._opOutput with
        | none => exact absurd hoo (r2 ho)
        | some op => simp
      · cases hoi : e._opInput with
        | none => exact absurd hoi (r1 hi)
        | some op => simp
      · cases hoi : e._opInput with
        | none => exact absurd hoi (r1 hi)
        | some op =>
          cases hoo : e._opOutput with
          | none => exact absurd hoo (r2 ho)
          | some op => simp
    obtain ⟨w, hb⟩ := hb
    cases hr : Executer.runOperators ops e.operators w e._opStatus with
    | none => exact absurd hr (r3 w _)
    | some r => exact ⟨_, Executer.at_operating ops s e w r.1 r.2 hpc hb hr⟩
  | sending =>
    obtain ⟨port, b, k1, k2, k3⟩ := h3 (h5 hpc)
    cases hr : b.send e._outputBuffer with
    | none => simp [UniqueBuffer.send, k3] at hr
    | some r => exact ⟨_, Executer.at_sending ops s e port b r.1 r.2 hpc k1 k2 hr⟩

end StoppedLemmas
section StoppedRuns

variable {W : Type}

/-- An action other than a transition of the thread leaves the thread where
it stands, `startThread()` excepted, which takes it to the loop condition. -/
theorem Stage.act_pc (ops : OperatorTable W) (st st1 : Stage W) (a : Action W)
    (ha : st.act ops a = some st1) (hn : a.isThread = false) :
    st1.executer.kind = st.executer.kind ∧
      (st1.executer.pc = st.executer.pc ∨
        (st.executer.pc = .notStarted ∧ st1.executer.pc = .loopTest)) := by
  rcases Stage.act_cases ops st st1 a ha with ⟨rfl, _⟩ | ⟨msg, _, rfl⟩ | ⟨_, rfl⟩ |
      ⟨_, hns, rfl⟩ | ⟨_, _, he⟩
  · simp [Action.isThread] at hn
  · exact ⟨rfl, Or.inl rfl⟩
  · obtain ⟨_, f2, _, _, _, _, _, _, f9, _⟩ := Executer.stop_fields ops st.shared st.executer
    exact ⟨f9, Or.inl f2⟩
  · exact ⟨rfl, Or.inr ⟨hns, rfl⟩⟩
  · rw [he]
    exact ⟨rfl, Or.inl rfl⟩

theorem Executer.remaining_le (e : Executer) : e.remaining ≤ 4 := by
  unfold Executer.remaining
  cases e.pc <;> simp <;> split <;> omega

/-- In a run of a stopped stage the thread makes no more transitions than
remain. -/
theorem Stage.Stopped.count_run (ops : OperatorTable W) :
    ∀ (as : List (Action W)) (st st1 : Stage W), st.Stopped → st.run ops as = some st1 →
      as.countP Action.isThread + st1.executer.remaining ≤ st.executer.remaining := by
  intro as
  induction as with
  | nil =>
    intro st st1 _ hr
    simp [Stage.run] at hr
    subst hr
    simp
  | cons a as ih =>
    intro st st1 h hr
    rw [Stage.stageRun_cons] at hr
    cases ha : st.act ops a with
    | none => simp [ha] at hr
    | some st2 =>
      simp [ha] at hr
      have h2 := Stage.Stopped.stopped_act ops st st2 a h ha
      have hi := ih st2 st1 h2 hr
      cases ht : a.isThread with
      | true =>
        rcases Stage.act_cases ops st st2 a ha with ⟨_, hx⟩ | ⟨msg, rfl, _⟩ | ⟨rfl, _⟩ |
            ⟨rfl, _, _⟩ | ⟨hno, hnt, _⟩
        · obtain ⟨k1, _⟩ := Stage.Stopped.stopped_thread ops st.shared st2.shared st.executer
            st2.executer h hx
          rw [List.countP_cons_of_pos _ _ ht]
          omega
        · simp [Action.isThread] at ht
        · simp [Action.isThread] at ht
        · simp [Action.isThread] at ht
        · cases a <;> simp [Action.isThread] at ht
          exact absurd rfl hnt
      | false =>
        obtain ⟨k1, k2⟩ := Stage.act_pc ops st st2 a ha ht
        have hrem : st2.executer.remaining = st.executer.remaining := by
          unfold Executer.remaining
          rcases k2 with k2 | ⟨k2, k3⟩
          · rw [k1, k2]
          · rw [k2, k3]
        rw [List.countP_cons_of_neg _ _ (by simp [ht])]
        omega

/-- A stopped stage whose thread is past the operator loop does not come
back to `receive` or to the operator loop. -/
theorem Stage.Stopped.late_run (ops : OperatorTable W) (as : List (Action W))
    (st st1 : Stage W) (h : st.Stopped) (hr : st.executer.pc ≠ .receiving)
    (ho : st.executer.pc ≠ .operating) (hrun : st.run ops as = some st1) :
    st1.executer.pc ≠ .receiving ∧ st1.executer.pc ≠ .operating := by
  have hinv := Stage.run_invariant ops
    (fun x => x.Stopped ∧ x.executer.pc ≠ .receiving ∧ x.executer.pc ≠ .operating)
    (fun x a y hx ha => by
      refine ⟨Stage.Stopped.stopped_act ops x y a hx.1 ha, ?_⟩
      cases ht : a.isThread with
      | true =>
        rcases Stage.act_cases ops x y a ha with ⟨_, hx1⟩ | ⟨msg, rfl, _⟩ | ⟨rfl, _⟩ |
            ⟨rfl, _, _⟩ | ⟨hno, hnt, _⟩
        · obtain ⟨_, k2, k3, _⟩ := Stage.Stopped.stopped_thread ops x.shared y.shared
            x.executer y.executer hx.1 hx1
          exact ⟨k2, fun hy => hx.2.1 (k3 hy)⟩
        · simp [Action.isThread] at ht
        · simp [Action.isThread] at ht
        · simp [Action.isThread] at ht
        · cases a <;> simp [Action.isThread] at ht
          exact absurd rfl hnt
      | false =>
        obtain ⟨_, k2⟩ := Stage.act_pc ops x y a ha ht
        rcases k2 with k2 | ⟨_, k3⟩
        · rw [k2]
          exact hx.2
        · rw [k3]
          exact ⟨by simp, by simp⟩)
    as st st1 ⟨h, hr, ho⟩ hrun
  exact hinv.2

/-- The thread of a stopped stage ends after the transitions that remain. -/
theorem Stage.Stopped.finish (ops : OperatorTable W) :
    ∀ (n : Nat) (st : Stage W), st.Stopped → st.executer.Returns ops →
      st.executer.pc ≠ .notStarted → st.executer.remaining = n →
      ∃ st1, st.threadRun ops n = some st1 ∧ st1.executer.pc = .finished := by
  intro n
  induction n with
  | zero =>
    intro st _ _ hn h0
    refine ⟨st, rfl, ?_⟩
    unfold Executer.remaining at h0
    cases hpc : st.executer.pc <;> simp [hpc] at h0 ⊢
    all_goals (split at h0 <;> omega)
  | succ n ih =>
    intro st h hret hn hrem
    have hf : st.executer.pc ≠ .finished := by
      intro hpc
      simp [Executer.remaining, hpc] at hrem
    obtain ⟨r, hx⟩ := Stage.Stopped.stopped_enabled ops st.shared st.executer h hret hn hf
    obtain ⟨k1, _, _, k4⟩ := Stage.Stopped.stopped_thread ops st.shared r.1 st.executer r.2 h hx
    have ha : st.act ops .thread = some ⟨r.1, r.2⟩ := by simp only [Stage.act, hx]
    have h2 := Stage.Stopped.stopped_act ops st ⟨r.1, r.2⟩ .thread h ha
    obtain ⟨_, _, _, _, ⟨f1, f2, f3, f4⟩, _⟩ := Stage.act_frame ops st ⟨r.1, r.2⟩ .thread ha
    have hret2 : r.2.Returns ops := by
      obtain ⟨r1, r2, r3⟩ := hret
      simp only at f1 f2 f3 f4
      exact ⟨by rw [f1, f3]; exact r1, by rw [f1, f4]; exact r2, by rw [f2]; exact r3⟩
    obtain ⟨st1, k5, k6⟩ := ih ⟨r.1, r.2⟩ h2 hret2 k4 (by show r.2.remaining = n; omega)
    exact ⟨st1, by rw [Stage.thread_step ops st r.1 r.2 n hx]; exact k5, k6⟩

end StoppedRuns
section StoppedReturns

variable {W : Type}

/-- No action changes whether the operators return. -/
theorem Executer.Returns.returns_run (ops : OperatorTable W) (as : List (Action W))
    (st st1 : Stage W) (h : st.executer.Returns ops) (hr : st.run ops as = some st1) :
    st1.executer.Returns ops :=
  Stage.run_invariant ops (fun x => x.executer.Returns ops)
    (fun x a y hx ha => by
      obtain ⟨_, _, _, _, ⟨f1, f2, f3, f4⟩, _⟩ := Stage.act_frame ops x y a ha
      obtain ⟨r1, r2, r3⟩ := hx
      exact ⟨by rw [f1, f3]; exact r1, by rw [f1, f4]; exact r2, by rw [f2]; exact r3⟩)
    as st st1 h hr

end StoppedReturns

/-- The end of the thread at the level of the wait predicates.  (1) After
`stop()` the stage is stopped: `_ending` is set and each
port of the class names a terminated buffer.  For a stopped stage: (2) the
wait predicate of `Step` mode holds, and so do those of `receive` on its input
port and of `send` on its output port, so that these calls return; (3) every
run, whatever the owner, the neighbours and the thread do, leads to stopped
states, and the thread makes at most as many transitions in it as remain from
where it stands, which is four at most; (4) once the thread is past the
operator loop it does not come back to `receive` or to the operator loop, and
the transition of the operator loop takes it past the loop: the operators are
invoked once more at most; (5) if the operators return and the slot pointers
are set, the thread is never blocked: in every state of every run in which it
has been started and has not ended it can make a transition, which leaves one
transition less; and left alone the thread ends, the completion signal being
given, after the transitions that remain.  Here a call that waits returns as
soon as its wait predicate holds; whether the waiting thread is woken is the
subject of the section on the wait of `Step` mode. -/
theorem Stage.Stopped.thread_ends {W : Type} (ops : OperatorTable W) (st : Stage W) :
    ((∀ port, st.executer._inputPort = some port → port < st.shared.buffers.length) →
      (∀ port, st.executer._outputPort = some port → port < st.shared.buffers.length) →
      (st.executer.pc = .receiving → st.executer.kind.hasInput = true) →
      (st.executer.pc = .sending → st.executer.kind.hasOutput = true) →
      ∃ st1, st.act ops .stop = some st1 ∧ st1.Stopped) ∧
    (st.Stopped →
      (st.executer._newMessage || st.executer._ending) = true ∧
      (∀ (port : Nat) (b : UniqueBuffer Addr) (x : Addr), st.executer.kind.hasInput = true →
        st.executer._inputPort = some port → st.shared.buffers[port]? = some b →
        b.receiveReady = true ∧ b.receive x ≠ none) ∧
      (∀ (port : Nat) (b : UniqueBuffer Addr) (x : Addr), st.executer.kind.hasOutput = true →
        st.executer._outputPort = some port → st.shared.buffers[port]? = some b →
        b.sendReady = true ∧ b.send x ≠ none) ∧
      (∀ (as : List (Action W)) (st1 : Stage W), st.run ops as = some st1 →
        st1.Stopped ∧
        as.countP Action.isThread + st1.executer.remaining ≤ st.executer.remaining) ∧
      st.executer.remaining ≤ 4 ∧
      (st.executer.pc ≠ .receiving → st.executer.pc ≠ .operating →
        ∀ (as : List (Action W)) (st1 : Stage W), st.run ops as = some st1 →
          st1.executer.pc ≠ .receiving ∧ st1.executer.pc ≠ .operating) ∧
      (st.executer.pc = .operating → ∀ st1 : Stage W, st.act ops .thread = some st1 →
        st1.executer.pc ≠ .receiving ∧ st1.executer.pc ≠ .operating) ∧
      (st.executer.Returns ops →
        (∀ (as : List (Action W)) (st1 : Stage W), st.run ops as = some st1 →
          st1.executer.pc ≠ .notStarted → st1.executer.pc ≠ .finished →
          ∃ st2, st1.act ops .thread = some st2 ∧
            st2.executer.remaining + 1 = st1.executer.remaining) ∧
        (st.executer.pc ≠ .notStarted →
          ∃ st1, st.threadRun ops st.executer.remaining = some st1 ∧
            st1.executer.pc = .finished))) := by
  constructor
  · intro hin hout hr hs
    exact ⟨_, rfl, Stage.Stopped.of_stop ops st hin hout hr hs⟩
  · intro h
    refine ⟨by simp [h.1], ?_, ?_, ?_, Executer.remaining_le _, ?_, ?_, ?_⟩
    · intro port b x hk hp hb
      obtain ⟨port1, b1, k1, k2, k3⟩ := h.2.1 hk
      rw [hp] at k1
      obtain rfl := Option.some.inj k1
      rw [hb] at k2
      obtain rfl := Option.some.inj k2
      simp [UniqueBuffer.receiveReady, UniqueBuffer.receive, k3]
    · intro port b x hk hp hb
      obtain ⟨port1, b1, k1, k2, k3⟩ := h.2.2.1 hk
      rw [hp] at k1
      obtain rfl := Option.some.inj k1
      rw [hb] at k2
      obtain rfl := Option.some.inj k2
      simp [UniqueBuffer.sendReady, UniqueBuffer.send, k3]
    · intro as st1 hrun
      exact ⟨Stage.Stopped.stopped_run ops as st st1 h hrun,
        Stage.Stopped.count_run ops as st st1 h hrun⟩
    · intro hr ho as st1 hrun
      exact Stage.Stopped.late_run ops as st st1 h hr ho hrun
    · intro hpc st1 ha
      rcases Stage.act_cases ops st st1 .thread ha with ⟨_, hx⟩ | ⟨msg, h1, _⟩ | ⟨h1, _⟩ |
          ⟨h1, _, _⟩ | ⟨_, h1, _⟩
      · obtain ⟨_, k2, k3, _⟩ := Stage.Stopped.stopped_thread ops st.shared st1.shared
          st.executer st1.executer h hx
        refine ⟨k2, fun hy => ?_⟩
        have := k3 hy
        rw [hpc] at this
        exact absurd this (by simp)
      · simp at h1
      · simp at h1
      · simp at h1
      · exact absurd rfl h1
    · intro hret
      constructor
      · intro as st1 hrun hn hf
        have h1 := Stage.Stopped.stopped_run ops as st st1 h hrun
        have hret1 := Executer.Returns.returns_run ops as st st1 hret hrun
        obtain ⟨r, hx⟩ := Stage.Stopped.stopped_enabled ops st1.shared st1.executer h1 hret1 hn hf
        obtain ⟨k1, _⟩ := Stage.Stopped.stopped_thread ops st1.shared r.1 st1.executer r.2 h1 hx
        exact ⟨⟨r.1, r.2⟩, by simp only [Stage.act, hx], k1⟩
      · intro hn
        exact Stage.Stopped.finish ops _ st h hret hn rfl

/-- The transform stage of the examples, blocked in
`receive`, after `stop()`: left alone the thread ends after the four
transitions that remain. -/
theorem Stage.Stopped.thread_ends_example :
    (stoppedStage .receiving).Stopped ∧ (stoppedStage .receiving).executer.remaining = 4 ∧
    ∃ st1, (stoppedStage .receiving).threadRun statusTable
        (stoppedStage .receiving).executer.remaining = some st1 ∧
      st1.executer.pc = .finished :=
  ⟨⟨rfl, fun _ => ⟨0, _, rfl, rfl, rfl⟩, fun _ => ⟨1, _, rfl, rfl, rfl⟩, fun _ => rfl,
      fun _ => rfl⟩, rfl,
    ((Stage.Stopped.thread_ends statusTable (stoppedStage .receiving)).2
      ⟨rfl, fun _ => ⟨0, _, rfl, rfl, rfl⟩, fun _ => ⟨1, _, rfl, rfl, rfl⟩, fun _ => rfl,
        fun _ => rfl⟩).2.2.2.2.2.2.2
      ⟨by decide, by decide, fun _ _ => by simp [Executer.runOperators, statusTable, stoppedStage,
        blockedStage, Executer.stop, Executer._terminateInputOutput, Executer.input,
        Executer.output, Executer.send, Executer.startThread, Executer.opOutput,
        Executer.opInput, Executer.addOperator, Executer.new]⟩ |>.2 (by decide)⟩

section MonitorLemmas

variable {W : Type}

theorem Monitor.monitorRun_cons (ops : OperatorTable W) (forced : Bool) (m : Monitor W)
    (a : MonitorAction W) (as : List (MonitorAction W)) :
    m.run ops forced (a :: as) = (m.act ops forced a).bind fun m1 => m1.run ops forced as := by
  cases h : m.act ops forced a <;> simp [Monitor.run, h]

/-- The four statements of `stop()` one after the other do to the stage what
`stop()` does as one transition; a thread that was suspended is woken, and
the mutex is released if the foreign `unlock()` releases it. -/
theorem Monitor.stop_statements (ops : OperatorTable W) (forced : Bool) (m : Monitor W)
    (hst : m.stopped = .notCalled) :
    m.run ops forced [.stop, .stop, .stop, .stop] = some
      { stage := ⟨(m.stage.executer.stop ops m.stage.shared).1,
                  (m.stage.executer.stop ops m.stage.shared).2⟩,
        locked := m.locked && !forced,
        phase := if m.stage.executer.pc = .waiting ∧ m.phase = .suspended then .woken
          else m.phase,
        stopped := .returned } := by
  obtain ⟨⟨s, e⟩, locked, phase, stopped⟩ := m
  simp only at hst
  subst hst
  by_cases h : e.pc = .waiting ∧ phase = .suspended
  · simp [Monitor.run, Monitor.act, Monitor.stop, Monitor.notify, h, Executer.stop]
  · simp [Monitor.run, Monitor.act, Monitor.stop, Monitor.notify, h, Executer.stop]

/-- A suspended thread stays suspended as long as neither the owner calls
nor a spurious wake-up occurs: the thread makes no step, and the calls of the
neighbours do not reach `_condition`. -/
theorem Monitor.suspended_run (ops : OperatorTable W) (forced : Bool) :
    ∀ (as : List (MonitorAction W)) (m m2 : Monitor W),
      m.stage.executer.pc = .waiting → m.phase = .suspended →
      (∀ a ∈ as, a.isQuiet = true) → m.run ops forced as = some m2 →
      m2.stage.executer.pc = .waiting ∧ m2.phase = .suspended ∧
        m2.stage.executer._ending = m.stage.executer._ending ∧
        m2.act ops forced .thread = none := by
  intro as
  induction as with
  | nil =>
    intro m m2 hpc hph _ hr
    simp [Monitor.run] at hr
    subst hr
    exact ⟨hpc, hph, rfl, by simp [Monitor.act, Monitor.thread, hpc, hph]⟩
  | cons a as ih =>
    intro m m2 hpc hph hq hr
    rw [Monitor.monitorRun_cons] at hr
    have hqa := hq a (List.mem_cons_self _ _)
    cases a with
    | thread => simp [Monitor.act, Monitor.thread, hpc, hph] at hr
    | stop => simp [MonitorAction.isQuiet] at hqa
    | send msg => simp [MonitorAction.isQuiet] at hqa
    | spurious => simp [MonitorAction.isQuiet] at hqa
    | peer b =>
      simp only [Monitor.act] at hr
      split at hr
      · simp at hr
      · rename_i hb
        simp only [Bool.or_eq_true, not_or, Bool.not_eq_true] at hb
        cases hs : m.stage.act ops b with
        | none => simp [hs] at hr
        | some st =>
          simp only [hs, Option.some_bind] at hr
          have he := Stage.act_peer ops m.stage st b hs hb.1
            (fun _ _ => Or.inr (by intro h; rw [h] at hb; simp [Action.isThread] at hb))
          obtain ⟨k1, k2, k3, k4⟩ := ih { m with stage := st } m2 (by simp only [he, hpc]) hph
            (fun c hc => hq c (List.mem_cons_of_mem _ hc)) hr
          exact ⟨k1, k2, by rw [k3]; simp only [he], k4⟩

end MonitorLemmas

section MonitorSteps

variable {W : Type} (ops : OperatorTable W) (forced : Bool)

theorem Monitor.run_step (m m1 : Monitor W) (a : MonitorAction W) (as : List (MonitorAction W))
    (h : m.act ops forced a = some m1) :
    m.run ops forced (a :: as) = m1.run ops forced as := by
  rw [Monitor.monitorRun_cons, h]
  rfl

theorem Monitor.run_steps (as bs : List (MonitorAction W)) :
    ∀ (m m1 : Monitor W), m.run ops forced as = some m1 →
      m.run ops forced (as ++ bs) = m1.run ops forced bs := by
  induction as with
  | nil =>
    intro m m1 h
    simp [Monitor.run] at h
    subst h
    rfl
  | cons a as ih =>
    intro m m1 h
    rw [Monitor.monitorRun_cons] at h
    cases ha : m.act ops forced a with
    | none => simp [ha] at h
    | some m2 =>
      simp only [ha, Option.some_bind] at h
      rw [List.cons_append, Monitor.run_step ops forced m m2 a _ ha]
      exact ih m2 m1 h

/-- The thread enters `wait(uLock)`: the mutex is released and the thread
suspended. -/
theorem Monitor.thread_entering (s : Shared W) (e : Executer) (locked : Bool)
    (stopped : StopPhase) (hpc : e.pc = .waiting) :
    Monitor.act ops forced ⟨⟨s, e⟩, locked, .entering, stopped⟩ .thread
      = some ⟨⟨s, e⟩, false, .suspended, stopped⟩ := by
  simp only [Monitor.act, Monitor.thread, hpc]

/-- The woken thread takes the mutex again. -/
theorem Monitor.thread_woken (s : Shared W) (e : Executer) (stopped : StopPhase)
    (hpc : e.pc = .waiting) :
    Monitor.act ops forced ⟨⟨s, e⟩, false, .woken, stopped⟩ .thread
      = some ⟨⟨s, e⟩, true, .testing, stopped⟩ := by
  simp [Monitor.act, Monitor.thread, hpc]

/-- The predicate holds: the wait returns. -/
theorem Monitor.thread_testing (s : Shared W) (e : Executer) (locked : Bool)
    (stopped : StopPhase) (hpc : e.pc = .waiting) (h : (e._newMessage || e._ending) = true) :
    Monitor.act ops forced ⟨⟨s, e⟩, locked, .testing, stopped⟩ .thread
      = some ⟨⟨s, { e with _newMessage := false, pc := .endingTest }⟩, false, .testing,
          stopped⟩ := by
  simp only [Monitor.act, Monitor.thread, hpc, h, if_true, Monitor.advance,
    Executer.at_waiting ops s e hpc h]

/-- Past the wait, `_ending` being set, the thread goes to the loop condition
and leaves the loop. -/
theorem Monitor.thread_leaves (s : Shared W) (e : Executer) (phase : WaitPhase)
    (stopped : StopPhase) (hpc : e.pc = .endingTest) (he : e._ending = true) :
    Monitor.run ops forced ⟨⟨s, e⟩, false, phase, stopped⟩ [.thread, .thread]
      = some ⟨⟨s, { e with pc := .finished }⟩, false, .testing, stopped⟩ := by
  have h1 : Monitor.act ops forced ⟨⟨s, e⟩, false, phase, stopped⟩ .thread
      = some ⟨⟨s, { e with pc := .loopTest }⟩, false, .testing, stopped⟩ := by
    simp only [Monitor.act, Monitor.thread, hpc, Monitor.advance,
      Executer.at_endingTest ops s e hpc, he, if_true]
  have h2 : Monitor.act ops forced
      ⟨⟨s, { e with pc := .loopTest }⟩, false, .testing, stopped⟩ .thread
        = some ⟨⟨s, { e with pc := .finished }⟩, false, .testing, stopped⟩ := by
    have hx : Executer._execute ops s { e with pc := .loopTest }
        = some (s, { e with pc := .finished }) := by
      rw [Executer.at_loopTest ops s _ rfl]
      simp [he]
    simp only [Monitor.act, Monitor.thread, Monitor.advance, hx]
    exact if_pos he
  rw [Monitor.run_step ops forced _ _ _ _ h1, Monitor.run_step ops forced _ _ _ _ h2]
  rfl

end MonitorSteps

section MonitorStage

variable {W : Type}

/-- A step of the thread is a step inside the wait, which leaves the stage
as it is, or it is the transition of `_execute`. -/
theorem Monitor.thread_stage (ops : OperatorTable W) (m m1 : Monitor W)
    (h : m.thread ops = some m1) :
    m1.stage = m.stage ∨
      m.stage.executer._execute ops m.stage.shared = some (m1.stage.shared, m1.stage.executer) := by
  have hadv : ∀ locked, m.advance ops locked = some m1 →
      m.stage.executer._execute ops m.stage.shared
        = some (m1.stage.shared, m1.stage.executer) := by
    intro locked ha
    unfold Monitor.advance at ha
    cases hx : m.stage.executer._execute ops m.stage.shared with
    | none => simp [hx] at ha
    | some r =>
      simp only [hx, Option.some.injEq] at ha
      subst ha
      rfl
  unfold Monitor.thread at h
  split at h
  · split at h
    · exact Or.inr (hadv _ h)
    · split at h
      · simp at h
      · exact Or.inr (hadv _ h)
  · exact Or.inr (hadv _ h)
  · split at h
    · split at h
      · exact Or.inr (hadv _ h)
      · simp at h; subst h; exact Or.inl rfl
    · simp at h; subst h; exact Or.inl rfl
    · simp at h
    · split at h
      · simp at h
      · simp at h; subst h; exact Or.inl rfl
  · exact Or.inr (hadv _ h)

end MonitorStage

/-- C27, where the code departs from the claim.  Let the thread of a stage
stand in the wait of `Step` mode, holding `_mutex`, having evaluated the
predicate `_newMessage || _ending.load()` as false, `stop()` not having been
called.  (1) If the owner's `stop()` runs from its first statement to its
last before the thread enters `wait(uLock)`, then `stop()` has set `_ending`
and terminated the ports as always, and the predicate of the wait holds, so
that the transition of the embedding above is enabled; but `notify_all()`
found no thread suspended, and the thread is suspended next.  From then on,
whatever the neighbours do, the thread makes no step as long as the owner
makes no further call and no spurious wake-up occurs: it never reaches the end
of `_execute`, and `waitToEnd()` does not return.  This holds whether or not
the foreign `_mutex.unlock()` of `stop()` releases the mutex.  (2) If the
thread is suspended first and `stop()` runs then, the thread is woken and ends
in four steps.  (3) `send(msg)` cannot fall between the evaluation of the
predicate and the suspension, because it takes `_mutex`: it does not complete
while the thread holds the mutex, and once the thread is suspended it wakes
the thread, which leaves the wait. -/
theorem C27_lost_wake_up {W : Type} (ops : OperatorTable W) (forced : Bool) (m : Monitor W)
    (hpc : m.stage.executer.pc = .waiting) (hph : m.phase = .entering)
    (hlk : m.locked = true) (hst : m.stopped = .notCalled) :
    (∃ m1, m.run ops forced [.stop, .stop, .stop, .stop, .thread] = some m1 ∧
      m1.stopped = .returned ∧
      m1.stage = ⟨(m.stage.executer.stop ops m.stage.shared).1,
                  (m.stage.executer.stop ops m.stage.shared).2⟩ ∧
      m1.stage.executer._ending = true ∧
      (m1.stage.executer._newMessage || m1.stage.executer._ending) = true ∧
      (∃ st, m1.stage.act ops .thread = some st ∧ st.executer.pc = .endingTest) ∧
      m1.stage.executer.pc = .waiting ∧ m1.phase = .suspended ∧
      ∀ (as : List (MonitorAction W)) (m2 : Monitor W), (∀ a ∈ as, a.isQuiet = true) →
        m1.run ops forced as = some m2 →
        m2.stage.executer.pc = .waiting ∧ m2.phase = .suspended ∧
          m2.stage.executer._ending = true ∧ m2.act ops forced .thread = none) ∧
    (∃ m3, m.run ops forced
        [.thread, .stop, .stop, .stop, .stop, .thread, .thread, .thread, .thread] = some m3 ∧
      m3.stopped = .returned ∧ m3.stage.executer.pc = .finished) ∧
    (∀ msg : ExecutionMode, m.act ops forced (.send msg) = none ∧
      ∃ m4, m.run ops forced [.thread, .send msg, .thread, .thread] = some m4 ∧
        m4.stage.executer.pc = .endingTest ∧ m4.stage.executer._newMessage = false ∧
        m4.stage.executer._executionMode = msg) := by
  obtain ⟨⟨s, e⟩, locked, phase, stopped⟩ := m
  simp only at hpc hph hlk hst
  subst hph hlk hst
  obtain ⟨f1, f2, _, _, _, _, f7, _⟩ := Executer.stop_fields ops s e
  have hp2 : (e.stop ops s).2.pc = .waiting := f2.trans hpc
  have hpred : ((e.stop ops s).2._newMessage || (e.stop ops s).2._ending) = true := by
    simp [f1]
  refine ⟨?_, ?_, ?_⟩
  · have h4 := Monitor.stop_statements ops forced
      (⟨⟨s, e⟩, true, .entering, .notCalled⟩ : Monitor W) rfl
    simp only [reduceCtorEq, and_false, if_false] at h4
    have h5 := Monitor.thread_entering ops forced (e.stop ops s).1 (e.stop ops s).2
      (true && !forced) .returned hp2
    have hrun : Monitor.run ops forced (⟨⟨s, e⟩, true, .entering, .notCalled⟩ : Monitor W)
        ([.stop, .stop, .stop, .stop] ++ [.thread]) = some
          { stage := ⟨(e.stop ops s).1, (e.stop ops s).2⟩, locked := false,
            phase := .suspended, stopped := .returned } := by
      rw [Monitor.run_steps ops forced _ _ _ _ h4, Monitor.run_step ops forced _ _ _ _ h5]
      rfl
    refine ⟨_, hrun, rfl, rfl, f1, hpred, ?_, hp2, rfl, ?_⟩
    · refine ⟨⟨(e.stop ops s).1,
        { (e.stop ops s).2 with _newMessage := false, pc := .endingTest }⟩, ?_, rfl⟩
      simp only [Stage.act, Executer.at_waiting ops (e.stop ops s).1 (e.stop ops s).2 hp2 hpred]
    · intro as m2 hq hr
      obtain ⟨k1, k2, k3, k4⟩ := Monitor.suspended_run ops forced as _ m2 hp2 rfl hq hr
      exact ⟨k1, k2, k3.trans f1, k4⟩
  · have h1 := Monitor.thread_entering ops forced s e true .notCalled hpc
    have h4 := Monitor.stop_statements ops forced
      (⟨⟨s, e⟩, false, .suspended, .notCalled⟩ : Monitor W) rfl
    simp only [hpc, true_and, if_true, Bool.false_and] at h4
    have h5 := Monitor.thread_woken ops forced (e.stop ops s).1 (e.stop ops s).2 .returned hp2
    have h6 := Monitor.thread_testing ops forced (e.stop ops s).1 (e.stop ops s).2 true
      .returned hp2 hpred
    have h7 := Monitor.thread_leaves ops forced (e.stop ops s).1
      { (e.stop ops s).2 with _newMessage := false, pc := .endingTest } .testing .returned
      rfl f1
    refine ⟨⟨⟨(e.stop ops s).1,
      { (e.stop ops s).2 with _newMessage := false, pc := .finished }⟩, false, .testing,
      .returned⟩, ?_, rfl, rfl⟩
    rw [Monitor.run_step ops forced _ _ _ _ h1,
      show ([.stop, .stop, .stop, .stop, .thread, .thread, .thread, .thread] :
          List (MonitorAction W))
        = [.stop, .stop, .stop, .stop] ++ [.thread, .thread, .thread, .thread] from rfl,
      Monitor.run_steps ops forced _ _ _ _ h4, Monitor.run_step ops forced _ _ _ _ h5,
      Monitor.run_step ops forced _ _ _ _ h6, h7]
  · intro msg
    refine ⟨by simp [Monitor.act, Monitor.send], ?_⟩
    have hp3 : (e.send msg).pc = .waiting := hpc
    have h1 := Monitor.thread_entering ops forced s e true .notCalled hpc
    have h2 : Monitor.act ops forced (⟨⟨s, e⟩, false, .suspended, .notCalled⟩ : Monitor W)
        (.send msg) = some ⟨⟨s, e.send msg⟩, false, .woken, .notCalled⟩ := by
      simp [Monitor.act, Monitor.send, Monitor.notify, hp3]
    have h3 := Monitor.thread_woken ops forced s (e.send msg) .notCalled hp3
    have h4 := Monitor.thread_testing ops forced s (e.send msg) true .notCalled hp3
      (by simp [Executer.send])
    refine ⟨⟨⟨s, { e.send msg with _newMessage := false, pc := .endingTest }⟩, false,
      .testing, .notCalled⟩, ?_, rfl, rfl, rfl⟩
    rw [Monitor.run_step ops forced _ _ _ _ h1, Monitor.run_step ops forced _ _ _ _ h2,
      Monitor.run_step ops forced _ _ _ _ h3, Monitor.run_step ops forced _ _ _ _ h4]
    rfl

/-- Witness for C27: the source stage of the examples in `Step` mode, no
command having been sent.  Three steps take the started thread into the wait,
the predicate evaluated as false.  `stop()` runs; the thread is suspended next
and stays so, although `_ending` is set and the output port terminated. -/
theorem C27_lost_wake_up_witness :
    (Monitor.start (statusStage 0 .Step .loopTest)).run statusTable true
        [.thread, .thread, .thread] = some waitingMonitor ∧
    ∃ m1, waitingMonitor.run statusTable true [.stop, .stop, .stop, .stop, .thread]
        = some m1 ∧
      m1.stopped = .returned ∧ m1.stage.executer._ending = true ∧
      m1.stage.shared.buffers = [⟨1, true, false, true⟩] ∧
      m1.stage.executer.pc = .waiting ∧ m1.phase = .suspended ∧
      ∀ (as : List (MonitorAction Nat)) (m2 : Monitor Nat), (∀ a ∈ as, a.isQuiet = true) →
        m1.run statusTable true as = some m2 →
        m2.stage.executer.pc = .waiting ∧ m2.phase = .suspended ∧
          m2.stage.executer._ending = true ∧ m2.act statusTable true .thread = none := by
  refine ⟨by decide, ?_⟩
  obtain ⟨m1, h1, h2, h3, h4, _, _, h7, h8, h9⟩ :=
    (C27_lost_wake_up statusTable true waitingMonitor rfl rfl rfl rfl).1
  exact ⟨m1, h1, h2, h4, by rw [h3]; decide, h7, h8, h9⟩


section StaleLemmas

variable {W : Type}

theorem Stage.threadRun_add (ops : OperatorTable W) (m n : Nat) (st : Stage W) :
    st.threadRun ops (m + n) =
      (st.threadRun ops m).bind fun st1 => st1.threadRun ops n := by
  simp only [Stage.threadRun, List.replicate_add, Stage.run_append]

/-- An iteration of a stage in `Continuous` mode whose input port is
terminated with no item resident, from the loop condition to the end of the
operator loop: `receive` returns without a swap and the operators are invoked
on what `_inputBuffer` holds already. -/
theorem Stage.stale_iteration (ops : OperatorTable W) (st : Stage W) (port : Nat)
    (b : UniqueBuffer Addr) (w w1 : W) (status : OperationStatus)
    (hk : st.executer.kind.hasInput = true) (hpc : st.executer.pc = .loopTest)
    (he : st.executer._ending = false) (hm : st.executer._executionMode = .Continuous)
    (hport : st.executer._inputPort = some port) (hb : st.shared.buffers[port]? = some b)
    (hbe : b._ending = true) (hbr : b._dataRefreshed = false)
    (hbind : Executer.bindSlots ops st.executer st.shared.world = some w)
    (hrun : Executer.runOperators ops st.executer.operators w st.executer._opStatus
      = some (w1, status)) :
    st.threadRun ops 5 = some
      ⟨⟨w1, st.shared.buffers.set port { b with _bufferAvailable := true, _dataRefreshed := false }⟩,
       { st.executer with
         _opStatus := status
         _ending := if status = .complete then true else st.executer._ending
         pc := if st.executer.kind.hasOutput then .sending else .loopTest
         log := st.executer.log ++ [.receive st.executer._inputBuffer] ++
           st.executer.operators.map .operation }⟩ := by
  obtain ⟨s, e⟩ := st
  simp only at hk hpc he hm hport hb hbind hrun
  have h1 : e._execute ops s = some (s, { e with pc := .locked }) := by
    rw [Executer.at_loopTest ops s e hpc]
    simp [he]
  have h2 : Executer._execute ops s { e with pc := .locked }
      = some (s, { e with pc := .endingTest }) := by
    rw [Executer.at_locked ops s _ rfl]
    simp [hm]
  have h3 : Executer._execute ops s { e with pc := .endingTest }
      = some (s, { e with pc := .receiving }) := by
    rw [Executer.at_endingTest ops s _ rfl]
    simp [he, hk]
  have h4 := Executer.at_receiving ops s { e with pc := .receiving } port b _ _ rfl hport hb
    (UniqueBuffer.receive_terminated_empty b e._inputBuffer hbe hbr)
  have h5 := Executer.at_operating ops
    ⟨s.world, s.buffers.set port { b with _bufferAvailable := true, _dataRefreshed := false }⟩
    { e with _inputBuffer := e._inputBuffer
             pc := .operating
             log := e.log ++ [.receive e._inputBuffer] }
    w w1 status rfl
    ((Executer.bindSlots_congr ops _ e _ rfl rfl rfl rfl rfl).trans hbind) hrun
  exact (Stage.thread_step ops ⟨_, _⟩ _ _ 4 h1).trans
    ((Stage.thread_step ops ⟨_, _⟩ _ _ 3 h2).trans
      ((Stage.thread_step ops ⟨_, _⟩ _ _ 2 h3).trans
        ((Stage.thread_step ops ⟨_, _⟩ _ _ 1 h4).trans
          ((Stage.thread_step ops ⟨_, _⟩ _ _ 0 h5).trans (Stage.threadRun_zero ops _)))))

/-- A sink stage in `Continuous` mode whose input port is terminated with no
item resident performs iteration after iteration, each on the item that
`_inputBuffer` holds already, as long as no operator returns `complete`: if
`f` is what the operator loop does to the world once the input slot is bound
to that cell, the world after `n` iterations is `f` applied `n` times. -/
theorem Stage.stale_iterations (ops : OperatorTable W) (port opIn : Nat) (f : W → W) :
    ∀ (n : Nat) (st : Stage W) (b : UniqueBuffer Addr),
      st.executer.kind = .SinkExecuter → st.executer.pc = .loopTest →
      st.executer._ending = false → st.executer._executionMode = .Continuous →
      st.executer._inputPort = some port → st.shared.buffers[port]? = some b →
      b._ending = true → b._dataRefreshed = false →
      st.executer._opInput = some opIn →
      (∀ w, Executer.runOperators ops st.executer.operators
          (ops.writeInput opIn st.executer._inputBuffer w) st.executer._opStatus
        = some (f w, st.executer._opStatus)) →
      st.executer._opStatus ≠ .complete →
      ∃ st1, st.threadRun ops (5 * n) = some st1 ∧
        st1.executer = { st.executer with
          log := st.executer.log ++ (List.replicate n
            (Event.receive st.executer._inputBuffer ::
              st.executer.operators.map .operation)).flatten } ∧
        st1.shared.world = f^[n] st.shared.world ∧
        ∃ b1, st1.shared.buffers[port]? = some b1 ∧ b1._ending = true ∧
          b1._dataRefreshed = false ∧ b1._buffer = b._buffer := by
  intro n
  induction n with
  | zero =>
    intro st b _ _ _ _ _ hb hbe hbr _ _ _
    exact ⟨st, rfl, by simp, rfl, b, hb, hbe, hbr, rfl⟩
  | succ n ih =>
    intro st b hk hpc he hm hport hb hbe hbr hoi hops hs
    obtain ⟨s, e⟩ := st
    simp only at hk hpc he hm hport hb hoi hops hs
    have hbind : Executer.bindSlots ops e s.world
        = some (ops.writeInput opIn e._inputBuffer s.world) := by
      simp [Executer.bindSlots, hk, ExecuterKind.hasInput, ExecuterKind.hasOutput, hoi]
    have hrun := hops s.world
    have h5 : Stage.threadRun ops ⟨s, e⟩ 5 = some
        ⟨⟨f s.world,
          s.buffers.set port { b with _bufferAvailable := true, _dataRefreshed := false }⟩,
         { e with pc := .loopTest
                  log := e.log ++ [.receive e._inputBuffer] ++ e.operators.map .operation }⟩ := by
      rw [Stage.stale_iteration ops ⟨s, e⟩ port b _ (f s.world) _
        (by simp [hk, ExecuterKind.hasInput]) hpc he hm hport hb hbe hbr hbind hrun]
      simp [hk, ExecuterKind.hasOutput, hs]
    have hlen : port < s.buffers.length := (List.getElem?_eq_some_iff.mp hb).1
    have hi := ih (Stage.mk
      ⟨f s.world,
        s.buffers.set port { b with _bufferAvailable := true, _dataRefreshed := false }⟩
      { e with pc := .loopTest
               log := e.log ++ [.receive e._inputBuffer] ++ e.operators.map .operation })
      { b with _bufferAvailable := true, _dataRefreshed := false }
      hk rfl he hm hport (List.getElem?_set_self hlen) hbe rfl hoi hops hs
    obtain ⟨st1, k1, k2, k7, b1, k3, k4, k5, k6⟩ := hi
    refine ⟨st1, ?_, ?_, ?_, b1, k3, k4, k5, k6⟩
    · rw [show 5 * (n + 1) = 5 + 5 * n from by ring, Stage.threadRun_add, h5]
      exact k1
    · rw [k2]
      simp [List.replicate_succ, hpc]
    · rw [k7, Function.iterate_succ_apply]

/-- The thread ends only from the loop condition with `_ending` set. -/
theorem Executer.execute_finished (ops : OperatorTable W) (s s1 : Shared W) (e e1 : Executer)
    (h : e._execute ops s = some (s1, e1)) (hf : e1.pc = .finished) :
    e.pc = .loopTest ∧ e._ending = true := by
  cases hpc : e.pc with
  | notStarted => simp [Executer._execute, hpc] at h
  | finished => simp [Executer._execute, hpc] at h
  | loopTest =>
    rw [Executer.at_loopTest ops s e hpc] at h
    simp only [Option.some.injEq, Prod.mk.injEq] at h
    obtain ⟨_, rfl⟩ := h
    cases he : e._ending
    · simp [he] at hf
    · exact ⟨rfl, rfl⟩
  | locked =>
    rw [Executer.at_locked ops s e hpc] at h
    simp only [Option.some.injEq, Prod.mk.injEq] at h
    obtain ⟨_, rfl⟩ := h
    simp only at hf
    split at hf <;> simp at hf
  | waiting =>
    cases hw : (e._newMessage || e._ending) with
    | false =>
      simp only [Bool.or_eq_false_iff] at hw
      rw [Executer.at_waiting_blocked ops s e hpc hw.1 hw.2] at h
      exact absurd h (by simp)
    | true =>
      rw [Executer.at_waiting ops s e hpc hw] at h
      simp only [Option.some.injEq, Prod.mk.injEq] at h
      obtain ⟨_, rfl⟩ := h
      simp at hf
  | endingTest =>
    rw [Executer.at_endingTest ops s e hpc] at h
    simp only [Option.some.injEq, Prod.mk.injEq] at h
    obtain ⟨_, rfl⟩ := h
    simp only at hf
    split at hf
    · simp at hf
    · split at hf <;> simp at hf
  | receiving =>
    obtain ⟨_, _, _, _, h5, _⟩ := Executer.execute_frame ops s s1 e e1 h
    unfold Executer._execute at h
    simp only [hpc] at h
    split at h
    · simp [Executer.input] at h
      split at h <;> (obtain ⟨_, rfl⟩ := h; simp [hpc] at hf)
    · split at h
      · simp at h
      · split at h
        · simp at h
        · simp at h; obtain ⟨_, rfl⟩ := h; simp at hf
  | operating =>
    unfold Executer._execute at h
    simp only [hpc] at h
    split at h
    · simp at h
    · split at h
      · simp at h
      · simp at h
        obtain ⟨_, rfl⟩ := h
        simp only at hf
        split at hf <;> simp at hf
  | sending =>
    unfold Executer._execute at h
    simp only [hpc] at h
    split at h
    · simp [Executer.output] at h
      split at h <;> (obtain ⟨_, rfl⟩ := h; simp [hpc] at hf)
    · split at h
      · simp at h
      · split at h
        · simp at h
        · simp at h; obtain ⟨_, rfl⟩ := h; simp at hf

/-- Whenever the thread has ended, `_ending` of the stage is set. -/
theorem Stage.run_exit (ops : OperatorTable W) (as : List (Action W)) (st st1 : Stage W)
    (h : st.executer.pc = .finished → st.executer._ending = true)
    (hr : st.run ops as = some st1) :
    st1.executer.pc = .finished → st1.executer._ending = true :=
  Stage.run_invariant ops (fun x => x.executer.pc = .finished → x.executer._ending = true)
    (fun x a y hx ha hy => by
      cases ht : a.isThread with
      | true =>
        rcases Stage.act_cases ops x y a ha with ⟨_, hx1⟩ | ⟨msg, rfl, _⟩ | ⟨rfl, _⟩ |
            ⟨rfl, _, _⟩ | ⟨hno, hnt, _⟩
        · exact (Executer.execute_sticky ops _ _ _ _ hx1).2
            (Executer.execute_finished ops _ _ _ _ hx1 hy).2
        · simp [Action.isThread] at ht
        · simp [Action.isThread] at ht
        · simp [Action.isThread] at ht
        · cases a <;> simp [Action.isThread] at ht
          exact absurd rfl hnt
      | false =>
        obtain ⟨_, k2⟩ := Stage.act_pc ops x y a ha ht
        rcases k2 with k2 | ⟨_, k3⟩
        · exact (Stage.act_sticky ops x y a ha).2 (hx (k2.symm.trans hy))
        · rw [k3] at hy
          exact absurd hy (by simp))
    as st st1 h hr

end StaleLemmas

/-- C28. Let the input port of a transform or sink stage name a buffer that
is terminated while no item is resident.  (1) The `receive` of the stage
returns at once and without a swap: `_inputBuffer` and the cell of the buffer
are what they were.  (2) In `Continuous` mode, `_ending` not being set, the
thread goes from the loop condition through `receive` and the operator loop
in five transitions: the input slot of the first operator is bound to the cell
that `_inputBuffer` holds from the iteration before (and the output slot of
the last operator to `_outputBuffer`), every operator is invoked once, in
order, and the world is the one this leaves; the input port is then as it was
at the loop condition, so that the next iteration does the same.  After the
operator loop a transform stage stands at `send`, (3) which it calls with
`_outputBuffer` and which returns if the output port is ready; a sink stage
stands at the loop condition again.  (4) A sink stage none of whose operators
returns `complete` does so iteration after iteration: after `n` iterations the
world is what `n` runs of the operator loop on that same cell leave.  (5) In
every run the thread has ended only if `_ending` of the stage itself is set;
the `releaseAll()` of a neighbour does not set it.  (6) The sink stage of the
examples performs three iterations on the cell `0` in fifteen transitions.
(7) In `OneThreadTest`, the input port terminated after the item `16`: the
next iteration computes `16` once more from the cell `3` received before,
into the cell `6` of `_outputBuffer`, which held `0`, and sends it; the
iteration after that does the same into the cell `4`. -/
theorem C28_stale_reprocessing {W : Type} (ops : OperatorTable W) (st : Stage W) (port : Nat)
    (b : UniqueBuffer Addr) (hk : st.executer.kind.hasInput = true)
    (hport : st.executer._inputPort = some port) (hb : st.shared.buffers[port]? = some b)
    (hbe : b._ending = true) (hbr : b._dataRefreshed = false) :
    (st.executer.pc = .receiving →
      st.act ops .thread = some
        ⟨⟨st.shared.world, st.shared.buffers.set port
            { b with _bufferAvailable := true, _dataRefreshed := false }⟩,
         { st.executer with pc := .operating
                            log := st.executer.log ++ [.receive st.executer._inputBuffer] }⟩) ∧
    (∀ (opIn opOut : Nat) (w1 : W) (status : OperationStatus),
      st.executer.pc = .loopTest → st.executer._ending = false →
      st.executer._executionMode = .Continuous →
      st.executer._opInput = some opIn →
      (st.executer.kind.hasOutput = true → st.executer._opOutput = some opOut) →
      Executer.runOperators ops st.executer.operators
        (if st.executer.kind.hasOutput then
          ops.writeOutput opOut st.executer._outputBuffer
            (ops.writeInput opIn st.executer._inputBuffer st.shared.world)
         else ops.writeInput opIn st.executer._inputBuffer st.shared.world)
        st.executer._opStatus = some (w1, status) →
      ∃ st1, st.threadRun ops 5 = some st1 ∧ st1.shared.world = w1 ∧
        st1.shared.buffers = st.shared.buffers.set port
          { b with _bufferAvailable := true, _dataRefreshed := false } ∧
        st1.executer._inputBuffer = st.executer._inputBuffer ∧
        st1.executer._outputBuffer = st.executer._outputBuffer ∧
        st1.executer.log = st.executer.log ++ [.receive st.executer._inputBuffer] ++
          st.executer.operators.map .operation ∧
        st1.executer.pc = (if st.executer.kind.hasOutput then .sending else .loopTest) ∧
        st1.executer._ending = (if status = .complete then true else false) ∧
        st1.executer._executionMode = .Continuous ∧
        st1.executer._inputPort = some port ∧
        (∃ b1, st1.shared.buffers[port]? = some b1 ∧ b1._ending = true ∧
          b1._dataRefreshed = false ∧ b1._buffer = b._buffer) ∧
        (st.executer.kind.hasOutput = true →
          ∀ (q : Nat) (c c1 : UniqueBuffer Addr) (cell : Addr),
            st.executer._outputPort = some q → st1.shared.buffers[q]? = some c →
            c.send st.executer._outputBuffer = some (c1, cell) →
            ∃ st2, st1.act ops .thread = some st2 ∧ st2.executer.pc = .loopTest ∧
              st2.shared.world = w1 ∧
              st2.executer.log = st1.executer.log ++ [.send st.executer._outputBuffer])) ∧
    (∀ (n opIn : Nat) (f : W → W), st.executer.kind = .SinkExecuter →
      st.executer.pc = .loopTest → st.executer._ending = false →
      st.executer._executionMode = .Continuous → st.executer._opInput = some opIn →
      (∀ w, Executer.runOperators ops st.executer.operators
          (ops.writeInput opIn st.executer._inputBuffer w) st.executer._opStatus
        = some (f w, st.executer._opStatus)) →
      st.executer._opStatus ≠ .complete →
      ∃ st1, st.threadRun ops (5 * n) = some st1 ∧
        st1.executer = { st.executer with
          log := st.executer.log ++ (List.replicate n
            (Event.receive st.executer._inputBuffer ::
              st.executer.operators.map .operation)).flatten } ∧
        st1.shared.world = f^[n] st.shared.world) ∧
    (∀ (as : List (Action W)) (st1 : Stage W), st.run ops as = some st1 →
      st.executer.pc ≠ .finished → st1.executer.pc = .finished →
      st1.executer._ending = true) ∧
    (∀ p : Nat, (st.act ops (.peerReleaseAll p)).map (fun x => x.executer) = some st.executer) ∧
    ((staleStage.threadRun statusTable 15).map
        (fun x => (x.executer.pc, x.executer._ending, x.executer._inputBuffer, x.executer.log))
      = some (.loopTest, false, 0,
          [.receive 0, .operation 0, .receive 0, .operation 0, .receive 0, .operation 0]) ∧
      (staleStage.threadRun statusTable 15).map (fun x => x.shared)
        = some ⟨3, [⟨2, true, false, true⟩]⟩) ∧
    (((oneThreadStale 16).executer.pc, (oneThreadStale 16).executer._ending,
          (oneThreadStale 16).executer._inputBuffer, (oneThreadStale 16).executer._outputBuffer)
        = (.loopTest, false, 3, 6) ∧
      ((oneThreadStale 16).shared.world.heap[3]?, (oneThreadStale 16).shared.world.heap[6]?,
          (oneThreadStale 16).shared.world.heap[4]?)
        = (some (.ofInt 16), some (.ofInt 0), some (.ofInt 0)) ∧
      ((oneThreadStale 16).threadRun World.table 5).map
          (fun x => (x.executer.pc, x.executer._ending, x.executer._inputBuffer,
            x.executer._outputBuffer))
        = some (.sending, false, 3, 6) ∧
      ((oneThreadStale 16).threadRun World.table 5).map
          (fun x => (x.shared.world.heap[3]?, x.shared.world.heap[6]?))
        = some (some (.ofInt 16), some (.ofInt 16)) ∧
      ((oneThreadStale 16).threadRun World.table 11).map
          (fun x => (x.executer.pc, x.executer._ending, x.executer._inputBuffer,
            x.executer._outputBuffer))
        = some (.sending, false, 3, 4) ∧
      ((oneThreadStale 16).threadRun World.table 11).map
          (fun x => (x.shared.world.heap[3]?, x.shared.world.heap[4]?))
        = some (some (.ofInt 16), some (.ofInt 16))) := by
  have hlen : port < st.shared.buffers.length := (List.getElem?_eq_some_iff.mp hb).1
  refine ⟨?_, ?_, ?_, ?_, fun p => rfl, ⟨by decide, by decide⟩, by decide, by decide,
    by decide, by decide, by decide, by decide⟩
  · intro hpc
    simp only [Stage.act, Executer.at_receiving ops st.shared st.executer port b _ _ hpc hport hb
      (UniqueBuffer.receive_terminated_empty b st.executer._inputBuffer hbe hbr)]
  · intro opIn opOut w1 status hpc he hm hoi hoo hrun
    have hbind := Executer.bindSlots_set ops st.executer st.shared.world opIn opOut
      (fun _ => hoi) hoo
    simp only [hk, if_true] at hbind
    refine ⟨_, Stage.stale_iteration ops st port b _ w1 status hk hpc he hm hport hb hbe hbr
      hbind hrun, rfl, rfl, rfl, rfl, rfl, rfl, ?_, hm, hport,
      ⟨_, List.getElem?_set_self hlen, hbe, rfl, rfl⟩, ?_⟩
    · simp only [he]
    · intro ho q c c1 cell hq hc hs
      have h6 := Executer.at_sending ops
        ⟨w1, st.shared.buffers.set port
          { b with _bufferAvailable := true, _dataRefreshed := false }⟩
        { st.executer with
          _opStatus := status
          _ending := if status = .complete then true else st.executer._ending
          pc := .sending
          log := st.executer.log ++ [.receive st.executer._inputBuffer] ++
            st.executer.operators.map .operation }
        q c c1 cell rfl hq (by simpa using hc) hs
      refine ⟨⟨⟨w1, (st.shared.buffers.set port
          { b with _bufferAvailable := true, _dataRefreshed := false }).set q c1⟩,
        { st.executer with
          _opStatus := status
          _ending := if status = .complete then true else st.executer._ending
          _outputBuffer := cell
          pc := .loopTest
          log := st.executer.log ++ [.receive st.executer._inputBuffer] ++
            st.executer.operators.map .operation ++ [.send st.executer._outputBuffer] }⟩,
        ?_, rfl, rfl, ?_⟩
      · simp only [Stage.act, ho, if_true, h6]
      · simp only [ho, if_true]
  · intro n opIn f hks hpc he hm hoi hops hs
    obtain ⟨st1, k1, k2, k3, _⟩ := Stage.stale_iterations ops port opIn f n st b hks hpc he hm
      hport hb hbe hbr hoi hops hs
    exact ⟨st1, k1, k2, k3⟩
  · intro as st1 hrun hn hf
    exact Stage.run_exit ops as st st1 (fun h => absurd h hn) hrun hf

/-- Witness for C28: `OneThreadTest`, the input port terminated after the
item `16`, no item being resident.  One iteration binds operator `0` to the
cell `3` that `_inputBuffer` holds already, invokes operators `0` and `1`, and
leaves `16` in the cell `6` of `_outputBuffer`; the thread stands at `send`,
`_ending` not being set. -/
theorem C28_stale_reprocessing_witness :
    ∃ st1, (oneThreadStale 16).threadRun World.table 5 = some st1 ∧
      st1.shared.world.heap[3]? = some (.ofInt 16) ∧
      st1.shared.world.heap[6]? = some (.ofInt 16) ∧
      st1.shared.world.objects[0]? = some ⟨none, some 2, some 3, some 2, .Mult3⟩ ∧
      st1.executer._inputBuffer = 3 ∧ st1.executer._outputBuffer = 6 ∧
      st1.executer.log = (oneThreadStale 16).executer.log ++
        [.receive 3, .operation 0, .operation 1] ∧
      st1.executer.pc = .sending ∧ st1.executer._ending = false := by
  obtain ⟨st1, h1, h2, _, h4, h5, h6, h7, h8, _⟩ :=
    (C28_stale_reprocessing World.table (oneThreadStale 16) 0 ⟨0, true, false, true⟩ rfl rfl
      rfl rfl rfl).2.1 0 1
      ⟨[.ofInt 0, .ofInt 16, ⟨6501171, 17⟩, .ofInt 16, .ofInt 0, .ofInt 0, .ofInt 16],
        [⟨none, some 2, some 3, some 2, .Mult3⟩,
          ⟨none, none, some 2, some 6, .Div3Round⟩]⟩
      .running rfl rfl rfl rfl (fun _ => rfl) (by decide)
  refine ⟨st1, h1, ?_, ?_, ?_, h4, h5, h6, h7, h8⟩ <;> rw [h2] <;> decide

section OpenPorts

variable {W : Type}

/-- Along a run without `stop()` and `releaseAll()` the flags `_ending` of the
buffers stay, and the buffers made on the way are not terminated. -/
theorem Stage.run_sameEnding (ops : OperatorTable W) :
    ∀ (as : List (Action W)) (st st1 : Stage W), (∀ a ∈ as, a.isTermination = false) →
      st.run ops as = some st1 → st.shared.SameEnding st1.shared := by
  intro as
  induction as with
  | nil =>
    intro st st1 _ hr
    simp [Stage.run] at hr
    subst hr
    exact Shared.SameEnding.same_refl _
  | cons a as ih =>
    intro st st1 hn hr
    rw [Stage.stageRun_cons] at hr
    cases ha : st.act ops a with
    | none => simp [ha] at hr
    | some st2 =>
      simp [ha] at hr
      exact ((Stage.act_frame ops st st2 a ha).2.1 (hn a (List.mem_cons_self _ _))).same_trans
        (ih st2 st1 (fun b hb => hn b (List.mem_cons_of_mem _ hb)) hr)

/-- Once the thread has ended, the stage itself changes nothing that is
shared, short of `stop()`. -/
theorem Stage.run_finished (ops : OperatorTable W) :
    ∀ (as : List (Action W)) (st st1 : Stage W), st.executer.pc = .finished →
      (∀ a ∈ as, (a.isThread = true ∨ a.isOwnerCall = true) ∧ a.isTermination = false) →
      st.run ops as = some st1 → st1.shared = st.shared ∧ st1.executer.pc = .finished := by
  intro as
  induction as with
  | nil =>
    intro st st1 hp _ hr
    simp [Stage.run] at hr
    subst hr
    exact ⟨rfl, hp⟩
  | cons a as ih =>
    intro st st1 hp hn hr
    rw [Stage.stageRun_cons] at hr
    cases ha : st.act ops a with
    | none => simp [ha] at hr
    | some st2 =>
      simp [ha] at hr
      have h2 : st2.shared = st.shared ∧ st2.executer.pc = .finished := by
        rcases Stage.act_cases ops st st2 a ha with ⟨_, hx⟩ | ⟨msg, _, rfl⟩ | ⟨rfl, _⟩ |
            ⟨_, hns, _⟩ | ⟨hno, hnt, _⟩
        · simp [Executer._execute, hp] at hx
        · exact ⟨rfl, hp⟩
        · have := (hn .stop (List.mem_cons_self _ _)).2
          simp [Action.isTermination] at this
        · rw [hp] at hns
          exact absurd hns (by simp)
        · rcases (hn a (List.mem_cons_self _ _)).1 with h | h
          · cases a <;> simp [Action.isThread] at h
            exact absurd rfl hnt
          · rw [hno] at h
            exact absurd h (by simp)
      obtain ⟨k1, k2⟩ := ih st2 st1 h2.2 (fun b hb => hn b (List.mem_cons_of_mem _ hb)) hr
      exact ⟨k1.trans h2.1, k2⟩

end OpenPorts

/-- C29. `_execute` never calls `releaseAll()`.  (1) Along every run of a
stage without `stop()` and without a neighbour's `releaseAll()`, every buffer
keeps the flag `_ending` it had, and a buffer made on the way is not
terminated.  (2) This holds for the transition in which an operator returns
`complete` and `_ending` of the stage is set.  (3) When the thread has ended
and a buffer is neither terminated nor filled, `receive` on it blocks, and
nothing that the stage does short of `stop()` changes that.  (4) The source
stage of the examples whose operator returns `complete`: the thread performs
one iteration and ends; its output buffer holds the item and is not
terminated; the neighbour's first `receive` takes the item and its second
`receive` blocks. -/
theorem C29_complete_keeps_ports_open {W : Type} (ops : OperatorTable W) (st st1 : Stage W)
    (as : List (Action W)) (hno : ∀ a ∈ as, a.isTermination = false)
    (hrun : st.run ops as = some st1) :
    ((∀ (j : Nat) (b : UniqueBuffer Addr), st.shared.buffers[j]? = some b →
        ∃ b1, st1.shared.buffers[j]? = some b1 ∧ b1._ending = b._ending) ∧
      (∀ (j : Nat) (b1 : UniqueBuffer Addr), st1.shared.buffers[j]? = some b1 →
        st.shared.buffers[j]? = none → b1._ending = false)) ∧
    (∀ (w : W) (statuses : List OperationStatus),
      st1.executer.pc = .operating →
      Executer.bindSlots ops st1.executer st1.shared.world = some w →
      Executer.returned ops st1.executer.operators w = some statuses →
      OperationStatus.complete ∈ statuses →
      ∃ st2, st1.act ops .thread = some st2 ∧ st2.executer._ending = true ∧
        st2.shared.buffers = st1.shared.buffers) ∧
    (∀ (port : Nat) (b : UniqueBuffer Addr) (c : Addr),
      st1.executer.pc = .finished → st1.shared.buffers[port]? = some b →
      b._ending = false → b._dataRefreshed = false →
      st1.act ops (.peerReceive port c) = none ∧
      ∀ (bs : List (Action W)) (st2 : Stage W),
        (∀ a ∈ bs, (a.isThread = true ∨ a.isOwnerCall = true) ∧ a.isTermination = false) →
        st1.run ops bs = some st2 → st2.act ops (.peerReceive port c) = none) ∧
    (((statusStage 1 .Continuous .loopTest).threadRun statusTable 6).map
        (fun x => (x.executer.pc, x.executer._ending, x.shared.buffers))
        = some (.finished, true, [⟨0, false, true, false⟩]) ∧
      ((statusStage 1 .Continuous .loopTest).run statusTable
          (List.replicate 6 .thread ++ [.peerReceive 0 5])).map (fun x => x.shared.buffers)
        = some [⟨5, true, false, false⟩] ∧
      (statusStage 1 .Continuous .loopTest).run statusTable
          (List.replicate 6 .thread ++ [.peerReceive 0 5, .peerReceive 0 0]) = none) := by
  refine ⟨Stage.run_sameEnding ops as st st1 hno hrun, ?_, ?_, by decide, by decide, by decide⟩
  · intro w statuses hpc hb hret hc
    obtain ⟨w1, hr⟩ := Executer.runOperators_of_returned ops st1.executer.operators w
      st1.executer._opStatus statuses hret
    simp only [hc, if_true] at hr
    have h1 := Executer.at_operating ops st1.shared st1.executer w w1 _ hpc hb hr
    refine ⟨⟨{ st1.shared with world := w1 },
      { st1.executer with _opStatus := .complete
                          _ending := true
                          pc := if st1.executer.kind.hasOutput then .sending else .loopTest
                          log := st1.executer.log ++ st1.executer.operators.map .operation }⟩,
      ?_, rfl, rfl⟩
    simp only [Stage.act, h1, if_true]
  · intro port b c hpc hb he hr
    have hblock : ∀ st2 : Stage W, st2.shared = st1.shared →
        st2.act ops (.peerReceive port c) = none := by
      intro st2 h2
      simp [Stage.act, h2, hb, UniqueBuffer.receive, he, hr]
    refine ⟨hblock st1 rfl, ?_⟩
    intro bs st2 hbs hr2
    exact hblock st2 (Stage.run_finished ops bs st1 st2 hpc hbs hr2).1

/-- Witness for C29: the first two transitions of the thread of the source
stage of the examples; the output buffer stays as it was made. -/
theorem C29_complete_keeps_ports_open_witness :
    ∃ b1, (statusStage 1 .Continuous .locked).shared.buffers[0]? = some b1 ∧
      b1._ending = (UniqueBuffer.new 1 : UniqueBuffer Addr)._ending :=
  (C29_complete_keeps_ports_open statusTable (statusStage 1 .Continuous .loopTest)
    (statusStage 1 .Continuous .locked) [.thread] (by decide) rfl).1.1 0 (UniqueBuffer.new 1) rfl
section FreshLemmas

variable {W : Type}

/-- An invariant of the actions of a kind is an invariant of the runs made
of such actions. -/
theorem Stage.run_invariant_of (ops : OperatorTable W) (P : Stage W → Prop)
    (A : Action W → Prop)
    (hP : ∀ st a st1, P st → A a → st.act ops a = some st1 → P st1) :
    ∀ (as : List (Action W)) (st st1 : Stage W), P st → (∀ a ∈ as, A a) →
      st.run ops as = some st1 → P st1 := by
  intro as
  induction as with
  | nil =>
    intro st st1 h _ hr
    simp [Stage.run] at hr
    subst hr
    exact h
  | cons a as ih =>
    intro st st1 h hall hr
    rw [Stage.stageRun_cons] at hr
    cases ha : st.act ops a with
    | none => simp [ha] at hr
    | some st2 =>
      simp [ha] at hr
      exact ih st2 st1 (hP st a st2 h (hall a (List.mem_cons_self _ _)) ha)
        (fun b hb => hall b (List.mem_cons_of_mem _ hb)) hr

/-- With no command and no `stop()`, the thread of a stage in `Step` mode
gets to the wait and no further, and does nothing on the way. -/
theorem Stage.idle_act (ops : OperatorTable W) (st st1 : Stage W) (a : Action W)
    (h : st.executer.log = [] ∧
      (st.executer.pc = .notStarted ∨ st.executer.pc = .loopTest ∨ st.executer.pc = .locked ∨
        st.executer.pc = .waiting) ∧
      st.executer._newMessage = false ∧ st.executer._executionMode = .Step ∧
      st.executer._ending = false)
    (hA : a.isOwnerCall = false ∨ a = .startThread) (ha : st.act ops a = some st1) :
    st1.executer.log = [] ∧
      (st1.executer.pc = .notStarted ∨ st1.executer.pc = .loopTest ∨
        st1.executer.pc = .locked ∨ st1.executer.pc = .waiting) ∧
      st1.executer._newMessage = false ∧ st1.executer._executionMode = .Step ∧
      st1.executer._ending = false := by
  obtain ⟨h1, h2, h3, h4, h5⟩ := h
  rcases Stage.act_cases ops st st1 a ha with ⟨_, hx⟩ | ⟨msg, rfl, _⟩ | ⟨rfl, _⟩ |
      ⟨_, _, rfl⟩ | ⟨_, _, he⟩
  · rcases h2 with hp | hp | hp | hp
    · simp [Executer._execute, hp] at hx
    · rw [Executer.at_loopTest ops _ _ hp] at hx
      simp only [Option.some.injEq, Prod.mk.injEq] at hx
      obtain ⟨_, hx⟩ := hx
      rw [← hx]
      simp [h1, h3, h4, h5]
    · rw [Executer.at_locked ops _ _ hp] at hx
      simp only [Option.some.injEq, Prod.mk.injEq] at hx
      obtain ⟨_, hx⟩ := hx
      rw [← hx]
      simp [h1, h3, h4, h5]
    · rw [Executer.at_waiting_blocked ops _ _ hp h3 h5] at hx
      exact absurd hx (by simp)
  · rcases hA with hA | hA
    · simp [Action.isOwnerCall] at hA
    · simp at hA
  · rcases hA with hA | hA
    · simp [Action.isOwnerCall] at hA
    · simp at hA
  · exact ⟨h1, Or.inr (Or.inl rfl), h3, h4, h5⟩
  · rw [he]
    exact ⟨h1, h2, h3, h4, h5⟩

/-- Once `stop()` has been called on a stage whose thread has not been
started, the thread never enters the body of the loop. -/
theorem Stage.stopped_early_act (ops : OperatorTable W) (st st1 : Stage W) (a : Action W)
    (h : st.executer.log = [] ∧
      (st.executer.pc = .notStarted ∨ st.executer.pc = .loopTest ∨
        st.executer.pc = .finished) ∧
      st.executer._ending = true)
    (ha : st.act ops a = some st1) :
    st1.executer.log = [] ∧
      (st1.executer.pc = .notStarted ∨ st1.executer.pc = .loopTest ∨
        st1.executer.pc = .finished) ∧
      st1.executer._ending = true := by
  obtain ⟨h1, h2, h3⟩ := h
  rcases Stage.act_cases ops st st1 a ha with ⟨_, hx⟩ | ⟨msg, _, rfl⟩ | ⟨_, rfl⟩ |
      ⟨_, _, rfl⟩ | ⟨_, _, he⟩
  · rcases h2 with hp | hp | hp
    · simp [Executer._execute, hp] at hx
    · rw [Executer.at_loopTest ops _ _ hp] at hx
      simp only [Option.some.injEq, Prod.mk.injEq] at hx
      obtain ⟨_, hx⟩ := hx
      rw [← hx]
      simp [h1, h3]
    · simp [Executer._execute, hp] at hx
  · exact ⟨h1, h2, h3⟩
  · obtain ⟨f1, f2, f3, _⟩ := Executer.stop_fields ops st.shared st.executer
    exact ⟨f3.trans h1, by simp only [f2]; exact h2, f1⟩
  · exact ⟨h1, Or.inr (Or.inl rfl), h3⟩
  · rw [he]
    exact ⟨h1, h2, h3⟩

end FreshLemmas

/-- C30. (1) The constructors leave the stage in `Step` mode with no command
pending, the recorded status `running` and `_ending` not set; `addOperator`,
the slot pointer setters and the port calls keep that.  For a stage in this
state, its thread not started: (2) started, the thread goes to the wait of
`Step` mode in two transitions, touching nothing that is shared, and cannot
leave it; (3) in every run without `send(mode)` and without `stop()`, whatever
the neighbours do, the thread stands before or at the wait and not at
`receive`, the operator loop or `send`, and its record is empty; at the wait
it cannot move.  (4) After `stop()`, in every run, the thread stands before the
loop condition, at it, or has ended, and its record is empty: the body of the
loop is never entered; started, the thread ends in one transition. -/
theorem C30_fresh_stage {W : Type} (ops : OperatorTable W) (st : Stage W)
    (hfresh : st.executer.Fresh) :
    ((∀ (kind : ExecuterKind) (c d : Addr), (Executer.new kind c d).Fresh) ∧
      (∀ (op : Nat) (port : Option Nat),
        (st.executer.addOperator op).Fresh ∧ (st.executer.opInput op).Fresh ∧
        (st.executer.opOutput op).Fresh ∧ (st.executer.attachInput port).Fresh ∧
        (st.executer.attachOutput port).Fresh ∧ (st.executer.input ops st.shared).2.2.Fresh ∧
        (st.executer.output ops st.shared).2.2.Fresh)) ∧
    (st.run ops [.startThread, .thread, .thread]
        = some ⟨st.shared, { st.executer with pc := .waiting }⟩ ∧
      (Stage.mk st.shared { st.executer with pc := .waiting }).act ops .thread = none) ∧
    (∀ (as : List (Action W)) (st1 : Stage W),
      (∀ a ∈ as, a.isOwnerCall = false ∨ a = .startThread) → st.run ops as = some st1 →
      st1.executer.log = [] ∧
      (st1.executer.pc = .notStarted ∨ st1.executer.pc = .loopTest ∨
        st1.executer.pc = .locked ∨ st1.executer.pc = .waiting) ∧
      st1.executer._newMessage = false ∧ st1.executer._executionMode = .Step ∧
      st1.executer._ending = false ∧
      (st1.executer.pc = .waiting → st1.act ops .thread = none)) ∧
    (∀ (as : List (Action W)) (st1 : Stage W), st.run ops (.stop :: as) = some st1 →
      st1.executer.log = [] ∧
      (st1.executer.pc = .notStarted ∨ st1.executer.pc = .loopTest ∨
        st1.executer.pc = .finished) ∧
      st1.executer._ending = true) ∧
    (∃ st1, st.run ops [.stop, .startThread, .thread] = some st1 ∧
      st1.executer.pc = .finished ∧ st1.executer.log = []) := by
  obtain ⟨h1, h2, h3, h4, h5, h6⟩ := hfresh
  obtain ⟨f1, f2, f3, _⟩ := Executer.stop_fields ops st.shared st.executer
  refine ⟨⟨fun _ _ _ => ⟨rfl, rfl, rfl, rfl, rfl, rfl⟩, fun op port =>
    ⟨⟨h1, h2, h3, h4, h5, h6⟩, ⟨h1, h2, h3, h4, h5, h6⟩, ⟨h1, h2, h3, h4, h5, h6⟩, ?_, ?_, ?_, ?_⟩⟩,
    ⟨?_, ?_⟩, ?_, ?_, ?_⟩
  · cases port <;> exact ⟨h1, h2, h3, h4, h5, h6⟩
  · cases port <;> exact ⟨h1, h2, h3, h4, h5, h6⟩
  · unfold Executer.input
    split <;> exact ⟨h1, h2, h3, h4, h5, h6⟩
  · unfold Executer.output
    split <;> exact ⟨h1, h2, h3, h4, h5, h6⟩
  · simp [Stage.run, Stage.act, h5, Executer.startThread, Executer._execute, h4, h1]
  · simp [Stage.act, Executer._execute, h2, h4]
  · intro as st1 hall hrun
    have hinv := Stage.run_invariant_of ops
      (fun x => x.executer.log = [] ∧
        (x.executer.pc = .notStarted ∨ x.executer.pc = .loopTest ∨ x.executer.pc = .locked ∨
          x.executer.pc = .waiting) ∧
        x.executer._newMessage = false ∧ x.executer._executionMode = .Step ∧
        x.executer._ending = false)
      (fun a => a.isOwnerCall = false ∨ a = .startThread)
      (fun x a y hx hA ha => Stage.idle_act ops x y a hx hA ha)
      as st st1 ⟨h6, Or.inl h5, h2, h1, h4⟩ hall hrun
    obtain ⟨k1, k2, k3, k4, k5⟩ := hinv
    refine ⟨k1, k2, k3, k4, k5, fun hp => ?_⟩
    simp [Stage.act, Executer._execute, hp, k3, k5]
  · intro as st1 hrun
    rw [Stage.stageRun_cons] at hrun
    simp only [Stage.act, Option.some_bind] at hrun
    exact Stage.run_invariant ops
      (fun x => x.executer.log = [] ∧
        (x.executer.pc = .notStarted ∨ x.executer.pc = .loopTest ∨
          x.executer.pc = .finished) ∧
        x.executer._ending = true)
      (fun x a y hx ha => Stage.stopped_early_act ops x y a hx ha)
      as _ st1 ⟨f3.trans h6, Or.inl (f2.trans h5), f1⟩ hrun
  · simp [Stage.run, Stage.act, f2, h5, Executer.startThread, Executer._execute, f1, f3, h6]

/-- Witness for C30: the source stage of the examples, its thread not
started: started, the thread goes to the wait and is blocked there. -/
theorem C30_fresh_stage_witness :
    (statusStage 0 .Step .notStarted).run statusTable [.startThread, .thread, .thread]
      = some ⟨(statusStage 0 .Step .notStarted).shared,
          { (statusStage 0 .Step .notStarted).executer with pc := .waiting }⟩ ∧
    (Stage.mk (statusStage 0 .Step .notStarted).shared
      { (statusStage 0 .Step .notStarted).executer with pc := .waiting }).act statusTable
        .thread = none :=
  (C30_fresh_stage statusTable (statusStage 0 .Step .notStarted)
    ⟨rfl, rfl, rfl, rfl, rfl, rfl⟩).2.1

end parallelOperators
